import Mathlib

/-!
# MSM5232-like synthesizer core: wavetables, band-limited set selection, ADSR

A shallow embedding of the DSP core (`src/dsp`) and theorems about it.

Conventions of the embedding

* C++ `float` values are modelled by rationals (`ℚ`), without infinity and
  NaN. The definitions that carry the name of a source function compute every
  arithmetic operation exactly. The definitions whose name ends in `32` round
  the result of every `float` operation to binary32 with `f32` (round to
  nearest, ties to even, subnormal numbers included, no overflow).
* The definitions whose name ends in `?` return `none` where the source
  divides an `int` by zero.
* C++ `int` values are modelled by `Int`; `/` and `%` on `int` are the
  truncating `Int.tdiv` and `Int.tmod`.
* Calls into the C math library (`std::exp`, `std::pow`) are parameters of the
  definitions that use them; `std::round` (half away from zero) is `cround`.
* `std::array<float, 512>` and `std::vector` are lists.
-/

namespace msm5232

/-! ## Wavetable bank (`msm5232_wavetable.h`, `msm5232_wavetable.cpp`) -/

/-- The constant `kTableSize`: number of samples of a base wavetable. -/
def kTableSize : Nat := 512

/-- The type `Table` (`std::array<float, kTableSize>`), as a list of samples. -/
abbrev Table := List ℚ

/-- The function `std::round`: nearest integer, halfway cases away from zero. -/
def cround (x : ℚ) : Int :=
  if 0 ≤ x then Int.floor (x + 1 / 2) else -Int.floor (-x + 1 / 2)

/-- The function `tanh_shape`, with `fast_exp` (that is `std::exp`) as a parameter. -/
def tanh_shape (fast_exp : ℚ → ℚ) (x : ℚ) : ℚ :=
  let a : ℚ := 3
  let b : ℚ := (64 / 10) / 15
  let num := fast_exp (a - b * x) - 1
  let den := fast_exp (a - b * x) + 1
  let norm := (fast_exp a - 1) / (fast_exp a + 1)
  ((num / den) / norm + 1) * 100

/-- The function `bit(mask, n)`: `(mask & (1 << n)) ? 1 : 0`. -/
def bit (mask : Int) (n : Nat) : Int :=
  if Int.land mask ((1 : Int) <<< (n : Int)) ≠ 0 then 1 else 0

/-- One partial generator of `makeTable_with_offset`: for sample `k`, the
step curve at the position of `k` inside its segment of length `seg`, with
the given sign and weight. -/
def toneTerm (fast_exp : ℚ → ℚ) (x_offset dx_step : ℚ) (group : Int)
    (seg : Int) (sign : Int) (weight : ℚ) (k : Int) : ℚ :=
  let pos := Int.tmod k seg
  let xx := x_offset + dx_step * ((Int.tdiv pos group : Int) : ℚ)
  (sign : ℚ) * tanh_shape fast_exp xx * weight

/-- The body of the first loop of `makeTable_with_offset`: the value `v`
accumulated for sample index `k` before normalization. -/
def rawSample (fast_exp : ℚ → ℚ) (mask : Int) (x_offset : ℚ) (group : Int) (k : Int) : ℚ :=
  let N : Int := kTableSize
  let half := Int.tdiv N 2
  let quarter := Int.tdiv N 4
  let eighth := Int.tdiv N 8
  let sixteenth := Int.tdiv N 16
  let dx_step : ℚ := (16 * (group : ℚ)) / (half : ℚ)
  let v0 : ℚ := 0
  let v1 := if bit mask 0 ≠ 0 then
      v0 + toneTerm fast_exp x_offset dx_step group half
        (if k < half then 1 else -1) 1 k
    else v0
  let v2 := if bit mask 1 ≠ 0 then
      v1 + toneTerm fast_exp x_offset dx_step group quarter
        (if Int.tmod (Int.tdiv k quarter) 2 = 0 then -1 else 1) (6 / 10) k
    else v1
  let v3 := if bit mask 2 ≠ 0 then
      v2 + toneTerm fast_exp x_offset dx_step group eighth
        (if Int.tmod (Int.tdiv k eighth) 2 = 0 then -1 else 1) (5 / 10) k
    else v2
  let v4 := if bit mask 3 ≠ 0 then
      v3 + toneTerm fast_exp x_offset dx_step group sixteenth
        (if Int.tmod (Int.tdiv k sixteenth) 2 = 0 then -1 else 1) (45 / 100) k
    else v3
  v4

/-- The peak search of `makeTable_with_offset`:
`maxAbs = 0; for v in y: maxAbs = max(maxAbs, abs(v))`. -/
def maxAbsOf (y : Table) : ℚ :=
  y.foldl (fun m v => max m |v|) 0

/-- The peak normalization of `makeTable_with_offset`: divide by `maxAbs`
when it is positive. -/
def normalizeTable (y : Table) : Table :=
  let maxAbs := maxAbsOf y
  if maxAbs > 0 then y.map (fun v => v / maxAbs) else y

/-- The 4-bit quantization of one sample in `makeTable_with_offset`:
`q = round(v * 7) / 7`, then clamped to `[-1, 1]`. -/
def quantizeSample (v : ℚ) : ℚ :=
  let q : ℚ := (cround (v * 7) : ℚ) / 7
  let q := if q > 1 then 1 else q
  let q := if q < -1 then -1 else q
  q

/-- The function `makeTable_with_offset(mask, quantize4, x_offset, group)`. -/
def makeTable_with_offset (fast_exp : ℚ → ℚ) (mask : Int) (quantize4 : Bool)
    (x_offset : ℚ) (group : Int) : Table :=
  let y : Table := (List.range kTableSize).map
    (fun (k : Nat) => rawSample fast_exp mask x_offset group (Int.ofNat k))
  let y := normalizeTable y
  if quantize4 then y.map quantizeSample else y

/-- The three grid variants built by `Tables::Tables`, as pairs
`(x_offset, group)`: 64-grid, 128-grid and 256-grid. -/
def gridVariants : List (ℚ × Int) :=
  [(-375 / 1000, 4), (-4375 / 10000, 2), (-46875 / 100000, 1)]

/-! ## Band-limited sets (`bandlimited.h`, `bandlimited.cpp`) -/

/-- The struct `BLSet`: tables with increasing harmonic cutoff. -/
structure BLSet where
  tables : List Table
  hcuts : List Int
  baseRMS : ℚ := 1

/-- The candidate cutoff of `make_harmonic_cuts`: `c = (int)std::round(cur)`
followed by `if (c < 2) c = 2; if (c > 256) c = 256;`. -/
def cutOf (cur : ℚ) : Int :=
  let c := cround cur
  let c := if c < 2 then 2 else c
  let c := if c > 256 then 256 else c
  c

/-- The `while (cur < 256.0f)` loop of `make_harmonic_cuts`. The loop has no
bound in the source; `fuel` bounds the number of iterations and `none` means
that it ran out. -/
def harmonicCutsLoop (step : ℚ) : Nat → ℚ → List Int → Option (List Int)
  | 0, cur, cuts => if cur < 256 then none else some cuts
  | fuel + 1, cur, cuts =>
    if cur < 256 then
      let cur := cur * step
      let c := cutOf cur
      let cuts := if cuts.isEmpty ∨ c ≠ cuts.getLastD 0 then cuts ++ [c] else cuts
      if c ≥ 256 then some cuts else harmonicCutsLoop step fuel cur cuts
    else some cuts

/-- The algorithm `std::unique` followed by `erase`: drop every element equal
to its predecessor. -/
def unique : List Int → List Int
  | [] => []
  | [a] => [a]
  | a :: b :: t => if a = b then unique (b :: t) else a :: unique (b :: t)

/-- The function `make_harmonic_cuts(bandsPerOctave)`, with `std::pow` as the
parameter `pow` and the iteration bound `fuel` of its loop. -/
def make_harmonic_cuts (pow : ℚ → ℚ → ℚ) (fuel : Nat) (bandsPerOctave : Int) :
    Option (List Int) :=
  let bandsPerOctave := if bandsPerOctave < 1 then 1 else bandsPerOctave
  let bandsPerOctave := if bandsPerOctave > 8 then 8 else bandsPerOctave
  let step := pow 2 (1 / (bandsPerOctave : ℚ))
  match harmonicCutsLoop step fuel 2 [2] with
  | none => none
  | some cuts =>
    let cuts := if cuts.getLastD 0 ≠ 256 then cuts ++ [256] else cuts
    some (unique cuts)

/-- Element access `hcuts[i]` of the cutoff vector with an `int` index. -/
def hcutAt (hcuts : List Int) (i : Int) : Int :=
  hcuts.getD i.toNat 0

/-- The binary search loop of `choose_tables_for_freq`:
`while (hi - lo > 1) { mid = (lo + hi) >> 1; ... }`. -/
def bsearch (hcuts : List Int) (hlimit : ℚ) (lo hi : Int) : Int × Int :=
  if hi - lo > 1 then
    let mid := Int.shiftRight (lo + hi) 1
    if (hcutAt hcuts mid : ℚ) < hlimit then bsearch hcuts hlimit mid hi
    else bsearch hcuts hlimit lo mid
  else (lo, hi)
termination_by (hi - lo).toNat
decreasing_by
  all_goals simp_wf
  all_goals
    have hmid : Int.shiftRight (lo + hi) 1 = (lo + hi) / 2 :=
      (Int.shiftRight_eq_div_pow (lo + hi) 1).trans (by norm_num)
    rw [hmid]
    omega

/-- The local `hlimit` of `choose_tables_for_freq`: the number of harmonics
allowed at `f0`. -/
def hlimitOf (set : BLSet) (f0 sampleRate : ℚ) : ℚ :=
  if f0 > 0 then (sampleRate * (1 / 2)) / f0 else ((set.hcuts.getLastD 0 : Int) : ℚ)

/-- The function `choose_tables_for_freq(set, f0, sampleRate, ia, ib, mix)`;
the three output references are returned as the triple `(ia, ib, mix)`. -/
def choose_tables_for_freq (set : BLSet) (f0 sampleRate : ℚ) : Int × Int × ℚ :=
  if set.tables.isEmpty then (-1, -1, 0)
  else
    let hlimit := hlimitOf set f0 sampleRate
    if hlimit ≤ ((set.hcuts.headD 0 : Int) : ℚ) then (0, 0, 0)
    else if hlimit ≥ ((set.hcuts.getLastD 0 : Int) : ℚ) then
      ((set.hcuts.length : Int) - 1, (set.hcuts.length : Int) - 1, 0)
    else
      let r := bsearch set.hcuts hlimit 0 ((set.hcuts.length : Int) - 1)
      let lo := r.1
      let hi := r.2
      let hLo : ℚ := (hcutAt set.hcuts lo : ℚ)
      let hHi : ℚ := (hcutAt set.hcuts hi : ℚ)
      let t := (hlimit - hLo) / (hHi - hLo)
      let t := if t < 0 then 0 else t
      let t := if t > 1 then 1 else t
      (lo, hi, t * t * (3 - 2 * t))

/-- The properties kept by the cutoff vector while `make_harmonic_cuts` builds
it: non-empty, strictly ascending, all elements in `[2, 256]`, first element 2. -/
def GoodCuts (cuts : List Int) : Prop :=
  cuts ≠ [] ∧ cuts.Chain' (· < ·) ∧ (∀ c ∈ cuts, 2 ≤ c ∧ c ≤ 256) ∧ cuts.head? = some 2

/-- A stand-in for `std::pow` that is exact at exponent 1 and above 1 for base
2 and a positive exponent: the chord `1 + (x - 1) * y`. -/
def chordPow (x y : ℚ) : ℚ := 1 + (x - 1) * y

/-- A band-limited set with one cutoff per octave (`2, 4, ..., 256`) and eight
all-zero tables, used to evaluate `choose_tables_for_freq`. -/
def octaveSet : BLSet :=
  { tables := List.replicate 8 (List.replicate 512 0),
    hcuts := [2, 4, 8, 16, 32, 64, 128, 256] }

/-! ## ADSR envelope (`adsr.h`, `adsr.cpp`) -/

/-- The struct `ADSRParams` with its default member initializers. -/
structure ADSRParams where
  attack : ℚ := 1 / 100
  decay : ℚ := 1 / 10
  sustain : ℚ := 7 / 10
  release : ℚ := 2 / 10

/-- The enum `ADSR::State`. -/
inductive ADSR.State where
  | Idle
  | Attack
  | Decay
  | Sustain
  | Release
  deriving DecidableEq, Repr

/-- The data members of class `ADSR` with their default initializers; the
default value is a freshly constructed envelope. -/
structure ADSR where
  state_ : ADSR.State := ADSR.State.Idle
  p_ : ADSRParams := {}
  sr_ : ℚ := 48000
  env_ : ℚ := 0

/-- The function `std::clamp(v, lo, hi)`. -/
def clamp (v lo hi : ℚ) : ℚ :=
  if v < lo then lo else if hi < v then hi else v

/-- The member `ADSR::setSampleRate`. -/
def ADSR.setSampleRate (e : ADSR) (sr : ℚ) : ADSR :=
  { e with sr_ := if sr > 1 then sr else 48000 }

/-- The member `ADSR::set`. -/
def ADSR.set (e : ADSR) (p : ADSRParams) : ADSR :=
  { e with p_ := p }

/-- The member `ADSR::gate`. -/
def ADSR.gate (e : ADSR) (on_ : Bool) : ADSR :=
  if on_ then { e with state_ := ADSR.State.Attack }
  else if e.state_ ≠ ADSR.State.Idle then { e with state_ := ADSR.State.Release }
  else e

/-- The member `ADSR::isActive`. -/
def ADSR.isActive (e : ADSR) : Bool :=
  e.state_ != ADSR.State.Idle

/-- The state change made by one call of `ADSR::process`. -/
def ADSR.advance (e : ADSR) : ADSR :=
  match e.state_ with
  | ADSR.State.Idle => { e with env_ := 0 }
  | ADSR.State.Attack =>
    let step : ℚ := if e.p_.attack ≤ 1 / 100000 then 1 else 1 / (e.p_.attack * e.sr_)
    let env := e.env_ + step
    if env ≥ 1 then { e with env_ := 1, state_ := ADSR.State.Decay }
    else { e with env_ := env }
  | ADSR.State.Decay =>
    let target := clamp e.p_.sustain 0 1
    let step : ℚ := if e.p_.decay ≤ 1 / 100000 then 1 else 1 / (e.p_.decay * e.sr_)
    let env := e.env_ - step * (1 - target)
    if env ≤ target then { e with env_ := target, state_ := ADSR.State.Sustain }
    else { e with env_ := env }
  | ADSR.State.Sustain => e
  | ADSR.State.Release =>
    let step : ℚ := if e.p_.release ≤ 1 / 100000 then 1 else 1 / (e.p_.release * e.sr_)
    let env := e.env_ - step * max e.env_ 0
    if env ≤ 1 / 100000 then { e with env_ := 0, state_ := ADSR.State.Idle }
    else { e with env_ := env }

/-- The member `ADSR::process`: the envelope after the call and the level
it returns. -/
def ADSR.process (e : ADSR) : ADSR × ℚ :=
  (e.advance, e.advance.env_)

/-- One call on the public interface of `ADSR`. -/
inductive ADSR.Call where
  | setSampleRate (sr : ℚ)
  | set (p : ADSRParams)
  | gate (on_ : Bool)
  | process

/-- Run a sequence of interface calls on an envelope; the result is the
final envelope and the levels returned by the `process()` calls, in order. -/
def ADSR.run (e : ADSR) : List ADSR.Call → ADSR × List ℚ
  | [] => (e, [])
  | ADSR.Call.setSampleRate sr :: cs => (e.setSampleRate sr).run cs
  | ADSR.Call.set p :: cs => (e.set p).run cs
  | ADSR.Call.gate on_ :: cs => (e.gate on_).run cs
  | ADSR.Call.process :: cs =>
    let r := e.process
    let rest := r.1.run cs
    (rest.1, r.2 :: rest.2)

/-- The level invariant of the envelope: the level is in `[0, 1]` and the
stored sample rate is above 1 (as `setSampleRate` and the default ensure). -/
def ADSR.Inv (e : ADSR) : Prop :=
  0 ≤ e.env_ ∧ e.env_ ≤ 1 ∧ 1 < e.sr_

/-- A call sequence with degenerate settings: negative stage times, sustain
above 1 and a negative sample rate, then a note held for two samples and
released for one. -/
def degenerateCalls : List ADSR.Call :=
  [ADSR.Call.set { attack := -1, decay := -1, sustain := 5, release := -1 },
   ADSR.Call.setSampleRate (-3),
   ADSR.Call.gate true, ADSR.Call.process, ADSR.Call.process,
   ADSR.Call.gate false, ADSR.Call.process]

/-- The envelope used to test the release round trip: in Sustain at level 1,
release time 1 s at a sample rate of 2 Hz, so `release * sampleRate = 2`. -/
def releaseProbe : ADSR :=
  { state_ := ADSR.State.Sustain, p_ := { release := 1 }, sr_ := 2, env_ := 1 }

/-! ## C math library -/

/-- The C math library functions called by the synthesizer core, as
parameters of the embedding. -/
structure Libm where
  exp : ℚ → ℚ
  pow : ℚ → ℚ → ℚ
  exp2 : ℚ → ℚ
  sin : ℚ → ℚ
  cos : ℚ → ℚ
  sqrt : ℚ → ℚ

/-! ## Table bank `Tables` (`msm5232_wavetable.h`, `msm5232_wavetable.cpp`) -/

/-- A value-initialized `Table`: 512 zeros. -/
def zeroTable : Table := List.replicate kTableSize 0

/-- The struct `Tables`: six arrays of 16 tables, indexed by mask (entry 0
unused and left zero). -/
structure Tables where
  tables_unquant_off375_ : List Table
  tables_quant4_off375_ : List Table
  tables_unquant_off4375_ : List Table
  tables_quant4_off4375_ : List Table
  tables_unquant_off46875_ : List Table
  tables_quant4_off46875_ : List Table

/-- One of the six arrays filled by the constructor `Tables::Tables`: entry
`m` for `m = 1..15` is `makeTable_with_offset(m, q, x_offset, group)`. -/
def Tables.bank (fast_exp : ℚ → ℚ) (q : Bool) (x_offset : ℚ) (group : Int) : List Table :=
  (List.range 16).map (fun (m : Nat) =>
    if 1 ≤ m then makeTable_with_offset fast_exp (Int.ofNat m) q x_offset group
    else zeroTable)

/-- The constructor `Tables::Tables`. -/
def Tables.build (fast_exp : ℚ → ℚ) : Tables :=
  { tables_unquant_off375_ := Tables.bank fast_exp false (-375 / 1000) 4,
    tables_quant4_off375_ := Tables.bank fast_exp true (-375 / 1000) 4,
    tables_unquant_off4375_ := Tables.bank fast_exp false (-4375 / 10000) 2,
    tables_quant4_off4375_ := Tables.bank fast_exp true (-4375 / 10000) 2,
    tables_unquant_off46875_ := Tables.bank fast_exp false (-46875 / 100000) 1,
    tables_quant4_off46875_ := Tables.bank fast_exp true (-46875 / 100000) 1 }

/-- The member `Tables::get(mask, quantized4, effectiveLen)`. -/
def Tables.get (t : Tables) (mask : Int) (quantized4 : Bool) (effectiveLen : Int) : Table :=
  let mask := if mask < 1 then 1 else mask
  let mask := if mask > 15 then 15 else mask
  if effectiveLen ≤ 64 then
    (if quantized4 then t.tables_quant4_off375_ else t.tables_unquant_off375_).getD
      mask.toNat zeroTable
  else if effectiveLen ≤ 128 then
    (if quantized4 then t.tables_quant4_off4375_ else t.tables_unquant_off4375_).getD
      mask.toNat zeroTable
  else
    (if quantized4 then t.tables_quant4_off46875_ else t.tables_unquant_off46875_).getD
      mask.toNat zeroTable

/-! ## Band-limited table builder (`bandlimited.cpp`) -/

/-- A value of `std::complex<float>`: real and imaginary part. -/
abbrev Cplx := ℚ × ℚ

/-- The literal `3.14159265358979323846f`. -/
def piLit : ℚ := 314159265358979323846 / 100000000000000000000

/-- The function `compute_rms`. -/
def compute_rms (m : Libm) (t : Table) : ℚ :=
  let acc := t.foldl (fun acc v => acc + v * v) 0
  m.sqrt (acc / (kTableSize : ℚ))

/-- The forward DFT loop shared by `build_bandlimited_set` and
`apply_lowpass_with_taper`: `X[k] = sum_n (cos(ang), sin(ang)) * base[n]` with
`ang = -twoPiOverN * float(k * n)`. -/
def forwardDFT (m : Libm) (base : Table) : List Cplx :=
  let N := kTableSize
  let twoPiOverN : ℚ := 2 * piLit / (N : ℚ)
  (List.range N).map (fun (k : Nat) =>
    (List.range N).foldl (fun (acc : Cplx) (n : Nat) =>
      let ang := -twoPiOverN * ((k * n : Nat) : ℚ)
      let cs := m.cos ang
      let sn := m.sin ang
      (acc.1 + cs * base.getD n 0, acc.2 + sn * base.getD n 0)) (0, 0))

/-- The low-pass loop shared by `build_bandlimited_set` and
`apply_lowpass_with_taper`: when `H < nyq`, zero every bin above `H` (and its
mirror) and scale the bins in `[startTaper, H]` by a raised cosine. -/
def taperSpectrum (m : Libm) (X : List Cplx) (H taperBins : Int) : List Cplx :=
  let N : Int := kTableSize
  let nyq := Int.tdiv N 2
  if H < nyq then
    let startTaper := max 1 (H - taperBins)
    (List.range nyq.toNat).foldl (fun (Y : List Cplx) (j : Nat) =>
      let k : Int := Int.ofNat j + 1
      if k > H then
        (Y.set k.toNat (0, 0)).set (N - k).toNat (0, 0)
      else if k ≥ startTaper then
        let t : ℚ := ((k - startTaper : Int) : ℚ) / ((max 1 (H - startTaper) : Int) : ℚ)
        let w : ℚ := (1 / 2) * (1 + m.cos (piLit * t))
        let Y1 := Y.set k.toNat ((Y.getD k.toNat (0, 0)).1 * w, (Y.getD k.toNat (0, 0)).2 * w)
        Y1.set (N - k).toNat
          ((Y1.getD (N - k).toNat (0, 0)).1 * w, (Y1.getD (N - k).toNat (0, 0)).2 * w)
      else Y) X
  else X

/-- The inverse DFT loop shared by `build_bandlimited_set` and
`apply_lowpass_with_taper`: the real part of
`(sum_k (cos(ang), sin(ang)) * Y[k]) / N` with `ang = twoPiOverN * float(k * n)`. -/
def inverseDFT (m : Libm) (Y : List Cplx) : Table :=
  let N := kTableSize
  let twoPiOverN : ℚ := 2 * piLit / (N : ℚ)
  (List.range N).map (fun (n : Nat) =>
    let acc := (List.range N).foldl (fun (acc : Cplx) (k : Nat) =>
      let ang := twoPiOverN * ((k * n : Nat) : ℚ)
      let cs := m.cos ang
      let sn := m.sin ang
      let y := Y.getD k (0, 0)
      (acc.1 + (cs * y.1 - sn * y.2), acc.2 + (cs * y.2 + sn * y.1))) (0, 0)
    acc.1 / (N : ℚ))

/-- The gain step `if (r > 1e-12f) { g = target / r; for v in t: v *= g; }`. -/
def scaleToRMS (m : Libm) (target : ℚ) (t : Table) : Table :=
  let r := compute_rms m t
  if r > 1 / 1000000000000 then t.map (fun v => v * (target / r)) else t

/-- The function `apply_lowpass_with_taper(base, H, taperBins, normalizeRMS)`. -/
def apply_lowpass_with_taper (m : Libm) (base : Table) (H taperBins : Int)
    (normalizeRMS : Bool) : Table :=
  let N : Int := kTableSize
  let nyq := Int.tdiv N 2
  let H := if H < 1 then 1 else H
  let H := if H > nyq then nyq else H
  let taperBins := if taperBins < 0 then 0 else taperBins
  let X := forwardDFT m base
  let Y := taperSpectrum m X H taperBins
  let t := inverseDFT m Y
  if normalizeRMS then scaleToRMS m (compute_rms m base) t else t

/-- The function `build_bandlimited_set(base, bandsPerOctave, normalizeRMS)`,
with the iteration bound `fuel` of `make_harmonic_cuts`; `none` when that
bound is too small. -/
def build_bandlimited_set (m : Libm) (fuel : Nat) (base : Table) (bandsPerOctave : Int)
    (normalizeRMS : Bool) : Option BLSet :=
  let X := forwardDFT m base
  match make_harmonic_cuts m.pow fuel bandsPerOctave with
  | none => none
  | some cuts =>
    let baseRMS := compute_rms m base
    let tables := cuts.map (fun (H : Int) =>
      let Y := taperSpectrum m X H 6
      let t := inverseDFT m Y
      if normalizeRMS then scaleToRMS m baseRMS t
      else
        let pk := t.foldl (fun pk v => max pk |v|) 0
        if pk > 1 then t.map (fun v => v / pk) else t)
    some { tables := tables, hcuts := cuts, baseRMS := baseRMS }

/-! ## Voice and FIR decimator (`voice.h`, `voice.cpp`) -/

/-- The conversion `static_cast<int>(x)` of a float: truncation toward zero. -/
def ctrunc (x : ℚ) : Int :=
  if 0 ≤ x then Int.floor x else Int.ceil x

/-- The struct `Voice::DecimFIR` with its default member initializers. -/
structure DecimFIR where
  os : Int := 1
  tapsN : Int := 0
  idx : Int := 0
  z : List ℚ := List.replicate 128 0
  h : List ℚ := List.replicate 128 0

/-- The literal `6.28318530717958647692f` (`twoPi`, `kTwoPi`). -/
def twoPiLit : ℚ := 628318530717958647692 / 100000000000000000000

/-- The member `DecimFIR::reset`. -/
def DecimFIR.reset (d : DecimFIR) : DecimFIR :=
  { d with idx := 0, z := d.z.map (fun _ => 0) }

/-- The static member `DecimFIR::sinc`. -/
def DecimFIR.sinc (m : Libm) (x : ℚ) : ℚ :=
  if |x| < 1 / 1000000 then 1 else m.sin x / x

/-- The static member `DecimFIR::makeLowpass(L, fc, out)`: the array `out`
after the call. -/
def DecimFIR.makeLowpass (m : Libm) (L : Int) (fc : ℚ) (out : List ℚ) : List ℚ :=
  let M := L - 1
  let mid := Int.tdiv M 2
  let r := (List.range L.toNat).foldl (fun (acc : List ℚ × ℚ) (n : Nat) =>
    let w : ℚ := 54 / 100 - (46 / 100) * m.cos (twoPiLit * (n : ℚ) / (M : ℚ))
    let x : ℚ := twoPiLit * fc * (((Int.ofNat n - mid : Int)) : ℚ)
    let hn : ℚ := 2 * fc * DecimFIR.sinc m x
    (acc.1.set n (w * hn), acc.2 + w * hn)) (out, 0)
  let out := r.1
  let sum := r.2
  if |sum| > 1 / 1000000000 then
    (List.range L.toNat).foldl (fun (o : List ℚ) (n : Nat) =>
      o.set n (o.getD n 0 * (1 / sum))) out
  else out

/-- The member `DecimFIR::configure(newOS)`. -/
def DecimFIR.configure (m : Libm) (d : DecimFIR) (newOS : Int) : DecimFIR :=
  let newOS := if newOS < 1 then 1 else newOS
  let newOS := if newOS > 8 then 8 else newOS
  if newOS = d.os ∧ d.tapsN > 0 then d
  else
    let d := { d with os := newOS }
    let d := d.reset
    let L : Int := if d.os = 2 then 17 else if d.os = 4 then 25 else if d.os = 8 then 33 else 1
    let d := { d with tapsN := L }
    let fc : ℚ := (45 / 100) / (d.os : ℚ)
    { d with h := DecimFIR.makeLowpass m L fc d.h }

/-- The member `DecimFIR::push(x)`. -/
def DecimFIR.push (d : DecimFIR) (x : ℚ) : DecimFIR :=
  if d.tapsN ≤ 0 then d
  else
    let idx := Int.land (d.idx + 1) 127
    { d with idx := idx, z := d.z.set idx.toNat x }

/-- The member `DecimFIR::output()`. -/
def DecimFIR.output (d : DecimFIR) : ℚ :=
  if d.tapsN ≤ 0 then d.z.getD d.idx.toNat 0
  else
    ((List.range d.tapsN.toNat).foldl (fun (acc : ℚ × Int) (n : Nat) =>
      let a := acc.1 + d.h.getD n 0 * d.z.getD acc.2.toNat 0
      let j := acc.2 - 1
      (a, if j < 0 then 127 else j)) (0, d.idx)).1

/-- The data members of class `Voice` with their default initializers. The
pointer `table_` is `none` for `nullptr` and otherwise holds the table it
points to. -/
structure Voice where
  sr_ : ℚ := 48000
  table_ : Option Table := none
  env_ : ADSR := {}
  note_ : Int := -1
  velocity_ : ℚ := 0
  phase_ : ℚ := 0
  baseInc_ : ℚ := 0
  active_ : Bool := false
  len_ : Int := 512
  baseFreq_ : ℚ := 440
  decim_ : DecimFIR := {}

/-- The function `midi_to_freq(note)` (and `midi_to_freq_int` of `synth.cpp`):
`440 * pow(2, (note - 69) / 12)`. -/
def midi_to_freq (m : Libm) (note : Int) : ℚ :=
  440 * m.pow 2 (((note - 69 : Int) : ℚ) / 12)

/-- The member `Voice::setSampleRate`. -/
def Voice.setSampleRate (v : Voice) (sr : ℚ) : Voice :=
  { v with sr_ := sr, env_ := v.env_.setSampleRate sr }

/-- The member `Voice::setTable`. -/
def Voice.setTable (v : Voice) (t : Option Table) (effectiveLen : Int) : Voice :=
  { v with table_ := t, len_ := effectiveLen }

/-- The member `Voice::setADSR`. -/
def Voice.setADSR (v : Voice) (p : ADSRParams) : Voice :=
  { v with env_ := v.env_.set p }

/-- The member `Voice::noteOn(n, vel)`. -/
def Voice.noteOn (m : Libm) (v : Voice) (n vel : Int) : Voice :=
  let f := midi_to_freq m n
  { v with
    note_ := n,
    velocity_ := ((max 0 (min 127 vel) : Int) : ℚ) / 127,
    baseFreq_ := f,
    baseInc_ := (v.len_ : ℚ) * f / v.sr_,
    phase_ := 0,
    env_ := v.env_.gate true,
    active_ := true,
    decim_ := v.decim_.reset }

/-- The member `Voice::noteOff`. -/
def Voice.noteOff (v : Voice) : Voice :=
  { v with env_ := v.env_.gate false }

/-- The table index read by `render`, `renderFromTwoTables` and
`sampleFromTwoTables`: `idx0 = ((int)phase_ * (kTableSize / len_)) & (kTableSize - 1)`. -/
def Voice.idx0 (v : Voice) : Int :=
  let iBase := ctrunc v.phase_
  let stride := Int.tdiv (kTableSize : Int) v.len_
  let maskN : Int := (kTableSize : Int) - 1
  Int.land (iBase * stride) maskN

/-- The phase update `phase_ += inc; if (phase_ >= (float)len_) phase_ -= (float)len_;`. -/
def Voice.addPhase (v : Voice) (inc : ℚ) : Voice :=
  let phase := v.phase_ + inc
  { v with phase_ := if phase ≥ (v.len_ : ℚ) then phase - (v.len_ : ℚ) else phase }

/-- The member `Voice::render(pitchRatio)`: the voice after the call and the
returned sample. -/
def Voice.render (v : Voice) (pitchRatio : ℚ) : Voice × ℚ :=
  match v.table_ with
  | none => (v, 0)
  | some table =>
    if !v.active_ then (v, 0)
    else
      let r := v.env_.process
      let v := { v with env_ := r.1 }
      let e := r.2
      if !v.env_.isActive ∧ e ≤ 0 then ({ v with active_ := false }, 0)
      else
        let s := table.getD v.idx0.toNat 0
        let inc := v.baseInc_ * (if pitchRatio > 0 then pitchRatio else 0)
        (v.addPhase inc, s * e * v.velocity_)

/-- The blended read `sA * (1 - mix) + sB * mix` at `idx0`, a null table
reading as 0 (member `Voice::sampleFromTwoTables`). -/
def Voice.sampleFromTwoTables (v : Voice) (tblA tblB : Option Table) (mix : ℚ) : ℚ :=
  let sA : ℚ := match tblA with
    | some t => t.getD v.idx0.toNat 0
    | none => 0
  let sB : ℚ := match tblB with
    | some t => t.getD v.idx0.toNat 0
    | none => 0
  sA * (1 - mix) + sB * mix

/-- The member `Voice::renderFromTwoTables(tblA, tblB, mix, pitchRatio)`. -/
def Voice.renderFromTwoTables (v : Voice) (tblA tblB : Option Table) (mix pitchRatio : ℚ) :
    Voice × ℚ :=
  if (tblA.isNone ∧ tblB.isNone) ∨ !v.active_ then (v, 0)
  else
    let r := v.env_.process
    let v := { v with env_ := r.1 }
    let e := r.2
    if !v.env_.isActive ∧ e ≤ 0 then ({ v with active_ := false }, 0)
    else
      let s := v.sampleFromTwoTables tblA tblB mix
      let inc := v.baseInc_ * (if pitchRatio > 0 then pitchRatio else 0)
      (v.addPhase inc, s * e * v.velocity_)

/-- The member `Voice::beginFrame(eOut)`: the voice after the call, the
returned flag and the value written to `eOut`. -/
def Voice.beginFrame (v : Voice) : Voice × Bool × ℚ :=
  if !v.active_ then (v, false, 0)
  else
    let r := v.env_.process
    let v := { v with env_ := r.1 }
    let e := r.2
    if !v.env_.isActive ∧ e ≤ 0 then ({ v with active_ := false }, false, 0)
    else (v, true, e)

/-- The member `Voice::advancePhaseScaled(pitchRatio, invOversample)`. -/
def Voice.advancePhaseScaled (v : Voice) (pitchRatio invOversample : ℚ) : Voice :=
  let inc := v.baseInc_ * (if pitchRatio > 0 then pitchRatio else 0) * invOversample
  v.addPhase inc

/-! ## Synth engine (`synth.h`, `synth.cpp`) -/

/-- The struct `SynthParams` with its default member initializers. -/
structure SynthParams where
  toneMask : Int := 1
  adsr : ADSRParams := {}
  gain : ℚ := 1 / 2
  polyphony : Int := 32
  quantize4 : Bool := true
  tableLen : Int := 128
  blQuality : Int := 0
  hqMode : Int := 0
  preHighCutMode : Int := 0
  preHighCutMaxNote : Int := 64

/-- The data members of class `Synth`. The pointers `current_` and
`effective_` are `none` for `nullptr` and otherwise hold the table they point
to; `rngState_` is a `uint32_t`, kept below `2^32`. -/
structure Synth where
  sr_ : ℚ
  tables_ : Tables
  current_ : Option Table
  effective_ : Option Table
  preCutBase_ : Table
  preCutValid_ : Bool
  blset_ : BLSet
  blsetValid_ : Bool
  voices_ : List Voice
  params_ : SynthParams
  nextVoice_ : Int
  pitchBendSemis_ : ℚ
  detuneSemis_ : ℚ
  vibratoDepthSemis_ : ℚ
  vibratoRateHz_ : ℚ
  vibratoPhase_ : ℚ
  noiseAdd_ : ℚ
  rngState_ : Nat

/-- A freshly constructed `Synth`: the default member initializers, with the
table bank built by `Tables::Tables`. -/
def Synth.fresh (m : Libm) : Synth :=
  { sr_ := 48000,
    tables_ := Tables.build m.exp,
    current_ := none,
    effective_ := none,
    preCutBase_ := zeroTable,
    preCutValid_ := false,
    blset_ := { tables := [], hcuts := [], baseRMS := 1 },
    blsetValid_ := false,
    voices_ := List.replicate 32 {},
    params_ := {},
    nextVoice_ := 0,
    pitchBendSemis_ := 0,
    detuneSemis_ := 0,
    vibratoDepthSemis_ := 0,
    vibratoRateHz_ := 5,
    vibratoPhase_ := 0,
    noiseAdd_ := 0,
    rngState_ := 0x12345678 }

/-- The conversion `static_cast<uint32_t>(x)` of a non-negative float:
truncation, reduced modulo `2^32`. -/
def toUInt32 (x : ℚ) : Nat :=
  (ctrunc x).toNat % 2 ^ 32

/-- The member `Synth::setup(sampleRate)`. -/
def Synth.setup (s : Synth) (sampleRate : ℚ) : Synth :=
  let sr : ℚ := if sampleRate > 1 then sampleRate else 48000
  let current := some (s.tables_.get s.params_.toneMask s.params_.quantize4 s.params_.tableLen)
  let effective := current
  { s with
    sr_ := sr,
    current_ := current,
    effective_ := effective,
    preCutValid_ := false,
    blsetValid_ := false,
    voices_ := s.voices_.map (fun v =>
      ((v.setSampleRate sr).setTable effective s.params_.tableLen).setADSR s.params_.adsr),
    vibratoPhase_ := 0,
    rngState_ := Nat.xor (toUInt32 sr) 0x9E3779B9 }

/-- The members `setPitchBendSemis`, `setDetuneSemis`, `setVibratoDepthSemis`
and `setVibratoRateHz`. -/
def Synth.setPitchBendSemis (s : Synth) (semis : ℚ) : Synth :=
  { s with pitchBendSemis_ := semis }

/-- The member `Synth::setDetuneSemis`. -/
def Synth.setDetuneSemis (s : Synth) (semis : ℚ) : Synth :=
  { s with detuneSemis_ := semis }

/-- The member `Synth::setVibratoDepthSemis`. -/
def Synth.setVibratoDepthSemis (s : Synth) (semis : ℚ) : Synth :=
  { s with vibratoDepthSemis_ := semis }

/-- The member `Synth::setVibratoRateHz`. -/
def Synth.setVibratoRateHz (s : Synth) (hz : ℚ) : Synth :=
  { s with vibratoRateHz_ := hz }

/-- The member `Synth::setNoiseAdd(amt)`. -/
def Synth.setNoiseAdd (s : Synth) (amt : ℚ) : Synth :=
  let amt := if amt < 0 then 0 else amt
  let amt := if amt > 100 then 100 else amt
  { s with noiseAdd_ := amt }

/-- The block `if (tableChanged) { current_ = &tables_.get(...); preCutValid_ =
false; }` of `Synth::setParams`. -/
def Synth.reselectTable (s : Synth) : Synth :=
  { s with
    current_ := some (s.tables_.get s.params_.toneMask s.params_.quantize4 s.params_.tableLen),
    preCutValid_ := false }

/-- The block `if (adsrChanged) { for (auto& v : voices_) v.setADSR(params_.adsr); }`
of `Synth::setParams`. -/
def Synth.pushADSR (s : Synth) : Synth :=
  { s with voices_ := s.voices_.map (fun v => v.setADSR s.params_.adsr) }

/-- The block of `Synth::setParams` that prepares the effective base table
(raw, fixed pre-high-cut, or pre-high-cut by maximum note) and hands it to
every voice. -/
def Synth.rebuildEffective (m : Libm) (s : Synth) : Synth :=
  let mode : Int := s.params_.preHighCutMode
  let nyq : Int := Int.tdiv (kTableSize : Int) 2
  let s : Synth :=
    if mode = 0 then
      { s with effective_ := s.current_, preCutValid_ := true }
    else if mode = 1 then
      let H : Int := cround ((65 / 100) * (nyq : ℚ))
      let t := apply_lowpass_with_taper m (s.current_.getD zeroTable) H 12 true
      { s with preCutBase_ := t, effective_ := some t, preCutValid_ := true }
    else
      let f0max := midi_to_freq m s.params_.preHighCutMaxNote
      let guard : ℚ := m.exp2 (s.vibratoDepthSemis_ * (1 / 12)) * (105 / 100)
      let allowedH : ℚ :=
        if f0max > 0 then (s.sr_ * (1 / 2)) / (f0max * guard) else (nyq : ℚ)
      let H : Int := Int.floor (max 1 (min (nyq : ℚ) allowedH))
      let taper : Int := if H < 16 then 8 else 12
      let t := apply_lowpass_with_taper m (s.current_.getD zeroTable) H taper true
      { s with preCutBase_ := t, effective_ := some t, preCutValid_ := true }
  { s with voices_ := s.voices_.map (fun v => v.setTable s.effective_ s.params_.tableLen) }

/-- The block of `Synth::setParams` that invalidates the band-limited set and
rebuilds it when `blQuality > 0`; `none` when `make_harmonic_cuts` runs out of
`fuel`. -/
def Synth.rebuildBLSet (m : Libm) (fuel : Nat) (s : Synth) : Option Synth :=
  let s : Synth := { s with blsetValid_ := false }
  if s.params_.blQuality > 0 then
    match build_bandlimited_set m fuel (s.effective_.getD zeroTable) s.params_.blQuality
        true with
    | none => none
    | some bl => some { s with blset_ := bl, blsetValid_ := true }
  else some s

/-- The part of `Synth::setParams(p)` before the band-limited set is
considered: store the parameters, reselect the raw table, push the ADSR
settings and prepare the effective table, each only when needed. -/
def Synth.setParamsCore (m : Libm) (s : Synth) (p : SynthParams) : Synth :=
  let tableChanged : Bool := (p.toneMask != s.params_.toneMask) ||
    (p.quantize4 != s.params_.quantize4) || (p.tableLen != s.params_.tableLen)
  let adsrChanged : Bool := (p.adsr.attack != s.params_.adsr.attack) ||
    (p.adsr.decay != s.params_.adsr.decay) || (p.adsr.sustain != s.params_.adsr.sustain) ||
    (p.adsr.release != s.params_.adsr.release)
  let preHCChanged : Bool := (p.preHighCutMode != s.params_.preHighCutMode) ||
    (p.preHighCutMaxNote != s.params_.preHighCutMaxNote)
  let s1 : Synth := { s with params_ := p }
  let s2 : Synth := if tableChanged then s1.reselectTable else s1
  let s3 : Synth := if adsrChanged then s2.pushADSR else s2
  if tableChanged || preHCChanged || !s3.preCutValid_ then s3.rebuildEffective m else s3

/-- The member `Synth::setParams(p)`, with the iteration bound `fuel` of
`make_harmonic_cuts`; `none` when that bound is too small for the rebuild of
the band-limited set. -/
def Synth.setParams (m : Libm) (fuel : Nat) (s : Synth) (p : SynthParams) : Option Synth :=
  let tableChanged : Bool := (p.toneMask != s.params_.toneMask) ||
    (p.quantize4 != s.params_.quantize4) || (p.tableLen != s.params_.tableLen)
  let blQualChanged : Bool := (p.blQuality != s.params_.blQuality)
  let preHCChanged : Bool := (p.preHighCutMode != s.params_.preHighCutMode) ||
    (p.preHighCutMaxNote != s.params_.preHighCutMaxNote)
  let s4 : Synth := s.setParamsCore m p
  if tableChanged || blQualChanged || preHCChanged || !s4.blsetValid_ then
    s4.rebuildBLSet m fuel
  else some s4

/-- The slot chosen by `Synth::noteOn`: the scan `for (i = 0; i < limit; ++i)
if (!voices_[i].active()) { idx = i; break; }`, as the first inactive index
below `limit`, or `-1`. -/
def firstInactive (voices : List Voice) (limit : Nat) : Int :=
  match (List.range limit).find? (fun i => !(voices.getD i {}).active_) with
  | some i => Int.ofNat i
  | none => -1

/-- The local `limit` of `Synth::noteOn`:
`max(1, min(params_.polyphony, (int)voices_.size()))`. -/
def Synth.limit (s : Synth) : Int :=
  max 1 (min s.params_.polyphony (s.voices_.length : Int))

/-- The index `idx` at which `Synth::noteOn` calls `Voice::noteOn`. -/
def Synth.allocIndex (s : Synth) : Int :=
  let idx := firstInactive s.voices_ s.limit.toNat
  if idx < 0 then Int.tmod s.nextVoice_ s.limit else idx

/-- The member `Synth::noteOn(note, vel)`. -/
def Synth.noteOn (m : Libm) (s : Synth) (note vel : Int) : Synth :=
  let limit := s.limit
  let idx := s.allocIndex
  let nextVoice : Int :=
    if firstInactive s.voices_ limit.toNat < 0 then Int.tmod (s.nextVoice_ + 1) limit
    else s.nextVoice_
  { s with
    nextVoice_ := nextVoice,
    voices_ := s.voices_.set idx.toNat ((s.voices_.getD idx.toNat {}).noteOn m note vel) }

/-- The member `Synth::noteOff(note)`. -/
def Synth.noteOff (s : Synth) (note : Int) : Synth :=
  { s with voices_ := s.voices_.map (fun v =>
      if v.active_ ∧ v.note_ = note then v.noteOff else v) }

/-- The loop `for (auto& v : voices_) if (v.active()) { ... }` of
`Synth::process`: `body` maps an active voice and the running sum `s` to the
voice and the sum after the loop body. -/
def forActiveVoices (body : Voice → ℚ → Voice × ℚ) : List Voice → ℚ → List Voice × ℚ
  | [], s => ([], s)
  | v :: vs, s =>
    if v.active_ then
      let r := body v s
      let rest := forActiveVoices body vs r.2
      (r.1 :: rest.1, rest.2)
    else
      let rest := forActiveVoices body vs s
      (v :: rest.1, rest.2)

/-- The oversampling factor `os` chosen in `Synth::process` for a voice with
guarded frequency `ef0` and upper table index `ib`. -/
def Synth.chooseOS (s : Synth) (ef0 : ℚ) (ib : Int) : Int :=
  if s.params_.hqMode = 2 then 2
  else if s.params_.hqMode = 3 then 4
  else if s.params_.hqMode = 4 then 8
  else if s.params_.hqMode = 1 then
    let last : Int := (s.blset_.hcuts.length : Int) - 1
    let hlimit : ℚ := (s.sr_ * (1 / 2)) / (max ef0 (1 / 1000000))
    let hHi : ℚ := (hcutAt s.blset_.hcuts ib : ℚ)
    let nearTop : Bool := (ib ≥ last - 1) || ((hlimit - hHi) < 4)
    if nearTop then 2 else 1
  else 1

/-- The inner loop `for (k = 0; k < os; ++k)` of the oversampled path: sample,
push into the decimator, advance the phase by `pitchRatio * invOS`. -/
def Voice.oversample (v : Voice) (tA tB : Option Table) (mix pitchRatio invOS : ℚ) :
    Nat → Voice
  | 0 => v
  | k + 1 =>
    let sk := v.sampleFromTwoTables tA tB mix
    let v := { v with decim_ := v.decim_.push sk }
    let v := v.advancePhaseScaled pitchRatio invOS
    v.oversample tA tB mix pitchRatio invOS k

/-- The body of the voice loop of `Synth::process` when `blQuality > 0`. -/
def Synth.renderBandlimited (m : Libm) (s : Synth) (pitchRatio guard : ℚ)
    (v : Voice) (acc : ℚ) : Voice × ℚ :=
  let f0 := v.baseFreq_ * pitchRatio
  let ef0 := f0 * guard
  let c := choose_tables_for_freq s.blset_ ef0 s.sr_
  let ia := c.1
  let ib := c.2.1
  let mix := c.2.2
  let tA : Option Table := if ia ≥ 0 then s.blset_.tables.get? ia.toNat else none
  let tB : Option Table := if ib ≥ 0 then s.blset_.tables.get? ib.toNat else tA
  let os := s.chooseOS ef0 ib
  if os ≤ 1 then
    let r := v.renderFromTwoTables tA tB mix pitchRatio
    (r.1, acc + r.2)
  else
    let b := v.beginFrame
    if !b.2.1 then (b.1, acc)
    else
      let e := b.2.2
      let v := b.1
      let v := { v with decim_ := DecimFIR.configure m v.decim_ os }
      let invOS : ℚ := 1 / (os : ℚ)
      let v := v.oversample tA tB mix pitchRatio invOS os.toNat
      let vlin := v.velocity_
      let ydec := v.decim_.output
      (v, acc + ydec * e * vlin)

/-- The xorshift32 step of `Synth::process` on a `uint32_t` state:
`x ^= x << 13; x ^= x >> 17; x ^= x << 5`. -/
def xorshift32 (x : Nat) : Nat :=
  let x := Nat.xor x ((x <<< 13) % 2 ^ 32)
  let x := Nat.xor x (x >>> 17)
  let x := Nat.xor x ((x <<< 5) % 2 ^ 32)
  x

/-- The noise value drawn from the new generator state `x`:
`u01 = (float)x * 2.3283064365386963e-10f` (the constant is `2^-32`) and
`noise = u01 * 2 - 1`. -/
def noiseOf (x : Nat) : ℚ :=
  let u01 : ℚ := (x : ℚ) * (1 / 2 ^ 32)
  u01 * 2 - 1

/-- The output stage of one sample of `Synth::process`: from the generator
state, the ratio `d`, the gain `comp` and the sample `s` after the gain, the
new generator state and the output `y`. -/
def noiseStage (rng : Nat) (d comp s : ℚ) : Nat × ℚ :=
  if d > 0 then
    let x := xorshift32 rng
    let noise := noiseOf x
    (x, (s + d * |s| * noise) * comp)
  else (rng, s)

/-- One iteration of the sample loop of `Synth::process`: the state after it
and the value `y` written to `outL[n]` and `outR[n]`. -/
def Synth.tick (m : Libm) (s : Synth) (lfoInc d comp : ℚ) : Synth × ℚ :=
  let lfo := m.sin s.vibratoPhase_
  let semis := s.pitchBendSemis_ + s.detuneSemis_ + s.vibratoDepthSemis_ * lfo
  let pitchRatio := m.exp2 (semis * (1 / 12))
  let r : List Voice × ℚ :=
    if s.params_.blQuality ≤ 0 then
      forActiveVoices (fun v acc => ((v.render pitchRatio).1, acc + (v.render pitchRatio).2))
        s.voices_ 0
    else
      let guard : ℚ := m.exp2 (s.vibratoDepthSemis_ * (1 / 12)) * (105 / 100)
      forActiveVoices (s.renderBandlimited m pitchRatio guard) s.voices_ 0
  let sum := r.2 * s.params_.gain
  let out := noiseStage s.rngState_ d comp sum
  let phase := s.vibratoPhase_ + lfoInc
  let phase := if phase > twoPiLit then phase - twoPiLit else phase
  ({ s with voices_ := r.1, rngState_ := out.1, vibratoPhase_ := phase }, out.2)

/-- The local `lfoInc` of `Synth::process`. -/
def Synth.lfoInc (s : Synth) : ℚ :=
  twoPiLit * (s.vibratoRateHz_ / (if s.sr_ > 0 then s.sr_ else 48000))

/-- The local `d` of `Synth::process`: the additive noise ratio. -/
def Synth.noiseRatio (s : Synth) : ℚ :=
  if s.noiseAdd_ > 0 then s.noiseAdd_ else 0

/-- The local `comp` of `Synth::process`: the gain that compensates the noise. -/
def Synth.noiseComp (s : Synth) : ℚ :=
  if s.noiseRatio > 0 then 1 / (1 + s.noiseRatio) else 1

/-- The sample loop `for (n = 0; n < frames; ++n)` of `Synth::process`,
started at sample index `n` with `k` iterations left. -/
def Synth.sampleLoop (m : Libm) (lfoInc d comp : ℚ) :
    Nat → Nat → Synth → List ℚ → List ℚ → Synth × List ℚ × List ℚ
  | 0, _, s, outL, outR => (s, outL, outR)
  | k + 1, n, s, outL, outR =>
    let r := s.tick m lfoInc d comp
    Synth.sampleLoop m lfoInc d comp k (n + 1) r.1 (outL.set n r.2) (outR.set n r.2)

/-- The member `Synth::process(outL, outR, frames)`: the state and the two
buffers after the call. -/
def Synth.process (m : Libm) (s : Synth) (outL outR : List ℚ) (frames : Int) :
    Synth × List ℚ × List ℚ :=
  Synth.sampleLoop m s.lfoInc s.noiseRatio s.noiseComp frames.toNat 0 s outL outR

/-- One call on the public interface of `Synth`. -/
inductive Synth.Call where
  | setup (sampleRate : ℚ)
  | setParams (p : SynthParams)
  | noteOn (note vel : Int)
  | noteOff (note : Int)
  | process (frames : Int)
  | setPitchBendSemis (semis : ℚ)
  | setDetuneSemis (semis : ℚ)
  | setVibratoDepthSemis (semis : ℚ)
  | setVibratoRateHz (hz : ℚ)
  | setNoiseAdd (amt : ℚ)

/-- Run a timeline of interface calls on an engine. Each `process(frames)`
call gets two fresh buffers of `frames` samples; the result is the final state
and the blocks written to the left and right buffer, in order. `none` when a
`setParams` call runs out of `fuel`. -/
def Synth.run (m : Libm) (fuel : Nat) :
    Synth → List Synth.Call → Option (Synth × List (List ℚ × List ℚ))
  | s, [] => some (s, [])
  | s, Synth.Call.setup sr :: cs => Synth.run m fuel (s.setup sr) cs
  | s, Synth.Call.setParams p :: cs =>
    match s.setParams m fuel p with
    | none => none
    | some s' => Synth.run m fuel s' cs
  | s, Synth.Call.noteOn note vel :: cs => Synth.run m fuel (s.noteOn m note vel) cs
  | s, Synth.Call.noteOff note :: cs => Synth.run m fuel (s.noteOff note) cs
  | s, Synth.Call.process frames :: cs =>
    let r := s.process m (List.replicate frames.toNat 0) (List.replicate frames.toNat 0) frames
    match Synth.run m fuel r.1 cs with
    | none => none
    | some rest => some (rest.1, (r.2.1, r.2.2) :: rest.2)
  | s, Synth.Call.setPitchBendSemis x :: cs => Synth.run m fuel (s.setPitchBendSemis x) cs
  | s, Synth.Call.setDetuneSemis x :: cs => Synth.run m fuel (s.setDetuneSemis x) cs
  | s, Synth.Call.setVibratoDepthSemis x :: cs =>
    Synth.run m fuel (s.setVibratoDepthSemis x) cs
  | s, Synth.Call.setVibratoRateHz x :: cs => Synth.run m fuel (s.setVibratoRateHz x) cs
  | s, Synth.Call.setNoiseAdd x :: cs => Synth.run m fuel (s.setNoiseAdd x) cs

/-- The number of active voices in the pool. -/
def Synth.activeCount (s : Synth) : Nat :=
  (s.voices_.filter (fun v => v.active_)).length

/-- The samples produced by `k` iterations of the sample loop of
`Synth::process`, without the buffers: the state after them and the values
`y`, in order. -/
def Synth.block (m : Libm) (lfoInc d comp : ℚ) : Nat → Synth → Synth × List ℚ
  | 0, s => (s, [])
  | k + 1, s =>
    let r := s.tick m lfoInc d comp
    let rest := Synth.block m lfoInc d comp k r.1
    (rest.1, r.2 :: rest.2)

/-- The slots chosen by a sequence of `noteOn(note, vel)` calls, in order. -/
def Synth.allocTrace (m : Libm) : Synth → List (Int × Int) → List Int
  | _, [] => []
  | s, nv :: rest => s.allocIndex :: Synth.allocTrace m (s.noteOn m nv.1 nv.2) rest

/-- The pool invariant behind the polyphony bound: 32 voices, every active
voice in a slot below `limit`, and a non-negative round-robin index. -/
def Synth.PoolInv (s : Synth) : Prop :=
  s.voices_.length = 32 ∧ 0 ≤ s.nextVoice_ ∧
  ∀ i : Nat, (s.voices_.getD i {}).active_ = true → (i : Int) < s.limit

/-- The states reachable from a freshly constructed engine by calls on its
public interface, where a `setParams` call may lower
`clamp(polyphony, 1, 32)` only while no voice is active. -/
inductive Synth.Reach (m : Libm) (fuel : Nat) : Synth → Prop where
  | fresh : Synth.Reach m fuel (Synth.fresh m)
  | setup (s : Synth) (sr : ℚ) : Synth.Reach m fuel s → Synth.Reach m fuel (s.setup sr)
  | setParams (s s' : Synth) (p : SynthParams) : Synth.Reach m fuel s →
      s.setParams m fuel p = some s' →
      (max 1 (min s.params_.polyphony 32) ≤ max 1 (min p.polyphony 32) ∨ s.activeCount = 0) →
      Synth.Reach m fuel s'
  | noteOn (s : Synth) (note vel : Int) : Synth.Reach m fuel s →
      Synth.Reach m fuel (s.noteOn m note vel)
  | noteOff (s : Synth) (note : Int) : Synth.Reach m fuel s → Synth.Reach m fuel (s.noteOff note)
  | process (s : Synth) (outL outR : List ℚ) (frames : Int) : Synth.Reach m fuel s →
      Synth.Reach m fuel (s.process m outL outR frames).1
  | setPitchBendSemis (s : Synth) (x : ℚ) : Synth.Reach m fuel s →
      Synth.Reach m fuel (s.setPitchBendSemis x)
  | setDetuneSemis (s : Synth) (x : ℚ) : Synth.Reach m fuel s →
      Synth.Reach m fuel (s.setDetuneSemis x)
  | setVibratoDepthSemis (s : Synth) (x : ℚ) : Synth.Reach m fuel s →
      Synth.Reach m fuel (s.setVibratoDepthSemis x)
  | setVibratoRateHz (s : Synth) (x : ℚ) : Synth.Reach m fuel s →
      Synth.Reach m fuel (s.setVibratoRateHz x)
  | setNoiseAdd (s : Synth) (x : ℚ) : Synth.Reach m fuel s →
      Synth.Reach m fuel (s.setNoiseAdd x)

/-- A stand-in for `std::pow` that is exact at integer exponents and follows
the chord between them: `x^floor(y) * (1 + (x - 1) * (y - floor(y)))`. -/
def stepPow (x y : ℚ) : ℚ :=
  x ^ (Int.floor y) * (1 + (x - 1) * (y - (Int.floor y : ℚ)))

/-- A rational stand-in for the C math library, used to evaluate the embedding
on concrete inputs: truncated series for `exp`, `sin`, `cos`, the chord power
`stepPow` for `pow` and `exp2`, and the chord through 1 for `sqrt`. -/
def refLibm : Libm :=
  { exp := fun x => 1 + x + x * x / 2,
    pow := stepPow,
    exp2 := fun x => stepPow 2 x,
    sin := fun x => x - x * x * x / 6,
    cos := fun x => 1 - x * x / 2,
    sqrt := fun x => (1 + x) / 2 }

/-- A voice at 8 kHz on the 64-sample grid playing note 117 (7040 Hz), before
its first sample. -/
def highVoice : Voice :=
  ((({} : Voice).setSampleRate 8000).setTable (some zeroTable) 64).noteOn refLibm 117 100

/-- A freshly constructed engine with `params.polyphony = 1`. -/
def monoSynth : Synth :=
  { Synth.fresh refLibm with params_ := { polyphony := 1 } }

/-- The relation between an engine `s` and a later engine `s'` when the call
in between kept the pool size and the round-robin index and activated no
voice. -/
def Synth.NoNewActive (s s' : Synth) : Prop :=
  s'.voices_.length = s.voices_.length ∧ s'.nextVoice_ = s.nextVoice_ ∧
  ∀ i : Nat, (s'.voices_.getD i {}).active_ = true → (s.voices_.getD i {}).active_ = true

/-! ## Decimator states and raw taps -/

/-- The value of the parameter `newOS` of `DecimFIR::configure` after its two
guards `if (newOS < 1) newOS = 1; if (newOS > 8) newOS = 8;`. -/
def DecimFIR.clampOS (newOS : Int) : Int :=
  let newOS := if newOS < 1 then 1 else newOS
  if newOS > 8 then 8 else newOS

/-- The local `L` of `DecimFIR::configure`: the tap count chosen for the ratio
`os`. -/
def DecimFIR.tapsFor (os : Int) : Int :=
  if os = 2 then 17 else if os = 4 then 25 else if os = 8 then 33 else 1

/-- The local `fc` of `DecimFIR::configure`: `0.45f / float(os)`. -/
def DecimFIR.cutoffFor (os : Int) : ℚ :=
  (45 / 100) / (os : ℚ)

/-- The value `w * hn` that the first loop of `DecimFIR::makeLowpass` writes to
`out[n]`: the Hamming window times the sinc tap. -/
def DecimFIR.rawTap (m : Libm) (L : Int) (fc : ℚ) (n : Nat) : ℚ :=
  let M := L - 1
  let mid := Int.tdiv M 2
  let w : ℚ := 54 / 100 - (46 / 100) * m.cos (twoPiLit * (n : ℚ) / (M : ℚ))
  let x : ℚ := twoPiLit * fc * (((Int.ofNat n - mid : Int)) : ℚ)
  let hn : ℚ := 2 * fc * DecimFIR.sinc m x
  w * hn

/-- The local `sum` of `DecimFIR::makeLowpass` after its first loop: the sum of
the `L` raw taps. -/
def DecimFIR.rawSum (m : Libm) (L : Int) (fc : ℚ) : ℚ :=
  (List.range L.toNat).foldl (fun (acc : ℚ) (n : Nat) => acc + DecimFIR.rawTap m L fc n) 0

/-- The sum `h[0] + ... + h[tapsN-1]` of the active filter coefficients. -/
def DecimFIR.tapSum (d : DecimFIR) : ℚ :=
  ((List.range d.tapsN.toNat).map (fun n => d.h.getD n 0)).sum

/-- The decimator states a voice can hold: the default-constructed one and
whatever `reset`, `configure` and `push` make of it. -/
inductive DecimFIR.Reach (m : Libm) : DecimFIR → Prop
  | fresh : DecimFIR.Reach m {}
  | reset (d : DecimFIR) : DecimFIR.Reach m d → DecimFIR.Reach m d.reset
  | configure (d : DecimFIR) (newOS : Int) : DecimFIR.Reach m d →
      DecimFIR.Reach m (d.configure m newOS)
  | push (d : DecimFIR) (x : ℚ) : DecimFIR.Reach m d → DecimFIR.Reach m (d.push x)

/-- The shape invariant of a decimator: both arrays hold 128 entries, the write
index is in `[0, 128)`, and either no filter was built yet (`tapsN = 0`) or the
ratio is in `[1, 8]` with the tap count `configure` chooses for it and, when
the raw taps had a sum above `1e-9` in magnitude, coefficients of sum 1. -/
def DecimFIR.Inv (m : Libm) (d : DecimFIR) : Prop :=
  d.z.length = 128 ∧ d.h.length = 128 ∧ 0 ≤ d.idx ∧ d.idx < 128 ∧
  (d.tapsN = 0 ∨
    (1 ≤ d.os ∧ d.os ≤ 8 ∧ d.tapsN = DecimFIR.tapsFor d.os ∧
      (1 / 1000000000 < |DecimFIR.rawSum m d.tapsN (DecimFIR.cutoffFor d.os)| →
        d.tapSum = 1)))

/-- The raw table selected by the parameters in force:
`tables_.get(params_.toneMask, params_.quantize4, params_.tableLen)`. -/
def Synth.rawTable (s : Synth) : Table :=
  s.tables_.get s.params_.toneMask s.params_.quantize4 s.params_.tableLen

/-- The local `H` of the ByMaxNote branch of `Synth::setParams` as a function
of the maximum note, the sample rate and the vibrato depth:
`floor(max(1, min(nyq, allowedH)))` with `allowedH = (sr/2) / (f0max * guard)`
and `guard = exp2(vibratoDepthSemis / 12) * 1.05`. -/
def byMaxNoteCut (m : Libm) (maxNote : Int) (sr depth : ℚ) : Int :=
  let nyq : Int := Int.tdiv (kTableSize : Int) 2
  let f0max := midi_to_freq m maxNote
  let guard : ℚ := m.exp2 (depth * (1 / 12)) * (105 / 100)
  let allowedH : ℚ :=
    if f0max > 0 then (sr * (1 / 2)) / (f0max * guard) else (nyq : ℚ)
  Int.floor (max 1 (min (nyq : ℚ) allowedH))

/-- The local `H` of the ByMaxNote branch of `Synth::setParams` for the
parameters, sample rate and vibrato depth in force. -/
def Synth.byMaxNoteH (m : Libm) (s : Synth) : Int :=
  byMaxNoteCut m s.params_.preHighCutMaxNote s.sr_ s.vibratoDepthSemis_

/-- The table the ByMaxNote branch of `Synth::setParams` builds from the raw
table, the sample rate and the vibrato depth in force. -/
def Synth.byMaxNoteTable (m : Libm) (s : Synth) : Table :=
  apply_lowpass_with_taper m s.rawTable (s.byMaxNoteH m)
    (if s.byMaxNoteH m < 16 then 8 else 12) true

/-- The consistency of the table members of an engine: `current_` points to
the raw table of the parameters in force and, while `preCutValid_` is set, the
effective table is the raw table in mode Off and the fixed low-pass of the raw
table in mode Fixed, and every voice plays from the effective table with the
effective length `params_.tableLen`. -/
def Synth.TableInv (m : Libm) (s : Synth) : Prop :=
  s.current_ = some s.rawTable ∧
  (s.preCutValid_ = true →
    (s.params_.preHighCutMode = 0 → s.effective_ = some s.rawTable) ∧
    (s.params_.preHighCutMode = 1 →
      s.effective_ = some (apply_lowpass_with_taper m s.rawTable 166 12 true)) ∧
    ∀ v ∈ s.voices_, v.table_ = s.effective_ ∧ v.len_ = s.params_.tableLen)

/-- The relation between an engine `s` and a later engine `s'` when the call in
between left the table bank, the parameters and the table members alone and
kept the table and effective length of every voice. -/
def Synth.SameTables (s s' : Synth) : Prop :=
  s'.tables_ = s.tables_ ∧ s'.params_ = s.params_ ∧ s'.current_ = s.current_ ∧
  s'.effective_ = s.effective_ ∧ s'.preCutValid_ = s.preCutValid_ ∧
  ∀ (T : Option Table) (L : Int), (∀ v ∈ s.voices_, v.table_ = T ∧ v.len_ = L) →
    ∀ v ∈ s'.voices_, v.table_ = T ∧ v.len_ = L

/-- The engine states that follow a call of `setup`: the state right after
`setup(sampleRate)` on any engine, and whatever later interface calls make of
it. -/
inductive Synth.Prepared (m : Libm) : Synth → Prop
  | setup (s : Synth) (sampleRate : ℚ) : Synth.Prepared m (s.setup sampleRate)
  | setParams (fuel : Nat) (s s' : Synth) (p : SynthParams) : Synth.Prepared m s →
      s.setParams m fuel p = some s' → Synth.Prepared m s'
  | noteOn (s : Synth) (note vel : Int) : Synth.Prepared m s →
      Synth.Prepared m (s.noteOn m note vel)
  | noteOff (s : Synth) (note : Int) : Synth.Prepared m s → Synth.Prepared m (s.noteOff note)
  | process (s : Synth) (outL outR : List ℚ) (frames : Int) : Synth.Prepared m s →
      Synth.Prepared m (s.process m outL outR frames).1
  | setPitchBendSemis (s : Synth) (x : ℚ) : Synth.Prepared m s →
      Synth.Prepared m (s.setPitchBendSemis x)
  | setDetuneSemis (s : Synth) (x : ℚ) : Synth.Prepared m s →
      Synth.Prepared m (s.setDetuneSemis x)
  | setVibratoDepthSemis (s : Synth) (x : ℚ) : Synth.Prepared m s →
      Synth.Prepared m (s.setVibratoDepthSemis x)
  | setVibratoRateHz (s : Synth) (x : ℚ) : Synth.Prepared m s →
      Synth.Prepared m (s.setVibratoRateHz x)
  | setNoiseAdd (s : Synth) (x : ℚ) : Synth.Prepared m s →
      Synth.Prepared m (s.setNoiseAdd x)

/-! ## A fixed-point stand-in for the math library

`refLibm` is exact at a few points only. The stand-in below follows the real
functions to about `1e-8` on the arguments the program uses (all arithmetic is
integer arithmetic at scale `2^30`), so that the embedding can be evaluated on
concrete inputs with values close to those of the C++ program. -/

/-- The scale `2^30` of the fixed-point values. -/
def fxOne : Int := 1073741824

/-- The nearest fixed-point value of a rational: `floor(x * 2^30 + 1/2)`. -/
def toFx (x : ℚ) : Int := Rat.floor (x * 1073741824 + 1 / 2)

/-- The rational value of a fixed-point number. -/
def ofFx (a : Int) : ℚ := (a : ℚ) / 1073741824

/-- Fixed-point Horner evaluation of the alternating series
`1 - r2/(a(a+1)) (1 - r2/((a+2)(a+3)) (1 - ...))` with `j` factors: the cosine
series for `a = 1` and the series of `sin(r)/r` for `a = 2`, with `r2 = r^2`. -/
def fxSeries (r2 : Int) (a : Int) : Nat → Int → Int
  | 0, u => u
  | j + 1, u =>
    fxSeries r2 a j (fxOne - (r2 * u / fxOne) / ((a + 2 * (j : Int)) * (a + 2 * (j : Int) + 1)))

/-- Fixed-point cosine of a fixed-point angle in `[-pi/4, pi/4]`. -/
def fxCosP (r : Int) : Int := fxSeries (r * r / fxOne) 1 6 fxOne

/-- Fixed-point sine of a fixed-point angle in `[-pi/4, pi/4]`. -/
def fxSinP (r : Int) : Int := r * fxSeries (r * r / fxOne) 2 6 fxOne / fxOne

/-- The value `floor(pi/2 * 2^62)`. -/
def fxHalfPi : Int := 7244019458077122842

/-- The angle `x` at scale `2^62`. -/
def fxAngle (x : ℚ) : Int := Rat.floor (x * 4611686018427387904)

/-- The number of the quarter turn nearest to `x`. -/
def fxQuarter (x : ℚ) : Int := (2 * fxAngle x + fxHalfPi) / (2 * fxHalfPi)

/-- The remainder of `x` after its nearest quarter turn, at scale `2^30`. -/
def fxRem (x : ℚ) : Int := (fxAngle x - fxQuarter x * fxHalfPi) / 4294967296

/-- Fixed-point stand-in for `std::cos`. -/
def fxCos (x : ℚ) : ℚ :=
  let q := fxQuarter x % 4
  ofFx (if q = 0 then fxCosP (fxRem x) else if q = 1 then -fxSinP (fxRem x)
    else if q = 2 then -fxCosP (fxRem x) else fxSinP (fxRem x))

/-- Fixed-point stand-in for `std::sin`. -/
def fxSin (x : ℚ) : ℚ :=
  let q := fxQuarter x % 4
  ofFx (if q = 0 then fxSinP (fxRem x) else if q = 1 then fxCosP (fxRem x)
    else if q = 2 then -fxSinP (fxRem x) else -fxCosP (fxRem x))

/-- Newton iteration `g := (g + x/g) / 2` in fixed point. -/
def fxNewton (x : Int) : Nat → Int → Int
  | 0, g => g
  | k + 1, g => fxNewton x k (if g ≤ 0 then 0 else (g + x * fxOne / g) / 2)

/-- Fixed-point stand-in for `std::sqrt` (0 on non-positive arguments). -/
def fxSqrt (x : ℚ) : ℚ :=
  if x ≤ 0 then 0 else ofFx (fxNewton (toFx x) 40 (fxOne + toFx x))

/-- Fixed-point Horner evaluation of the exponential series
`1 + z (1 + z/2 (1 + z/3 (...)))` with `j` factors. -/
def fxExpSeries (z : Int) : Nat → Int → Int
  | 0, u => u
  | j + 1, u => fxExpSeries z j (fxOne + (z * u / fxOne) / ((j : Int) + 1))

/-- The literal `ln 2`. -/
def ln2Lit : ℚ := 6931471805599453094 / 10000000000000000000

/-- Fixed-point stand-in for `std::exp2`: exact at integers. -/
def fxExp2 (y : ℚ) : ℚ :=
  (2 : ℚ) ^ (Rat.floor y) *
    ofFx (fxExpSeries (toFx ((y - (Rat.floor y : ℚ)) * ln2Lit)) 12 fxOne)

/-- The fixed-point stand-in for the C math library. The program raises only 2
to a power, so `pow` follows `exp2` for base 2 and the chord `stepPow`
otherwise. -/
def fxLibm : Libm :=
  { exp := fun x => fxExp2 (x / ln2Lit),
    pow := fun x y => if x = 2 then fxExp2 y else stepPow x y,
    exp2 := fxExp2,
    sin := fxSin,
    cos := fxCos,
    sqrt := fxSqrt }

/-- A square wave over the 512-sample table: 256 samples at 1, then 256 at -1. -/
def squareWave : Table := List.replicate 256 1 ++ List.replicate 256 (-1)

/-! ## Closed forms for the band-limiting loops -/

/-- The raised-cosine weight `w` that the low-pass loop applies to bin `k`:
`0.5 * (1 + cos(pi * (k - startTaper) / max(1, H - startTaper)))`. -/
def taperWeight (m : Libm) (H startTaper k : Int) : ℚ :=
  (1 / 2) * (1 + m.cos (piLit *
    (((k - startTaper : Int) : ℚ) / ((max 1 (H - startTaper) : Int) : ℚ))))

/-- One iteration `k = j + 1` of the low-pass loop of `taperSpectrum`. -/
def taperStep (m : Libm) (H startTaper : Int) (Y : List Cplx) (j : Nat) : List Cplx :=
  let N : Int := kTableSize
  let k : Int := Int.ofNat j + 1
  if k > H then
    (Y.set k.toNat (0, 0)).set (N - k).toNat (0, 0)
  else if k ≥ startTaper then
    let t : ℚ := ((k - startTaper : Int) : ℚ) / ((max 1 (H - startTaper) : Int) : ℚ)
    let w : ℚ := (1 / 2) * (1 + m.cos (piLit * t))
    let Y1 := Y.set k.toNat ((Y.getD k.toNat (0, 0)).1 * w, (Y.getD k.toNat (0, 0)).2 * w)
    Y1.set (N - k).toNat
      ((Y1.getD (N - k).toNat (0, 0)).1 * w, (Y1.getD (N - k).toNat (0, 0)).2 * w)
  else Y

/-- The value the low-pass loop leaves in bin `i >= 1` of a 512-bin spectrum:
with `k = min(i, 512 - i)` the harmonic number of the bin, zero above `H`, the
bin times the taper weight from `startTaper` to `H`, the bin itself below. -/
def taperAt (m : Libm) (X : List Cplx) (H startTaper : Int) (i : Nat) : Cplx :=
  let k : Int := min (i : Int) (512 - (i : Int))
  if k > H then (0, 0)
  else if k ≥ startTaper then
    ((X.getD i (0, 0)).1 * taperWeight m H startTaper k,
     (X.getD i (0, 0)).2 * taperWeight m H startTaper k)
  else X.getD i (0, 0)

/-- The term that bin `k` adds to the real part of sample `n` in the inverse
DFT loop: `cos(ang) * Y[k].re - sin(ang) * Y[k].im` with
`ang = twoPiOverN * float(k * n)`. -/
def idftTerm (m : Libm) (Y : List Cplx) (n k : Nat) : ℚ :=
  m.cos (2 * piLit / (kTableSize : ℚ) * ((k * n : Nat) : ℚ)) * (Y.getD k (0, 0)).1
    - m.sin (2 * piLit / (kTableSize : ℚ) * ((k * n : Nat) : ℚ)) * (Y.getD k (0, 0)).2

/-- The inverse DFT of a spectrum whose only non-zero bins are 1 and 511 (the
fundamental and its mirror, with values `y1` and `y511`): sample `n` is the sum
of the two bin terms divided by 512. -/
def twoBinTable (m : Libm) (y1 y511 : Cplx) : Table :=
  (List.range 512).map (fun (n : Nat) =>
    ((m.cos (2 * piLit / (kTableSize : ℚ) * ((1 * n : Nat) : ℚ)) * y1.1
        - m.sin (2 * piLit / (kTableSize : ℚ) * ((1 * n : Nat) : ℚ)) * y1.2)
      + (m.cos (2 * piLit / (kTableSize : ℚ) * ((511 * n : Nat) : ℚ)) * y511.1
        - m.sin (2 * piLit / (kTableSize : ℚ) * ((511 * n : Nat) : ℚ)) * y511.2))
      / (kTableSize : ℚ))

/-- Bin `k` of the forward DFT of the square wave, with the table read as the
function `n < 256 ? 1 : -1`. -/
def squareBin (m : Libm) (k : Nat) : Cplx :=
  (List.range 512).foldl (fun (acc : Cplx) (n : Nat) =>
    (acc.1 + m.cos (-(2 * piLit / (kTableSize : ℚ)) * ((k * n : Nat) : ℚ))
        * (if n < 256 then 1 else if n < 512 then -1 else 0),
     acc.2 + m.sin (-(2 * piLit / (kTableSize : ℚ)) * ((k * n : Nat) : ℚ))
        * (if n < 256 then 1 else if n < 512 then -1 else 0))) (0, 0)

/-! ## Closed forms for the pre-filter under a changed vibrato depth -/

/-- The staircase of the quantized 128-grid table of mask 1, as a function of
the sample index: eight levels `1, 6/7, ..., 0` over the first half-period and
their negatives over the second. -/
def stairs (n : Nat) : ℚ :=
  if n < 40 then 1 else if n < 76 then 6 / 7 else if n < 100 then 5 / 7
  else if n < 120 then 4 / 7 else if n < 140 then 3 / 7 else if n < 164 then 2 / 7
  else if n < 198 then 1 / 7 else if n < 256 then 0
  else if n < 296 then -1 else if n < 332 then -(6 / 7) else if n < 356 then -(5 / 7)
  else if n < 376 then -(4 / 7) else if n < 396 then -(3 / 7) else if n < 420 then -(2 / 7)
  else if n < 454 then -(1 / 7) else 0

/-- Bin `k` of the forward DFT of the table whose sample `n` is `f n`. -/
def tableBin (m : Libm) (f : Nat → ℚ) (k : Nat) : Cplx :=
  (List.range 512).foldl (fun (acc : Cplx) (n : Nat) =>
    (acc.1 + m.cos (-(2 * piLit / (kTableSize : ℚ)) * ((k * n : Nat) : ℚ)) * f n,
     acc.2 + m.sin (-(2 * piLit / (kTableSize : ℚ)) * ((k * n : Nat) : ℚ)) * f n)) (0, 0)

/-- Sample `n` of the inverse DFT of a spectrum whose non-zero bins are listed
in `bins` as pairs of bin index and value: the sum of the bin terms over 512. -/
def sparseSample (m : Libm) (bins : List (Nat × Cplx)) (n : Nat) : ℚ :=
  (bins.map (fun (b : Nat × Cplx) =>
    m.cos (2 * piLit / (kTableSize : ℚ) * ((b.1 * n : Nat) : ℚ)) * b.2.1
      - m.sin (2 * piLit / (kTableSize : ℚ) * ((b.1 * n : Nat) : ℚ)) * b.2.2)).sum
    / (kTableSize : ℚ)

/-- The parameters of the vibrato-depth scenario: defaults, with the
pre-high-cut in ByMaxNote mode for the maximum note 113. -/
def depthProbeParams : SynthParams := { preHighCutMode := 2, preHighCutMaxNote := 113 }

/-- The non-zero bins that the low-pass with `H = 4` and taper from bin 1
leaves of the spectrum of `stairs` under the fixed-point library: bin value
times taper weight for the harmonics 1, 2, 3 and their mirrors. -/
def stairsPassFour : List (Nat × Cplx) :=
  [(1, (253607561663 / 1879048192 * 1, -1117076060155 / 7516192768 * 1)),
   (2, (0 * (1610612737 / 2147483648), 1 / 1073741824 * (1610612737 / 2147483648))),
   (3, (-4536612431 / 1879048192 * (536870913 / 2147483648),
        -412182398399 / 7516192768 * (536870913 / 2147483648))),
   (509, (-9073224497 / 3758096384 * (536870913 / 2147483648),
          412182398485 / 7516192768 * (536870913 / 2147483648))),
   (510, (0 * (1610612737 / 2147483648), 1 / 1073741824 * (1610612737 / 2147483648))),
   (511, (15850472633 / 117440512 * 1, 1117076058365 / 7516192768 * 1))]

/-- The non-zero bins that the low-pass with `H = 3` and taper from bin 1
leaves of the spectrum of `stairs` under the fixed-point library: bin value
times taper weight for the harmonics 1, 2 and their mirrors. -/
def stairsPassThree : List (Nat × Cplx) :=
  [(1, (253607561663 / 1879048192 * 1, -1117076060155 / 7516192768 * 1)),
   (2, (0 * (1 / 2), 1 / 1073741824 * (1 / 2))),
   (510, (0 * (1 / 2), 1 / 1073741824 * (1 / 2))),
   (511, (15850472633 / 117440512 * 1, 1117076058365 / 7516192768 * 1))]

/-- Sample `n` of `twoBinTable`: the two bin terms over 512. -/
def twoBinSample (m : Libm) (y1 y511 : Cplx) (n : Nat) : ℚ :=
  ((m.cos (2 * piLit / (kTableSize : ℚ) * ((1 * n : Nat) : ℚ)) * y1.1
      - m.sin (2 * piLit / (kTableSize : ℚ) * ((1 * n : Nat) : ℚ)) * y1.2)
    + (m.cos (2 * piLit / (kTableSize : ℚ) * ((511 * n : Nat) : ℚ)) * y511.1
      - m.sin (2 * piLit / (kTableSize : ℚ) * ((511 * n : Nat) : ℚ)) * y511.2))
    / (kTableSize : ℚ)

/-- The accumulation loop of `compute_rms` over the samples `f a, ..., f (a + len - 1)`,
started from `init`. -/
def sumSqChunk (f : Nat → ℚ) (a len : Nat) (init : ℚ) : ℚ :=
  (List.range' a len).foldl (fun acc n => acc + f n * f n) init

/-! ## Stand-ins and scenarios for the set builder, the oversampling choice and the decimator -/

/-- An engine in HQ mode Auto2x with band-limit quality 1 that holds a set with
the cutoffs `2, 4, ..., 256`, at the default sample rate 48000. -/
def auto2xProbe : Synth :=
  { Synth.fresh refLibm with
    blset_ := octaveSet, blsetValid_ := true, params_ := { blQuality := 1, hqMode := 1 } }

/-- Sample `n` of the table with a single 1 at sample 1. -/
def unitAt (n : Nat) : ℚ := if n = 1 then 1 else 0

/-- The table with a single 1 at sample 1 and 0 at the other 511 samples. -/
def unitTable : Table := (List.range 512).map unitAt

/-- The term that bin `k` adds to sample `n` of the inverse DFT of the forward
DFT of `unitTable`: bin `k` of the forward DFT is
`(cos(-w * float(k * 1)), sin(-w * float(k * 1)))`. -/
def roundTripTerm (m : Libm) (n k : Nat) : ℚ :=
  m.cos (2 * piLit / (kTableSize : ℚ) * ((k * n : Nat) : ℚ))
      * m.cos (-(2 * piLit / (kTableSize : ℚ)) * ((k * 1 : Nat) : ℚ))
    - m.sin (2 * piLit / (kTableSize : ℚ) * ((k * n : Nat) : ℚ))
      * m.sin (-(2 * piLit / (kTableSize : ℚ)) * ((k * 1 : Nat) : ℚ))

/-- The sum of the terms of the 128 bins `a, ..., a + 127` of sample `n`. -/
def roundTripChunk (m : Libm) (n a : Nat) : ℚ :=
  ((List.range' a 128).map (roundTripTerm m n)).sum

/-- The number of binary digits of `n` (0 for 0), found by halving at most
`fuel` times. -/
def bitLenAux : Nat → Nat → Nat
  | 0, _ => 0
  | fuel + 1, n => if n = 0 then 0 else bitLenAux fuel (n / 2) + 1

/-- The number of binary digits of `n`: `2^(bitLen n - 1) <= n < 2^(bitLen n)`
for `n > 0`. -/
def bitLen (n : Nat) : Nat := bitLenAux n n

/-- The binary exponent of the positive fraction `p / q`: the integer `e` with
`2^e <= p / q < 2^(e + 1)`. -/
def log2Floor (p q : Nat) : Int :=
  let d : Int := (bitLen p : Int) - (bitLen q : Int)
  if 0 ≤ d then (if q * 2 ^ d.toNat ≤ p then d else d - 1)
  else (if q ≤ p * 2 ^ (-d).toNat then d else d - 1)

/-- The fraction `n / d` rounded to the nearest integer, ties to even. -/
def roundHalfEven (n d : Nat) : Nat :=
  let q := n / d
  let r := n % d
  if 2 * r < d then q
  else if d < 2 * r then q + 1
  else if q % 2 = 0 then q else q + 1

/-- The exponent of the binary32 grid around `x`: the binary exponent of `|x|`,
and `-126` in the subnormal range. -/
def f32Exp (x : ℚ) : Int :=
  max (log2Floor x.num.natAbs x.den) (-126)

/-- The power `2^k` for an integer exponent. -/
def pow2 (k : Int) : ℚ :=
  if 0 ≤ k then ((2 ^ k.toNat : Nat) : ℚ) else 1 / ((2 ^ (-k).toNat : Nat) : ℚ)

/-- The magnitude `|x|` in units of the binary32 grid around `x`, rounded to
the nearest integer, ties to even: the 24-bit significand of the result. -/
def f32Mant (x : ℚ) : Nat :=
  let p := x.num.natAbs
  let q := x.den
  let s : Int := 23 - f32Exp x
  roundHalfEven (if 0 ≤ s then p * 2 ^ s.toNat else p) (if 0 ≤ s then q else q * 2 ^ (-s).toNat)

/-- The value `x` rounded to binary32 (round to nearest, ties to even): the
nearest multiple of `2^(f32Exp x - 23)`. Values beyond the largest finite
binary32 number are not mapped to infinity. -/
def f32 (x : ℚ) : ℚ :=
  if x = 0 then 0
  else
    let r : ℚ := (f32Mant x : ℚ) * pow2 (f32Exp x - 23)
    if x < 0 then -r else r

/-! ## ADSR envelope in binary32 arithmetic (`adsr.cpp`) -/

/-- The local `step` of a stage of `ADSR::process` in binary32 arithmetic:
`(t <= 1e-5f) ? 1.0f : 1.0f / (t * sr_)` for the stage time `t`, every
operation rounded by `f32`. -/
def ADSR.step32 (e : ADSR) (t : ℚ) : ℚ :=
  if t ≤ f32 (1 / 100000) then 1 else f32 (1 / f32 (t * e.sr_))

/-- The state change made by one call of `ADSR::process` in binary32
arithmetic: every `float` operation of the source is rounded by `f32`, and
`1e-5f` is the rounded literal. -/
def ADSR.advance32 (e : ADSR) : ADSR :=
  match e.state_ with
  | ADSR.State.Idle => { e with env_ := 0 }
  | ADSR.State.Attack =>
    let step : ℚ := e.step32 e.p_.attack
    let env := f32 (e.env_ + step)
    if env ≥ 1 then { e with env_ := 1, state_ := ADSR.State.Decay }
    else { e with env_ := env }
  | ADSR.State.Decay =>
    let target := clamp e.p_.sustain 0 1
    let step : ℚ := e.step32 e.p_.decay
    let env := f32 (e.env_ - f32 (step * f32 (1 - target)))
    if env ≤ target then { e with env_ := target, state_ := ADSR.State.Sustain }
    else { e with env_ := env }
  | ADSR.State.Sustain => e
  | ADSR.State.Release =>
    let step : ℚ := e.step32 e.p_.release
    let env := f32 (e.env_ - f32 (step * max e.env_ 0))
    if env ≤ f32 (1 / 100000) then { e with env_ := 0, state_ := ADSR.State.Idle }
    else { e with env_ := env }

/-- The member `ADSR::process` in binary32 arithmetic: the envelope after the
call and the level it returns. -/
def ADSR.process32 (e : ADSR) : ADSR × ℚ :=
  (e.advance32, e.advance32.env_)

/-- The envelope after `n` successive calls of `process()` in binary32
arithmetic. -/
def ADSR.processN32 (e : ADSR) : Nat → ADSR
  | 0 => e
  | n + 1 => ((e.processN32 n).process32).1

/-- An envelope in Decay at level 1 with instant decay (`decay = 0`) and
sustain `0.1f`. -/
def decayProbe : ADSR :=
  { state_ := ADSR.State.Decay,
    p_ := { decay := 0, sustain := 13421773 / 134217728 }, env_ := 1 }

/-- An envelope in Release at level 1 with release time 700 s at 48 kHz, so
`release * sampleRate = 33600000`. -/
def longRelease : ADSR :=
  { state_ := ADSR.State.Release, p_ := { release := 700 }, sr_ := 48000, env_ := 1 }

/-- An envelope in Release at level 1 with the default release time `0.2f` at
48 kHz. -/
def defaultRelease : ADSR :=
  { state_ := ADSR.State.Release, p_ := { release := 13421773 / 67108864 }, sr_ := 48000,
    env_ := 1 }

/-- An envelope in Sustain at level 1 with release time `0.01f` at 48 kHz, so
`release * sampleRate` rounds to 480. -/
def shortRelease : ADSR :=
  { state_ := ADSR.State.Sustain, p_ := { release := 5368709 / 536870912 }, sr_ := 48000,
    env_ := 1 }

/-! ## Scenarios for the attack ramp -/

/-- A fresh envelope with attack `2^-7` s (exact in binary32) at 48 kHz:
`attack * sampleRate = 375`. -/
def attackProbe : ADSR := { p_ := { attack := 1 / 128 }, sr_ := 48000 }

/-- The envelope `attackProbe` in Attack at level `L`. -/
def attackStage (L : ℚ) : ADSR :=
  { state_ := ADSR.State.Attack, p_ := { attack := 1 / 128 }, sr_ := 48000, env_ := L }

/-- A fresh envelope with attack `0.01f` at 48 kHz: the rounded product
`attack * sampleRate` is 480. -/
def attackShort : ADSR := { p_ := { attack := 5368709 / 536870912 }, sr_ := 48000 }

/-! ## Table selection in binary32 arithmetic (`bandlimited.h`) -/

/-- The local `hlimit` of `choose_tables_for_freq` in binary32 arithmetic. -/
def hlimitOf32 (set : BLSet) (f0 sampleRate : ℚ) : ℚ :=
  if f0 > 0 then f32 (f32 (sampleRate * (1 / 2)) / f0)
  else f32 ((set.hcuts.getLastD 0 : Int) : ℚ)

/-- The binary search loop of `choose_tables_for_freq` with the comparison
`(float)set.hcuts[mid] < hlimit` in binary32 arithmetic. -/
def bsearch32 (hcuts : List Int) (hlimit : ℚ) (lo hi : Int) : Int × Int :=
  if hi - lo > 1 then
    let mid := Int.shiftRight (lo + hi) 1
    if f32 (hcutAt hcuts mid : ℚ) < hlimit then bsearch32 hcuts hlimit mid hi
    else bsearch32 hcuts hlimit lo mid
  else (lo, hi)
termination_by (hi - lo).toNat
decreasing_by
  all_goals simp_wf
  all_goals
    have hmid : Int.shiftRight (lo + hi) 1 = (lo + hi) / 2 :=
      (Int.shiftRight_eq_div_pow (lo + hi) 1).trans (by norm_num)
    rw [hmid]
    omega

/-- The function `choose_tables_for_freq(set, f0, sampleRate, ia, ib, mix)` in
binary32 arithmetic: every `float` operation and every `(float)` conversion
of the source is rounded by `f32`. -/
def choose_tables_for_freq32 (set : BLSet) (f0 sampleRate : ℚ) : Int × Int × ℚ :=
  if set.tables.isEmpty then (-1, -1, 0)
  else
    let hlimit := hlimitOf32 set f0 sampleRate
    if hlimit ≤ f32 ((set.hcuts.headD 0 : Int) : ℚ) then (0, 0, 0)
    else if hlimit ≥ f32 ((set.hcuts.getLastD 0 : Int) : ℚ) then
      ((set.hcuts.length : Int) - 1, (set.hcuts.length : Int) - 1, 0)
    else
      let r := bsearch32 set.hcuts hlimit 0 ((set.hcuts.length : Int) - 1)
      let lo := r.1
      let hi := r.2
      let hLo : ℚ := f32 (hcutAt set.hcuts lo : ℚ)
      let hHi : ℚ := f32 (hcutAt set.hcuts hi : ℚ)
      let t := f32 (f32 (hlimit - hLo) / f32 (hHi - hLo))
      let t := if t < 0 then 0 else t
      let t := if t > 1 then 1 else t
      (lo, hi, f32 (f32 (t * t) * f32 (3 - f32 (2 * t))))

/-! ## Noise stage in binary32 arithmetic (`synth.cpp`) -/

/-- The function `midi_to_freq(note)` in binary32 arithmetic:
`440.0f * std::pow(2.0f, (note - 69) / 12.0f)`, with the conversion of
`note - 69`, the quotient, the value of `std::pow` and the product rounded. -/
def midi_to_freq32 (m : Libm) (note : Int) : ℚ :=
  f32 (440 * f32 (m.pow 2 (f32 (f32 ((note - 69 : Int) : ℚ) / 12))))

/-- The member `Voice::noteOn(n, vel)` in binary32 arithmetic. -/
def Voice.noteOn32 (m : Libm) (v : Voice) (n vel : Int) : Voice :=
  let f := midi_to_freq32 m n
  { v with
    note_ := n,
    velocity_ := f32 (f32 ((max 0 (min 127 vel) : Int) : ℚ) / 127),
    baseFreq_ := f,
    baseInc_ := f32 (f32 (f32 (v.len_ : ℚ) * f) / v.sr_),
    phase_ := 0,
    env_ := v.env_.gate true,
    active_ := true,
    decim_ := v.decim_.reset }

/-! ## Rendering with checked integer division (`voice.cpp`, `synth.cpp`) -/

/-- The table index read by `render`, `renderFromTwoTables` and
`sampleFromTwoTables` with the integer division checked:
`stride = kTableSize / len_` has no value when `len_` is 0 (the division
traps), and the result is `none`. -/
def Voice.idx0? (v : Voice) : Option Int :=
  let iBase := ctrunc v.phase_
  if v.len_ = 0 then none
  else
    let stride := Int.tdiv (kTableSize : Int) v.len_
    let maskN : Int := (kTableSize : Int) - 1
    some (Int.land (iBase * stride) maskN)

/-- The member `Voice::render(pitchRatio)` with the division checked: `none`
when the call divides by zero. -/
def Voice.render? (v : Voice) (pitchRatio : ℚ) : Option (Voice × ℚ) :=
  match v.table_ with
  | none => some (v, 0)
  | some table =>
    if !v.active_ then some (v, 0)
    else
      let r := v.env_.process
      let v := { v with env_ := r.1 }
      let e := r.2
      if !v.env_.isActive ∧ e ≤ 0 then some ({ v with active_ := false }, 0)
      else
        match v.idx0? with
        | none => none
        | some i =>
          let s := table.getD i.toNat 0
          let inc := v.baseInc_ * (if pitchRatio > 0 then pitchRatio else 0)
          some (v.addPhase inc, s * e * v.velocity_)

/-- The member `Voice::sampleFromTwoTables` with the division checked. -/
def Voice.sampleFromTwoTables? (v : Voice) (tblA tblB : Option Table) (mix : ℚ) : Option ℚ :=
  match v.idx0? with
  | none => none
  | some i =>
    let sA : ℚ := match tblA with
      | some t => t.getD i.toNat 0
      | none => 0
    let sB : ℚ := match tblB with
      | some t => t.getD i.toNat 0
      | none => 0
    some (sA * (1 - mix) + sB * mix)

/-- The member `Voice::renderFromTwoTables` with the division checked. -/
def Voice.renderFromTwoTables? (v : Voice) (tblA tblB : Option Table) (mix pitchRatio : ℚ) :
    Option (Voice × ℚ) :=
  if (tblA.isNone ∧ tblB.isNone) ∨ !v.active_ then some (v, 0)
  else
    let r := v.env_.process
    let v := { v with env_ := r.1 }
    let e := r.2
    if !v.env_.isActive ∧ e ≤ 0 then some ({ v with active_ := false }, 0)
    else
      match v.sampleFromTwoTables? tblA tblB mix with
      | none => none
      | some s =>
        let inc := v.baseInc_ * (if pitchRatio > 0 then pitchRatio else 0)
        some (v.addPhase inc, s * e * v.velocity_)

/-- The inner loop of the oversampled path with the division checked. -/
def Voice.oversample? (v : Voice) (tA tB : Option Table) (mix pitchRatio invOS : ℚ) :
    Nat → Option Voice
  | 0 => some v
  | k + 1 =>
    match v.sampleFromTwoTables? tA tB mix with
    | none => none
    | some sk =>
      let v := { v with decim_ := v.decim_.push sk }
      let v := v.advancePhaseScaled pitchRatio invOS
      v.oversample? tA tB mix pitchRatio invOS k

/-- The body of the voice loop of `Synth::process` when `blQuality > 0`, with
the division checked. -/
def Synth.renderBandlimited? (m : Libm) (s : Synth) (pitchRatio guard : ℚ)
    (v : Voice) (acc : ℚ) : Option (Voice × ℚ) :=
  let f0 := v.baseFreq_ * pitchRatio
  let ef0 := f0 * guard
  let c := choose_tables_for_freq s.blset_ ef0 s.sr_
  let ia := c.1
  let ib := c.2.1
  let mix := c.2.2
  let tA : Option Table := if ia ≥ 0 then s.blset_.tables.get? ia.toNat else none
  let tB : Option Table := if ib ≥ 0 then s.blset_.tables.get? ib.toNat else tA
  let os := s.chooseOS ef0 ib
  if os ≤ 1 then
    match v.renderFromTwoTables? tA tB mix pitchRatio with
    | none => none
    | some r => some (r.1, acc + r.2)
  else
    let b := v.beginFrame
    if !b.2.1 then some (b.1, acc)
    else
      let e := b.2.2
      let v := b.1
      let v := { v with decim_ := DecimFIR.configure m v.decim_ os }
      let invOS : ℚ := 1 / (os : ℚ)
      match v.oversample? tA tB mix pitchRatio invOS os.toNat with
      | none => none
      | some v =>
        let vlin := v.velocity_
        let ydec := v.decim_.output
        some (v, acc + ydec * e * vlin)

/-- The loop `for (auto& v : voices_) if (v.active()) { ... }` with a body
that can trap. -/
def forActiveVoices? (body : Voice → ℚ → Option (Voice × ℚ)) :
    List Voice → ℚ → Option (List Voice × ℚ)
  | [], s => some ([], s)
  | v :: vs, s =>
    if v.active_ then
      match body v s with
      | none => none
      | some r =>
        match forActiveVoices? body vs r.2 with
        | none => none
        | some rest => some (r.1 :: rest.1, rest.2)
    else
      match forActiveVoices? body vs s with
      | none => none
      | some rest => some (v :: rest.1, rest.2)

/-- One iteration of the sample loop of `Synth::process` with the division
checked. -/
def Synth.tick? (m : Libm) (s : Synth) (lfoInc d comp : ℚ) : Option (Synth × ℚ) :=
  let lfo := m.sin s.vibratoPhase_
  let semis := s.pitchBendSemis_ + s.detuneSemis_ + s.vibratoDepthSemis_ * lfo
  let pitchRatio := m.exp2 (semis * (1 / 12))
  let r : Option (List Voice × ℚ) :=
    if s.params_.blQuality ≤ 0 then
      forActiveVoices? (fun v acc =>
        match v.render? pitchRatio with
        | none => none
        | some r => some (r.1, acc + r.2)) s.voices_ 0
    else
      let guard : ℚ := m.exp2 (s.vibratoDepthSemis_ * (1 / 12)) * (105 / 100)
      forActiveVoices? (s.renderBandlimited? m pitchRatio guard) s.voices_ 0
  match r with
  | none => none
  | some r =>
    let sum := r.2 * s.params_.gain
    let out := noiseStage s.rngState_ d comp sum
    let phase := s.vibratoPhase_ + lfoInc
    let phase := if phase > twoPiLit then phase - twoPiLit else phase
    some ({ s with voices_ := r.1, rngState_ := out.1, vibratoPhase_ := phase }, out.2)

/-- The sample loop of `Synth::process` with the division checked. -/
def Synth.sampleLoop? (m : Libm) (lfoInc d comp : ℚ) :
    Nat → Nat → Synth → List ℚ → List ℚ → Option (Synth × List ℚ × List ℚ)
  | 0, _, s, outL, outR => some (s, outL, outR)
  | k + 1, n, s, outL, outR =>
    match s.tick? m lfoInc d comp with
    | none => none
    | some r =>
      Synth.sampleLoop? m lfoInc d comp k (n + 1) r.1 (outL.set n r.2) (outR.set n r.2)

/-- The member `Synth::process(outL, outR, frames)` with the division checked:
`none` when the call divides by zero, otherwise the state and the two buffers
after the call. -/
def Synth.process? (m : Libm) (s : Synth) (outL outR : List ℚ) (frames : Int) :
    Option (Synth × List ℚ × List ℚ) :=
  Synth.sampleLoop? m s.lfoInc s.noiseRatio s.noiseComp frames.toNat 0 s outL outR

/-- The engine after `setup(48000)`, `setParams` with `tableLen = 0` (all other
parameters at their defaults) and `noteOn(60, 100)`. -/
def zeroLenSynth : Synth :=
  ((Synth.setParams refLibm 0 ((Synth.fresh refLibm).setup 48000) { tableLen := 0 }).getD
    (Synth.fresh refLibm)).noteOn refLibm 60 100

/-! ## FIR decimator in binary32 arithmetic (`voice.h`) -/

/-- A square wave of amplitude 3/8 over the 512-sample table: 256 samples at
`0.375`, then 256 at `-0.375`. -/
def softSquare : Table := List.replicate 256 (3 / 8) ++ List.replicate 256 (-3 / 8)

/-- The peak step of `build_bandlimited_set` for `normalizeRMS = false` in
binary32 arithmetic: `pk = max |v|`, and `if (pk > 1.0f) for v: v /= pk`. -/
def peakNormalize32 (t : Table) : Table :=
  let pk := t.foldl (fun pk v => max pk |v|) 0
  if pk > 1 then t.map (fun v => f32 (v / pk)) else t

end msm5232

/-! ## Theorems -/

namespace msm5232

/-- Every sample is bounded by the running peak computed by the fold. -/
theorem abs_le_foldl_max (y : Table) (m : ℚ) :
    m ≤ y.foldl (fun m v => max m |v|) m ∧
    ∀ v ∈ y, |v| ≤ y.foldl (fun m v => max m |v|) m := by
  induction y generalizing m with
  | nil => simp
  | cons a t ih =>
    simp only [List.foldl_cons, List.mem_cons]
    obtain ⟨h1, h2⟩ := ih (max m |a|)
    refine ⟨le_trans (le_max_left _ _) h1, ?_⟩
    intro v hv
    rcases hv with rfl | hv
    · exact le_trans (le_max_right _ _) h1
    · exact h2 v hv

/-- The peak is non-negative and bounds every sample of the table. -/
theorem abs_le_maxAbsOf (y : Table) : 0 ≤ maxAbsOf y ∧ ∀ v ∈ y, |v| ≤ maxAbsOf y :=
  abs_le_foldl_max y 0

/-- After peak normalization every sample has absolute value at most one. -/
theorem normalizeTable_abs_le_one (y : Table) : ∀ v ∈ normalizeTable y, |v| ≤ 1 := by
  obtain ⟨h0, hle⟩ := abs_le_maxAbsOf y
  intro v hv
  unfold normalizeTable at hv
  simp only at hv
  split_ifs at hv with hpos
  · rw [List.mem_map] at hv
    obtain ⟨w, hw, rfl⟩ := hv
    rw [abs_div, abs_of_pos hpos]
    exact (div_le_one hpos).mpr (hle w hw)
  · have hz : maxAbsOf y = 0 := le_antisymm (not_lt.mp hpos) h0
    have := hle v hv
    rw [hz] at this
    exact le_trans this zero_le_one

/-- Peak normalization keeps the number of samples. -/
theorem normalizeTable_length (y : Table) : (normalizeTable y).length = y.length := by
  unfold normalizeTable
  simp only
  split_ifs <;> simp

/-- The quantizer always lands in `[-1, 1]`. -/
theorem quantizeSample_mem (v : ℚ) : -1 ≤ quantizeSample v ∧ quantizeSample v ≤ 1 := by
  unfold quantizeSample
  simp only
  split_ifs <;> constructor <;> linarith

/-- The rounding `cround` of a value in `[-7, 7]` is an integer in `[-7, 7]`. -/
theorem cround_mem_of_abs_le (x : ℚ) (h1 : -7 ≤ x) (h2 : x ≤ 7) :
    -7 ≤ cround x ∧ cround x ≤ 7 := by
  unfold cround
  split_ifs with h
  · constructor
    · have : (0 : Int) ≤ Int.floor (x + 1 / 2) := Int.floor_nonneg.mpr (by linarith)
      linarith
    · have : Int.floor (x + 1 / 2) < 8 := Int.floor_lt.mpr (by push_cast; linarith)
      omega
  · push_neg at h
    constructor
    · have : Int.floor (-x + 1 / 2) < 8 := Int.floor_lt.mpr (by push_cast; linarith)
      omega
    · have : (0 : Int) ≤ Int.floor (-x + 1 / 2) := Int.floor_nonneg.mpr (by linarith)
      linarith

/-- The length of a generated table is `kTableSize = 512`. -/
theorem makeTable_with_offset_length (fast_exp : ℚ → ℚ) (mask : Int) (q : Bool)
    (x_offset : ℚ) (group : Int) :
    (makeTable_with_offset fast_exp mask q x_offset group).length = 512 := by
  unfold makeTable_with_offset
  simp only
  split_ifs <;> simp [normalizeTable_length, kTableSize]

/-- Quantizing a sample of absolute value at most one gives `k / 7` for an
integer `k` between `-7` and `7`. -/
theorem quantizeSample_eq_level (w : ℚ) (hw : |w| ≤ 1) :
    ∃ k : Int, -7 ≤ k ∧ k ≤ 7 ∧ quantizeSample w = (k : ℚ) / 7 := by
  obtain ⟨hlo, hhi⟩ := abs_le.mp hw
  obtain ⟨h1, h2⟩ := cround_mem_of_abs_le (w * 7) (by linarith) (by linarith)
  refine ⟨cround (w * 7), h1, h2, ?_⟩
  have h1q : (-7 : ℚ) ≤ (cround (w * 7) : ℚ) := by exact_mod_cast h1
  have h2q : (cround (w * 7) : ℚ) ≤ 7 := by exact_mod_cast h2
  unfold quantizeSample
  simp only
  have hA : ¬ ((cround (w * 7) : ℚ) / 7 > 1) := by
    rw [gt_iff_lt, not_lt, div_le_iff₀ (by norm_num : (0 : ℚ) < 7)]
    linarith
  have hB : ¬ ((cround (w * 7) : ℚ) / 7 < -1) := by
    rw [not_lt, le_div_iff₀ (by norm_num : (0 : ℚ) < 7)]
    linarith
  rw [if_neg hA, if_neg hB]

/-- C1: for every tone mask `m` in `[1,15]`, each of the three grid variants
built by `Tables::Tables` and either quantization setting, the table
`makeTable_with_offset(m, q, x_offset, group)` has 512 samples and every
sample lies in `[-1, 1]`. -/
theorem C1_table_values_in_unit_range (fast_exp : ℚ → ℚ) (m : Int) (q : Bool)
    (x_offset : ℚ) (group : Int) (_hm1 : 1 ≤ m) (_hm2 : m ≤ 15)
    (_hg : (x_offset, group) ∈ gridVariants) :
    (makeTable_with_offset fast_exp m q x_offset group).length = 512 ∧
    ∀ v ∈ makeTable_with_offset fast_exp m q x_offset group, -1 ≤ v ∧ v ≤ 1 := by
  refine ⟨makeTable_with_offset_length fast_exp m q x_offset group, ?_⟩
  intro v hv
  unfold makeTable_with_offset at hv
  simp only at hv
  split_ifs at hv with hq
  · rw [List.mem_map] at hv
    obtain ⟨w, _, rfl⟩ := hv
    exact quantizeSample_mem w
  · exact abs_le.mp (normalizeTable_abs_le_one _ v hv)

/-- Witness for C1: mask 15, quantized, on the 64-grid. -/
theorem C1_table_values_in_unit_range_witness :
    ((1 : Int) ≤ 15 ∧ (15 : Int) ≤ 15 ∧ ((-375 / 1000 : ℚ), (4 : Int)) ∈ gridVariants) ∧
    ((makeTable_with_offset (fun x => 1 + x + x * x / 2) 15 true (-375 / 1000) 4).length = 512 ∧
      ∀ v ∈ makeTable_with_offset (fun x => 1 + x + x * x / 2) 15 true (-375 / 1000) 4,
        -1 ≤ v ∧ v ≤ 1) :=
  ⟨⟨by decide, by decide, by simp [gridVariants]⟩,
   C1_table_values_in_unit_range (fun x => 1 + x + x * x / 2) 15 true (-375 / 1000) 4
    (by decide) (by decide) (by simp [gridVariants])⟩

/-- C2: for every tone mask `m` in `[1,15]` and every grid variant, each sample
of the quantized table `makeTable_with_offset(m, true, x_offset, group)` equals
`k / 7` for some integer `k` with `-7 ≤ k ≤ 7`. -/
theorem C2_quantized_table_levels (fast_exp : ℚ → ℚ) (m : Int)
    (x_offset : ℚ) (group : Int) (_hm1 : 1 ≤ m) (_hm2 : m ≤ 15)
    (_hg : (x_offset, group) ∈ gridVariants) :
    ∀ v ∈ makeTable_with_offset fast_exp m true x_offset group,
      ∃ k : Int, -7 ≤ k ∧ k ≤ 7 ∧ v = (k : ℚ) / 7 := by
  intro v hv
  unfold makeTable_with_offset at hv
  simp only [if_true] at hv
  rw [List.mem_map] at hv
  obtain ⟨w, hw, rfl⟩ := hv
  exact quantizeSample_eq_level w (normalizeTable_abs_le_one _ w hw)

/-- Witness for C2: mask 5 on the 256-grid. -/
theorem C2_quantized_table_levels_witness :
    ((1 : Int) ≤ 5 ∧ (5 : Int) ≤ 15 ∧ ((-46875 / 100000 : ℚ), (1 : Int)) ∈ gridVariants) ∧
    ∀ v ∈ makeTable_with_offset (fun x => 1 + x + x * x / 2) 5 true (-46875 / 100000) 1,
      ∃ k : Int, -7 ≤ k ∧ k ≤ 7 ∧ v = (k : ℚ) / 7 :=
  ⟨⟨by decide, by decide, by simp [gridVariants]⟩,
   C2_quantized_table_levels (fun x => 1 + x + x * x / 2) 5 (-46875 / 100000) 1
    (by decide) (by decide) (by simp [gridVariants])⟩

/-! ### Harmonic cutoffs `make_harmonic_cuts` -/

/-- The candidate cutoff is always in `[2, 256]`. -/
theorem cutOf_mem (x : ℚ) : 2 ≤ cutOf x ∧ cutOf x ≤ 256 := by
  unfold cutOf
  simp only
  split_ifs <;> constructor <;> omega

/-- On non-negative values `std::round` is `floor(x + 1/2)`. -/
theorem cround_of_nonneg (x : ℚ) (hx : 0 ≤ x) : cround x = Int.floor (x + 1 / 2) := by
  unfold cround
  rw [if_pos hx]

/-- The candidate cutoff is monotone on non-negative values. -/
theorem cutOf_mono (x y : ℚ) (hx : 0 ≤ x) (hxy : x ≤ y) : cutOf x ≤ cutOf y := by
  have hr : cround x ≤ cround y := by
    rw [cround_of_nonneg x hx, cround_of_nonneg y (le_trans hx hxy)]
    exact Int.floor_mono (by linarith)
  unfold cutOf
  simp only
  split_ifs <;> omega

/-- The candidate cutoff of a value of at least 256 is 256. -/
theorem cutOf_eq_top (x : ℚ) (hx : 256 ≤ x) : cutOf x = 256 := by
  have hr : 256 ≤ cround x := by
    rw [cround_of_nonneg x (by linarith)]
    exact Int.le_floor.mpr (by push_cast; linarith)
  unfold cutOf
  simp only
  split_ifs <;> omega

/-- The last element of a non-empty vector, as an optional value. -/
theorem getLast?_of_ne_nil (cuts : List Int) (hne : cuts ≠ []) :
    cuts.getLast? = some (cuts.getLastD 0) := by
  rw [List.getLastD_eq_getLast?, List.getLast?_eq_getLast _ hne]
  rfl

/-- One `push_back` step of the loop keeps the vector good and makes the
candidate its last element, when the candidate is not below the last one. -/
theorem push_keeps_good (cuts : List Int) (c : Int) (hg : GoodCuts cuts)
    (hc : 2 ≤ c ∧ c ≤ 256) (hle : cuts.getLastD 0 ≤ c) :
    GoodCuts (if cuts.isEmpty ∨ c ≠ cuts.getLastD 0 then cuts ++ [c] else cuts) ∧
    (if cuts.isEmpty ∨ c ≠ cuts.getLastD 0 then cuts ++ [c] else cuts).getLastD 0 = c := by
  obtain ⟨hne, hch, hb, hh⟩ := hg
  have hlast := getLast?_of_ne_nil cuts hne
  by_cases hcond : cuts.isEmpty ∨ c ≠ cuts.getLastD 0
  · rw [if_pos hcond]
    have hneq : c ≠ cuts.getLastD 0 := by
      rcases hcond with h | h
      · exact absurd (List.isEmpty_iff.mp h) hne
      · exact h
    have hlt : cuts.getLastD 0 < c := lt_of_le_of_ne hle (Ne.symm hneq)
    refine ⟨⟨by simp, ?_, ?_, ?_⟩, ?_⟩
    · rw [List.chain'_append]
      refine ⟨hch, List.chain'_singleton c, ?_⟩
      intro x hx y hy
      rw [hlast] at hx
      simp only [Option.mem_def, Option.some.injEq] at hx
      simp only [List.head?_cons, Option.mem_def, Option.some.injEq] at hy
      rw [← hx, ← hy]
      exact hlt
    · intro d hd
      rw [List.mem_append, List.mem_singleton] at hd
      rcases hd with hd | hd
      · exact hb d hd
      · rw [hd]; exact hc
    · rw [List.head?_append_of_ne_nil _ hne]
      exact hh
    · rw [List.getLastD_eq_getLast?, List.getLast?_concat]
      rfl
  · rw [if_neg hcond]
    refine ⟨⟨hne, hch, hb, hh⟩, ?_⟩
    push_neg at hcond
    exact hcond.2.symm

/-- The loop of `make_harmonic_cuts` terminates with a good vector ending in
256 as soon as the fuel covers the growth of `cur` up to 256. -/
theorem harmonicCutsLoop_spec (step : ℚ) (hstep : 1 < step) :
    ∀ (fuel : Nat) (cur : ℚ) (cuts : List Int), 2 ≤ cur → 256 ≤ cur * step ^ fuel →
      GoodCuts cuts → cuts.getLastD 0 = cutOf cur →
      ∃ out, harmonicCutsLoop step fuel cur cuts = some out ∧ GoodCuts out ∧
        out.getLastD 0 = 256 := by
  intro fuel
  induction fuel with
  | zero =>
    intro cur cuts _ hbig hg hlast
    have h256 : 256 ≤ cur := by simpa using hbig
    refine ⟨cuts, ?_, hg, ?_⟩
    · simp only [harmonicCutsLoop]
      rw [if_neg (not_lt.mpr h256)]
    · rw [hlast, cutOf_eq_top cur h256]
  | succ fuel ih =>
    intro cur cuts hcur hbig hg hlast
    simp only [harmonicCutsLoop]
    by_cases hlt : cur < 256
    · rw [if_pos hlt]
      have hcur' : cur ≤ cur * step := le_mul_of_one_le_right (by linarith) (le_of_lt hstep)
      have hmono : cuts.getLastD 0 ≤ cutOf (cur * step) := by
        rw [hlast]
        exact cutOf_mono cur (cur * step) (by linarith) hcur'
      obtain ⟨hg', hlast'⟩ := push_keeps_good cuts (cutOf (cur * step)) hg
        (cutOf_mem (cur * step)) hmono
      by_cases htop : cutOf (cur * step) ≥ 256
      · rw [if_pos htop]
        refine ⟨_, rfl, hg', ?_⟩
        rw [hlast']
        have := (cutOf_mem (cur * step)).2
        omega
      · rw [if_neg htop]
        refine ih (cur * step) _ (by linarith) ?_ hg' hlast'
        have hpow : cur * step * step ^ fuel = cur * step ^ (fuel + 1) := by
          rw [pow_succ]; ring
        rw [hpow]
        exact hbig
    · rw [if_neg hlt]
      refine ⟨cuts, rfl, hg, ?_⟩
      rw [hlast, cutOf_eq_top cur (not_lt.mp hlt)]

/-- More fuel does not change a result of the loop. -/
theorem harmonicCutsLoop_fuel_succ (step : ℚ) :
    ∀ (fuel : Nat) (cur : ℚ) (cuts out : List Int),
      harmonicCutsLoop step fuel cur cuts = some out →
      harmonicCutsLoop step (fuel + 1) cur cuts = some out := by
  intro fuel
  induction fuel with
  | zero =>
    intro cur cuts out h
    simp only [harmonicCutsLoop] at h
    split_ifs at h with hlt
    simp only [harmonicCutsLoop]
    rw [if_neg hlt]
    exact h
  | succ fuel ih =>
    intro cur cuts out h
    rw [harmonicCutsLoop] at h
    rw [harmonicCutsLoop]
    by_cases hlt : cur < 256
    · rw [if_pos hlt] at h ⊢
      simp only at h ⊢
      by_cases htop : cutOf (cur * step) ≥ 256
      · rw [if_pos htop] at h ⊢
        exact h
      · rw [if_neg htop] at h ⊢
        exact ih _ _ _ h
    · rw [if_neg hlt] at h ⊢
      exact h

/-- A result of the loop is the result for every larger fuel. -/
theorem harmonicCutsLoop_fuel_le (step : ℚ) (cur : ℚ) (cuts out : List Int)
    (N fuel : Nat) (hle : N ≤ fuel)
    (h : harmonicCutsLoop step N cur cuts = some out) :
    harmonicCutsLoop step fuel cur cuts = some out := by
  induction fuel with
  | zero =>
    have : N = 0 := Nat.le_zero.mp hle
    rw [this] at h
    exact h
  | succ fuel ih =>
    rcases Nat.eq_or_lt_of_le hle with heq | hlt
    · rw [← heq]; exact h
    · exact harmonicCutsLoop_fuel_succ step fuel cur cuts out (ih (Nat.le_of_lt_succ hlt))

/-- The algorithm `std::unique` leaves a strictly ascending vector unchanged. -/
theorem unique_of_chain (l : List Int) (h : l.Chain' (· < ·)) : unique l = l := by
  induction l with
  | nil => rfl
  | cons a t ih =>
    cases t with
    | nil => rfl
    | cons b t =>
      have hab : a < b := (List.chain'_cons.mp h).1
      have ht : (b :: t).Chain' (· < ·) := (List.chain'_cons.mp h).2
      simp only [unique]
      rw [if_neg (ne_of_lt hab), ih ht]

/-- The start value `cur = 2` has candidate cutoff 2. -/
theorem cutOf_two : cutOf 2 = 2 := by
  have h : cround 2 = 2 := by
    rw [cround_of_nonneg 2 (by norm_num)]
    norm_num
  unfold cutOf
  rw [h]
  rfl

/-- C3: for every integer `bandsPerOctave` (a value outside `[1,8]` gives the
result of the nearest bound), `make_harmonic_cuts` returns (for every
sufficient iteration bound, the same) non-empty sequence that is strictly ascending, has all elements in `[2,256]`,
starts at 2 and ends with exactly 256. The library function `std::pow` is a
parameter, assumed to give a step `2^(1/b) > 1` for `b` in `[1,8]`. -/
theorem C3_harmonic_cuts (pow : ℚ → ℚ → ℚ)
    (hpow : ∀ b : Int, 1 ≤ b → b ≤ 8 → 1 < pow 2 (1 / (b : ℚ)))
    (bandsPerOctave : Int) :
    (∀ fuel : Nat, make_harmonic_cuts pow fuel bandsPerOctave
        = make_harmonic_cuts pow fuel (max 1 (min bandsPerOctave 8))) ∧
    ∃ (N : Nat) (cuts : List Int),
      (∀ fuel : Nat, N ≤ fuel → make_harmonic_cuts pow fuel bandsPerOctave = some cuts) ∧
      cuts ≠ [] ∧ cuts.Sorted (· < ·) ∧ (∀ c ∈ cuts, 2 ≤ c ∧ c ≤ 256) ∧
      cuts.head? = some 2 ∧ cuts.getLast? = some 256 := by
  refine ⟨?_, ?_⟩
  · intro fuel
    have hclamp : (if (if bandsPerOctave < 1 then 1 else bandsPerOctave) > 8 then 8
          else (if bandsPerOctave < 1 then 1 else bandsPerOctave))
        = (if (if max 1 (min bandsPerOctave 8) < 1 then 1
              else max 1 (min bandsPerOctave 8)) > 8 then 8
            else (if max 1 (min bandsPerOctave 8) < 1 then 1
              else max 1 (min bandsPerOctave 8))) := by
      split_ifs <;> omega
    unfold make_harmonic_cuts
    simp only [hclamp]
  obtain ⟨b, hb1, hb8, hb⟩ : ∃ b : Int, 1 ≤ b ∧ b ≤ 8 ∧
      (if (if bandsPerOctave < 1 then 1 else bandsPerOctave) > 8 then 8
        else (if bandsPerOctave < 1 then 1 else bandsPerOctave)) = b :=
    ⟨_, by split_ifs <;> omega, by split_ifs <;> omega, rfl⟩
  have hstep : 1 < pow 2 (1 / (b : ℚ)) := hpow b hb1 hb8
  obtain ⟨N, hN⟩ := pow_unbounded_of_one_lt (128 : ℚ) hstep
  have hgood : GoodCuts [2] :=
    ⟨by simp, List.chain'_singleton 2, by intro c hc; simp at hc; omega, rfl⟩
  obtain ⟨out, hout, ⟨hne, hch, hbd, hhd⟩, hlast⟩ :=
    harmonicCutsLoop_spec (pow 2 (1 / (b : ℚ))) hstep N 2 [2] (le_refl _)
      (by linarith) hgood (by rw [cutOf_two]; rfl)
  refine ⟨N, out, ?_, hne, List.chain'_iff_pairwise.mp hch, hbd, hhd, ?_⟩
  · intro fuel hle
    have hrun := harmonicCutsLoop_fuel_le (pow 2 (1 / (b : ℚ))) 2 [2] out N fuel hle hout
    unfold make_harmonic_cuts
    simp only [hb, hrun]
    rw [if_neg (not_not.mpr hlast), unique_of_chain out hch]
  · rw [getLast?_of_ne_nil out hne, hlast]

/-- Witness for C3: the chord stand-in for `std::pow`, one band per octave. -/
theorem C3_harmonic_cuts_witness :
    (∀ b : Int, 1 ≤ b → b ≤ 8 → 1 < chordPow 2 (1 / (b : ℚ))) ∧
    (∀ fuel : Nat, make_harmonic_cuts chordPow fuel 1
        = make_harmonic_cuts chordPow fuel (max 1 (min 1 8))) ∧
    ∃ (N : Nat) (cuts : List Int),
      (∀ fuel : Nat, N ≤ fuel → make_harmonic_cuts chordPow fuel 1 = some cuts) ∧
      cuts ≠ [] ∧ cuts.Sorted (· < ·) ∧ (∀ c ∈ cuts, 2 ≤ c ∧ c ≤ 256) ∧
      cuts.head? = some 2 ∧ cuts.getLast? = some 256 :=
  have h : ∀ b : Int, 1 ≤ b → b ≤ 8 → 1 < chordPow 2 (1 / (b : ℚ)) := by
    intro b h1 _
    have hb : (0 : ℚ) < (b : ℚ) := by exact_mod_cast (lt_of_lt_of_le zero_lt_one h1)
    have hinv : (0 : ℚ) < 1 / (b : ℚ) := div_pos one_pos hb
    unfold chordPow
    linarith
  ⟨h, C3_harmonic_cuts chordPow h 1⟩

/-! ### Table selection `choose_tables_for_freq` -/

/-- The shift `x >> 1` on `int` is the floor division by 2. -/
theorem shiftRight_one (x : Int) : Int.shiftRight x 1 = x / 2 :=
  (Int.shiftRight_eq_div_pow x 1).trans (by norm_num)

/-- The binary search keeps its bracket: started with `lo < hi`,
`hcuts[lo] < hlimit ≤ hcuts[hi]`, it ends with adjacent indices inside
`[lo, hi]` that still bracket `hlimit`. -/
theorem bsearch_spec (hcuts : List Int) (hlimit : ℚ) :
    ∀ (n : Nat) (lo hi : Int), (hi - lo).toNat ≤ n → lo < hi →
      ((hcutAt hcuts lo : Int) : ℚ) < hlimit → hlimit ≤ ((hcutAt hcuts hi : Int) : ℚ) →
      lo ≤ (bsearch hcuts hlimit lo hi).1 ∧
      (bsearch hcuts hlimit lo hi).2 = (bsearch hcuts hlimit lo hi).1 + 1 ∧
      (bsearch hcuts hlimit lo hi).2 ≤ hi ∧
      ((hcutAt hcuts (bsearch hcuts hlimit lo hi).1 : Int) : ℚ) < hlimit ∧
      hlimit ≤ ((hcutAt hcuts (bsearch hcuts hlimit lo hi).2 : Int) : ℚ) := by
  intro n
  induction n with
  | zero =>
    intro lo hi hn hlt _ _
    exfalso; omega
  | succ n ih =>
    intro lo hi hn hlt h1 h2
    rw [bsearch]
    by_cases hgap : hi - lo > 1
    · have hmid := shiftRight_one (lo + hi)
      simp only [if_pos hgap]
      by_cases hc : ((hcutAt hcuts (Int.shiftRight (lo + hi) 1) : Int) : ℚ) < hlimit
      · rw [if_pos hc]
        obtain ⟨a, b, c, d, e⟩ := ih (Int.shiftRight (lo + hi) 1) hi
          (by omega) (by omega) hc h2
        exact ⟨by omega, b, c, d, e⟩
      · rw [if_neg hc]
        obtain ⟨a, b, c, d, e⟩ := ih lo (Int.shiftRight (lo + hi) 1)
          (by omega) (by omega) h1 (not_lt.mp hc)
        exact ⟨a, b, by omega, d, e⟩
    · rw [if_neg hgap]
      exact ⟨le_refl _, by simp only; omega, le_refl _, h1, h2⟩

/-- One iteration of the binary search that moves `lo` up to `mid`. -/
theorem bsearch_step_lt (hcuts : List Int) (hlimit : ℚ) (lo hi mid : Int)
    (hgap : hi - lo > 1) (hmid : (lo + hi) / 2 = mid)
    (h : ((hcutAt hcuts mid : Int) : ℚ) < hlimit) :
    bsearch hcuts hlimit lo hi = bsearch hcuts hlimit mid hi := by
  rw [bsearch]
  simp only [if_pos hgap, shiftRight_one, hmid, if_pos h]

/-- One iteration of the binary search that moves `hi` down to `mid`. -/
theorem bsearch_step_ge (hcuts : List Int) (hlimit : ℚ) (lo hi mid : Int)
    (hgap : hi - lo > 1) (hmid : (lo + hi) / 2 = mid)
    (h : ¬ ((hcutAt hcuts mid : Int) : ℚ) < hlimit) :
    bsearch hcuts hlimit lo hi = bsearch hcuts hlimit lo mid := by
  rw [bsearch]
  simp only [if_pos hgap, shiftRight_one, hmid, if_neg h]

/-- The binary search stops once the indices are adjacent. -/
theorem bsearch_done (hcuts : List Int) (hlimit : ℚ) (lo hi : Int)
    (hgap : ¬ hi - lo > 1) : bsearch hcuts hlimit lo hi = (lo, hi) := by
  rw [bsearch]
  simp only [if_neg hgap]

/-- The element `hcuts[0]` is `hcuts.front()`. -/
theorem hcutAt_zero (hcuts : List Int) : hcutAt hcuts 0 = hcuts.headD 0 := by
  cases hcuts <;> simp [hcutAt]

/-- The element `hcuts[size - 1]` is `hcuts.back()`. -/
theorem hcutAt_last (hcuts : List Int) (hne : hcuts ≠ []) :
    hcutAt hcuts ((hcuts.length : Int) - 1) = hcuts.getLastD 0 := by
  have hpos : 0 < hcuts.length := List.length_pos.mpr hne
  have hidx : ((hcuts.length : Int) - 1).toNat = hcuts.length - 1 := by omega
  unfold hcutAt
  rw [hidx, List.getD_eq_getElem _ _ (by omega), List.getLastD_eq_getLast?,
    List.getLast?_eq_getLast _ hne, List.getLast_eq_getElem]
  rfl

/-- In a strictly ascending cutoff vector, a larger index has a larger cutoff. -/
theorem hcutAt_lt_of_sorted (hcuts : List Int) (hasc : hcuts.Sorted (· < ·))
    (i j : Int) (h0 : 0 ≤ i) (hij : i < j) (hj : j < (hcuts.length : Int)) :
    hcutAt hcuts i < hcutAt hcuts j := by
  unfold hcutAt
  have hi' : i.toNat < hcuts.length := by omega
  have hj' : j.toNat < hcuts.length := by omega
  rw [List.getD_eq_getElem _ _ hi', List.getD_eq_getElem _ _ hj']
  exact List.pairwise_iff_getElem.mp hasc _ _ hi' hj' (by omega)

/-- In a strictly ascending cutoff vector, index order implies cutoff order. -/
theorem hcutAt_le_of_sorted (hcuts : List Int) (hasc : hcuts.Sorted (· < ·))
    (i j : Int) (h0 : 0 ≤ i) (hij : i ≤ j) (hj : j < (hcuts.length : Int)) :
    hcutAt hcuts i ≤ hcutAt hcuts j := by
  rcases eq_or_lt_of_le hij with h | h
  · rw [h]
  · exact le_of_lt (hcutAt_lt_of_sorted hcuts hasc i j h0 h hj)

/-- The harmonic limit for a positive frequency is `(sampleRate / 2) / f0`. -/
theorem hlimitOf_pos (set : BLSet) (f0 sr : ℚ) (hf : 0 < f0) :
    hlimitOf set f0 sr = (sr * (1 / 2)) / f0 := by
  unfold hlimitOf
  rw [if_pos hf]

/-- The harmonic limit for a non-positive frequency is the highest cutoff. -/
theorem hlimitOf_nonpos (set : BLSet) (f0 sr : ℚ) (hf : f0 ≤ 0) :
    hlimitOf set f0 sr = ((set.hcuts.getLastD 0 : Int) : ℚ) := by
  unfold hlimitOf
  rw [if_neg (not_lt.mpr hf)]

/-- Result of `choose_tables_for_freq` on an empty set. -/
theorem choose_empty (set : BLSet) (f0 sr : ℚ) (he : set.tables = []) :
    choose_tables_for_freq set f0 sr = (-1, -1, 0) := by
  unfold choose_tables_for_freq
  simp [he]

/-- Result of `choose_tables_for_freq` at or below the lowest cutoff. -/
theorem choose_low (set : BLSet) (f0 sr : ℚ) (hne : set.tables ≠ [])
    (h : hlimitOf set f0 sr ≤ ((set.hcuts.headD 0 : Int) : ℚ)) :
    choose_tables_for_freq set f0 sr = (0, 0, 0) := by
  unfold choose_tables_for_freq
  have he : set.tables.isEmpty = false := by
    cases ht : set.tables with
    | nil => exact absurd ht hne
    | cons a t => rfl
  simp only [he, Bool.false_eq_true, if_false]
  rw [if_pos h]

/-- Result of `choose_tables_for_freq` above the lowest and at or above the
highest cutoff. -/
theorem choose_high (set : BLSet) (f0 sr : ℚ) (hne : set.tables ≠ [])
    (h1 : ¬ hlimitOf set f0 sr ≤ ((set.hcuts.headD 0 : Int) : ℚ))
    (h2 : hlimitOf set f0 sr ≥ ((set.hcuts.getLastD 0 : Int) : ℚ)) :
    choose_tables_for_freq set f0 sr
      = ((set.hcuts.length : Int) - 1, (set.hcuts.length : Int) - 1, 0) := by
  unfold choose_tables_for_freq
  have he : set.tables.isEmpty = false := by
    cases ht : set.tables with
    | nil => exact absurd ht hne
    | cons a t => rfl
  simp only [he, Bool.false_eq_true, if_false]
  rw [if_neg h1, if_pos h2]

/-- Result of `choose_tables_for_freq` strictly between the lowest and the
highest cutoff: the pair found by the binary search and the eased mix. -/
theorem choose_mid (set : BLSet) (f0 sr : ℚ) (hne : set.tables ≠ [])
    (h1 : ((set.hcuts.headD 0 : Int) : ℚ) < hlimitOf set f0 sr)
    (h2 : hlimitOf set f0 sr < ((set.hcuts.getLastD 0 : Int) : ℚ)) :
    ∃ ia : Int, ∃ t : ℚ,
      choose_tables_for_freq set f0 sr = (ia, ia + 1, t * t * (3 - 2 * t)) ∧
      0 ≤ ia ∧ ia + 1 < (set.hcuts.length : Int) ∧
      ((hcutAt set.hcuts ia : Int) : ℚ) < hlimitOf set f0 sr ∧
      hlimitOf set f0 sr ≤ ((hcutAt set.hcuts (ia + 1) : Int) : ℚ) ∧
      t = (hlimitOf set f0 sr - ((hcutAt set.hcuts ia : Int) : ℚ)) /
          (((hcutAt set.hcuts (ia + 1) : Int) : ℚ) - ((hcutAt set.hcuts ia : Int) : ℚ)) ∧
      0 < t ∧ t ≤ 1 := by
  have he : set.tables.isEmpty = false := by
    cases ht : set.tables with
    | nil => exact absurd ht hne
    | cons a t => rfl
  have hcne : set.hcuts ≠ [] := by
    intro hnil
    rw [hnil] at h1 h2
    simp only [List.headD_nil, List.getLastD_nil] at h1 h2
    exact absurd (lt_trans h1 h2) (lt_irrefl _)
  have hpos : 0 < set.hcuts.length := List.length_pos.mpr hcne
  have hfront : ((hcutAt set.hcuts 0 : Int) : ℚ) < hlimitOf set f0 sr := by
    rw [hcutAt_zero]; exact h1
  have hback : hlimitOf set f0 sr
      ≤ ((hcutAt set.hcuts ((set.hcuts.length : Int) - 1) : Int) : ℚ) := by
    rw [hcutAt_last _ hcne]; exact le_of_lt h2
  have hlt : (0 : Int) < (set.hcuts.length : Int) - 1 := by
    rcases Nat.eq_or_lt_of_le (Nat.succ_le_of_lt hpos) with h | h
    · exfalso
      have hidx : (set.hcuts.length : Int) - 1 = 0 := by omega
      rw [hidx] at hback
      exact absurd (lt_of_lt_of_le hfront hback) (lt_irrefl _)
    · omega
  obtain ⟨a, b, c, d, e⟩ := bsearch_spec set.hcuts (hlimitOf set f0 sr)
    ((set.hcuts.length : Int) - 1).toNat 0 ((set.hcuts.length : Int) - 1)
    (by simp) hlt hfront hback
  generalize hr : bsearch set.hcuts (hlimitOf set f0 sr) 0 ((set.hcuts.length : Int) - 1) = r
    at a b c d e
  have hden : (0 : ℚ) < ((hcutAt set.hcuts r.2 : Int) : ℚ) - ((hcutAt set.hcuts r.1 : Int) : ℚ) := by
    linarith
  have ht0 : 0 < (hlimitOf set f0 sr - ((hcutAt set.hcuts r.1 : Int) : ℚ)) /
      (((hcutAt set.hcuts r.2 : Int) : ℚ) - ((hcutAt set.hcuts r.1 : Int) : ℚ)) :=
    div_pos (by linarith) hden
  have ht1 : (hlimitOf set f0 sr - ((hcutAt set.hcuts r.1 : Int) : ℚ)) /
      (((hcutAt set.hcuts r.2 : Int) : ℚ) - ((hcutAt set.hcuts r.1 : Int) : ℚ)) ≤ 1 :=
    (div_le_one hden).mpr (by linarith)
  refine ⟨r.1, _, ?_, a, by omega, d, by rw [← b]; exact e, by rw [← b], ht0, ht1⟩
  unfold choose_tables_for_freq
  simp only [he, Bool.false_eq_true, if_false]
  rw [if_neg (not_le.mpr h1), if_neg (not_le.mpr h2)]
  simp only [hr]
  rw [if_neg (not_lt.mpr (le_of_lt ht0)), if_neg (not_lt.mpr ht1), ← b]

/-- In a well-formed set (as many cutoffs as tables) the cutoff vector is
empty exactly when the table vector is. -/
theorem hcuts_ne_nil (set : BLSet) (hlen : set.hcuts.length = set.tables.length)
    (hne : set.tables ≠ []) : set.hcuts ≠ [] := by
  intro h
  rw [h] at hlen
  exact hne (List.length_eq_zero.mp hlen.symm)

/-- The indices returned for a non-empty well-formed set are never negative. -/
theorem choose_indices_nonneg (set : BLSet) (f0 sr : ℚ)
    (hlen : set.hcuts.length = set.tables.length) (hne : set.tables ≠ []) :
    0 ≤ (choose_tables_for_freq set f0 sr).1 ∧ 0 ≤ (choose_tables_for_freq set f0 sr).2.1 := by
  have hpos : 0 < set.hcuts.length := List.length_pos.mpr (hcuts_ne_nil set hlen hne)
  by_cases c1 : hlimitOf set f0 sr ≤ ((set.hcuts.headD 0 : Int) : ℚ)
  · rw [choose_low set f0 sr hne c1]
    exact ⟨le_refl _, le_refl _⟩
  · by_cases c2 : hlimitOf set f0 sr ≥ ((set.hcuts.getLastD 0 : Int) : ℚ)
    · rw [choose_high set f0 sr hne c1 c2]
      constructor <;> simp only <;> omega
    · obtain ⟨ia, t, heq, h0, _⟩ := choose_mid set f0 sr hne (not_le.mp c1) (not_le.mp c2)
      rw [heq]
      constructor <;> simp only <;> omega

/-- C4 fails as stated: on the octave set at 48 kHz, raising `f0` from 100 Hz
to 1000 Hz lowers the returned indices from `(6, 7)` to `(3, 4)`. -/
theorem C4_monotone_counterexample :
    octaveSet.hcuts.Sorted (· < ·) ∧ (0 : ℚ) < 48000 ∧ (0 : ℚ) < 100 ∧ (100 : ℚ) ≤ 1000 ∧
    (choose_tables_for_freq octaveSet 100 48000).1 = 6 ∧
    (choose_tables_for_freq octaveSet 100 48000).2.1 = 7 ∧
    (choose_tables_for_freq octaveSet 1000 48000).1 = 3 ∧
    (choose_tables_for_freq octaveSet 1000 48000).2.1 = 4 ∧
    ¬ ((choose_tables_for_freq octaveSet 100 48000).1
          ≤ (choose_tables_for_freq octaveSet 1000 48000).1 ∧
        (choose_tables_for_freq octaveSet 100 48000).2.1
          ≤ (choose_tables_for_freq octaveSet 1000 48000).2.1) := by
  have e3 : hcutAt octaveSet.hcuts 3 = 16 := rfl
  have e4 : hcutAt octaveSet.hcuts 4 = 32 := rfl
  have e5 : hcutAt octaveSet.hcuts 5 = 64 := rfl
  have e6 : hcutAt octaveSet.hcuts 6 = 128 := rfl
  have e7 : hcutAt octaveSet.hcuts 7 = 256 := rfl
  have hA : bsearch octaveSet.hcuts 240 0 7 = (6, 7) := by
    rw [bsearch_step_lt _ _ 0 7 3 (by norm_num) (by norm_num) (by rw [e3]; norm_num),
      bsearch_step_lt _ _ 3 7 5 (by norm_num) (by norm_num) (by rw [e5]; norm_num),
      bsearch_step_lt _ _ 5 7 6 (by norm_num) (by norm_num) (by rw [e6]; norm_num),
      bsearch_done _ _ 6 7 (by norm_num)]
  have hB : bsearch octaveSet.hcuts 24 0 7 = (3, 4) := by
    rw [bsearch_step_lt _ _ 0 7 3 (by norm_num) (by norm_num) (by rw [e3]; norm_num),
      bsearch_step_ge _ _ 3 7 5 (by norm_num) (by norm_num) (by rw [e5]; norm_num),
      bsearch_step_ge _ _ 3 5 4 (by norm_num) (by norm_num) (by rw [e4]; norm_num),
      bsearch_done _ _ 3 4 (by norm_num)]
  have h100 : hlimitOf octaveSet 100 48000 = 240 := by norm_num [hlimitOf]
  have h1000 : hlimitOf octaveSet 1000 48000 = 24 := by norm_num [hlimitOf]
  have hlen : ((octaveSet.hcuts.length : Int) - 1) = 7 := rfl
  have hfront : octaveSet.hcuts.headD 0 = 2 := rfl
  have hback : octaveSet.hcuts.getLastD 0 = 256 := rfl
  have hempty : octaveSet.tables.isEmpty = false := rfl
  have r100 : choose_tables_for_freq octaveSet 100 48000
      = (6, 7, (choose_tables_for_freq octaveSet 100 48000).2.2) := by
    unfold choose_tables_for_freq
    simp only [hempty, Bool.false_eq_true, if_false, h100, hfront, hback, hlen, hA]
    norm_num
  have r1000 : choose_tables_for_freq octaveSet 1000 48000
      = (3, 4, (choose_tables_for_freq octaveSet 1000 48000).2.2) := by
    unfold choose_tables_for_freq
    simp only [hempty, Bool.false_eq_true, if_false, h1000, hfront, hback, hlen, hB]
    norm_num
  refine ⟨by unfold octaveSet; decide, by norm_num, by norm_num, by norm_num, ?_, ?_, ?_, ?_, ?_⟩
  · rw [r100]
  · rw [r100]
  · rw [r1000]
  · rw [r1000]
  · rw [r100, r1000]
    norm_num

/-- C4 (amended): the returned indices are monotonic non-increasing in `f0`:
for every well-formed set with strictly ascending cutoffs, every sample rate
`> 0` and all `0 < f0 ≤ f0'`, the indices `(ia, ib)` returned for `f0'` are `≤`
those returned for `f0` (a higher pitch selects a table with fewer harmonics). -/
theorem C4_indices_antitone_in_f0 (set : BLSet) (sr f0 f0' : ℚ)
    (hlen : set.hcuts.length = set.tables.length)
    (hasc : set.hcuts.Sorted (· < ·)) (hsr : 0 < sr) (hf0 : 0 < f0) (hle : f0 ≤ f0') :
    (choose_tables_for_freq set f0' sr).1 ≤ (choose_tables_for_freq set f0 sr).1 ∧
    (choose_tables_for_freq set f0' sr).2.1 ≤ (choose_tables_for_freq set f0 sr).2.1 := by
  by_cases he : set.tables = []
  · rw [choose_empty set f0 sr he, choose_empty set f0' sr he]
    exact ⟨le_refl _, le_refl _⟩
  have hcne := hcuts_ne_nil set hlen he
  have hmono : hlimitOf set f0' sr ≤ hlimitOf set f0 sr := by
    rw [hlimitOf_pos set f0 sr hf0, hlimitOf_pos set f0' sr (lt_of_lt_of_le hf0 hle)]
    exact div_le_div_of_nonneg_left (by linarith) hf0 hle
  by_cases c1' : hlimitOf set f0' sr ≤ ((set.hcuts.headD 0 : Int) : ℚ)
  · rw [choose_low set f0' sr he c1']
    exact choose_indices_nonneg set f0 sr hlen he
  have c1 : ¬ hlimitOf set f0 sr ≤ ((set.hcuts.headD 0 : Int) : ℚ) :=
    fun h => c1' (le_trans hmono h)
  by_cases c2' : hlimitOf set f0' sr ≥ ((set.hcuts.getLastD 0 : Int) : ℚ)
  · rw [choose_high set f0' sr he c1' c2', choose_high set f0 sr he c1 (le_trans c2' hmono)]
    exact ⟨le_refl _, le_refl _⟩
  obtain ⟨ia', t', heq', h0', hlt', hlo', hhi', _⟩ :=
    choose_mid set f0' sr he (not_le.mp c1') (not_le.mp c2')
  rw [heq']
  by_cases c2 : hlimitOf set f0 sr ≥ ((set.hcuts.getLastD 0 : Int) : ℚ)
  · rw [choose_high set f0 sr he c1 c2]
    constructor <;> simp only <;> omega
  obtain ⟨ia, t, heq, h0, hlt, hlo, hhi, _⟩ :=
    choose_mid set f0 sr he (not_le.mp c1) (not_le.mp c2)
  rw [heq]
  have hia : ia' ≤ ia := by
    by_contra hcon
    have hidx : ia + 1 ≤ ia' := by omega
    have hcut := hcutAt_le_of_sorted set.hcuts hasc (ia + 1) ia' (by omega) hidx (by omega)
    have hcutq : ((hcutAt set.hcuts (ia + 1) : Int) : ℚ) ≤ ((hcutAt set.hcuts ia' : Int) : ℚ) := by
      exact_mod_cast hcut
    linarith
  constructor <;> simp only <;> omega

/-- Witness for C4 (amended): the octave set at 48 kHz, 100 Hz and 1000 Hz. -/
theorem C4_indices_antitone_in_f0_witness :
    (octaveSet.hcuts.length = octaveSet.tables.length ∧
      octaveSet.hcuts.Sorted (· < ·) ∧ (0 : ℚ) < 48000 ∧ (0 : ℚ) < 100 ∧
      (100 : ℚ) ≤ 1000) ∧
    ((choose_tables_for_freq octaveSet 1000 48000).1
        ≤ (choose_tables_for_freq octaveSet 100 48000).1 ∧
      (choose_tables_for_freq octaveSet 1000 48000).2.1
        ≤ (choose_tables_for_freq octaveSet 100 48000).2.1) :=
  ⟨⟨rfl, by unfold octaveSet; decide, by norm_num, by norm_num, by norm_num⟩,
   C4_indices_antitone_in_f0 octaveSet 48000 100 1000 rfl (by unfold octaveSet; decide)
    (by norm_num) (by norm_num) (by norm_num)⟩

/-- C5: for a well-formed band-limited set (as many cutoffs as tables, cutoffs
strictly ascending) and `hlimit` the harmonic limit computed by the code
(`(sampleRate/2)/f0` for `f0 > 0`): an empty set gives `(-1,-1,0)`; a non-empty
set gives `(0,0,0)` when `hlimit ≤` the lowest cutoff and `(last,last,0)` when
`hlimit ≥` the highest cutoff or `f0 ≤ 0`; a one-table set always gives
`ia = ib` and `mix = 0`. -/
theorem C5_range_extremes (set : BLSet) (f0 sr : ℚ)
    (hlen : set.hcuts.length = set.tables.length)
    (hasc : set.hcuts.Sorted (· < ·)) :
    (set.tables = [] → choose_tables_for_freq set f0 sr = (-1, -1, 0)) ∧
    (set.tables ≠ [] → hlimitOf set f0 sr ≤ ((set.hcuts.headD 0 : Int) : ℚ) →
      choose_tables_for_freq set f0 sr = (0, 0, 0)) ∧
    (set.tables ≠ [] →
      (hlimitOf set f0 sr ≥ ((set.hcuts.getLastD 0 : Int) : ℚ) ∨ f0 ≤ 0) →
      choose_tables_for_freq set f0 sr
        = ((set.hcuts.length : Int) - 1, (set.hcuts.length : Int) - 1, 0)) ∧
    (set.tables.length = 1 →
      (choose_tables_for_freq set f0 sr).1 = (choose_tables_for_freq set f0 sr).2.1 ∧
      (choose_tables_for_freq set f0 sr).2.2 = 0) := by
  have hhigh : set.tables ≠ [] →
      hlimitOf set f0 sr ≥ ((set.hcuts.getLastD 0 : Int) : ℚ) →
      choose_tables_for_freq set f0 sr
        = ((set.hcuts.length : Int) - 1, (set.hcuts.length : Int) - 1, 0) := by
    intro hne h2
    have hcne := hcuts_ne_nil set hlen hne
    have hpos : 0 < set.hcuts.length := List.length_pos.mpr hcne
    by_cases c1 : hlimitOf set f0 sr ≤ ((set.hcuts.headD 0 : Int) : ℚ)
    · rw [choose_low set f0 sr hne c1]
      have hone : (set.hcuts.length : Int) - 1 = 0 := by
        by_contra hcon
        have hlt := hcutAt_lt_of_sorted set.hcuts hasc 0 ((set.hcuts.length : Int) - 1)
          (le_refl _) (by omega) (by omega)
        rw [hcutAt_zero, hcutAt_last _ hcne] at hlt
        have hltq : ((set.hcuts.headD 0 : Int) : ℚ) < ((set.hcuts.getLastD 0 : Int) : ℚ) := by
          exact_mod_cast hlt
        linarith
      rw [hone]
    · exact choose_high set f0 sr hne c1 h2
  refine ⟨choose_empty set f0 sr, fun hne h => choose_low set f0 sr hne h, ?_, ?_⟩
  · intro hne h
    rcases h with h | h
    · exact hhigh hne h
    · exact hhigh hne (le_of_eq (hlimitOf_nonpos set f0 sr h).symm)
  · intro hone
    have hne : set.tables ≠ [] := by
      intro h
      rw [h] at hone
      exact absurd hone (by simp)
    by_cases c1 : hlimitOf set f0 sr ≤ ((set.hcuts.headD 0 : Int) : ℚ)
    · rw [choose_low set f0 sr hne c1]
      exact ⟨rfl, rfl⟩
    · have hfb : set.hcuts.getLastD 0 = set.hcuts.headD 0 := by
        have h1 : set.hcuts.length = 1 := by rw [hlen, hone]
        obtain ⟨a, ha⟩ := List.length_eq_one.mp h1
        rw [ha]
        rfl
      have c2 : hlimitOf set f0 sr ≥ ((set.hcuts.getLastD 0 : Int) : ℚ) := by
        rw [hfb]
        exact le_of_lt (not_le.mp c1)
      rw [choose_high set f0 sr hne c1 c2]
      exact ⟨rfl, rfl⟩

/-- Witness for C5: the octave set at 48 kHz and 100 Hz. -/
theorem C5_range_extremes_witness :
    (octaveSet.hcuts.length = octaveSet.tables.length ∧
      octaveSet.hcuts.Sorted (· < ·)) ∧
    ((octaveSet.tables = [] → choose_tables_for_freq octaveSet 100 48000 = (-1, -1, 0)) ∧
    (octaveSet.tables ≠ [] →
      hlimitOf octaveSet 100 48000 ≤ ((octaveSet.hcuts.headD 0 : Int) : ℚ) →
      choose_tables_for_freq octaveSet 100 48000 = (0, 0, 0)) ∧
    (octaveSet.tables ≠ [] →
      (hlimitOf octaveSet 100 48000 ≥ ((octaveSet.hcuts.getLastD 0 : Int) : ℚ) ∨
        (100 : ℚ) ≤ 0) →
      choose_tables_for_freq octaveSet 100 48000
        = ((octaveSet.hcuts.length : Int) - 1, (octaveSet.hcuts.length : Int) - 1, 0)) ∧
    (octaveSet.tables.length = 1 →
      (choose_tables_for_freq octaveSet 100 48000).1
        = (choose_tables_for_freq octaveSet 100 48000).2.1 ∧
      (choose_tables_for_freq octaveSet 100 48000).2.2 = 0)) :=
  ⟨⟨rfl, by unfold octaveSet; decide⟩,
   C5_range_extremes octaveSet 100 48000 rfl (by unfold octaveSet; decide)⟩

/-! ### ADSR envelope -/

/-- The per-sample step of a stage is never negative when the sample rate is
above 1. -/
theorem stage_step_nonneg (t sr : ℚ) (hsr : 1 < sr) :
    0 ≤ (if t ≤ 1 / 100000 then (1 : ℚ) else 1 / (t * sr)) := by
  split_ifs with h
  · norm_num
  · push_neg at h
    have ht : 0 < t := lt_trans (by norm_num) h
    have : 0 < t * sr := mul_pos ht (by linarith)
    exact le_of_lt (div_pos one_pos this)

/-- The function `std::clamp(v, 0, 1)` lands in `[0, 1]`. -/
theorem clamp_unit_mem (v : ℚ) : 0 ≤ clamp v 0 1 ∧ clamp v 0 1 ≤ 1 := by
  unfold clamp
  split_ifs with h1 h2
  · exact ⟨le_refl _, zero_le_one⟩
  · exact ⟨zero_le_one, le_refl _⟩
  · exact ⟨not_lt.mp h1, not_lt.mp h2⟩

/-- One call of `process()` keeps the level invariant. -/
theorem ADSR.advance_inv (e : ADSR) (h : e.Inv) : e.advance.Inv := by
  obtain ⟨h0, h1, hsr⟩ := h
  rcases e with ⟨s, p, sr, env⟩
  simp only at h0 h1 hsr
  cases s
  · exact ⟨le_refl _, zero_le_one, hsr⟩
  · have hstep := stage_step_nonneg p.attack sr hsr
    simp only [ADSR.advance]
    generalize (if p.attack ≤ 1 / 100000 then (1 : ℚ) else 1 / (p.attack * sr)) = st at hstep ⊢
    split_ifs with hge
    · exact ⟨zero_le_one, le_refl _, hsr⟩
    · exact ⟨by simp only; linarith, by simp only; linarith, hsr⟩
  · have hstep := stage_step_nonneg p.decay sr hsr
    obtain ⟨ht0, ht1⟩ := clamp_unit_mem p.sustain
    simp only [ADSR.advance]
    generalize (if p.decay ≤ 1 / 100000 then (1 : ℚ) else 1 / (p.decay * sr)) = st at hstep ⊢
    have hprod := mul_nonneg hstep (sub_nonneg.mpr ht1)
    split_ifs with hle
    · exact ⟨ht0, ht1, hsr⟩
    · exact ⟨by simp only; linarith, by simp only; linarith, hsr⟩
  · exact ⟨h0, h1, hsr⟩
  · have hstep := stage_step_nonneg p.release sr hsr
    simp only [ADSR.advance]
    generalize (if p.release ≤ 1 / 100000 then (1 : ℚ) else 1 / (p.release * sr)) = st at hstep ⊢
    have hprod := mul_nonneg hstep (le_max_right env 0)
    split_ifs with hle
    · exact ⟨le_refl _, zero_le_one, hsr⟩
    · refine ⟨?_, ?_, hsr⟩
      · simp only
        have : (0 : ℚ) < 1 / 100000 := by norm_num
        linarith
      · simp only; linarith

/-- Every interface call keeps the level invariant, and every level returned
by `process()` along a run is in `[0, 1]`. -/
theorem ADSR.run_levels (cs : List ADSR.Call) :
    ∀ e : ADSR, e.Inv → ∀ v ∈ (e.run cs).2, 0 ≤ v ∧ v ≤ 1 := by
  induction cs with
  | nil => intro e _ v hv; simp [ADSR.run] at hv
  | cons c cs ih =>
    intro e he v hv
    cases c with
    | setSampleRate sr =>
      refine ih (e.setSampleRate sr) ?_ v hv
      refine ⟨he.1, he.2.1, ?_⟩
      simp only [ADSR.setSampleRate]
      split_ifs with h
      · exact h
      · norm_num
    | set p => exact ih (e.set p) ⟨he.1, he.2.1, he.2.2⟩ v hv
    | gate b =>
      refine ih (e.gate b) ?_ v hv
      unfold ADSR.gate
      split_ifs
      · exact ⟨he.1, he.2.1, he.2.2⟩
      · exact ⟨he.1, he.2.1, he.2.2⟩
      · exact he
    | process =>
      have hadv := ADSR.advance_inv e he
      simp only [ADSR.run, ADSR.process, List.mem_cons] at hv
      rcases hv with rfl | hv
      · exact ⟨hadv.1, hadv.2.1⟩
      · exact ih e.advance hadv v hv

/-- C9: `gate(true)` puts the envelope in Attack from every state; `gate(false)`
puts it in Release from Attack, Decay, Sustain and Release and leaves Idle as
Idle; neither call changes the level (nor the parameters or the sample rate);
`isActive()` is true exactly when the state is not Idle. -/
theorem C9_gate_transitions (s : ADSR.State) (p : ADSRParams) (sr env : ℚ) :
    ADSR.gate ⟨s, p, sr, env⟩ true = ⟨ADSR.State.Attack, p, sr, env⟩ ∧
    ADSR.gate ⟨ADSR.State.Idle, p, sr, env⟩ false = ⟨ADSR.State.Idle, p, sr, env⟩ ∧
    ADSR.gate ⟨ADSR.State.Attack, p, sr, env⟩ false = ⟨ADSR.State.Release, p, sr, env⟩ ∧
    ADSR.gate ⟨ADSR.State.Decay, p, sr, env⟩ false = ⟨ADSR.State.Release, p, sr, env⟩ ∧
    ADSR.gate ⟨ADSR.State.Sustain, p, sr, env⟩ false = ⟨ADSR.State.Release, p, sr, env⟩ ∧
    ADSR.gate ⟨ADSR.State.Release, p, sr, env⟩ false = ⟨ADSR.State.Release, p, sr, env⟩ ∧
    (ADSR.isActive ⟨s, p, sr, env⟩ = true ↔ s ≠ ADSR.State.Idle) := by
  refine ⟨?_, ?_, ?_, ?_, ?_, ?_, ?_⟩
  · simp [ADSR.gate]
  · simp [ADSR.gate]
  · simp [ADSR.gate]
  · simp [ADSR.gate]
  · simp [ADSR.gate]
  · simp [ADSR.gate]
  · cases s <;> simp [ADSR.isActive]

/-- C10: starting from a fresh envelope, for every sequence of `setSampleRate`,
`set`, `gate(true)`, `gate(false)` and `process()` calls, with arbitrary sample
rates and ADSR parameters (negative times and sustain outside `[0,1]`
included), every level returned by `process()` is in `[0, 1]`. -/
theorem C10_level_in_unit_interval (cs : List ADSR.Call) :
    ∀ v ∈ (ADSR.run {} cs).2, 0 ≤ v ∧ v ≤ 1 := by
  refine ADSR.run_levels cs {} ⟨?_, ?_, ?_⟩
  · exact le_refl _
  · exact zero_le_one
  · norm_num

/-- The levels returned along `degenerateCalls` from a fresh envelope. -/
theorem degenerateCalls_levels : (ADSR.run {} degenerateCalls).2 = [1, 1, 0] := by
  have h1 : ADSR.set {} { attack := -1, decay := -1, sustain := 5, release := -1 }
      = ⟨ADSR.State.Idle, { attack := -1, decay := -1, sustain := 5, release := -1 },
          48000, 0⟩ := rfl
  have h2 : ADSR.setSampleRate
      ⟨ADSR.State.Idle, { attack := -1, decay := -1, sustain := 5, release := -1 }, 48000, 0⟩
        (-3)
      = ⟨ADSR.State.Idle, { attack := -1, decay := -1, sustain := 5, release := -1 },
          48000, 0⟩ := by
    simp only [ADSR.setSampleRate]
    norm_num
  have h3 : ADSR.gate
      ⟨ADSR.State.Idle, { attack := -1, decay := -1, sustain := 5, release := -1 }, 48000, 0⟩
        true
      = ⟨ADSR.State.Attack, { attack := -1, decay := -1, sustain := 5, release := -1 },
          48000, 0⟩ := by
    simp [ADSR.gate]
  have h4 : ADSR.advance
      ⟨ADSR.State.Attack, { attack := -1, decay := -1, sustain := 5, release := -1 }, 48000, 0⟩
      = ⟨ADSR.State.Decay, { attack := -1, decay := -1, sustain := 5, release := -1 },
          48000, 1⟩ := by
    simp only [ADSR.advance]
    norm_num
  have h5 : ADSR.advance
      ⟨ADSR.State.Decay, { attack := -1, decay := -1, sustain := 5, release := -1 }, 48000, 1⟩
      = ⟨ADSR.State.Sustain, { attack := -1, decay := -1, sustain := 5, release := -1 },
          48000, 1⟩ := by
    simp only [ADSR.advance, clamp]
    norm_num
  have h6 : ADSR.gate
      ⟨ADSR.State.Sustain, { attack := -1, decay := -1, sustain := 5, release := -1 }, 48000, 1⟩
        false
      = ⟨ADSR.State.Release, { attack := -1, decay := -1, sustain := 5, release := -1 },
          48000, 1⟩ := by
    simp [ADSR.gate]
  have h7 : ADSR.advance
      ⟨ADSR.State.Release, { attack := -1, decay := -1, sustain := 5, release := -1 }, 48000, 1⟩
      = ⟨ADSR.State.Idle, { attack := -1, decay := -1, sustain := 5, release := -1 },
          48000, 0⟩ := by
    simp only [ADSR.advance]
    norm_num
  simp only [degenerateCalls, ADSR.run, ADSR.process, h1, h2, h3, h4, h5, h6, h7]

/-- Witness for C10: the last level returned along `degenerateCalls`. -/
theorem C10_level_in_unit_interval_witness :
    (0 : ℚ) ∈ (ADSR.run {} degenerateCalls).2 ∧ ((0 : ℚ) ≤ 0 ∧ (0 : ℚ) ≤ 1) :=
  have hmem : (0 : ℚ) ∈ (ADSR.run {} degenerateCalls).2 := by
    rw [degenerateCalls_levels]
    simp
  ⟨hmem, C10_level_in_unit_interval degenerateCalls 0 hmem⟩

/-! ### Voice pool: `Synth::noteOn` and `Synth::noteOff` -/

/-- The local `limit` of `noteOn` is in `[1, 32]` for a pool of 32 voices and
equals `clamp(polyphony, 1, 32)`. -/
theorem Synth.limit_bounds (s : Synth) (hlen : s.voices_.length = 32) :
    1 ≤ s.limit ∧ s.limit ≤ 32 ∧ s.limit = max 1 (min s.params_.polyphony 32) := by
  unfold Synth.limit
  rw [hlen]
  push_cast
  omega

/-- The scan for a free slot either finds no inactive voice below `L` and
returns `-1`, or returns the lowest index of an inactive voice below `L`. -/
theorem firstInactive_cases (voices : List Voice) (L : Nat) :
    (firstInactive voices L = -1 ∧ ∀ i : Nat, i < L → (voices.getD i {}).active_ = true) ∨
    (∃ i : Nat, firstInactive voices L = (i : Int) ∧ i < L ∧
      (voices.getD i {}).active_ = false ∧
      ∀ j : Nat, j < i → (voices.getD j {}).active_ = true) := by
  unfold firstInactive
  cases h : (List.range L).find? (fun i => !(voices.getD i {}).active_) with
  | none =>
    left
    refine ⟨rfl, ?_⟩
    intro i hi
    have := List.find?_eq_none.mp h i (List.mem_range.mpr hi)
    simpa using this
  | some i =>
    right
    obtain ⟨hp, hmem, hmin⟩ := List.find?_range_eq_some.mp h
    refine ⟨i, rfl, List.mem_range.mp hmem, by simpa using hp, ?_⟩
    intro j hj
    have := hmin j hj
    simpa using this

/-- The slot chosen by `noteOn` is a valid index below `limit`. -/
theorem Synth.allocIndex_mem (s : Synth) (hlen : s.voices_.length = 32)
    (hnv : 0 ≤ s.nextVoice_) : 0 ≤ s.allocIndex ∧ s.allocIndex < s.limit := by
  obtain ⟨h1, _, _⟩ := s.limit_bounds hlen
  unfold Synth.allocIndex
  rcases firstInactive_cases s.voices_ s.limit.toNat with ⟨h, _⟩ | ⟨i, h, hi, _, _⟩
  · simp only [h]
    rw [if_pos (by norm_num)]
    rw [Int.tmod_eq_emod hnv (by omega)]
    exact ⟨Int.emod_nonneg _ (by omega), Int.emod_lt_of_pos _ (by omega)⟩
  · simp only [h]
    rw [if_neg (by omega)]
    omega

/-- When a slot below `limit` is inactive, `noteOn` takes the lowest such slot
and leaves the round-robin index alone. -/
theorem Synth.allocIndex_free (m : Libm) (s : Synth) (note vel : Int) (i : Nat)
    (hi : (i : Int) < s.limit) (hfree : (s.voices_.getD i {}).active_ = false) :
    0 ≤ s.allocIndex ∧ s.allocIndex ≤ (i : Int) ∧
    (s.voices_.getD s.allocIndex.toNat {}).active_ = false ∧
    (∀ j : Nat, (j : Int) < s.allocIndex → (s.voices_.getD j {}).active_ = true) ∧
    (s.noteOn m note vel).nextVoice_ = s.nextVoice_ := by
  rcases firstInactive_cases s.voices_ s.limit.toNat with ⟨h, hall⟩ | ⟨k, h, hk, hkf, hmin⟩
  · have := hall i (by omega)
    rw [hfree] at this
    exact absurd this (by simp)
  · have hidx : s.allocIndex = (k : Int) := by
      unfold Synth.allocIndex
      simp only [h]
      rw [if_neg (by omega)]
    have hle : k ≤ i := by
      by_contra hcon
      have := hmin i (by omega)
      rw [hfree] at this
      exact absurd this (by simp)
    refine ⟨by omega, by omega, ?_, ?_, ?_⟩
    · rw [hidx]; simpa using hkf
    · intro j hj
      exact hmin j (by omega)
    · unfold Synth.noteOn
      simp only [h]
      rw [if_neg (by omega)]

/-- When every slot below `limit` is active, `noteOn` steals slot
`nextVoice mod limit` and advances the round-robin index cyclically. -/
theorem Synth.allocIndex_steal (m : Libm) (s : Synth) (note vel : Int)
    (hall : ∀ i : Nat, (i : Int) < s.limit → (s.voices_.getD i {}).active_ = true) :
    s.allocIndex = Int.tmod s.nextVoice_ s.limit ∧
    (s.noteOn m note vel).nextVoice_ = Int.tmod (s.nextVoice_ + 1) s.limit := by
  have hfirst : firstInactive s.voices_ s.limit.toNat = -1 := by
    rcases firstInactive_cases s.voices_ s.limit.toNat with ⟨h, _⟩ | ⟨k, _, hk, hkf, _⟩
    · exact h
    · have := hall k (by omega)
      rw [hkf] at this
      exact absurd this (by simp)
  constructor
  · unfold Synth.allocIndex
    simp only [hfirst]
    rw [if_pos (by norm_num)]
  · unfold Synth.noteOn
    simp only [hfirst]
    rw [if_pos (by norm_num)]

/-- The voices after `noteOn`: the chosen slot holds the voice after
`Voice::noteOn`, the other slots are unchanged. -/
theorem Synth.noteOn_voices (m : Libm) (s : Synth) (note vel : Int) :
    (s.noteOn m note vel).voices_ =
      s.voices_.set s.allocIndex.toNat
        ((s.voices_.getD s.allocIndex.toNat {}).noteOn m note vel) := rfl

/-- The call `noteOn` changes neither the parameters nor the pool size. -/
theorem Synth.noteOn_frame (m : Libm) (s : Synth) (note vel : Int) :
    (s.noteOn m note vel).params_ = s.params_ ∧
    (s.noteOn m note vel).voices_.length = s.voices_.length ∧
    (s.noteOn m note vel).limit = s.limit := by
  have hlen : (s.noteOn m note vel).voices_.length = s.voices_.length := by
    rw [Synth.noteOn_voices, List.length_set]
  refine ⟨rfl, hlen, ?_⟩
  unfold Synth.limit
  rw [hlen]
  rfl

/-- Reading slot `j` after writing slot `i` of the pool. -/
theorem getD_set_voice (l : List Voice) (i j : Nat) (a d : Voice) (hi : i < l.length) :
    (l.set i a).getD j d = if i = j then a else l.getD j d := by
  rw [List.getD_eq_getElem?_getD, List.getElem?_set]
  by_cases hij : i = j
  · subst hij
    rw [if_pos rfl, if_pos hi, if_pos rfl]
    rfl
  · rw [if_neg hij, if_neg hij, List.getD_eq_getElem?_getD]

/-- C11: on a Synth with no active voices and `params.polyphony = 1`,
`noteOn(a, v1)` followed by `noteOn(b, v2)` leaves exactly one active voice in
the whole pool, and that voice's note is `b`. -/
theorem C11_steal_with_polyphony_one (m : Libm) (s : Synth) (a v1 b v2 : Int)
    (hlen : s.voices_.length = 32) (hnone : ∀ v ∈ s.voices_, v.active_ = false)
    (hpoly : s.params_.polyphony = 1) :
    ((s.noteOn m a v1).noteOn m b v2).activeCount = 1 ∧
    ∀ v ∈ ((s.noteOn m a v1).noteOn m b v2).voices_, v.active_ = true → v.note_ = b := by
  obtain ⟨v0, rest, hv⟩ : ∃ v0 rest, s.voices_ = v0 :: rest := by
    cases hvs : s.voices_ with
    | nil => rw [hvs] at hlen; simp at hlen
    | cons v0 rest => exact ⟨v0, rest, rfl⟩
  have hrest : ∀ v ∈ rest, v.active_ = false := by
    intro v hvm
    exact hnone v (by rw [hv]; exact List.mem_cons_of_mem _ hvm)
  have hlim : s.limit = 1 := by
    rw [(s.limit_bounds hlen).2.2, hpoly]
    rfl
  have hfree : (s.voices_.getD 0 {}).active_ = false := by
    rw [hv]
    exact hnone v0 (by rw [hv]; exact List.mem_cons_self _ _)
  have hidx1 : s.allocIndex = 0 := by
    obtain ⟨h0, h1, _⟩ := Synth.allocIndex_free m s a v1 0 (by rw [hlim]; norm_num) hfree
    have h1' : s.allocIndex ≤ 0 := by simpa using h1
    omega
  have hvoices1 : (s.noteOn m a v1).voices_ = (v0.noteOn m a v1) :: rest := by
    rw [Synth.noteOn_voices, hidx1, hv]
    rfl
  have hlim1 : (s.noteOn m a v1).limit = 1 := by
    rw [(Synth.noteOn_frame m s a v1).2.2, hlim]
  have hidx2 : (s.noteOn m a v1).allocIndex = 0 := by
    have hall : ∀ i : Nat, (i : Int) < (s.noteOn m a v1).limit →
        ((s.noteOn m a v1).voices_.getD i {}).active_ = true := by
      intro i hi
      rw [hlim1] at hi
      have hi0 : i = 0 := by omega
      rw [hi0, hvoices1]
      rfl
    rw [(Synth.allocIndex_steal m (s.noteOn m a v1) b v2 hall).1, hlim1, Int.tmod_one]
  have hvoices2 : ((s.noteOn m a v1).noteOn m b v2).voices_
      = ((v0.noteOn m a v1).noteOn m b v2) :: rest := by
    rw [Synth.noteOn_voices, hidx2, hvoices1]
    rfl
  have hfilter : rest.filter (fun v => v.active_) = [] := by
    rw [List.filter_eq_nil_iff]
    intro v hvm
    rw [hrest v hvm]
    simp
  constructor
  · unfold Synth.activeCount
    rw [hvoices2, List.filter_cons_of_pos (by rfl), hfilter]
    rfl
  · intro v hvm hact
    rw [hvoices2] at hvm
    rcases List.mem_cons.mp hvm with h | h
    · rw [h]
      rfl
    · rw [hrest v h] at hact
      exact absurd hact (by simp)

/-- Every voice of a freshly constructed engine is inactive. -/
theorem Synth.fresh_inactive (m : Libm) : ∀ v ∈ (Synth.fresh m).voices_, v.active_ = false := by
  intro v hv
  have : v = {} := List.eq_of_mem_replicate hv
  rw [this]

/-- A freshly constructed engine has 32 voices. -/
theorem Synth.fresh_length (m : Libm) : (Synth.fresh m).voices_.length = 32 :=
  List.length_replicate 32 _

/-- C12: `noteOff(n)` when no active voice is playing note `n` leaves the
entire Synth state unchanged. -/
theorem C12_noteOff_without_match (s : Synth) (n : Int)
    (h : ∀ v ∈ s.voices_, ¬ (v.active_ = true ∧ v.note_ = n)) :
    s.noteOff n = s := by
  have hmap : s.voices_.map (fun v => if v.active_ ∧ v.note_ = n then v.noteOff else v)
      = s.voices_ := by
    conv_rhs => rw [← List.map_id s.voices_]
    apply List.map_congr_left
    intro v hv
    rw [if_neg (h v hv)]
    rfl
  unfold Synth.noteOff
  rw [hmap]

/-- Witness for C12: `noteOff(60)` on a freshly constructed engine. -/
theorem C12_noteOff_without_match_witness :
    (∀ v ∈ (Synth.fresh refLibm).voices_, ¬ (v.active_ = true ∧ v.note_ = 60)) ∧
    (Synth.fresh refLibm).noteOff 60 = Synth.fresh refLibm :=
  have h : ∀ v ∈ (Synth.fresh refLibm).voices_, ¬ (v.active_ = true ∧ v.note_ = 60) := by
    intro v hv hcon
    rw [Synth.fresh_inactive refLibm v hv] at hcon
    exact absurd hcon.1 (by simp)
  ⟨h, C12_noteOff_without_match (Synth.fresh refLibm) 60 h⟩

/-- Witness for C11: notes 60 and 64 on `monoSynth`. -/
theorem C11_steal_with_polyphony_one_witness :
    (monoSynth.voices_.length = 32 ∧ (∀ v ∈ monoSynth.voices_, v.active_ = false) ∧
      monoSynth.params_.polyphony = 1) ∧
    (((monoSynth.noteOn refLibm 60 100).noteOn refLibm 64 90).activeCount = 1 ∧
      ∀ v ∈ ((monoSynth.noteOn refLibm 60 100).noteOn refLibm 64 90).voices_,
        v.active_ = true → v.note_ = 64) :=
  ⟨⟨Synth.fresh_length refLibm, Synth.fresh_inactive refLibm, rfl⟩,
   C11_steal_with_polyphony_one refLibm monoSynth 60 100 64 90
    (Synth.fresh_length refLibm) (Synth.fresh_inactive refLibm) rfl⟩

/-- After `noteOn` with every slot below `limit` active, every slot below
`limit` is still active. -/
theorem Synth.noteOn_keeps_full (m : Libm) (s : Synth) (note vel : Int)
    (hlen : s.voices_.length = 32) (hnv : 0 ≤ s.nextVoice_)
    (hall : ∀ i : Nat, (i : Int) < s.limit → (s.voices_.getD i {}).active_ = true) :
    ∀ i : Nat, (i : Int) < (s.noteOn m note vel).limit →
      ((s.noteOn m note vel).voices_.getD i {}).active_ = true := by
  intro i hi
  rw [(Synth.noteOn_frame m s note vel).2.2] at hi
  obtain ⟨h0, h1⟩ := s.allocIndex_mem hlen hnv
  obtain ⟨_, h32, _⟩ := s.limit_bounds hlen
  rw [Synth.noteOn_voices, getD_set_voice _ _ _ _ _ (by omega)]
  split_ifs
  · rfl
  · exact hall i hi

/-- Consecutive steals walk the slots cyclically: with every slot below
`limit` active, the slots chosen by a sequence of `noteOn` calls are
`(nextVoice + j) mod limit` for `j = 0, 1, ...`. -/
theorem Synth.allocTrace_steal (m : Libm) :
    ∀ (notes : List (Int × Int)) (s : Synth), s.voices_.length = 32 → 0 ≤ s.nextVoice_ →
      (∀ i : Nat, (i : Int) < s.limit → (s.voices_.getD i {}).active_ = true) →
      Synth.allocTrace m s notes
        = (List.range notes.length).map (fun (j : Nat) => (s.nextVoice_ + (j : Int)) % s.limit) := by
  intro notes
  induction notes with
  | nil => intro s _ _ _; rfl
  | cons nv rest ih =>
    intro s hlen hnv hall
    obtain ⟨hl1, _, _⟩ := s.limit_bounds hlen
    obtain ⟨hidx, hnext⟩ := Synth.allocIndex_steal m s nv.1 nv.2 hall
    obtain ⟨_, hlen', hlim'⟩ := Synth.noteOn_frame m s nv.1 nv.2
    have hnext' : (s.noteOn m nv.1 nv.2).nextVoice_ = (s.nextVoice_ + 1) % s.limit := by
      rw [hnext, Int.tmod_eq_emod (by omega) (by omega)]
    have hnv' : 0 ≤ (s.noteOn m nv.1 nv.2).nextVoice_ := by
      rw [hnext']
      exact Int.emod_nonneg _ (by omega)
    have hrec := ih (s.noteOn m nv.1 nv.2) (by rw [hlen', hlen]) hnv'
      (Synth.noteOn_keeps_full m s nv.1 nv.2 hlen hnv hall)
    simp only [Synth.allocTrace, List.length_cons]
    rw [hrec, List.range_succ_eq_map, List.map_cons, List.map_map, hidx,
      Int.tmod_eq_emod hnv (by omega), hlim', hnext']
    congr 1
    · simp
    · apply List.map_congr_left
      intro j _
      simp only [Function.comp, Nat.succ_eq_add_one]
      rw [Int.emod_add_emod]
      congr 1
      push_cast
      ring

/-- A full cycle `(k + j) mod L`, `j = 0..L-1`, contains every residue
`0..L-1` exactly once. -/
theorem cycle_count_one (k L : Int) (hL : 0 < L) (i : Nat) (hi : (i : Int) < L) :
    ((List.range L.toNat).map (fun (j : Nat) => (k + (j : Int)) % L)).count (i : Int) = 1 := by
  apply List.count_eq_one_of_mem
  · apply List.Nodup.map_on _ (List.nodup_range _)
    intro x hx y hy hxy
    have hx' : (x : Int) < L := by have := List.mem_range.mp hx; omega
    have hy' : (y : Int) < L := by have := List.mem_range.mp hy; omega
    have hmod : ((k + (x : Int)) - (k + (y : Int))) % L = 0 :=
      Int.emod_eq_emod_iff_emod_sub_eq_zero.mp hxy
    have hdvd : L ∣ ((x : Int) - (y : Int)) := by
      have := Int.dvd_of_emod_eq_zero hmod
      have he : (k + (x : Int)) - (k + (y : Int)) = (x : Int) - (y : Int) := by ring
      rwa [he] at this
    have habs : |(x : Int) - (y : Int)| < L := by
      rw [abs_lt]
      constructor <;> omega
    have := Int.eq_zero_of_abs_lt_dvd hdvd habs
    omega
  · rw [List.mem_map]
    have hj0 : 0 ≤ ((i : Int) - k) % L := Int.emod_nonneg _ (by omega)
    have hj1 : ((i : Int) - k) % L < L := Int.emod_lt_of_pos _ hL
    refine ⟨(((i : Int) - k) % L).toNat, List.mem_range.mpr (by omega), ?_⟩
    rw [Int.toNat_of_nonneg hj0, Int.add_emod_emod]
    have he : k + ((i : Int) - k) = (i : Int) := by ring
    rw [he]
    exact Int.emod_eq_of_lt (by omega) hi

/-- C16: with `limit = clamp(polyphony, 1, 32)`, `noteOn` chooses an index in
`[0, limit)`; it is the lowest-index inactive slot among `0..limit-1` when one
exists (and the round-robin index is then left alone); when all of them are
active it is `nextVoice mod limit` and `nextVoice` becomes
`(nextVoice + 1) mod limit`, so `limit` consecutive steals choose the slots
`(nextVoice + j) mod limit`, `j = 0..limit-1`, each slot `0..limit-1` exactly
once, for every note, velocity and envelope state. -/
theorem C16_allocation_policy (m : Libm) (s : Synth)
    (hlen : s.voices_.length = 32) (hnv : 0 ≤ s.nextVoice_) :
    (s.limit = max 1 (min s.params_.polyphony 32) ∧ 0 ≤ s.allocIndex ∧
      s.allocIndex < s.limit) ∧
    (∀ i : Nat, (i : Int) < s.limit → (s.voices_.getD i {}).active_ = false →
      s.allocIndex ≤ (i : Int) ∧
      (s.voices_.getD s.allocIndex.toNat {}).active_ = false ∧
      (∀ j : Nat, (j : Int) < s.allocIndex → (s.voices_.getD j {}).active_ = true) ∧
      ∀ note vel : Int, (s.noteOn m note vel).nextVoice_ = s.nextVoice_) ∧
    ((∀ i : Nat, (i : Int) < s.limit → (s.voices_.getD i {}).active_ = true) →
      s.allocIndex = s.nextVoice_ % s.limit ∧
      (∀ note vel : Int, (s.noteOn m note vel).nextVoice_ = (s.nextVoice_ + 1) % s.limit) ∧
      ∀ notes : List (Int × Int), notes.length = s.limit.toNat →
        Synth.allocTrace m s notes
          = (List.range s.limit.toNat).map
              (fun (j : Nat) => (s.nextVoice_ + (j : Int)) % s.limit) ∧
        ∀ i : Nat, (i : Int) < s.limit →
          (Synth.allocTrace m s notes).count (i : Int) = 1) := by
  obtain ⟨hl1, hl32, hleq⟩ := s.limit_bounds hlen
  obtain ⟨h0, h1⟩ := s.allocIndex_mem hlen hnv
  refine ⟨⟨hleq, h0, h1⟩, ?_, ?_⟩
  · intro i hi hfree
    obtain ⟨_, hle, hin, hmin, _⟩ := Synth.allocIndex_free m s 0 0 i hi hfree
    exact ⟨hle, hin, hmin, fun note vel => (Synth.allocIndex_free m s note vel i hi hfree).2.2.2.2⟩
  · intro hall
    refine ⟨?_, ?_, ?_⟩
    · rw [(Synth.allocIndex_steal m s 0 0 hall).1, Int.tmod_eq_emod hnv (by omega)]
    · intro note vel
      rw [(Synth.allocIndex_steal m s note vel hall).2, Int.tmod_eq_emod (by omega) (by omega)]
    · intro notes hn
      have htrace := Synth.allocTrace_steal m notes s hlen hnv hall
      rw [hn] at htrace
      refine ⟨htrace, ?_⟩
      intro i hi
      rw [htrace]
      exact cycle_count_one s.nextVoice_ s.limit (by omega) i hi

/-- Witness for C16: a freshly constructed engine. -/
theorem C16_allocation_policy_witness :
    ((Synth.fresh refLibm).voices_.length = 32 ∧ 0 ≤ (Synth.fresh refLibm).nextVoice_) ∧
    ((Synth.fresh refLibm).limit = max 1 (min (Synth.fresh refLibm).params_.polyphony 32) ∧
      0 ≤ (Synth.fresh refLibm).allocIndex ∧
      (Synth.fresh refLibm).allocIndex < (Synth.fresh refLibm).limit) ∧
    (∀ i : Nat, (i : Int) < (Synth.fresh refLibm).limit →
      ((Synth.fresh refLibm).voices_.getD i {}).active_ = false →
      (Synth.fresh refLibm).allocIndex ≤ (i : Int) ∧
      ((Synth.fresh refLibm).voices_.getD (Synth.fresh refLibm).allocIndex.toNat {}).active_
        = false ∧
      (∀ j : Nat, (j : Int) < (Synth.fresh refLibm).allocIndex →
        ((Synth.fresh refLibm).voices_.getD j {}).active_ = true) ∧
      ∀ note vel : Int,
        ((Synth.fresh refLibm).noteOn refLibm note vel).nextVoice_
          = (Synth.fresh refLibm).nextVoice_) ∧
    ((∀ i : Nat, (i : Int) < (Synth.fresh refLibm).limit →
        ((Synth.fresh refLibm).voices_.getD i {}).active_ = true) →
      (Synth.fresh refLibm).allocIndex
        = (Synth.fresh refLibm).nextVoice_ % (Synth.fresh refLibm).limit ∧
      (∀ note vel : Int, ((Synth.fresh refLibm).noteOn refLibm note vel).nextVoice_
        = ((Synth.fresh refLibm).nextVoice_ + 1) % (Synth.fresh refLibm).limit) ∧
      ∀ notes : List (Int × Int), notes.length = (Synth.fresh refLibm).limit.toNat →
        Synth.allocTrace refLibm (Synth.fresh refLibm) notes
          = (List.range (Synth.fresh refLibm).limit.toNat).map
              (fun (j : Nat) =>
                ((Synth.fresh refLibm).nextVoice_ + (j : Int)) % (Synth.fresh refLibm).limit) ∧
        ∀ i : Nat, (i : Int) < (Synth.fresh refLibm).limit →
          (Synth.allocTrace refLibm (Synth.fresh refLibm) notes).count (i : Int) = 1) :=
  ⟨⟨Synth.fresh_length refLibm, le_refl _⟩,
   C16_allocation_policy refLibm (Synth.fresh refLibm) (Synth.fresh_length refLibm) (le_refl _)⟩

/-- On a freshly constructed engine `noteOn` chooses slot 0. -/
theorem Synth.fresh_allocIndex (m : Libm) : (Synth.fresh m).allocIndex = 0 := by
  have hfree : ((Synth.fresh m).voices_.getD 0 {}).active_ = false := rfl
  have hlim : (0 : Int) < (Synth.fresh m).limit := by
    have := ((Synth.fresh m).limit_bounds (Synth.fresh_length m)).1
    omega
  obtain ⟨h0, h1, _⟩ := Synth.allocIndex_free m (Synth.fresh m) 0 0 0 (by exact_mod_cast hlim) hfree
  have h1' : (Synth.fresh m).allocIndex ≤ 0 := by simpa using h1
  omega

/-- The pool of a freshly constructed engine after one `noteOn`: slot 0 holds
the new note, the other 31 voices are untouched. -/
theorem Synth.fresh_noteOn_voices (m : Libm) (note vel : Int) :
    ((Synth.fresh m).noteOn m note vel).voices_
      = (({} : Voice).noteOn m note vel) :: List.replicate 31 {} := by
  rw [Synth.noteOn_voices, Synth.fresh_allocIndex]
  rfl

/-- C13 fails as stated: on a freshly constructed engine `noteOn(200, 100)`
leaves the allocated voice (slot 0) playing note 200, not `clamp(200,0,127) =
127`; and after `noteOn(127, 100)`, `noteOff(200)` does not release the voice
playing 127 (its envelope stays in Attack). -/
theorem C13_note_clamp_counterexample :
    (Synth.fresh refLibm).allocIndex = 0 ∧
    ((((Synth.fresh refLibm).noteOn refLibm 200 100).voices_.getD 0 {}).note_ = 200) ∧
    max 0 (min (200 : Int) 127) = 127 ∧
    ¬ ((((Synth.fresh refLibm).noteOn refLibm 200 100).voices_.getD 0 {}).note_
        = max 0 (min (200 : Int) 127)) ∧
    ((((Synth.fresh refLibm).noteOn refLibm 127 100).voices_.getD 0 {}).note_ = 127) ∧
    (((((Synth.fresh refLibm).noteOn refLibm 127 100).noteOff 200).voices_.getD 0 {}).env_.state_
      = ADSR.State.Attack) := by
  have h200 := Synth.fresh_noteOn_voices refLibm 200 100
  have h127 := Synth.fresh_noteOn_voices refLibm 127 100
  refine ⟨Synth.fresh_allocIndex refLibm, ?_, by decide, ?_, ?_, ?_⟩
  · rw [h200]; rfl
  · rw [h200]
    show ¬ ((200 : Int) = max 0 (min (200 : Int) 127))
    decide
  · rw [h127]; rfl
  · unfold Synth.noteOff
    simp only [h127, List.map_cons, List.getD_cons_zero]
    have hne : ¬ ((({} : Voice).noteOn refLibm 127 100).active_ = true ∧
        (({} : Voice).noteOn refLibm 127 100).note_ = 200) := by
      intro h
      have h2 : (127 : Int) = 200 := h.2
      exact absurd h2 (by decide)
    rw [if_neg hne]
    rfl

/-- Reading slot `i` of the pool after `noteOff`. -/
theorem Synth.noteOff_getD (s : Synth) (note : Int) (i : Nat) (hi : i < s.voices_.length) :
    (s.noteOff note).voices_.getD i {} =
      if (s.voices_.getD i {}).active_ = true ∧ (s.voices_.getD i {}).note_ = note
      then (s.voices_.getD i {}).noteOff else s.voices_.getD i {} := by
  unfold Synth.noteOff
  simp only
  rw [List.getD_eq_getElem?_getD, List.getD_eq_getElem?_getD, List.getElem?_map,
    List.getElem?_eq_getElem hi]
  rfl

/-- C13 (amended): note numbers are stored as given, neither clamped nor
rejected: for every integer note, `noteOn(note, vel)` leaves the allocated
voice active and playing `note` itself, with base frequency
`440 * 2^((note-69)/12)` of the unclamped note and velocity gain
`clamp(vel,0,127)/127`; `noteOff(note)` gates into Release exactly the active
voices whose stored note equals `note` and leaves every other voice unchanged. -/
theorem C13_note_stored_unclamped (m : Libm) (s : Synth) (note vel : Int)
    (hlen : s.voices_.length = 32) (hnv : 0 ≤ s.nextVoice_) :
    (((s.noteOn m note vel).voices_.getD s.allocIndex.toNat {}).note_ = note ∧
      ((s.noteOn m note vel).voices_.getD s.allocIndex.toNat {}).baseFreq_
        = 440 * m.pow 2 (((note - 69 : Int) : ℚ) / 12) ∧
      ((s.noteOn m note vel).voices_.getD s.allocIndex.toNat {}).velocity_
        = ((max 0 (min 127 vel) : Int) : ℚ) / 127 ∧
      ((s.noteOn m note vel).voices_.getD s.allocIndex.toNat {}).active_ = true) ∧
    ∀ i : Nat, i < 32 →
      (s.noteOff note).voices_.getD i {} =
        if (s.voices_.getD i {}).active_ = true ∧ (s.voices_.getD i {}).note_ = note
        then { s.voices_.getD i {} with env_ := (s.voices_.getD i {}).env_.gate false }
        else s.voices_.getD i {} := by
  obtain ⟨h0, h1⟩ := s.allocIndex_mem hlen hnv
  obtain ⟨_, h32, _⟩ := s.limit_bounds hlen
  have hget : (s.noteOn m note vel).voices_.getD s.allocIndex.toNat {}
      = (s.voices_.getD s.allocIndex.toNat {}).noteOn m note vel := by
    rw [Synth.noteOn_voices, getD_set_voice _ _ _ _ _ (by omega), if_pos rfl]
  refine ⟨?_, ?_⟩
  · rw [hget]
    exact ⟨rfl, rfl, rfl, rfl⟩
  · intro i hi
    rw [Synth.noteOff_getD s note i (by omega)]
    rfl

/-- Witness for C13 (amended): note 200 on a freshly constructed engine. -/
theorem C13_note_stored_unclamped_witness :
    ((Synth.fresh refLibm).voices_.length = 32 ∧ 0 ≤ (Synth.fresh refLibm).nextVoice_) ∧
    ((((Synth.fresh refLibm).noteOn refLibm 200 100).voices_.getD
        (Synth.fresh refLibm).allocIndex.toNat {}).note_ = 200 ∧
      (((Synth.fresh refLibm).noteOn refLibm 200 100).voices_.getD
        (Synth.fresh refLibm).allocIndex.toNat {}).baseFreq_
        = 440 * refLibm.pow 2 (((200 - 69 : Int) : ℚ) / 12) ∧
      (((Synth.fresh refLibm).noteOn refLibm 200 100).voices_.getD
        (Synth.fresh refLibm).allocIndex.toNat {}).velocity_
        = ((max 0 (min 127 100) : Int) : ℚ) / 127 ∧
      (((Synth.fresh refLibm).noteOn refLibm 200 100).voices_.getD
        (Synth.fresh refLibm).allocIndex.toNat {}).active_ = true) ∧
    ∀ i : Nat, i < 32 →
      ((Synth.fresh refLibm).noteOff 200).voices_.getD i {} =
        if ((Synth.fresh refLibm).voices_.getD i {}).active_ = true ∧
            ((Synth.fresh refLibm).voices_.getD i {}).note_ = 200
        then { (Synth.fresh refLibm).voices_.getD i {} with
          env_ := ((Synth.fresh refLibm).voices_.getD i {}).env_.gate false }
        else (Synth.fresh refLibm).voices_.getD i {} :=
  ⟨⟨Synth.fresh_length refLibm, le_refl _⟩,
   C13_note_stored_unclamped refLibm (Synth.fresh refLibm) 200 100
    (Synth.fresh_length refLibm) (le_refl _)⟩

/-! ### Polyphony bound -/

/-- Mapping a function that keeps the active flag over the pool keeps the
active flag of every slot. -/
theorem map_getD_active (l : List Voice) (f : Voice → Voice)
    (hf : ∀ v, (f v).active_ = v.active_) (i : Nat) :
    ((l.map f).getD i {}).active_ = (l.getD i {}).active_ := by
  rw [List.getD_eq_getElem?_getD, List.getD_eq_getElem?_getD, List.getElem?_map]
  cases l[i]? with
  | none => rfl
  | some v => exact hf v

/-- A slot that is active after mapping a flag-preserving function over the
pool was active before. -/
theorem active_of_map (l : List Voice) (f : Voice → Voice) (i : Nat)
    (h : ((l.map f).getD i {}).active_ = true)
    (hf : ∀ v, (f v).active_ = v.active_) : (l.getD i {}).active_ = true := by
  rw [map_getD_active l f hf i] at h
  exact h

/-- The relation `NoNewActive` is reflexive. -/
theorem Synth.NoNewActive.refl (s : Synth) : s.NoNewActive s :=
  ⟨rfl, rfl, fun _ h => h⟩

/-- The relation `NoNewActive` is transitive. -/
theorem Synth.NoNewActive.trans {s s' s'' : Synth} (h1 : s.NoNewActive s')
    (h2 : s'.NoNewActive s'') : s.NoNewActive s'' :=
  ⟨h2.1.trans h1.1, h2.2.1.trans h1.2.1, fun i h => h1.2.2 i (h2.2.2 i h)⟩

/-- The pool invariant survives a call that activates no voice and does not
lower `limit`. -/
theorem Synth.PoolInv.of_noNewActive {s s' : Synth} (h : s.PoolInv) (hn : s.NoNewActive s')
    (hlim : s.limit ≤ s'.limit) : s'.PoolInv := by
  obtain ⟨hlen, hnv, hact⟩ := h
  obtain ⟨hlen', hnv', hact'⟩ := hn
  refine ⟨by rw [hlen', hlen], by rw [hnv']; exact hnv, ?_⟩
  intro i hi
  exact lt_of_lt_of_le (hact i (hact' i hi)) hlim

/-- With no active voice, no slot is active. -/
theorem Synth.inactive_of_activeCount_zero (s : Synth) (h : s.activeCount = 0) (i : Nat) :
    (s.voices_.getD i {}).active_ = false := by
  unfold Synth.activeCount at h
  have hnil : s.voices_.filter (fun v => v.active_) = [] := List.length_eq_zero.mp h
  rw [List.filter_eq_nil_iff] at hnil
  rw [List.getD_eq_getElem?_getD]
  cases hget : s.voices_[i]? with
  | none => rfl
  | some v =>
    have hmem : v ∈ s.voices_ := List.mem_iff_getElem?.mpr ⟨i, hget⟩
    have := hnil v hmem
    simpa using this

/-- Under the pool invariant the number of active voices is at most `limit`. -/
theorem Synth.PoolInv.activeCount_le {s : Synth} (h : s.PoolInv) :
    (s.activeCount : Int) ≤ s.limit := by
  obtain ⟨hlen, _, hact⟩ := h
  obtain ⟨hl1, hl32, _⟩ := s.limit_bounds hlen
  have hsplit : s.voices_ = s.voices_.take s.limit.toNat ++ s.voices_.drop s.limit.toNat :=
    (List.take_append_drop _ _).symm
  have hdrop : (s.voices_.drop s.limit.toNat).filter (fun v => v.active_) = [] := by
    rw [List.filter_eq_nil_iff]
    intro v hv
    obtain ⟨j, hj, hvj⟩ := List.mem_iff_getElem.mp hv
    rw [List.getElem_drop] at hvj
    intro hav
    have hidx : s.limit.toNat + j < s.voices_.length := by
      rw [List.length_drop] at hj
      omega
    have hget : s.voices_.getD (s.limit.toNat + j) {} = v := by
      rw [List.getD_eq_getElem _ _ hidx]
      exact hvj
    have := hact (s.limit.toNat + j) (by rw [hget]; exact hav)
    omega
  unfold Synth.activeCount
  rw [hsplit, List.filter_append, hdrop, List.append_nil]
  have h1 := List.length_filter_le (fun v => v.active_) (s.voices_.take s.limit.toNat)
  have h2 : (s.voices_.take s.limit.toNat).length ≤ s.limit.toNat := by
    rw [List.length_take]
    exact Nat.min_le_left _ _
  omega

/-- The voice loop of `process` keeps the pool size and activates no voice. -/
theorem forActiveVoices_spec (body : Voice → ℚ → Voice × ℚ) :
    ∀ (vs : List Voice) (acc : ℚ),
      (forActiveVoices body vs acc).1.length = vs.length ∧
      ∀ i : Nat, ((forActiveVoices body vs acc).1.getD i {}).active_ = true →
        (vs.getD i {}).active_ = true := by
  intro vs
  induction vs with
  | nil => intro acc; exact ⟨rfl, fun _ h => h⟩
  | cons v vs ih =>
    intro acc
    simp only [forActiveVoices]
    by_cases hv : v.active_ = true
    · rw [if_pos hv]
      obtain ⟨hl, ha⟩ := ih (body v acc).2
      refine ⟨by simp [hl], ?_⟩
      intro i hi
      cases i with
      | zero => exact hv
      | succ j => exact ha j hi
    · rw [if_neg hv]
      obtain ⟨hl, ha⟩ := ih acc
      refine ⟨by simp [hl], ?_⟩
      intro i hi
      cases i with
      | zero => exact hi
      | succ j => exact ha j hi

/-- One sample of `process` keeps the parameters and activates no voice. -/
theorem Synth.tick_noNewActive (m : Libm) (s : Synth) (lfoInc d comp : ℚ) :
    s.NoNewActive (s.tick m lfoInc d comp).1 ∧ (s.tick m lfoInc d comp).1.params_ = s.params_ := by
  refine ⟨⟨?_, rfl, ?_⟩, rfl⟩
  · simp only [Synth.tick]
    split_ifs
    · exact (forActiveVoices_spec _ s.voices_ 0).1
    · exact (forActiveVoices_spec _ s.voices_ 0).1
  · simp only [Synth.tick]
    split_ifs
    · exact (forActiveVoices_spec _ s.voices_ 0).2
    · exact (forActiveVoices_spec _ s.voices_ 0).2

/-- The sample loop of `process` keeps the parameters and activates no voice. -/
theorem Synth.sampleLoop_noNewActive (m : Libm) (lfoInc d comp : ℚ) :
    ∀ (k n : Nat) (s : Synth) (outL outR : List ℚ),
      s.NoNewActive (Synth.sampleLoop m lfoInc d comp k n s outL outR).1 ∧
      (Synth.sampleLoop m lfoInc d comp k n s outL outR).1.params_ = s.params_ := by
  intro k
  induction k with
  | zero => intro n s outL outR; exact ⟨Synth.NoNewActive.refl s, rfl⟩
  | succ k ih =>
    intro n s outL outR
    simp only [Synth.sampleLoop]
    obtain ⟨h1, hp1⟩ := Synth.tick_noNewActive m s lfoInc d comp
    obtain ⟨h2, hp2⟩ := ih (n + 1) (s.tick m lfoInc d comp).1
      (outL.set n (s.tick m lfoInc d comp).2) (outR.set n (s.tick m lfoInc d comp).2)
    exact ⟨h1.trans h2, hp2.trans hp1⟩

/-- The limit depends only on the polyphony parameter and the pool size. -/
theorem Synth.limit_congr {s s' : Synth} (hp : s'.params_.polyphony = s.params_.polyphony)
    (hl : s'.voices_.length = s.voices_.length) : s'.limit = s.limit := by
  unfold Synth.limit
  rw [hp, hl]

/-- The call `setup` keeps the parameters and the active flags. -/
theorem Synth.setup_noNewActive (s : Synth) (sr : ℚ) :
    s.NoNewActive (s.setup sr) ∧ (s.setup sr).params_ = s.params_ := by
  refine ⟨⟨?_, rfl, ?_⟩, rfl⟩
  · simp only [Synth.setup, List.length_map]
  · intro i hi
    simp only [Synth.setup] at hi
    exact active_of_map _ _ i hi (fun v => rfl)

/-- The call `noteOff` keeps the parameters and the active flags. -/
theorem Synth.noteOff_noNewActive (s : Synth) (note : Int) :
    s.NoNewActive (s.noteOff note) ∧ (s.noteOff note).params_ = s.params_ := by
  refine ⟨⟨?_, rfl, ?_⟩, rfl⟩
  · simp only [Synth.noteOff, List.length_map]
  · intro i hi
    simp only [Synth.noteOff] at hi
    exact active_of_map _ _ i hi (fun v => by split_ifs <;> rfl)

/-- The first part of `setParams` stores the new parameters and keeps the
pool size, the round-robin index and the active flags. -/
theorem Synth.setParamsCore_noNewActive (m : Libm) (s : Synth) (p : SynthParams) :
    s.NoNewActive (s.setParamsCore m p) ∧ (s.setParamsCore m p).params_ = p := by
  have hre : ∀ t : Synth, t.NoNewActive (t.rebuildEffective m) ∧
      (t.rebuildEffective m).params_ = t.params_ := by
    intro t
    refine ⟨⟨?_, ?_, ?_⟩, ?_⟩
    · simp only [Synth.rebuildEffective]
      split_ifs <;> simp only [List.length_map]
    · simp only [Synth.rebuildEffective]
      split_ifs <;> rfl
    · intro i hi
      simp only [Synth.rebuildEffective] at hi
      split_ifs at hi <;> exact active_of_map _ _ i hi (fun v => rfl)
    · simp only [Synth.rebuildEffective]
      split_ifs <;> rfl
  have hadsr : ∀ t : Synth, t.NoNewActive t.pushADSR ∧ t.pushADSR.params_ = t.params_ := by
    intro t
    refine ⟨⟨?_, rfl, ?_⟩, rfl⟩
    · simp only [Synth.pushADSR, List.length_map]
    · intro i hi
      simp only [Synth.pushADSR] at hi
      exact active_of_map _ _ i hi (fun v => rfl)
  have h1 : s.NoNewActive { s with params_ := p } := ⟨rfl, rfl, fun _ h => h⟩
  have hstage : ∀ (c : Bool) (t : Synth) (f : Synth → Synth),
      (∀ u : Synth, u.NoNewActive (f u) ∧ (f u).params_ = u.params_) →
      t.NoNewActive (if c then f t else t) ∧ (if c then f t else t).params_ = t.params_ := by
    intro c t f hf
    cases c
    · exact ⟨Synth.NoNewActive.refl t, rfl⟩
    · exact hf t
  have htable : ∀ u : Synth, u.NoNewActive u.reselectTable ∧ u.reselectTable.params_ = u.params_ :=
    fun u => ⟨⟨rfl, rfl, fun _ h => h⟩, rfl⟩
  unfold Synth.setParamsCore
  simp only
  generalize ((p.toneMask != s.params_.toneMask) ||
    (p.quantize4 != s.params_.quantize4) || (p.tableLen != s.params_.tableLen)) = c1
  generalize ((p.adsr.attack != s.params_.adsr.attack) ||
    (p.adsr.decay != s.params_.adsr.decay) || (p.adsr.sustain != s.params_.adsr.sustain) ||
    (p.adsr.release != s.params_.adsr.release)) = c2
  obtain ⟨n2, p2⟩ := hstage c1 { s with params_ := p } Synth.reselectTable htable
  generalize (if c1 = true then ({ s with params_ := p } : Synth).reselectTable
    else { s with params_ := p }) = s2 at n2 p2 ⊢
  obtain ⟨n3, p3⟩ := hstage c2 s2 Synth.pushADSR hadsr
  generalize (if c2 = true then s2.pushADSR else s2) = s3 at n3 p3 ⊢
  generalize (c1 || ((p.preHighCutMode != s.params_.preHighCutMode) ||
    (p.preHighCutMaxNote != s.params_.preHighCutMaxNote)) || !s3.preCutValid_) = c4
  obtain ⟨n4, p4⟩ := hstage c4 s3 (Synth.rebuildEffective m) hre
  exact ⟨((h1.trans n2).trans n3).trans n4, by rw [p4, p3, p2]⟩

/-- The last part of `setParams` keeps everything but the band-limited set. -/
theorem Synth.rebuildBLSet_noNewActive (m : Libm) (fuel : Nat) (t t' : Synth)
    (ht : t.rebuildBLSet m fuel = some t') : t.NoNewActive t' ∧ t'.params_ = t.params_ := by
  simp only [Synth.rebuildBLSet] at ht
  split_ifs at ht
  · split at ht
    · exact absurd ht (by simp)
    · simp only [Option.some.injEq] at ht
      rw [← ht]
      exact ⟨⟨rfl, rfl, fun _ h => h⟩, rfl⟩
  · simp only [Option.some.injEq] at ht
    rw [← ht]
    exact ⟨⟨rfl, rfl, fun _ h => h⟩, rfl⟩

/-- The call `setParams` stores the new parameters and keeps the pool size,
the round-robin index and the active flags. -/
theorem Synth.setParams_noNewActive (m : Libm) (fuel : Nat) (s s' : Synth) (p : SynthParams)
    (h : s.setParams m fuel p = some s') : s.NoNewActive s' ∧ s'.params_ = p := by
  obtain ⟨hchain, hparams⟩ := Synth.setParamsCore_noNewActive m s p
  unfold Synth.setParams at h
  simp only at h
  split_ifs at h
  · obtain ⟨n5, p5⟩ := Synth.rebuildBLSet_noNewActive m fuel _ s' h
    exact ⟨hchain.trans n5, by rw [p5, hparams]⟩
  · simp only [Option.some.injEq] at h
    rw [← h]
    exact ⟨hchain, hparams⟩

/-- With band-limiting off (`blQuality <= 0`) the call `setParams` returns for
every iteration bound. -/
theorem Synth.setParams_isSome (m : Libm) (fuel : Nat) (s : Synth) (p : SynthParams)
    (hq : p.blQuality ≤ 0) : ∃ s', s.setParams m fuel p = some s' := by
  obtain ⟨_, hparams⟩ := Synth.setParamsCore_noNewActive m s p
  unfold Synth.setParams
  simp only
  split_ifs
  · simp only [Synth.rebuildBLSet]
    rw [hparams, if_neg (by omega)]
    exact ⟨_, rfl⟩
  · exact ⟨_, rfl⟩

/-- The call `noteOn` keeps the pool invariant. -/
theorem Synth.PoolInv.noteOn (m : Libm) {s : Synth} (h : s.PoolInv) (note vel : Int) :
    (s.noteOn m note vel).PoolInv := by
  obtain ⟨hlen, hnv, hact⟩ := h
  obtain ⟨h0, h1⟩ := s.allocIndex_mem hlen hnv
  obtain ⟨hl1, hl32, _⟩ := s.limit_bounds hlen
  obtain ⟨_, hlen', hlim'⟩ := Synth.noteOn_frame m s note vel
  refine ⟨by rw [hlen', hlen], ?_, ?_⟩
  · unfold Synth.noteOn
    simp only
    split_ifs
    · rw [Int.tmod_eq_emod (by omega) (by omega)]
      exact Int.emod_nonneg _ (by omega)
    · exact hnv
  · intro i hi
    rw [hlim']
    rw [Synth.noteOn_voices, getD_set_voice _ _ _ _ _ (by omega)] at hi
    split_ifs at hi with hidx
    · omega
    · exact hact i hi

/-- Every reachable state satisfies the pool invariant. -/
theorem Synth.Reach.poolInv (m : Libm) (fuel : Nat) (s : Synth) (h : Synth.Reach m fuel s) :
    s.PoolInv := by
  induction h with
  | fresh =>
    refine ⟨Synth.fresh_length m, le_refl _, ?_⟩
    intro i hi
    have hfalse : ((Synth.fresh m).voices_.getD i {}).active_ = false := by
      rw [List.getD_eq_getElem?_getD]
      cases hget : (Synth.fresh m).voices_[i]? with
      | none => rfl
      | some v =>
        exact Synth.fresh_inactive m v (List.mem_iff_getElem?.mpr ⟨i, hget⟩)
    rw [hfalse] at hi
    exact absurd hi (by simp)
  | setup s sr _ ih =>
    obtain ⟨hn, hp⟩ := Synth.setup_noNewActive s sr
    exact ih.of_noNewActive hn (le_of_eq (Synth.limit_congr (by rw [hp]) hn.1).symm)
  | setParams s s' p _ hset hcond ih =>
    obtain ⟨hn, hp⟩ := Synth.setParams_noNewActive m fuel s s' p hset
    have hlen' : s'.voices_.length = 32 := by rw [hn.1, ih.1]
    rcases hcond with hge | hzero
    · refine ih.of_noNewActive hn ?_
      rw [(s.limit_bounds ih.1).2.2, (s'.limit_bounds hlen').2.2, hp]
      exact hge
    · refine ⟨hlen', by rw [hn.2.1]; exact ih.2.1, ?_⟩
      intro i hi
      have := hn.2.2 i hi
      rw [Synth.inactive_of_activeCount_zero s hzero i] at this
      exact absurd this (by simp)
  | noteOn s note vel _ ih => exact ih.noteOn m note vel
  | noteOff s note _ ih =>
    obtain ⟨hn, hp⟩ := Synth.noteOff_noNewActive s note
    exact ih.of_noNewActive hn (le_of_eq (Synth.limit_congr (by rw [hp]) hn.1).symm)
  | process s outL outR frames _ ih =>
    obtain ⟨hn, hp⟩ := Synth.sampleLoop_noNewActive m s.lfoInc s.noiseRatio s.noiseComp
      frames.toNat 0 s outL outR
    exact ih.of_noNewActive hn (le_of_eq (Synth.limit_congr (by rw [hp]) hn.1).symm)
  | setPitchBendSemis s x _ ih => exact ih
  | setDetuneSemis s x _ ih => exact ih
  | setVibratoDepthSemis s x _ ih => exact ih
  | setVibratoRateHz s x _ ih => exact ih
  | setNoiseAdd s x _ ih => exact ih

/-- The slot chosen by `noteOn` is `k` when slot `k` is inactive, below
`limit`, and every lower slot is active. -/
theorem Synth.allocIndex_eq (m : Libm) (s : Synth) (k : Nat) (hk : (k : Int) < s.limit)
    (hfree : (s.voices_.getD k {}).active_ = false)
    (hact : ∀ j : Nat, j < k → (s.voices_.getD j {}).active_ = true) :
    s.allocIndex = (k : Int) := by
  obtain ⟨h0, hle, hin, _, _⟩ := Synth.allocIndex_free m s 0 0 k hk hfree
  by_contra hne
  have hlt : s.allocIndex.toNat < k := by omega
  have := hact s.allocIndex.toNat hlt
  rw [hin] at this
  exact absurd this (by simp)

/-- Two notes on a freshly constructed engine occupy slots 0 and 1: two
active voices, polyphony still 32. -/
theorem activeCount_two_notes (m : Libm) :
    (((Synth.fresh m).noteOn m 60 100).noteOn m 62 100).activeCount = 2 ∧
    (((Synth.fresh m).noteOn m 60 100).noteOn m 62 100).params_.polyphony = 32 := by
  have h1 := Synth.fresh_noteOn_voices m 60 100
  have hlen1 : ((Synth.fresh m).noteOn m 60 100).voices_.length = 32 := by
    rw [(Synth.noteOn_frame m _ 60 100).2.1, Synth.fresh_length]
  have hlim : ((Synth.fresh m).noteOn m 60 100).limit = 32 := by
    rw [(Synth.limit_bounds _ hlen1).2.2]
    rfl
  have hidx : ((Synth.fresh m).noteOn m 60 100).allocIndex = ((1 : Nat) : Int) := by
    apply Synth.allocIndex_eq m _ 1 (by rw [hlim]; norm_num)
    · rw [h1]; rfl
    · intro j hj
      have hj0 : j = 0 := by omega
      rw [hj0, h1]
      rfl
  have h2 : (((Synth.fresh m).noteOn m 60 100).noteOn m 62 100).voices_
      = (({} : Voice).noteOn m 60 100) :: (({} : Voice).noteOn m 62 100)
          :: List.replicate 30 {} := by
    rw [Synth.noteOn_voices, hidx, h1]
    rfl
  constructor
  · unfold Synth.activeCount
    rw [h2]
    rfl
  · rfl

/-- The first part of `setParams` keeps the active flag of every voice. -/
theorem Synth.setParamsCore_flags (m : Libm) (s : Synth) (p : SynthParams) :
    (s.setParamsCore m p).voices_.map (fun v => v.active_)
      = s.voices_.map (fun v => v.active_) := by
  have hre : ∀ t : Synth, (t.rebuildEffective m).voices_.map (fun v => v.active_)
      = t.voices_.map (fun v => v.active_) := by
    intro t
    simp only [Synth.rebuildEffective]
    split_ifs <;> (rw [List.map_map]; rfl)
  have hadsr : ∀ t : Synth, t.pushADSR.voices_.map (fun v => v.active_)
      = t.voices_.map (fun v => v.active_) := by
    intro t
    simp only [Synth.pushADSR]
    rw [List.map_map]
    rfl
  have hstage : ∀ (c : Bool) (t : Synth) (f : Synth → Synth),
      (∀ u : Synth, (f u).voices_.map (fun v => v.active_) = u.voices_.map (fun v => v.active_)) →
      (if c then f t else t).voices_.map (fun v => v.active_)
        = t.voices_.map (fun v => v.active_) := by
    intro c t f hf
    cases c
    · rfl
    · exact hf t
  unfold Synth.setParamsCore
  simp only
  generalize ((p.toneMask != s.params_.toneMask) ||
    (p.quantize4 != s.params_.quantize4) || (p.tableLen != s.params_.tableLen)) = c1
  generalize ((p.adsr.attack != s.params_.adsr.attack) ||
    (p.adsr.decay != s.params_.adsr.decay) || (p.adsr.sustain != s.params_.adsr.sustain) ||
    (p.adsr.release != s.params_.adsr.release)) = c2
  have n2 := hstage c1 { s with params_ := p } Synth.reselectTable (fun u => rfl)
  generalize (if c1 = true then ({ s with params_ := p } : Synth).reselectTable
    else { s with params_ := p }) = s2 at n2 ⊢
  have n3 := hstage c2 s2 Synth.pushADSR hadsr
  generalize (if c2 = true then s2.pushADSR else s2) = s3 at n3 ⊢
  generalize (c1 || ((p.preHighCutMode != s.params_.preHighCutMode) ||
    (p.preHighCutMaxNote != s.params_.preHighCutMaxNote)) || !s3.preCutValid_) = c4
  have n4 := hstage c4 s3 (Synth.rebuildEffective m) hre
  rw [n4, n3, n2]

/-- The call `setParams` keeps the active flag of every voice. -/
theorem Synth.setParams_flags (m : Libm) (fuel : Nat) (s s' : Synth) (p : SynthParams)
    (h : s.setParams m fuel p = some s') :
    s'.voices_.map (fun v => v.active_) = s.voices_.map (fun v => v.active_) := by
  have hcore := Synth.setParamsCore_flags m s p
  unfold Synth.setParams at h
  simp only at h
  split_ifs at h
  · simp only [Synth.rebuildBLSet] at h
    split_ifs at h
    · split at h
      · exact absurd h (by simp)
      · simp only [Option.some.injEq] at h
        rw [← h]
        exact hcore
    · simp only [Option.some.injEq] at h
      rw [← h]
      exact hcore
  · simp only [Option.some.injEq] at h
    rw [← h]
    exact hcore

/-- C14 fails as stated: from a freshly constructed engine, `noteOn(60,100)`,
`noteOn(62,100)` and then `setParams` with `polyphony = 1` reach a state with 2
active voices while `clamp(params.polyphony, 1, 32) = 1`. -/
theorem C14_polyphony_counterexample :
    ∃ s' : Synth,
      Synth.run refLibm 0 (Synth.fresh refLibm)
        [Synth.Call.noteOn 60 100, Synth.Call.noteOn 62 100,
         Synth.Call.setParams { polyphony := 1 }] = some (s', []) ∧
      s'.activeCount = 2 ∧ max 1 (min s'.params_.polyphony 32) = 1 ∧
      ¬ ((s'.activeCount : Int) ≤ max 1 (min s'.params_.polyphony 32)) := by
  obtain ⟨s', hs'⟩ := Synth.setParams_isSome refLibm 0
    (((Synth.fresh refLibm).noteOn refLibm 60 100).noteOn refLibm 62 100)
    { polyphony := 1 } (by decide)
  obtain ⟨hn, hp⟩ := Synth.setParams_noNewActive refLibm 0 _ s' _ hs'
  obtain ⟨hcount, _⟩ := activeCount_two_notes refLibm
  have hflags : s'.voices_.map (fun v => v.active_)
      = ((((Synth.fresh refLibm).noteOn refLibm 60 100).noteOn refLibm 62 100).voices_.map
          (fun v => v.active_)) := by
    have hcore := Synth.setParams_flags refLibm 0 _ s' _ hs'
    exact hcore
  have hcount' : s'.activeCount = 2 := by
    rw [← hcount]
    unfold Synth.activeCount
    rw [← List.countP_eq_length_filter, ← List.countP_eq_length_filter]
    have e1 := List.countP_map (fun b : Bool => b) (fun v : Voice => v.active_) s'.voices_
    have e2 := List.countP_map (fun b : Bool => b) (fun v : Voice => v.active_)
      (((Synth.fresh refLibm).noteOn refLibm 60 100).noteOn refLibm 62 100).voices_
    simp only [Function.comp_def] at e1 e2
    rw [← e1, ← e2, hflags]
  refine ⟨s', ?_, hcount', ?_, ?_⟩
  · simp only [Synth.run, hs']
  · rw [hp]; rfl
  · rw [hcount', hp]
    decide

/-- C14 (amended): in every state reachable from a freshly constructed Synth
by any sequence of setup, setParams, noteOn, noteOff, process and modulation
setter calls in which no `setParams` lowers `clamp(polyphony, 1, 32)` while a
voice is active, the number of active voices in the 32-slot pool is at most
`clamp(params.polyphony, 1, 32)`. -/
theorem C14_polyphony_bound (m : Libm) (fuel : Nat) (s : Synth)
    (h : Synth.Reach m fuel s) :
    s.voices_.length = 32 ∧
    (s.activeCount : Int) ≤ max 1 (min s.params_.polyphony 32) := by
  have hinv := Synth.Reach.poolInv m fuel s h
  refine ⟨hinv.1, ?_⟩
  rw [← (s.limit_bounds hinv.1).2.2]
  exact hinv.activeCount_le

/-- Witness for C14 (amended): a freshly constructed engine after one note. -/
theorem C14_polyphony_bound_witness :
    Synth.Reach refLibm 0 ((Synth.fresh refLibm).noteOn refLibm 60 100) ∧
    (((Synth.fresh refLibm).noteOn refLibm 60 100).voices_.length = 32 ∧
      ((((Synth.fresh refLibm).noteOn refLibm 60 100).activeCount : Nat) : Int)
        ≤ max 1 (min ((Synth.fresh refLibm).noteOn refLibm 60 100).params_.polyphony 32)) :=
  ⟨Synth.Reach.noteOn _ 60 100 Synth.Reach.fresh,
   C14_polyphony_bound refLibm 0 _ (Synth.Reach.noteOn _ 60 100 Synth.Reach.fresh)⟩

/-! ### Oscillator phase -/

/-- A call of `render` on a sounding voice (table set, active, envelope not
Idle after its step) advances the envelope and adds the increment
`baseInc * max(pitchRatio, 0)` to the phase. -/
theorem Voice.render_sounding (v : Voice) (t : Table) (r : ℚ) (ht : v.table_ = some t)
    (ha : v.active_ = true) (hs : v.env_.advance.state_ ≠ ADSR.State.Idle) :
    (v.render r).1 =
      ({ v with env_ := v.env_.advance } : Voice).addPhase
        (v.baseInc_ * (if r > 0 then r else 0)) := by
  have hact : v.env_.advance.isActive = true := by
    unfold ADSR.isActive
    simpa using hs
  unfold Voice.render
  rw [ht]
  simp only [ha, ADSR.process, hact]
  simp

/-- The voice `highVoice`: envelope in Attack at level 0, base increment
`64 * 7040 / 8000 = 56.32`, phase 0, 64-sample grid. -/
theorem highVoice_fields :
    highVoice.env_ = ⟨ADSR.State.Attack, {}, 8000, 0⟩ ∧ highVoice.baseInc_ = 1408 / 25 ∧
    highVoice.phase_ = 0 ∧ highVoice.len_ = 64 ∧ highVoice.active_ = true ∧
    highVoice.table_ = some zeroTable ∧ highVoice.note_ = 117 := by
  refine ⟨?_, ?_, rfl, rfl, rfl, rfl, rfl⟩
  · simp only [highVoice, Voice.noteOn, Voice.setTable, Voice.setSampleRate,
      ADSR.setSampleRate, ADSR.gate]
    norm_num
  · simp only [highVoice, Voice.noteOn, Voice.setTable, Voice.setSampleRate, midi_to_freq,
      refLibm, stepPow]
    norm_num

/-- C15 fails on the code: the voice `highVoice` (8 kHz, 64-sample grid, note
117, phase 0 after `noteOn`) rendered twice with pitch ratio 2 ends with phase
`97.28 > 64 = len`; the first call leaves `48.64`. -/
theorem C15_phase_exceeds_length :
    highVoice.len_ = 64 ∧ highVoice.phase_ = 0 ∧
    (highVoice.render 2).1.phase_ = 1216 / 25 ∧
    ((highVoice.render 2).1.render 2).1.phase_ = 2432 / 25 ∧
    ((highVoice.render 2).1.render 2).1.len_ = 64 ∧
    ¬ (((highVoice.render 2).1.render 2).1.phase_
        ≤ ((((highVoice.render 2).1.render 2).1.len_ : Int) : ℚ)) := by
  obtain ⟨henv, hinc, hph, hlen, hact, htab, _⟩ := highVoice_fields
  have hadv1 : highVoice.env_.advance = ⟨ADSR.State.Attack, {}, 8000, 1 / 80⟩ := by
    rw [henv]
    simp only [ADSR.advance]
    norm_num
  have hr1 : (highVoice.render 2).1 =
      ({ highVoice with env_ := highVoice.env_.advance } : Voice).addPhase
        (highVoice.baseInc_ * (if (2 : ℚ) > 0 then 2 else 0)) :=
    Voice.render_sounding highVoice zeroTable 2 htab hact (by rw [hadv1]; decide)
  have hp1 : (highVoice.render 2).1.phase_ = 1216 / 25 := by
    rw [hr1]
    simp only [Voice.addPhase, hinc, hph, hlen]
    norm_num
  have he1 : (highVoice.render 2).1.env_ = ⟨ADSR.State.Attack, {}, 8000, 1 / 80⟩ := by
    rw [hr1]
    exact hadv1
  have hb1 : (highVoice.render 2).1.baseInc_ = 1408 / 25 := by
    rw [hr1]
    exact hinc
  have hl1 : (highVoice.render 2).1.len_ = 64 := by
    rw [hr1]
    exact hlen
  have ha1 : (highVoice.render 2).1.active_ = true := by
    rw [hr1]
    exact hact
  have ht1 : (highVoice.render 2).1.table_ = some zeroTable := by
    rw [hr1]
    exact htab
  have hadv2 : (highVoice.render 2).1.env_.advance = ⟨ADSR.State.Attack, {}, 8000, 1 / 40⟩ := by
    rw [he1]
    simp only [ADSR.advance]
    norm_num
  have hr2 : ((highVoice.render 2).1.render 2).1 =
      ({ (highVoice.render 2).1 with env_ := (highVoice.render 2).1.env_.advance } : Voice).addPhase
        ((highVoice.render 2).1.baseInc_ * (if (2 : ℚ) > 0 then 2 else 0)) :=
    Voice.render_sounding _ zeroTable 2 ht1 ha1 (by rw [hadv2]; decide)
  have hp2 : ((highVoice.render 2).1.render 2).1.phase_ = 2432 / 25 := by
    rw [hr2]
    simp only [Voice.addPhase, hb1, hp1, hl1]
    norm_num
  have hl2 : ((highVoice.render 2).1.render 2).1.len_ = 64 := by
    rw [hr2]
    exact hl1
  refine ⟨hlen, hph, hp1, hp2, hl2, ?_⟩
  rw [hp2, hl2]
  norm_num

/-! ### Sample loop of `Synth::process` -/

/-- Writing index `n` and then keeping the first `n + 1` entries. -/
theorem take_succ_set (l : List ℚ) (n : Nat) (y : ℚ) (h : n < l.length) :
    (l.set n y).take (n + 1) = l.take n ++ [y] := by
  rw [List.set_eq_take_append_cons_drop, if_pos h]
  have hlen : (l.take n).length = n := by
    rw [List.length_take]
    exact Nat.min_eq_left (le_of_lt h)
  rw [List.take_append_eq_append_take, hlen, List.take_of_length_le (by rw [hlen]; omega)]
  simp

/-- The block of samples has one value per iteration. -/
theorem Synth.block_length (m : Libm) (lfoInc d comp : ℚ) :
    ∀ (k : Nat) (s : Synth), (Synth.block m lfoInc d comp k s).2.length = k := by
  intro k
  induction k with
  | zero => intro s; rfl
  | succ k ih =>
    intro s
    simp only [Synth.block, List.length_cons]
    rw [ih]

/-- The sample loop writes the block of samples into both buffers at indices
`n .. n + k - 1` and leaves every other index alone; the state and the samples
do not depend on the buffers. -/
theorem Synth.sampleLoop_eq_block (m : Libm) (lfoInc d comp : ℚ) :
    ∀ (k n : Nat) (s : Synth) (outL outR : List ℚ),
      n + k ≤ outL.length → n + k ≤ outR.length →
      Synth.sampleLoop m lfoInc d comp k n s outL outR =
        ((Synth.block m lfoInc d comp k s).1,
         outL.take n ++ (Synth.block m lfoInc d comp k s).2 ++ outL.drop (n + k),
         outR.take n ++ (Synth.block m lfoInc d comp k s).2 ++ outR.drop (n + k)) := by
  intro k
  induction k with
  | zero =>
    intro n s outL outR _ _
    simp only [Synth.sampleLoop, Synth.block, List.append_nil, Nat.add_zero,
      List.take_append_drop]
  | succ k ih =>
    intro n s outL outR hL hR
    simp only [Synth.sampleLoop, Synth.block]
    rw [ih (n + 1) _ _ _ (by rw [List.length_set]; omega) (by rw [List.length_set]; omega)]
    rw [take_succ_set outL n _ (by omega), take_succ_set outR n _ (by omega),
      List.drop_set_of_lt _ _ (by omega), List.drop_set_of_lt _ _ (by omega)]
    have harith : n + 1 + k = n + (k + 1) := by omega
    rw [harith]
    simp only [List.append_assoc, List.singleton_append]

/-- The call `process` on buffers that hold at least `frames` samples: the
state and the block of samples depend on the engine and on `frames` only, and
the block is written to the first `frames` entries of both buffers. -/
theorem Synth.process_eq_block (m : Libm) (s : Synth) (outL outR : List ℚ) (frames : Int)
    (hL : frames.toNat ≤ outL.length) (hR : frames.toNat ≤ outR.length) :
    s.process m outL outR frames =
      ((Synth.block m s.lfoInc s.noiseRatio s.noiseComp frames.toNat s).1,
       (Synth.block m s.lfoInc s.noiseRatio s.noiseComp frames.toNat s).2
         ++ outL.drop frames.toNat,
       (Synth.block m s.lfoInc s.noiseRatio s.noiseComp frames.toNat s).2
         ++ outR.drop frames.toNat) := by
  unfold Synth.process
  rw [Synth.sampleLoop_eq_block m _ _ _ frames.toNat 0 s outL outR (by omega) (by omega)]
  simp only [List.take_zero, List.nil_append, Nat.zero_add]

/-- With no active voice the voice loop changes nothing. -/
theorem forActiveVoices_inactive (body : Voice → ℚ → Voice × ℚ) :
    ∀ (vs : List Voice) (acc : ℚ), (∀ v ∈ vs, v.active_ = false) →
      forActiveVoices body vs acc = (vs, acc) := by
  intro vs
  induction vs with
  | nil => intro acc _; rfl
  | cons v vs ih =>
    intro acc h
    have hv : v.active_ = false := h v (List.mem_cons_self _ _)
    simp only [forActiveVoices, hv, Bool.false_eq_true, if_false]
    rw [ih acc (fun w hw => h w (List.mem_cons_of_mem _ hw))]

/-- The output stage maps a silent sample to silence. -/
theorem noiseStage_zero (rng : Nat) (d comp : ℚ) : (noiseStage rng d comp 0).2 = 0 := by
  unfold noiseStage
  split_ifs
  · simp
  · rfl

/-- With no active voice one sample of `process` is 0 and the pool is
unchanged. -/
theorem Synth.tick_silent (m : Libm) (s : Synth) (lfoInc d comp : ℚ)
    (h : ∀ v ∈ s.voices_, v.active_ = false) :
    (s.tick m lfoInc d comp).2 = 0 ∧ (s.tick m lfoInc d comp).1.voices_ = s.voices_ := by
  simp only [Synth.tick]
  split_ifs
  · rw [forActiveVoices_inactive _ s.voices_ 0 h]
    simp only [zero_mul]
    exact ⟨noiseStage_zero _ _ _, trivial⟩
  · rw [forActiveVoices_inactive _ s.voices_ 0 h]
    simp only [zero_mul]
    exact ⟨noiseStage_zero _ _ _, trivial⟩

/-- With no active voice a block of `k` samples is `k` zeros. -/
theorem Synth.block_silent (m : Libm) (lfoInc d comp : ℚ) :
    ∀ (k : Nat) (s : Synth), (∀ v ∈ s.voices_, v.active_ = false) →
      (Synth.block m lfoInc d comp k s).2 = List.replicate k 0 := by
  intro k
  induction k with
  | zero => intro s _; rfl
  | succ k ih =>
    intro s h
    obtain ⟨hy, hv⟩ := Synth.tick_silent m s lfoInc d comp h
    simp only [Synth.block, List.replicate_succ]
    rw [hy, ih _ (by rw [hv]; exact h)]

/-- C18: if no voice in the pool is active then, for every parameter setting
(gain, band-limit quality, HQ mode, noise ratio, vibrato), `process` writes 0
to each of the `frames` output samples of both channels. -/
theorem C18_silence_without_voices (m : Libm) (s : Synth) (outL outR : List ℚ)
    (frames : Int) (hnone : ∀ v ∈ s.voices_, v.active_ = false)
    (hL : frames.toNat ≤ outL.length) (hR : frames.toNat ≤ outR.length) :
    (s.process m outL outR frames).2.1
      = List.replicate frames.toNat 0 ++ outL.drop frames.toNat ∧
    (s.process m outL outR frames).2.2
      = List.replicate frames.toNat 0 ++ outR.drop frames.toNat := by
  rw [Synth.process_eq_block m s outL outR frames hL hR,
    Synth.block_silent m _ _ _ frames.toNat s hnone]
  exact ⟨rfl, rfl⟩

/-- Witness for C18: 4 frames on a freshly constructed engine with noise,
vibrato and band-limiting parameters set. -/
theorem C18_silence_without_voices_witness :
    ((∀ v ∈ ({ Synth.fresh refLibm with
          noiseAdd_ := 50, vibratoDepthSemis_ := 1 / 2,
          params_ := { gain := 3, blQuality := 4, hqMode := 3 } } : Synth).voices_,
        v.active_ = false) ∧
      (4 : Int).toNat ≤ (List.replicate 6 (7 : ℚ)).length ∧
      (4 : Int).toNat ≤ (List.replicate 6 (9 : ℚ)).length) ∧
    ((({ Synth.fresh refLibm with
          noiseAdd_ := 50, vibratoDepthSemis_ := 1 / 2,
          params_ := { gain := 3, blQuality := 4, hqMode := 3 } } : Synth).process refLibm
        (List.replicate 6 7) (List.replicate 6 9) 4).2.1
      = List.replicate (4 : Int).toNat 0 ++ (List.replicate 6 (7 : ℚ)).drop (4 : Int).toNat ∧
    (({ Synth.fresh refLibm with
          noiseAdd_ := 50, vibratoDepthSemis_ := 1 / 2,
          params_ := { gain := 3, blQuality := 4, hqMode := 3 } } : Synth).process refLibm
        (List.replicate 6 7) (List.replicate 6 9) 4).2.2
      = List.replicate (4 : Int).toNat 0 ++ (List.replicate 6 (9 : ℚ)).drop (4 : Int).toNat) :=
  ⟨⟨Synth.fresh_inactive refLibm, by decide, by decide⟩,
   C18_silence_without_voices refLibm _ (List.replicate 6 7) (List.replicate 6 9) 4
    (Synth.fresh_inactive refLibm) (by decide) (by decide)⟩

/-! ### Additive noise -/

/-- The xorshift32 step keeps the state below `2^32`. -/
theorem xorshift32_lt (x : Nat) (hx : x < 2 ^ 32) : xorshift32 x < 2 ^ 32 := by
  unfold xorshift32
  simp only
  have h1 : Nat.xor x ((x <<< 13) % 2 ^ 32) < 2 ^ 32 :=
    Nat.xor_lt_two_pow hx (Nat.mod_lt _ (by norm_num))
  have h2 : Nat.xor (Nat.xor x ((x <<< 13) % 2 ^ 32))
      ((Nat.xor x ((x <<< 13) % 2 ^ 32)) >>> 17) < 2 ^ 32 := by
    apply Nat.xor_lt_two_pow h1
    rw [Nat.shiftRight_eq_div_pow]
    exact lt_of_le_of_lt (Nat.div_le_self _ _) h1
  exact Nat.xor_lt_two_pow h2 (Nat.mod_lt _ (by norm_num))

/-! ### Sample-rate fallback -/

/-- C21: `setup(sampleRate)` stores `sampleRate` when `sampleRate > 1` and 48000
otherwise; the stored rate is above 1, and every voice and every voice envelope
of the pool holds that same rate. -/
theorem C21_sample_rate_fallback (s : Synth) (sampleRate : ℚ) :
    (s.setup sampleRate).sr_ = (if sampleRate > 1 then sampleRate else 48000) ∧
    1 < (s.setup sampleRate).sr_ ∧
    (s.setup sampleRate).voices_.length = s.voices_.length ∧
    ∀ v ∈ (s.setup sampleRate).voices_,
      v.sr_ = (s.setup sampleRate).sr_ ∧ v.env_.sr_ = (s.setup sampleRate).sr_ := by
  have hsr : (s.setup sampleRate).sr_ = (if sampleRate > 1 then sampleRate else 48000) := rfl
  have hgt : (1 : ℚ) < (if sampleRate > 1 then sampleRate else 48000) := by
    split_ifs with h
    · exact h
    · norm_num
  refine ⟨hsr, by rw [hsr]; exact hgt, ?_, ?_⟩
  · simp only [Synth.setup, List.length_map]
  · intro v hv
    rw [hsr]
    simp only [Synth.setup, List.mem_map] at hv
    obtain ⟨w, _, rfl⟩ := hv
    refine ⟨rfl, ?_⟩
    simp only [Voice.setADSR, Voice.setTable, Voice.setSampleRate, ADSR.set,
      ADSR.setSampleRate]
    rw [if_pos hgt]

/-- Witness for C21: `setup(0)` on a freshly constructed engine falls back to
48000 in the engine, its 32 voices and their envelopes. -/
theorem C21_sample_rate_fallback_witness :
    ((Synth.fresh refLibm).setup 0).sr_ = (if (0 : ℚ) > 1 then 0 else 48000) ∧
    1 < ((Synth.fresh refLibm).setup 0).sr_ ∧
    ((Synth.fresh refLibm).setup 0).voices_.length = (Synth.fresh refLibm).voices_.length ∧
    ∀ v ∈ ((Synth.fresh refLibm).setup 0).voices_,
      v.sr_ = ((Synth.fresh refLibm).setup 0).sr_ ∧
      v.env_.sr_ = ((Synth.fresh refLibm).setup 0).sr_ :=
  C21_sample_rate_fallback (Synth.fresh refLibm) 0

/-! ### Frozen oscillator -/

/-- A zero increment leaves a phase below the effective length where it is. -/
theorem Voice.addPhase_zero (v : Voice) (hp : v.phase_ < (v.len_ : ℚ)) :
    v.addPhase 0 = v := by
  unfold Voice.addPhase
  simp only [add_zero]
  rw [if_neg (not_le.mpr hp)]

/-- C25: for `pitchRatio <= 0` and a phase below the effective length, `render`,
`renderFromTwoTables` and `advancePhaseScaled` leave the phase accumulator
unchanged; on an active voice with a table, `render` and `renderFromTwoTables`
still advance the envelope by one `process()` step and, unless that step ends
the voice, still return the sample `table[idx0] * level * velocity`. -/
theorem C25_nonpositive_ratio_freezes (v : Voice) (tblA tblB : Option Table)
    (mix pitchRatio invOversample : ℚ) (hr : pitchRatio ≤ 0) (hp : v.phase_ < (v.len_ : ℚ)) :
    (v.render pitchRatio).1.phase_ = v.phase_ ∧
    (v.renderFromTwoTables tblA tblB mix pitchRatio).1.phase_ = v.phase_ ∧
    (v.advancePhaseScaled pitchRatio invOversample).phase_ = v.phase_ ∧
    (∀ t : Table, v.table_ = some t → v.active_ = true →
      (v.render pitchRatio).1.env_ = v.env_.process.1 ∧
      (¬ (v.env_.process.1.isActive = false ∧ v.env_.process.2 ≤ 0) →
        (v.render pitchRatio).1.active_ = true ∧
        (v.render pitchRatio).2 = t.getD v.idx0.toNat 0 * v.env_.process.2 * v.velocity_)) ∧
    (¬ (tblA = none ∧ tblB = none) → v.active_ = true →
      (v.renderFromTwoTables tblA tblB mix pitchRatio).1.env_ = v.env_.process.1 ∧
      (¬ (v.env_.process.1.isActive = false ∧ v.env_.process.2 ≤ 0) →
        (v.renderFromTwoTables tblA tblB mix pitchRatio).1.active_ = true ∧
        (v.renderFromTwoTables tblA tblB mix pitchRatio).2
          = v.sampleFromTwoTables tblA tblB mix * v.env_.process.2 * v.velocity_)) := by
  have hz : (if pitchRatio > 0 then pitchRatio else 0) = 0 := if_neg (not_lt.mpr hr)
  refine ⟨?_, ?_, ?_, ?_, ?_⟩
  · unfold Voice.render
    simp only [hz, mul_zero]
    split
    · rfl
    · split_ifs
      · rfl
      · rfl
      · simp only [Voice.addPhase, add_zero, ge_iff_le, if_neg (not_le.mpr hp)]
  · unfold Voice.renderFromTwoTables
    simp only [hz, mul_zero]
    split_ifs
    · rfl
    · rfl
    · simp only [Voice.addPhase, add_zero, ge_iff_le, if_neg (not_le.mpr hp)]
  · unfold Voice.advancePhaseScaled
    rw [hz, mul_zero, zero_mul, Voice.addPhase_zero v hp]
  · intro t ht ha
    unfold Voice.render
    simp only [hz, mul_zero, ht, ha, Bool.not_true, Bool.false_eq_true, if_false]
    split_ifs with h
    · refine ⟨rfl, fun hn => absurd ?_ hn⟩
      simpa using h
    · exact ⟨rfl, fun _ => ⟨rfl, rfl⟩⟩
  · intro ht ha
    unfold Voice.renderFromTwoTables
    simp only [hz, mul_zero]
    have hnone : ¬ ((tblA.isNone = true ∧ tblB.isNone = true) ∨ (!v.active_) = true) := by
      rw [ha]
      simpa [Option.isNone_iff_eq_none] using ht
    rw [if_neg hnone]
    split_ifs with h
    · refine ⟨rfl, fun hn => absurd ?_ hn⟩
      simpa using h
    · exact ⟨rfl, fun _ => ⟨ha, rfl⟩⟩

/-- Witness for C25: the voice `highVoice` (phase 0, length 64) with pitch
ratio `-1`. -/
theorem C25_nonpositive_ratio_freezes_witness :
    ((-1 : ℚ) ≤ 0 ∧ highVoice.phase_ < (highVoice.len_ : ℚ)) ∧
    (highVoice.render (-1)).1.phase_ = highVoice.phase_ ∧
    (highVoice.renderFromTwoTables (some zeroTable) none 0 (-1)).1.phase_ = highVoice.phase_ ∧
    (highVoice.advancePhaseScaled (-1) (1 / 2)).phase_ = highVoice.phase_ ∧
    (∀ t : Table, highVoice.table_ = some t → highVoice.active_ = true →
      (highVoice.render (-1)).1.env_ = highVoice.env_.process.1 ∧
      (¬ (highVoice.env_.process.1.isActive = false ∧ highVoice.env_.process.2 ≤ 0) →
        (highVoice.render (-1)).1.active_ = true ∧
        (highVoice.render (-1)).2
          = t.getD highVoice.idx0.toNat 0 * highVoice.env_.process.2 * highVoice.velocity_)) ∧
    (¬ ((some zeroTable : Option Table) = none ∧ (none : Option Table) = none) →
      highVoice.active_ = true →
      (highVoice.renderFromTwoTables (some zeroTable) none 0 (-1)).1.env_
        = highVoice.env_.process.1 ∧
      (¬ (highVoice.env_.process.1.isActive = false ∧ highVoice.env_.process.2 ≤ 0) →
        (highVoice.renderFromTwoTables (some zeroTable) none 0 (-1)).1.active_ = true ∧
        (highVoice.renderFromTwoTables (some zeroTable) none 0 (-1)).2
          = highVoice.sampleFromTwoTables (some zeroTable) none 0 * highVoice.env_.process.2
            * highVoice.velocity_)) :=
  have hp : highVoice.phase_ < (highVoice.len_ : ℚ) := by
    rw [highVoice_fields.2.2.1, highVoice_fields.2.2.2.1]
    norm_num
  ⟨⟨by norm_num, hp⟩,
   C25_nonpositive_ratio_freezes highVoice (some zeroTable) none 0 (-1) (1 / 2)
    (by norm_num) hp⟩

/-! ### FIR decimator -/

/-- A loop that writes `a n` to index `n` and adds it to a running sum is the
loop of the writes paired with the loop of the sums. -/
theorem foldl_set_sum_pair (a : Nat → ℚ) :
    ∀ (l : List Nat) (o : List ℚ) (s : ℚ),
      l.foldl (fun (acc : List ℚ × ℚ) (n : Nat) => (acc.1.set n (a n), acc.2 + a n)) (o, s)
        = (l.foldl (fun (o : List ℚ) (n : Nat) => o.set n (a n)) o,
           l.foldl (fun (s : ℚ) (n : Nat) => s + a n) s) := by
  intro l
  induction l with
  | nil => intro o s; rfl
  | cons n l ih => intro o s; simp only [List.foldl_cons]; rw [ih]

/-- A running sum started at `s` is `s` plus the sum of the terms. -/
theorem foldl_add_eq_sum (a : Nat → ℚ) :
    ∀ (l : List Nat) (s : ℚ),
      l.foldl (fun (s : ℚ) (n : Nat) => s + a n) s = s + (l.map a).sum := by
  intro l
  induction l with
  | nil => intro s; simp
  | cons n l ih =>
    intro s
    simp only [List.foldl_cons, List.map_cons, List.sum_cons]
    rw [ih]
    ring

/-- A loop `for (n = 0; n < K; ++n) o[n] = g(n, o[n])` over an array of at
least `K` entries keeps its length and changes exactly the first `K` entries. -/
theorem foldl_set_range (g : Nat → ℚ → ℚ) :
    ∀ (K : Nat) (o : List ℚ), K ≤ o.length →
      ((List.range K).foldl (fun (o : List ℚ) (n : Nat) => o.set n (g n (o.getD n 0))) o).length
        = o.length ∧
      ∀ n : Nat,
        ((List.range K).foldl (fun (o : List ℚ) (n : Nat) => o.set n (g n (o.getD n 0))) o).getD
            n 0
          = if n < K then g n (o.getD n 0) else o.getD n 0 := by
  intro K
  induction K with
  | zero =>
    intro o _
    exact ⟨rfl, fun n => by simp⟩
  | succ K ih =>
    intro o hK
    obtain ⟨hlen, hget⟩ := ih o (by omega)
    rw [List.range_succ, List.foldl_append]
    simp only [List.foldl_cons, List.foldl_nil]
    refine ⟨by rw [List.length_set, hlen], ?_⟩
    intro n
    rw [List.getD_eq_getElem?_getD, List.getElem?_set, hlen]
    by_cases hn : K = n
    · subst hn
      rw [if_pos rfl, if_pos (by omega), if_pos (by omega), hget K, if_neg (by omega)]
      rfl
    · rw [if_neg hn, ← List.getD_eq_getElem?_getD, hget n]
      by_cases hlt : n < K
      · rw [if_pos hlt, if_pos (by omega)]
      · rw [if_neg hlt, if_neg (by omega)]

/-- The array written by `makeLowpass(L, fc, out)` on an array of at least `L`
entries: the length is kept, the entries from `L` on are untouched, and entry
`n < L` is the raw tap `n`, divided by the sum of the raw taps when that sum is
above `1e-9` in magnitude. -/
theorem DecimFIR.makeLowpass_spec (m : Libm) (L : Int) (fc : ℚ) (out : List ℚ)
    (hL : L.toNat ≤ out.length) :
    (DecimFIR.makeLowpass m L fc out).length = out.length ∧
    ∀ n : Nat, (DecimFIR.makeLowpass m L fc out).getD n 0 =
      if n < L.toNat then
        (if |DecimFIR.rawSum m L fc| > 1 / 1000000000 then
          DecimFIR.rawTap m L fc n * (1 / DecimFIR.rawSum m L fc)
        else DecimFIR.rawTap m L fc n)
      else out.getD n 0 := by
  have hpair := foldl_set_sum_pair (DecimFIR.rawTap m L fc) (List.range L.toNat) out 0
  obtain ⟨hlen1, hget1⟩ := foldl_set_range (fun n _ => DecimFIR.rawTap m L fc n) L.toNat out hL
  have hmk : DecimFIR.makeLowpass m L fc out =
      if |DecimFIR.rawSum m L fc| > 1 / 1000000000 then
        (List.range L.toNat).foldl (fun (o : List ℚ) (n : Nat) =>
          o.set n (o.getD n 0 * (1 / DecimFIR.rawSum m L fc)))
          ((List.range L.toNat).foldl
            (fun (o : List ℚ) (n : Nat) => o.set n (DecimFIR.rawTap m L fc n)) out)
      else
        (List.range L.toNat).foldl
          (fun (o : List ℚ) (n : Nat) => o.set n (DecimFIR.rawTap m L fc n)) out := by
    unfold DecimFIR.makeLowpass
    simp only
    have hstep : (fun (acc : List ℚ × ℚ) (n : Nat) =>
        (acc.1.set n ((54 / 100 - 46 / 100 * m.cos (twoPiLit * (n : ℚ) / ((L - 1 : Int) : ℚ))) *
            (2 * fc * DecimFIR.sinc m
              (twoPiLit * fc * ((Int.ofNat n - (L - 1).tdiv 2 : Int) : ℚ)))),
          acc.2 + (54 / 100 - 46 / 100 * m.cos (twoPiLit * (n : ℚ) / ((L - 1 : Int) : ℚ))) *
            (2 * fc * DecimFIR.sinc m
              (twoPiLit * fc * ((Int.ofNat n - (L - 1).tdiv 2 : Int) : ℚ)))))
        = (fun (acc : List ℚ × ℚ) (n : Nat) =>
          (acc.1.set n (DecimFIR.rawTap m L fc n), acc.2 + DecimFIR.rawTap m L fc n)) := rfl
    rw [hstep, hpair]
    rfl
  rw [hmk]
  split_ifs with hs
  · obtain ⟨hlen2, hget2⟩ := foldl_set_range
      (fun _ v => v * (1 / DecimFIR.rawSum m L fc)) L.toNat
      ((List.range L.toNat).foldl
        (fun (o : List ℚ) (n : Nat) => o.set n (DecimFIR.rawTap m L fc n)) out)
      (by rw [hlen1]; exact hL)
    refine ⟨by rw [hlen2, hlen1], ?_⟩
    intro n
    rw [hget2 n, hget1 n]
    by_cases hn : n < L.toNat
    · rw [if_pos hn, if_pos hn, if_pos hn]
    · rw [if_neg hn, if_neg hn, if_neg hn]
  · exact ⟨hlen1, hget1⟩

/-- The coefficients built by `makeLowpass` sum to 1 over the `L` taps when the
raw taps have a sum above `1e-9` in magnitude. -/
theorem DecimFIR.makeLowpass_sum (m : Libm) (L : Int) (fc : ℚ) (out : List ℚ)
    (hL : L.toNat ≤ out.length) (hs : 1 / 1000000000 < |DecimFIR.rawSum m L fc|) :
    ((List.range L.toNat).map (fun n => (DecimFIR.makeLowpass m L fc out).getD n 0)).sum = 1 := by
  obtain ⟨_, hget⟩ := DecimFIR.makeLowpass_spec m L fc out hL
  have hne : DecimFIR.rawSum m L fc ≠ 0 := by
    intro h0
    rw [h0, abs_zero] at hs
    norm_num at hs
  have hmap : (List.range L.toNat).map (fun n => (DecimFIR.makeLowpass m L fc out).getD n 0)
      = (List.range L.toNat).map
          (fun n => DecimFIR.rawTap m L fc n * (1 / DecimFIR.rawSum m L fc)) := by
    apply List.map_congr_left
    intro n hn
    rw [hget n, if_pos (List.mem_range.mp hn), if_pos hs]
  have hsum : DecimFIR.rawSum m L fc
      = ((List.range L.toNat).map (DecimFIR.rawTap m L fc)).sum := by
    unfold DecimFIR.rawSum
    rw [foldl_add_eq_sum, zero_add]
  rw [hmap, List.sum_map_mul_right, ← hsum]
  field_simp

/-- On a non-negative index the mask `& 127` is the remainder modulo 128. -/
theorem land_127 (x : Int) (hx : 0 ≤ x) : Int.land x 127 = x % 128 := by
  obtain ⟨k, rfl⟩ := Int.eq_ofNat_of_zero_le hx
  show ((k &&& 127 : Nat) : Int) = (k : Int) % 128
  rw [show (127 : Nat) = 2 ^ 7 - 1 from rfl, Nat.and_pow_two_sub_one_eq_mod]
  norm_num

/-- The two guards of `configure` clamp the ratio into `[1, 8]` and leave a
ratio in that range alone. -/
theorem DecimFIR.clampOS_spec (newOS : Int) :
    1 ≤ DecimFIR.clampOS newOS ∧ DecimFIR.clampOS newOS ≤ 8 ∧
    (1 ≤ newOS → newOS ≤ 8 → DecimFIR.clampOS newOS = newOS) := by
  unfold DecimFIR.clampOS
  simp only
  split_ifs <;> refine ⟨?_, ?_, ?_⟩ <;> intros <;> omega

/-- The tap count chosen by `configure` is 1, 17, 25 or 33. -/
theorem DecimFIR.tapsFor_cases (os : Int) :
    DecimFIR.tapsFor os = 1 ∨ DecimFIR.tapsFor os = 17 ∨ DecimFIR.tapsFor os = 25 ∨
    DecimFIR.tapsFor os = 33 := by
  unfold DecimFIR.tapsFor
  split_ifs <;> simp

/-- The two branches of `configure`: nothing changes when the clamped ratio is
the configured one and taps exist; otherwise the ratio and the tap count are
stored, the delay line is zeroed, the write index is 0 and the coefficients
are rebuilt by `makeLowpass`. -/
theorem DecimFIR.configure_cases (m : Libm) (d : DecimFIR) (newOS : Int) :
    (DecimFIR.clampOS newOS = d.os ∧ 0 < d.tapsN → d.configure m newOS = d) ∧
    (¬ (DecimFIR.clampOS newOS = d.os ∧ 0 < d.tapsN) →
      d.configure m newOS =
        { os := DecimFIR.clampOS newOS,
          tapsN := DecimFIR.tapsFor (DecimFIR.clampOS newOS),
          idx := 0,
          z := d.z.map (fun _ => 0),
          h := DecimFIR.makeLowpass m (DecimFIR.tapsFor (DecimFIR.clampOS newOS))
            (DecimFIR.cutoffFor (DecimFIR.clampOS newOS)) d.h }) := by
  constructor
  · intro hc
    have hc2 : DecimFIR.clampOS newOS = d.os ∧ d.tapsN > 0 := hc
    unfold DecimFIR.configure
    unfold DecimFIR.clampOS at hc2
    simp only at hc2
    simp only [if_pos hc2]
  · intro hc
    have hc2 : ¬ (DecimFIR.clampOS newOS = d.os ∧ d.tapsN > 0) := hc
    unfold DecimFIR.configure
    unfold DecimFIR.clampOS at hc2 ⊢
    simp only at hc2 ⊢
    simp only [if_neg hc2]
    rfl

/-- The shape invariant holds in every decimator state a voice can hold. -/
theorem DecimFIR.Reach.inv (m : Libm) (d : DecimFIR) (h : DecimFIR.Reach m d) :
    DecimFIR.Inv m d := by
  induction h with
  | fresh =>
    refine ⟨List.length_replicate _ _, List.length_replicate _ _, le_refl _, by decide,
      Or.inl rfl⟩
  | reset d _ ih =>
    obtain ⟨hz, hh, _, _, ht⟩ := ih
    refine ⟨?_, hh, le_refl _, ?_, ht⟩
    · simp only [DecimFIR.reset, List.length_map]
      exact hz
    · show (0 : Int) < 128
      decide
  | configure d newOS _ ih =>
    obtain ⟨hz, hh, hi0, hi1, ht⟩ := ih
    by_cases hc : DecimFIR.clampOS newOS = d.os ∧ 0 < d.tapsN
    · rw [(DecimFIR.configure_cases m d newOS).1 hc]
      exact ⟨hz, hh, hi0, hi1, ht⟩
    · rw [(DecimFIR.configure_cases m d newOS).2 hc]
      obtain ⟨hc1, hc8, _⟩ := DecimFIR.clampOS_spec newOS
      have hfit : (DecimFIR.tapsFor (DecimFIR.clampOS newOS)).toNat ≤ d.h.length := by
        rw [hh]
        rcases DecimFIR.tapsFor_cases (DecimFIR.clampOS newOS) with h | h | h | h <;>
          rw [h] <;> decide
      refine ⟨?_, ?_, le_refl _, ?_, Or.inr ⟨hc1, hc8, rfl, ?_⟩⟩
      · simp only [List.length_map]
        exact hz
      · rw [(DecimFIR.makeLowpass_spec m _ _ d.h hfit).1]
        exact hh
      · show (0 : Int) < 128
        decide
      · intro hs
        exact DecimFIR.makeLowpass_sum m _ _ d.h hfit hs
  | push d x _ ih =>
    obtain ⟨hz, hh, hi0, hi1, ht⟩ := ih
    unfold DecimFIR.push
    split_ifs with hp
    · exact ⟨hz, hh, hi0, hi1, ht⟩
    · simp only
      rw [land_127 _ (by omega)]
      refine ⟨?_, hh, ?_, ?_, ht⟩
      · rw [List.length_set]
        exact hz
      · show 0 ≤ (d.idx + 1) % 128
        omega
      · show (d.idx + 1) % 128 < 128
        omega

/-- C22: on every decimator a voice can hold, `configure(os)` leaves the ratio
clamped into `[1, 8]` (a ratio already in that range is stored as given) and
the tap count that belongs to the stored ratio: 17 for 2, 25 for 4, 33 for 8
and 1 otherwise; the tap count is odd, at least 1 and at most 33, so it fits
the delay line and the coefficient array, which both hold 128 entries. -/
theorem C22_configure_taps (m : Libm) (d : DecimFIR) (newOS : Int)
    (h : DecimFIR.Reach m d) :
    (d.configure m newOS).os = DecimFIR.clampOS newOS ∧
    1 ≤ (d.configure m newOS).os ∧ (d.configure m newOS).os ≤ 8 ∧
    (1 ≤ newOS → newOS ≤ 8 → (d.configure m newOS).os = newOS) ∧
    ((d.configure m newOS).os = 2 → (d.configure m newOS).tapsN = 17) ∧
    ((d.configure m newOS).os = 4 → (d.configure m newOS).tapsN = 25) ∧
    ((d.configure m newOS).os = 8 → (d.configure m newOS).tapsN = 33) ∧
    ((d.configure m newOS).os ≠ 2 → (d.configure m newOS).os ≠ 4 →
      (d.configure m newOS).os ≠ 8 → (d.configure m newOS).tapsN = 1) ∧
    (d.configure m newOS).tapsN % 2 = 1 ∧
    1 ≤ (d.configure m newOS).tapsN ∧ (d.configure m newOS).tapsN ≤ 33 ∧
    (d.configure m newOS).z.length = 128 ∧ (d.configure m newOS).h.length = 128 ∧
    (d.configure m newOS).tapsN ≤ ((d.configure m newOS).z.length : Int) := by
  obtain ⟨hc1, hc8, hcid⟩ := DecimFIR.clampOS_spec newOS
  obtain ⟨hz, hh, _, _, _⟩ := DecimFIR.Reach.inv m _ (DecimFIR.Reach.configure d newOS h)
  have hos : (d.configure m newOS).os = DecimFIR.clampOS newOS ∧
      (d.configure m newOS).tapsN = DecimFIR.tapsFor (d.configure m newOS).os := by
    by_cases hc : DecimFIR.clampOS newOS = d.os ∧ 0 < d.tapsN
    · rw [(DecimFIR.configure_cases m d newOS).1 hc]
      refine ⟨hc.1.symm, ?_⟩
      rcases (DecimFIR.Reach.inv m d h).2.2.2.2 with h0 | ⟨_, _, ht, _⟩
      · omega
      · exact ht
    · rw [(DecimFIR.configure_cases m d newOS).2 hc]
      exact ⟨rfl, rfl⟩
  obtain ⟨ho, ht⟩ := hos
  have hcases := DecimFIR.tapsFor_cases (d.configure m newOS).os
  rw [← ht] at hcases
  refine ⟨ho, by rw [ho]; exact hc1, by rw [ho]; exact hc8,
    fun h1 h8 => by rw [ho]; exact hcid h1 h8, ?_, ?_, ?_, ?_, ?_, ?_, ?_, hz, hh, ?_⟩
  · intro h2
    rw [ht, h2]
    rfl
  · intro h4
    rw [ht, h4]
    rfl
  · intro h8
    rw [ht, h8]
    rfl
  · intro h2 h4 h8
    rw [ht]
    unfold DecimFIR.tapsFor
    rw [if_neg h2, if_neg h4, if_neg h8]
  · omega
  · omega
  · omega
  · rw [hz]
    push_cast
    omega

/-- Witness for C22: `configure(4)` on the default-constructed decimator. -/
theorem C22_configure_taps_witness :
    DecimFIR.Reach refLibm {} ∧
    (({} : DecimFIR).configure refLibm 4).os = DecimFIR.clampOS 4 ∧
    1 ≤ (({} : DecimFIR).configure refLibm 4).os ∧
    (({} : DecimFIR).configure refLibm 4).os ≤ 8 ∧
    ((1 : Int) ≤ 4 → (4 : Int) ≤ 8 → (({} : DecimFIR).configure refLibm 4).os = 4) ∧
    ((({} : DecimFIR).configure refLibm 4).os = 2 →
      (({} : DecimFIR).configure refLibm 4).tapsN = 17) ∧
    ((({} : DecimFIR).configure refLibm 4).os = 4 →
      (({} : DecimFIR).configure refLibm 4).tapsN = 25) ∧
    ((({} : DecimFIR).configure refLibm 4).os = 8 →
      (({} : DecimFIR).configure refLibm 4).tapsN = 33) ∧
    ((({} : DecimFIR).configure refLibm 4).os ≠ 2 →
      (({} : DecimFIR).configure refLibm 4).os ≠ 4 →
      (({} : DecimFIR).configure refLibm 4).os ≠ 8 →
      (({} : DecimFIR).configure refLibm 4).tapsN = 1) ∧
    (({} : DecimFIR).configure refLibm 4).tapsN % 2 = 1 ∧
    1 ≤ (({} : DecimFIR).configure refLibm 4).tapsN ∧
    (({} : DecimFIR).configure refLibm 4).tapsN ≤ 33 ∧
    (({} : DecimFIR).configure refLibm 4).z.length = 128 ∧
    (({} : DecimFIR).configure refLibm 4).h.length = 128 ∧
    (({} : DecimFIR).configure refLibm 4).tapsN
      ≤ ((({} : DecimFIR).configure refLibm 4).z.length : Int) :=
  ⟨DecimFIR.Reach.fresh, C22_configure_taps refLibm {} 4 DecimFIR.Reach.fresh⟩

/-- A `push` never touches the coefficients or the configuration. -/
theorem DecimFIR.push_config (d : DecimFIR) (x : ℚ) :
    (d.push x).h = d.h ∧ (d.push x).tapsN = d.tapsN ∧ (d.push x).os = d.os := by
  unfold DecimFIR.push
  split_ifs
  · exact ⟨rfl, rfl, rfl⟩
  · exact ⟨rfl, rfl, rfl⟩

/-- After `configure` on a state a voice can hold, the stored ratio is the
clamped argument and the tap count is the one that belongs to it. -/
theorem DecimFIR.configure_os_taps (m : Libm) (d : DecimFIR) (newOS : Int)
    (h : DecimFIR.Reach m d) :
    (d.configure m newOS).os = DecimFIR.clampOS newOS ∧
    (d.configure m newOS).tapsN = DecimFIR.tapsFor (DecimFIR.clampOS newOS) := by
  by_cases hc : DecimFIR.clampOS newOS = d.os ∧ 0 < d.tapsN
  · rw [(DecimFIR.configure_cases m d newOS).1 hc]
    refine ⟨hc.1.symm, ?_⟩
    rcases (DecimFIR.Reach.inv m d h).2.2.2.2 with h0 | ⟨_, _, ht, _⟩
    · omega
    · rw [hc.1]
      exact ht
  · rw [(DecimFIR.configure_cases m d newOS).2 hc]
    exact ⟨rfl, rfl⟩

/-- C24: `configure(os)` changes nothing (ratio, tap count, coefficients, delay
line and write index) when the clamped `os` equals the configured ratio and
taps exist; otherwise it stores the clamped ratio and its tap count, rebuilds
the coefficients with `makeLowpass`, zeroes every entry of the delay line (all
128 of them) and resets the write index to 0. -/
theorem C24_configure_noop_or_rebuild (m : Libm) (d : DecimFIR) (os : Int) :
    (DecimFIR.clampOS os = d.os ∧ 0 < d.tapsN → d.configure m os = d) ∧
    (¬ (DecimFIR.clampOS os = d.os ∧ 0 < d.tapsN) →
      (d.configure m os).os = DecimFIR.clampOS os ∧
      (d.configure m os).tapsN = DecimFIR.tapsFor (DecimFIR.clampOS os) ∧
      (d.configure m os).h =
        DecimFIR.makeLowpass m (DecimFIR.tapsFor (DecimFIR.clampOS os))
          (DecimFIR.cutoffFor (DecimFIR.clampOS os)) d.h ∧
      (d.configure m os).idx = 0 ∧
      (d.configure m os).z = List.replicate d.z.length 0 ∧
      (d.z.length = 128 → (d.configure m os).z = List.replicate 128 0)) ∧
    (1 ≤ os → os ≤ 8 → DecimFIR.clampOS os = os) := by
  refine ⟨(DecimFIR.configure_cases m d os).1, ?_, (DecimFIR.clampOS_spec os).2.2⟩
  intro hc
  rw [(DecimFIR.configure_cases m d os).2 hc]
  have hz : d.z.map (fun _ => (0 : ℚ)) = List.replicate d.z.length 0 := by
    simp
  refine ⟨rfl, rfl, rfl, rfl, hz, ?_⟩
  intro h128
  rw [← h128]
  exact hz

/-- Witness for C24: on the decimator configured for ratio 2 and fed one
sample, `configure(2)` changes nothing and `configure(4)` rebuilds. -/
theorem C24_configure_noop_or_rebuild_witness :
    ((DecimFIR.clampOS 2 = ((({} : DecimFIR).configure refLibm 2).push 1).os ∧
        0 < ((({} : DecimFIR).configure refLibm 2).push 1).tapsN) ∧
      ¬ (DecimFIR.clampOS 4 = ((({} : DecimFIR).configure refLibm 2).push 1).os ∧
        0 < ((({} : DecimFIR).configure refLibm 2).push 1).tapsN) ∧
      ((({} : DecimFIR).configure refLibm 2).push 1).z.length = 128) ∧
    ((({} : DecimFIR).configure refLibm 2).push 1).configure refLibm 2
      = (({} : DecimFIR).configure refLibm 2).push 1 ∧
    (((({} : DecimFIR).configure refLibm 2).push 1).configure refLibm 4).idx = 0 ∧
    (((({} : DecimFIR).configure refLibm 2).push 1).configure refLibm 4).z
      = List.replicate 128 0 :=
  have hr : DecimFIR.Reach refLibm ((({} : DecimFIR).configure refLibm 2).push 1) :=
    DecimFIR.Reach.push _ 1 (DecimFIR.Reach.configure _ 2 DecimFIR.Reach.fresh)
  have hcfg := DecimFIR.configure_os_taps refLibm {} 2 DecimFIR.Reach.fresh
  have hpc := DecimFIR.push_config (({} : DecimFIR).configure refLibm 2) 1
  have hos : ((({} : DecimFIR).configure refLibm 2).push 1).os = 2 := by
    rw [hpc.2.2, hcfg.1]
    rfl
  have htaps : ((({} : DecimFIR).configure refLibm 2).push 1).tapsN = 17 := by
    rw [hpc.2.1, hcfg.2]
    rfl
  have h2 : DecimFIR.clampOS 2 = ((({} : DecimFIR).configure refLibm 2).push 1).os ∧
      0 < ((({} : DecimFIR).configure refLibm 2).push 1).tapsN := by
    rw [hos, htaps]
    decide
  have h4 : ¬ (DecimFIR.clampOS 4 = ((({} : DecimFIR).configure refLibm 2).push 1).os ∧
      0 < ((({} : DecimFIR).configure refLibm 2).push 1).tapsN) := by
    rw [hos, htaps]
    decide
  have hz := (DecimFIR.Reach.inv refLibm _ hr).1
  ⟨⟨h2, h4, hz⟩,
   (C24_configure_noop_or_rebuild refLibm ((({} : DecimFIR).configure refLibm 2).push 1) 2).1 h2,
   ((C24_configure_noop_or_rebuild refLibm
      ((({} : DecimFIR).configure refLibm 2).push 1) 4).2.1 h4).2.2.2.1,
   ((C24_configure_noop_or_rebuild refLibm
      ((({} : DecimFIR).configure refLibm 2).push 1) 4).2.1 h4).2.2.2.2.2 hz⟩

/-! ### Voice note-on and lifecycle -/

/-- C27: `Voice::noteOff` only gates the envelope (into Release unless it is
Idle) and leaves the active flag and every other member alone. On an active
voice, a `render`, `renderFromTwoTables` or `beginFrame` call clears the flag
exactly when it runs the envelope (a table is present) and the envelope is
Idle with level `<= 0` after its step; that call returns 0 (`beginFrame`
returns false and writes 0) and leaves the phase where it was. The members
`setSampleRate`, `setTable`, `setADSR` and `advancePhaseScaled` never change
the flag. -/
theorem C27_voice_lifecycle (v : Voice) (tblA tblB : Option Table)
    (mix pitchRatio invOversample sr : ℚ) (t : Option Table) (len : Int) (p : ADSRParams) :
    v.noteOff = { v with env_ := v.env_.gate false } ∧
    v.noteOff.active_ = v.active_ ∧
    (v.env_.state_ ≠ ADSR.State.Idle → v.noteOff.env_.state_ = ADSR.State.Release) ∧
    (v.active_ = true →
      ((v.render pitchRatio).1.active_ = false ↔
        (v.table_ ≠ none ∧ v.env_.process.1.state_ = ADSR.State.Idle ∧ v.env_.process.2 ≤ 0)) ∧
      ((v.render pitchRatio).1.active_ = false →
        (v.render pitchRatio).2 = 0 ∧ (v.render pitchRatio).1.phase_ = v.phase_)) ∧
    (v.active_ = true →
      ((v.renderFromTwoTables tblA tblB mix pitchRatio).1.active_ = false ↔
        (¬ (tblA = none ∧ tblB = none) ∧ v.env_.process.1.state_ = ADSR.State.Idle ∧
          v.env_.process.2 ≤ 0)) ∧
      ((v.renderFromTwoTables tblA tblB mix pitchRatio).1.active_ = false →
        (v.renderFromTwoTables tblA tblB mix pitchRatio).2 = 0 ∧
        (v.renderFromTwoTables tblA tblB mix pitchRatio).1.phase_ = v.phase_)) ∧
    (v.active_ = true →
      (v.beginFrame.1.active_ = false ↔
        (v.env_.process.1.state_ = ADSR.State.Idle ∧ v.env_.process.2 ≤ 0)) ∧
      (v.beginFrame.1.active_ = false →
        v.beginFrame.2.1 = false ∧ v.beginFrame.2.2 = 0 ∧ v.beginFrame.1.phase_ = v.phase_)) ∧
    (v.setSampleRate sr).active_ = v.active_ ∧ (v.setTable t len).active_ = v.active_ ∧
    (v.setADSR p).active_ = v.active_ ∧
    (v.advancePhaseScaled pitchRatio invOversample).active_ = v.active_ := by
  have hidle : ∀ e : ADSR, ((!e.isActive) = true) ↔ e.state_ = ADSR.State.Idle := by
    intro e
    unfold ADSR.isActive
    simp
  refine ⟨rfl, rfl, ?_, ?_, ?_, ?_, rfl, rfl, rfl, rfl⟩
  · intro hs
    show (v.env_.gate false).state_ = ADSR.State.Release
    unfold ADSR.gate
    simp only [Bool.false_eq_true, if_false]
    rw [if_pos hs]
  · intro ha
    unfold Voice.render
    cases htab : v.table_ with
    | none =>
      simp only [ha]
      constructor
      · constructor
        · intro h; exact absurd h (by simp)
        · intro h; exact absurd rfl h.1
      · intro h; exact absurd h (by simp)
    | some tb =>
      simp only [ha, Bool.not_true, Bool.false_eq_true, if_false]
      by_cases hc : (!v.env_.process.1.isActive) = true ∧ v.env_.process.2 ≤ 0
      · rw [if_pos hc]
        exact ⟨⟨fun _ => ⟨by simp, (hidle _).mp hc.1, hc.2⟩, fun _ => rfl⟩,
          fun _ => ⟨rfl, rfl⟩⟩
      · rw [if_neg hc]
        constructor
        · constructor
          · intro h; exact absurd h (by simp [Voice.addPhase])
          · intro h; exact absurd ⟨(hidle _).mpr h.2.1, h.2.2⟩ hc
        · intro h; exact absurd h (by simp [Voice.addPhase])
  · intro ha
    unfold Voice.renderFromTwoTables
    by_cases hn : tblA = none ∧ tblB = none
    · have hcond : (tblA.isNone = true ∧ tblB.isNone = true) ∨ (!v.active_) = true := by
        left
        simpa [Option.isNone_iff_eq_none] using hn
      rw [if_pos hcond]
      constructor
      · constructor
        · intro h; rw [ha] at h; exact absurd h (by simp)
        · intro h; exact absurd hn h.1
      · intro h; rw [ha] at h; exact absurd h (by simp)
    · have hcond : ¬ ((tblA.isNone = true ∧ tblB.isNone = true) ∨ (!v.active_) = true) := by
        rw [ha]
        simpa [Option.isNone_iff_eq_none] using hn
      rw [if_neg hcond]
      simp only
      by_cases hc : (!v.env_.process.1.isActive) = true ∧ v.env_.process.2 ≤ 0
      · rw [if_pos hc]
        exact ⟨⟨fun _ => ⟨hn, (hidle _).mp hc.1, hc.2⟩, fun _ => rfl⟩, fun _ => ⟨rfl, rfl⟩⟩
      · rw [if_neg hc]
        constructor
        · constructor
          · intro h
            have h2 : v.active_ = false := h
            rw [ha] at h2
            exact absurd h2 (by simp)
          · intro h; exact absurd ⟨(hidle _).mpr h.2.1, h.2.2⟩ hc
        · intro h
          have h2 : v.active_ = false := h
          rw [ha] at h2
          exact absurd h2 (by simp)
  · intro ha
    unfold Voice.beginFrame
    simp only [ha, Bool.not_true, Bool.false_eq_true, if_false]
    by_cases hc : (!v.env_.process.1.isActive) = true ∧ v.env_.process.2 ≤ 0
    · rw [if_pos hc]
      exact ⟨⟨fun _ => ⟨(hidle _).mp hc.1, hc.2⟩, fun _ => rfl⟩, fun _ => ⟨rfl, rfl, rfl⟩⟩
    · rw [if_neg hc]
      constructor
      · constructor
        · intro h; exact absurd h (by simp)
        · intro h; exact absurd ⟨(hidle _).mpr h.1, h.2⟩ hc
      · intro h; exact absurd h (by simp)

/-- Witness for C27: `highVoice` is released before its first sample (level 0),
so its envelope is Idle at level 0 after the next step, and the next `render`
clears the flag, returns 0 and leaves the phase alone. -/
theorem C27_voice_lifecycle_witness :
    (highVoice.env_.state_ ≠ ADSR.State.Idle ∧ highVoice.noteOff.active_ = true ∧
      highVoice.noteOff.table_ ≠ none ∧
      highVoice.noteOff.env_.process.1.state_ = ADSR.State.Idle ∧
      highVoice.noteOff.env_.process.2 ≤ 0) ∧
    highVoice.noteOff.env_.state_ = ADSR.State.Release ∧
    (highVoice.noteOff.render 1).1.active_ = false ∧
    (highVoice.noteOff.render 1).2 = 0 ∧
    (highVoice.noteOff.render 1).1.phase_ = highVoice.noteOff.phase_ :=
  have henv : highVoice.env_ = ⟨ADSR.State.Attack, {}, 8000, 0⟩ := highVoice_fields.1
  have hs : highVoice.env_.state_ ≠ ADSR.State.Idle := by
    rw [henv]
    decide
  have ha : highVoice.noteOff.active_ = true := highVoice_fields.2.2.2.2.1
  have ht : highVoice.noteOff.table_ ≠ none := by
    show highVoice.table_ ≠ none
    rw [highVoice_fields.2.2.2.2.2.1]
    simp
  have hoff : highVoice.noteOff.env_ = ⟨ADSR.State.Release, {}, 8000, 0⟩ := by
    show highVoice.env_.gate false = _
    rw [henv]
    rfl
  have hadv : highVoice.noteOff.env_.advance = ⟨ADSR.State.Idle, {}, 8000, 0⟩ := by
    rw [hoff]
    simp only [ADSR.advance]
    norm_num
  have hidle : highVoice.noteOff.env_.process.1.state_ = ADSR.State.Idle := by
    show highVoice.noteOff.env_.advance.state_ = _
    rw [hadv]
  have hlev : highVoice.noteOff.env_.process.2 ≤ 0 := by
    show highVoice.noteOff.env_.advance.env_ ≤ 0
    rw [hadv]
  have hclear : (highVoice.noteOff.render 1).1.active_ = false :=
    ((C27_voice_lifecycle highVoice.noteOff none none 0 1 1 1 none 0 {}).2.2.2.1 ha).1.mpr
      ⟨ht, hidle, hlev⟩
  ⟨⟨hs, ha, ht, hidle, hlev⟩,
   (C27_voice_lifecycle highVoice none none 0 1 1 1 none 0 {}).2.2.1 hs,
   hclear,
   (((C27_voice_lifecycle highVoice.noteOff none none 0 1 1 1 none 0 {}).2.2.2.1 ha).2
      hclear).1,
   (((C27_voice_lifecycle highVoice.noteOff none none 0 1 1 1 none 0 {}).2.2.2.1 ha).2
      hclear).2⟩

/-! ### Effective table of the engine -/

/-- The member `render` keeps the table and the effective length of a voice. -/
theorem Voice.render_table (v : Voice) (r : ℚ) :
    (v.render r).1.table_ = v.table_ ∧ (v.render r).1.len_ = v.len_ := by
  unfold Voice.render
  split
  · exact ⟨rfl, rfl⟩
  · dsimp only
    split_ifs <;> exact ⟨rfl, rfl⟩

/-- The member `renderFromTwoTables` keeps the table and the effective length
of a voice. -/
theorem Voice.renderFromTwoTables_table (v : Voice) (tA tB : Option Table) (mix r : ℚ) :
    (v.renderFromTwoTables tA tB mix r).1.table_ = v.table_ ∧
    (v.renderFromTwoTables tA tB mix r).1.len_ = v.len_ := by
  unfold Voice.renderFromTwoTables
  dsimp only
  split_ifs <;> exact ⟨rfl, rfl⟩

/-- The member `beginFrame` keeps the table and the effective length of a
voice. -/
theorem Voice.beginFrame_table (v : Voice) :
    v.beginFrame.1.table_ = v.table_ ∧ v.beginFrame.1.len_ = v.len_ := by
  unfold Voice.beginFrame
  dsimp only
  split_ifs <;> exact ⟨rfl, rfl⟩

/-- The oversampling loop keeps the table and the effective length of a
voice. -/
theorem Voice.oversample_table (tA tB : Option Table) (mix r invOS : ℚ) :
    ∀ (k : Nat) (v : Voice),
      (v.oversample tA tB mix r invOS k).table_ = v.table_ ∧
      (v.oversample tA tB mix r invOS k).len_ = v.len_ := by
  intro k
  induction k with
  | zero => intro v; exact ⟨rfl, rfl⟩
  | succ k ih =>
    intro v
    simp only [Voice.oversample]
    obtain ⟨h1, h2⟩ := ih
      (({ v with decim_ := v.decim_.push (v.sampleFromTwoTables tA tB mix) } :
        Voice).advancePhaseScaled r invOS)
    exact ⟨h1, h2⟩

/-- The band-limited loop body keeps the table and the effective length of a
voice. -/
theorem Synth.renderBandlimited_table (m : Libm) (s : Synth) (r guard : ℚ) (v : Voice)
    (acc : ℚ) :
    (s.renderBandlimited m r guard v acc).1.table_ = v.table_ ∧
    (s.renderBandlimited m r guard v acc).1.len_ = v.len_ := by
  unfold Synth.renderBandlimited
  dsimp only
  split
  · exact Voice.renderFromTwoTables_table v _ _ _ _
  · split
    · exact Voice.beginFrame_table v
    · obtain ⟨b1, b2⟩ := Voice.beginFrame_table v
      refine ⟨Eq.trans ?_ b1, Eq.trans ?_ b2⟩
      · exact (Voice.oversample_table _ _ _ _ _ _ _).1
      · exact (Voice.oversample_table _ _ _ _ _ _ _).2

/-- A voice loop whose body keeps the table and the effective length of a voice
keeps them for the whole pool. -/
theorem forActiveVoices_table (body : Voice → ℚ → Voice × ℚ)
    (hbody : ∀ (v : Voice) (acc : ℚ),
      (body v acc).1.table_ = v.table_ ∧ (body v acc).1.len_ = v.len_)
    (T : Option Table) (L : Int) :
    ∀ (vs : List Voice) (acc : ℚ), (∀ v ∈ vs, v.table_ = T ∧ v.len_ = L) →
      ∀ v ∈ (forActiveVoices body vs acc).1, v.table_ = T ∧ v.len_ = L := by
  intro vs
  induction vs with
  | nil => intro acc _ v hv; simp [forActiveVoices] at hv
  | cons w ws ih =>
    intro acc h v hv
    have hw := h w (List.mem_cons_self _ _)
    have hws : ∀ u ∈ ws, u.table_ = T ∧ u.len_ = L :=
      fun u hu => h u (List.mem_cons_of_mem _ hu)
    simp only [forActiveVoices] at hv
    split_ifs at hv
    · simp only [List.mem_cons] at hv
      rcases hv with rfl | hv
      · obtain ⟨b1, b2⟩ := hbody w acc
        exact ⟨b1.trans hw.1, b2.trans hw.2⟩
      · exact ih _ hws v hv
    · simp only [List.mem_cons] at hv
      rcases hv with rfl | hv
      · exact hw
      · exact ih _ hws v hv

/-- The relation `SameTables` is reflexive and transitive. -/
theorem Synth.SameTables.same_refl (s : Synth) : s.SameTables s :=
  ⟨rfl, rfl, rfl, rfl, rfl, fun _ _ h => h⟩

/-- Two calls that keep the table members keep them together. -/
theorem Synth.SameTables.chain {a b c : Synth} (h1 : a.SameTables b) (h2 : b.SameTables c) :
    a.SameTables c :=
  ⟨h2.1.trans h1.1, h2.2.1.trans h1.2.1, h2.2.2.1.trans h1.2.2.1,
    h2.2.2.2.1.trans h1.2.2.2.1, h2.2.2.2.2.1.trans h1.2.2.2.2.1,
    fun T L h => h2.2.2.2.2.2 T L (h1.2.2.2.2.2 T L h)⟩

/-- One sample of `process` keeps the table members and the voices' tables. -/
theorem Synth.tick_sameTables (m : Libm) (s : Synth) (lfoInc d comp : ℚ) :
    s.SameTables (s.tick m lfoInc d comp).1 := by
  refine ⟨rfl, rfl, rfl, rfl, rfl, ?_⟩
  intro T L h
  simp only [Synth.tick]
  split_ifs
  · exact forActiveVoices_table
      (fun v acc => ((v.render _).1, acc + (v.render _).2))
      (fun v _ => Voice.render_table v _) T L s.voices_ 0 h
  · exact forActiveVoices_table _ (fun v acc => Synth.renderBandlimited_table m s _ _ v acc)
      T L s.voices_ 0 h

/-- The sample loop of `process` keeps the table members and the voices'
tables. -/
theorem Synth.sampleLoop_sameTables (m : Libm) (lfoInc d comp : ℚ) :
    ∀ (k n : Nat) (s : Synth) (outL outR : List ℚ),
      s.SameTables (Synth.sampleLoop m lfoInc d comp k n s outL outR).1 := by
  intro k
  induction k with
  | zero => intro n s outL outR; exact Synth.SameTables.same_refl s
  | succ k ih =>
    intro n s outL outR
    simp only [Synth.sampleLoop]
    exact (Synth.tick_sameTables m s lfoInc d comp).chain (ih _ _ _ _)

/-- The call `noteOn` keeps the table members and the voices' tables. -/
theorem Synth.noteOn_sameTables (m : Libm) (s : Synth) (note vel : Int) :
    s.SameTables (s.noteOn m note vel) := by
  refine ⟨rfl, rfl, rfl, rfl, rfl, ?_⟩
  intro T L h v hv
  rw [Synth.noteOn_voices] at hv
  rcases List.mem_or_eq_of_mem_set hv with hmem | heq
  · exact h v hmem
  · by_cases hi : s.allocIndex.toNat < s.voices_.length
    · have hin : s.voices_.getD s.allocIndex.toNat {} ∈ s.voices_ := by
        rw [List.getD_eq_getElem _ _ hi]
        exact List.getElem_mem _
      rw [heq]
      exact ⟨(h _ hin).1, (h _ hin).2⟩
    · rw [List.set_eq_of_length_le (by omega)] at hv
      exact h v hv

/-- The call `noteOff` keeps the table members and the voices' tables. -/
theorem Synth.noteOff_sameTables (s : Synth) (note : Int) : s.SameTables (s.noteOff note) := by
  refine ⟨rfl, rfl, rfl, rfl, rfl, ?_⟩
  intro T L h v hv
  simp only [Synth.noteOff, List.mem_map] at hv
  obtain ⟨w, hw, rfl⟩ := hv
  split_ifs
  · exact h w hw
  · exact h w hw

/-- The table consistency is carried over by a call that keeps the table
members and the voices' tables. -/
theorem Synth.TableInv.of_sameTables (m : Libm) {s s' : Synth} (h : s.TableInv m)
    (hs : s.SameTables s') : s'.TableInv m := by
  obtain ⟨ht, hp, hc, he, hv, hvoices⟩ := hs
  have hraw : s'.rawTable = s.rawTable := by
    unfold Synth.rawTable
    rw [ht, hp]
  refine ⟨by rw [hc, hraw]; exact h.1, ?_⟩
  intro hvalid
  rw [hv] at hvalid
  obtain ⟨h0, h1, h2⟩ := h.2 hvalid
  rw [hp, he, hraw]
  exact ⟨h0, h1, hvoices _ _ h2⟩

/-- The cutoff of the Fixed pre-high-cut: `round(0.65 * 256) = 166`. -/
theorem fixed_cut_eq : cround ((65 / 100) * (((Int.tdiv (kTableSize : Int) 2 : Int)) : ℚ)) = 166 := by
  have hn : (((Int.tdiv (kTableSize : Int) 2 : Int)) : ℚ) = 256 := by
    have : Int.tdiv (kTableSize : Int) 2 = 256 := rfl
    rw [this]
    norm_num
  rw [hn, cround_of_nonneg _ (by norm_num), Int.floor_eq_iff]
  constructor <;> norm_num

/-- The block of `setParams` that prepares the effective table, on an engine
whose `current_` points to the raw table: the effective table is the raw table
in mode 0, the fixed low-pass of it in mode 1 and the low-pass by maximum note
otherwise; `preCutValid_` is set and every voice gets the effective table and
the effective length `params_.tableLen`. -/
theorem Synth.rebuildEffective_spec (m : Libm) (t : Synth) (hc : t.current_ = some t.rawTable) :
    (t.rebuildEffective m).tables_ = t.tables_ ∧ (t.rebuildEffective m).params_ = t.params_ ∧
    (t.rebuildEffective m).current_ = t.current_ ∧
    (t.rebuildEffective m).preCutValid_ = true ∧
    (t.params_.preHighCutMode = 0 → (t.rebuildEffective m).effective_ = some t.rawTable) ∧
    (t.params_.preHighCutMode = 1 → (t.rebuildEffective m).effective_
      = some (apply_lowpass_with_taper m t.rawTable 166 12 true)) ∧
    (t.params_.preHighCutMode ≠ 0 → t.params_.preHighCutMode ≠ 1 →
      (t.rebuildEffective m).effective_ = some (t.byMaxNoteTable m)) ∧
    ∀ v ∈ (t.rebuildEffective m).voices_,
      v.table_ = (t.rebuildEffective m).effective_ ∧ v.len_ = t.params_.tableLen := by
  have hget : t.current_.getD zeroTable = t.rawTable := by rw [hc]; rfl
  unfold Synth.rebuildEffective
  dsimp only
  rw [hget, fixed_cut_eq]
  by_cases h0 : t.params_.preHighCutMode = 0
  on_goal 2 => by_cases h1 : t.params_.preHighCutMode = 1
  · rw [if_pos h0]
    refine ⟨rfl, rfl, rfl, rfl, fun _ => hc, fun h => ?_, fun h => absurd h0 h, ?_⟩
    · rw [h0] at h
      exact absurd h (by decide)
    · intro v hv
      simp only [List.mem_map] at hv
      obtain ⟨w, _, rfl⟩ := hv
      exact ⟨rfl, rfl⟩
  · rw [if_neg h0, if_pos h1]
    refine ⟨rfl, rfl, rfl, rfl, fun h => absurd h h0, fun _ => rfl,
      fun _ h => absurd h1 h, ?_⟩
    intro v hv
    simp only [List.mem_map] at hv
    obtain ⟨w, _, rfl⟩ := hv
    exact ⟨rfl, rfl⟩
  · rw [if_neg h0, if_neg h1]
    refine ⟨rfl, rfl, rfl, rfl, fun h => absurd h h0, fun h => absurd h h1, fun _ _ => rfl, ?_⟩
    intro v hv
    simp only [List.mem_map] at hv
    obtain ⟨w, _, rfl⟩ := hv
    exact ⟨rfl, rfl⟩

/-- The call `setup` leaves `current_` on the raw table of the parameters in
force and clears `preCutValid_`. -/
theorem Synth.setup_tableInv (m : Libm) (s : Synth) (sampleRate : ℚ) :
    (s.setup sampleRate).TableInv m :=
  ⟨rfl, fun h => absurd h (by simp [Synth.setup])⟩

/-- The first part of `setParams(p)` on an engine with consistent table
members: the parameters are stored, `preCutValid_` is set and the table
members are consistent for the new parameters. -/
theorem Synth.setParamsCore_tableInv (m : Libm) (s : Synth) (p : SynthParams)
    (h : s.TableInv m) :
    (s.setParamsCore m p).tables_ = s.tables_ ∧ (s.setParamsCore m p).params_ = p ∧
    (s.setParamsCore m p).preCutValid_ = true ∧ (s.setParamsCore m p).TableInv m := by
  unfold Synth.setParamsCore
  dsimp only
  generalize hc1 : ((p.toneMask != s.params_.toneMask) ||
    (p.quantize4 != s.params_.quantize4) || (p.tableLen != s.params_.tableLen)) = c1
  generalize ((p.adsr.attack != s.params_.adsr.attack) ||
    (p.adsr.decay != s.params_.adsr.decay) || (p.adsr.sustain != s.params_.adsr.sustain) ||
    (p.adsr.release != s.params_.adsr.release)) = c2
  generalize hc3 : ((p.preHighCutMode != s.params_.preHighCutMode) ||
    (p.preHighCutMaxNote != s.params_.preHighCutMaxNote)) = c3
  -- stage 1: the parameters are stored and the raw table is reselected
  have st2 : ∀ t2 : Synth,
      t2 = (if c1 = true then ({ s with params_ := p } : Synth).reselectTable
        else { s with params_ := p }) →
      t2.tables_ = s.tables_ ∧ t2.params_ = p ∧ t2.current_ = some t2.rawTable ∧
      (c1 = false → c3 = false → t2.TableInv m) := by
    intro t2 ht2
    cases c1 with
    | true =>
      rw [if_pos rfl] at ht2
      rw [ht2]
      exact ⟨rfl, rfl, rfl, fun hf => absurd hf (by simp)⟩
    | false =>
      rw [if_neg (by simp)] at ht2
      rw [ht2]
      simp only [Bool.or_eq_false_iff, bne_eq_false_iff_eq] at hc1
      obtain ⟨⟨e1, e2⟩, e3⟩ := hc1
      have hraw : ({ s with params_ := p } : Synth).rawTable = s.rawTable := by
        show s.tables_.get p.toneMask p.quantize4 p.tableLen = _
        rw [e1, e2, e3]
        rfl
      have hcur : ({ s with params_ := p } : Synth).current_
          = some ({ s with params_ := p } : Synth).rawTable := by
        rw [hraw]
        exact h.1
      refine ⟨rfl, rfl, hcur, ?_⟩
      intro _ hf3
      rw [hf3] at hc3
      simp only [Bool.or_eq_false_iff, bne_eq_false_iff_eq] at hc3
      refine ⟨hcur, ?_⟩
      intro hvalid
      obtain ⟨h0, h1, hv⟩ := h.2 hvalid
      rw [hraw]
      show (p.preHighCutMode = 0 → _) ∧ (p.preHighCutMode = 1 → _) ∧
        ∀ v ∈ s.voices_, v.table_ = s.effective_ ∧ v.len_ = p.tableLen
      rw [hc3.1, e3]
      exact ⟨h0, h1, hv⟩
  generalize (if c1 = true then ({ s with params_ := p } : Synth).reselectTable
    else { s with params_ := p }) = t2 at st2 ⊢
  obtain ⟨a1, a2, a3, a4⟩ := st2 t2 rfl
  -- stage 2: the envelope settings are pushed to the voices
  have st3 : ∀ t3 : Synth, t3 = (if c2 = true then t2.pushADSR else t2) →
      t3.tables_ = s.tables_ ∧ t3.params_ = p ∧ t3.current_ = some t3.rawTable ∧
      (c1 = false → c3 = false → t3.TableInv m) := by
    intro t3 ht3
    cases c2 with
    | false =>
      rw [if_neg (by simp)] at ht3
      rw [ht3]
      exact ⟨a1, a2, a3, a4⟩
    | true =>
      rw [if_pos rfl] at ht3
      rw [ht3]
      refine ⟨a1, a2, a3, ?_⟩
      intro hf1 hf3
      obtain ⟨_, b2⟩ := a4 hf1 hf3
      refine ⟨a3, ?_⟩
      intro hvalid
      obtain ⟨h0, h1, hv⟩ := b2 hvalid
      refine ⟨h0, h1, ?_⟩
      intro v hv2
      simp only [Synth.pushADSR, List.mem_map] at hv2
      obtain ⟨w, hw, rfl⟩ := hv2
      exact hv w hw
  generalize (if c2 = true then t2.pushADSR else t2) = t3 at st3 ⊢
  obtain ⟨b1, b2, b3, b4⟩ := st3 t3 rfl
  -- stage 3: the effective table is rebuilt when needed
  by_cases hre : (c1 || c3 || !t3.preCutValid_) = true
  · rw [if_pos hre]
    obtain ⟨r1, r2, r3, r4, r5, r6, _, r8⟩ := Synth.rebuildEffective_spec m t3 b3
    have hraw : (t3.rebuildEffective m).rawTable = t3.rawTable := by
      unfold Synth.rawTable
      rw [r1, r2]
    refine ⟨r1.trans b1, r2.trans b2, r4, ?_, ?_⟩
    · rw [r3, hraw]
      exact b3
    · intro _
      rw [r2, hraw]
      exact ⟨r5, r6, r8⟩
  · rw [if_neg hre]
    simp only [Bool.or_eq_true, Bool.not_eq_true', not_or, Bool.not_eq_true,
      Bool.not_eq_false] at hre
    obtain ⟨⟨hf1, hf3⟩, hvalid⟩ := hre
    exact ⟨b1, b2, hvalid, b4 hf1 hf3⟩

/-- For a `std::pow` that gives a step above 1, `make_harmonic_cuts` returns
for every iteration bound above some `N`, always the same vector. -/
theorem make_harmonic_cuts_returns (pow : ℚ → ℚ → ℚ)
    (hpow : ∀ b : Int, 1 ≤ b → b ≤ 8 → 1 < pow 2 (1 / (b : ℚ))) (bandsPerOctave : Int) :
    ∃ (N : Nat) (cuts : List Int),
      ∀ fuel : Nat, N ≤ fuel → make_harmonic_cuts pow fuel bandsPerOctave = some cuts := by
  obtain ⟨b, hb1, hb8, hb⟩ : ∃ b : Int, 1 ≤ b ∧ b ≤ 8 ∧
      (if (if bandsPerOctave < 1 then 1 else bandsPerOctave) > 8 then 8
        else (if bandsPerOctave < 1 then 1 else bandsPerOctave)) = b :=
    ⟨_, by split_ifs <;> omega, by split_ifs <;> omega, rfl⟩
  have hstep : 1 < pow 2 (1 / (b : ℚ)) := hpow b hb1 hb8
  obtain ⟨N, hN⟩ := pow_unbounded_of_one_lt (128 : ℚ) hstep
  have hgood : GoodCuts [2] :=
    ⟨by simp, List.chain'_singleton 2, by intro c hc; simp at hc; omega, rfl⟩
  obtain ⟨out, hout, ⟨_, hch, _, _⟩, hlast⟩ :=
    harmonicCutsLoop_spec (pow 2 (1 / (b : ℚ))) hstep N 2 [2] (le_refl _)
      (by linarith) hgood (by rw [cutOf_two]; rfl)
  refine ⟨N, out, ?_⟩
  intro fuel hle
  have hrun := harmonicCutsLoop_fuel_le (pow 2 (1 / (b : ℚ))) 2 [2] out N fuel hle hout
  unfold make_harmonic_cuts
  simp only [hb, hrun]
  rw [if_neg (not_not.mpr hlast), unique_of_chain out hch]

/-- The last part of `setParams` touches only the band-limited set. -/
theorem Synth.rebuildBLSet_sameTables (m : Libm) (fuel : Nat) (t t' : Synth)
    (ht : t.rebuildBLSet m fuel = some t') :
    t.SameTables t' ∧ t'.voices_ = t.voices_ ∧ t'.vibratoDepthSemis_ = t.vibratoDepthSemis_ ∧
    t'.sr_ = t.sr_ := by
  simp only [Synth.rebuildBLSet] at ht
  split_ifs at ht
  · split at ht
    · exact absurd ht (by simp)
    · simp only [Option.some.injEq] at ht
      rw [← ht]
      exact ⟨⟨rfl, rfl, rfl, rfl, rfl, fun _ _ h => h⟩, rfl, rfl, rfl⟩
  · simp only [Option.some.injEq] at ht
    rw [← ht]
    exact ⟨⟨rfl, rfl, rfl, rfl, rfl, fun _ _ h => h⟩, rfl, rfl, rfl⟩

/-- The call `setParams(p)` differs from its first part only in the
band-limited set. -/
theorem Synth.setParams_sameTables (m : Libm) (fuel : Nat) (s s' : Synth) (p : SynthParams)
    (h : s.setParams m fuel p = some s') :
    (s.setParamsCore m p).SameTables s' ∧ s'.voices_ = (s.setParamsCore m p).voices_ ∧
    s'.vibratoDepthSemis_ = (s.setParamsCore m p).vibratoDepthSemis_ ∧
    s'.sr_ = (s.setParamsCore m p).sr_ := by
  unfold Synth.setParams at h
  simp only at h
  split_ifs at h
  · exact Synth.rebuildBLSet_sameTables m fuel _ s' h
  · simp only [Option.some.injEq] at h
    rw [← h]
    exact ⟨Synth.SameTables.same_refl _, rfl, rfl, rfl⟩

/-- The call `setParams(p)` returns for every iteration bound above some `N`
when `std::pow` gives a step above 1. -/
theorem Synth.setParams_returns (m : Libm)
    (hpow : ∀ b : Int, 1 ≤ b → b ≤ 8 → 1 < m.pow 2 (1 / (b : ℚ))) (s : Synth)
    (p : SynthParams) :
    ∃ N : Nat, ∀ fuel : Nat, N ≤ fuel → ∃ s', s.setParams m fuel p = some s' := by
  obtain ⟨N, cuts, hN⟩ := make_harmonic_cuts_returns m.pow hpow p.blQuality
  refine ⟨N, ?_⟩
  intro fuel hle
  obtain ⟨_, hparams⟩ := Synth.setParamsCore_noNewActive m s p
  unfold Synth.setParams
  simp only
  split_ifs
  · simp only [Synth.rebuildBLSet]
    rw [hparams]
    split_ifs
    · simp only [build_bandlimited_set, hN fuel hle]
      exact ⟨_, rfl⟩
    · exact ⟨_, rfl⟩
  · exact ⟨_, rfl⟩

/-- The call `setParams(p)` on an engine with consistent table members. -/
theorem Synth.setParams_tableInv (m : Libm) (fuel : Nat) (s s' : Synth) (p : SynthParams)
    (h : s.TableInv m) (hs : s.setParams m fuel p = some s') :
    s'.tables_ = s.tables_ ∧ s'.params_ = p ∧ s'.preCutValid_ = true ∧ s'.TableInv m := by
  obtain ⟨c1, c2, c3, c4⟩ := Synth.setParamsCore_tableInv m s p h
  obtain ⟨hsame, _, _, _⟩ := Synth.setParams_sameTables m fuel s s' p hs
  exact ⟨hsame.1.trans c1, hsame.2.1.trans c2, hsame.2.2.2.2.1.trans c3,
    Synth.TableInv.of_sameTables m c4 hsame⟩

/-- Every engine state that follows a call of `setup` has consistent table
members. -/
theorem Synth.Prepared.tableInv (m : Libm) (s : Synth) (h : Synth.Prepared m s) :
    s.TableInv m := by
  induction h with
  | setup s sr => exact Synth.setup_tableInv m s sr
  | setParams fuel s s' p _ hs ih => exact (Synth.setParams_tableInv m fuel s s' p ih hs).2.2.2
  | noteOn s note vel _ ih => exact ih.of_sameTables m (Synth.noteOn_sameTables m s note vel)
  | noteOff s note _ ih => exact ih.of_sameTables m (Synth.noteOff_sameTables s note)
  | process s outL outR frames _ ih =>
    exact ih.of_sameTables m (Synth.sampleLoop_sameTables m _ _ _ _ _ s outL outR)
  | setPitchBendSemis s x _ ih => exact ih.of_sameTables m ⟨rfl, rfl, rfl, rfl, rfl, fun _ _ h => h⟩
  | setDetuneSemis s x _ ih => exact ih.of_sameTables m ⟨rfl, rfl, rfl, rfl, rfl, fun _ _ h => h⟩
  | setVibratoDepthSemis s x _ ih =>
    exact ih.of_sameTables m ⟨rfl, rfl, rfl, rfl, rfl, fun _ _ h => h⟩
  | setVibratoRateHz s x _ ih => exact ih.of_sameTables m ⟨rfl, rfl, rfl, rfl, rfl, fun _ _ h => h⟩
  | setNoiseAdd s x _ ih => exact ih.of_sameTables m ⟨rfl, rfl, rfl, rfl, rfl, fun _ _ h => h⟩

/-- C28: on every engine state that follows a call of `setup`, `setParams(p)`
returns (for every sufficient iteration bound of the cutoff loop, `std::pow`
giving a step above 1) and leaves the parameters `p` in force with: in mode
Off the effective table equal to the raw table
`Tables.get(p.toneMask, p.quantize4, p.tableLen)`; in mode Fixed the effective
table equal to `apply_lowpass_with_taper(raw, 166, 12, true)`, where
`166 = round(0.65 * 256)`; and every voice playing from that effective table
with effective length `p.tableLen`. -/
theorem C28_effective_table (m : Libm) (s : Synth) (p : SynthParams)
    (hs : Synth.Prepared m s)
    (hpow : ∀ b : Int, 1 ≤ b → b ≤ 8 → 1 < m.pow 2 (1 / (b : ℚ))) :
    (∃ N : Nat, ∀ fuel : Nat, N ≤ fuel → ∃ s', s.setParams m fuel p = some s') ∧
    cround ((65 / 100) * (256 : ℚ)) = 166 ∧
    ∀ (fuel : Nat) (s' : Synth), s.setParams m fuel p = some s' →
      s'.params_ = p ∧
      (p.preHighCutMode = 0 →
        s'.effective_ = some (s.tables_.get p.toneMask p.quantize4 p.tableLen)) ∧
      (p.preHighCutMode = 1 →
        s'.effective_ = some (apply_lowpass_with_taper m
          (s.tables_.get p.toneMask p.quantize4 p.tableLen) 166 12 true)) ∧
      ∀ v ∈ s'.voices_, v.table_ = s'.effective_ ∧ v.len_ = p.tableLen := by
  refine ⟨Synth.setParams_returns m hpow s p, ?_, ?_⟩
  · rw [cround_of_nonneg _ (by norm_num), Int.floor_eq_iff]
    constructor <;> norm_num
  · intro fuel s' hset
    obtain ⟨ht, hp, hvalid, hinv⟩ := Synth.setParams_tableInv m fuel s s' p hs.tableInv hset
    obtain ⟨h0, h1, hv⟩ := hinv.2 hvalid
    have hraw : s'.rawTable = s.tables_.get p.toneMask p.quantize4 p.tableLen := by
      unfold Synth.rawTable
      rw [ht, hp]
    rw [hp, hraw] at h0 h1
    rw [hp] at hv
    exact ⟨hp, h0, h1, hv⟩

/-! ### Band-limiting loops in closed form -/

/-- Reading a list after one write. -/
theorem getD_set_eq {α : Type} (l : List α) (i j : Nat) (a d : α) :
    (l.set i a).getD j d = if i = j ∧ i < l.length then a else l.getD j d := by
  rw [List.getD_eq_getElem?_getD, List.getElem?_set]
  by_cases hij : i = j
  · subst hij
    by_cases hi : i < l.length
    · rw [if_pos rfl, if_pos hi, if_pos ⟨rfl, hi⟩]
      rfl
    · rw [if_pos rfl, if_neg hi, if_neg (fun h => hi h.2), List.getD_eq_getElem?_getD,
        List.getElem?_eq_none (by omega)]
  · rw [if_neg hij, if_neg (fun h => hij h.1), List.getD_eq_getElem?_getD]

/-- The low-pass loop of `taperSpectrum` is the loop of `taperStep`. -/
theorem taperSpectrum_eq (m : Libm) (X : List Cplx) (H taperBins : Int) :
    taperSpectrum m X H taperBins =
      if H < 256 then (List.range 256).foldl (taperStep m H (max 1 (H - taperBins))) X
      else X := rfl

/-- After the first `J` iterations of the low-pass loop on a 512-bin spectrum,
the bins with harmonic number `1..J` hold their final value and the others are
untouched. -/
theorem taperLoop_getD (m : Libm) (X : List Cplx) (H startTaper : Int)
    (hlen : X.length = 512) (hH : H < 256) :
    ∀ J : Nat, J ≤ 256 →
      ((List.range J).foldl (taperStep m H startTaper) X).length = 512 ∧
      ∀ i : Nat, i < 512 →
        ((List.range J).foldl (taperStep m H startTaper) X).getD i (0, 0) =
          if 1 ≤ i ∧ (i ≤ J ∨ 512 - J ≤ i) then taperAt m X H startTaper i
          else X.getD i (0, 0) := by
  intro J
  induction J with
  | zero =>
    intro _
    refine ⟨hlen, ?_⟩
    intro i hi
    rw [if_neg (by omega)]
    rfl
  | succ J ih =>
    intro hJ
    obtain ⟨hl, hg⟩ := ih (by omega)
    rw [List.range_succ, List.foldl_append]
    simp only [List.foldl_cons, List.foldl_nil]
    generalize (List.range J).foldl (taperStep m H startTaper) X = Y at hl hg ⊢
    have hk1 : ((Int.ofNat J + 1 : Int)).toNat = J + 1 := by
      show ((J : Int) + 1).toNat = J + 1
      omega
    have hk2 : (((kTableSize : Nat) : Int) - (Int.ofNat J + 1)).toNat = 511 - J := by
      show (((512 : Nat) : Int) - ((J : Int) + 1)).toNat = 511 - J
      omega
    unfold taperStep
    simp only [hk1, hk2]
    by_cases hgt : (Int.ofNat J + 1 : Int) > H
    · rw [if_pos hgt]
      refine ⟨by rw [List.length_set, List.length_set, hl], ?_⟩
      intro i hi
      rw [getD_set_eq, getD_set_eq, List.length_set, hl, hg i hi]
      have hgt2 : (J : Int) + 1 > H := hgt
      by_cases h1 : 511 - J = i
      · rw [if_pos ⟨h1, by omega⟩, if_pos (by omega)]
        unfold taperAt
        simp only
        rw [if_pos (by omega)]
      · rw [if_neg (fun h => h1 h.1)]
        by_cases h2 : J + 1 = i
        · rw [if_pos ⟨h2, by omega⟩, if_pos (by omega)]
          unfold taperAt
          simp only
          rw [if_pos (by omega)]
        · rw [if_neg (fun h => h2 h.1)]
          by_cases hc : 1 ≤ i ∧ (i ≤ J ∨ 512 - J ≤ i)
          · rw [if_pos hc, if_pos (by omega)]
          · rw [if_neg hc, if_neg (by omega)]
    · rw [if_neg hgt]
      have hle : (J : Int) + 1 ≤ H := by
        have : ¬ ((J : Int) + 1 > H) := hgt
        omega
      by_cases hst : (Int.ofNat J + 1 : Int) ≥ startTaper
      · rw [if_pos hst]
        refine ⟨by rw [List.length_set, List.length_set, hl], ?_⟩
        intro i hi
        have hst2 : (J : Int) + 1 ≥ startTaper := hst
        have hYk : Y.getD (J + 1) (0, 0) = X.getD (J + 1) (0, 0) := by
          rw [hg (J + 1) (by omega), if_neg (by omega)]
        have hYm : ∀ a : Cplx, (Y.set (J + 1) a).getD (511 - J) (0, 0)
            = X.getD (511 - J) (0, 0) := by
          intro a
          rw [getD_set_eq, if_neg (by omega), hg (511 - J) (by omega), if_neg (by omega)]
        rw [hYm, hYk, getD_set_eq, getD_set_eq, List.length_set, hl, hg i hi]
        by_cases h1 : 511 - J = i
        · rw [if_pos ⟨h1, by omega⟩, if_pos (by omega)]
          have hmin : min (i : Int) (512 - (i : Int)) = Int.ofNat J + 1 := by
            show min (i : Int) (512 - (i : Int)) = (J : Int) + 1
            omega
          unfold taperAt taperWeight
          simp only
          rw [hmin, if_neg hgt, if_pos hst, ← h1]
        · rw [if_neg (fun h => h1 h.1)]
          by_cases h2 : J + 1 = i
          · rw [if_pos ⟨h2, by omega⟩, if_pos (by omega)]
            have hmin : min (i : Int) (512 - (i : Int)) = Int.ofNat J + 1 := by
              show min (i : Int) (512 - (i : Int)) = (J : Int) + 1
              omega
            unfold taperAt taperWeight
            simp only
            rw [hmin, if_neg hgt, if_pos hst, ← h2]
          · rw [if_neg (fun h => h2 h.1)]
            by_cases hc : 1 ≤ i ∧ (i ≤ J ∨ 512 - J ≤ i)
            · rw [if_pos hc, if_pos (by omega)]
            · rw [if_neg hc, if_neg (by omega)]
      · rw [if_neg hst]
        refine ⟨hl, ?_⟩
        intro i hi
        have hst2 : ¬ ((J : Int) + 1 ≥ startTaper) := hst
        rw [hg i hi]
        by_cases hc : 1 ≤ i ∧ (i ≤ J ∨ 512 - J ≤ i)
        · rw [if_pos hc, if_pos (by omega)]
        · rw [if_neg hc]
          by_cases hc2 : 1 ≤ i ∧ (i ≤ J + 1 ∨ 512 - (J + 1) ≤ i)
          · rw [if_pos hc2]
            unfold taperAt
            simp only
            rw [if_neg (by omega), if_neg (by omega)]
          · rw [if_neg hc2]

/-- The low-pass loop on a 512-bin spectrum with `H < 256`: bin 0 is untouched
and every other bin holds the value `taperAt`. -/
theorem taperSpectrum_getD (m : Libm) (X : List Cplx) (H taperBins : Int)
    (hlen : X.length = 512) (hH : H < 256) (i : Nat) (hi : i < 512) :
    (taperSpectrum m X H taperBins).getD i (0, 0) =
      if 1 ≤ i then taperAt m X H (max 1 (H - taperBins)) i else X.getD i (0, 0) := by
  rw [taperSpectrum_eq, if_pos hH,
    (taperLoop_getD m X H (max 1 (H - taperBins)) hlen hH 256 (le_refl _)).2 i hi]
  by_cases h1 : 1 ≤ i
  · rw [if_pos h1, if_pos ⟨h1, by omega⟩]
  · rw [if_neg h1, if_neg (fun h => h1 h.1)]

/-- The real part of a complex accumulation loop is the sum of the real
terms. -/
theorem foldl_pair_fst (f g : Nat → ℚ) :
    ∀ (l : List Nat) (a : Cplx),
      (l.foldl (fun (acc : Cplx) (k : Nat) => (acc.1 + f k, acc.2 + g k)) a).1
        = a.1 + (l.map f).sum := by
  intro l
  induction l with
  | nil => intro a; simp
  | cons k l ih =>
    intro a
    simp only [List.foldl_cons, List.map_cons, List.sum_cons]
    rw [ih]
    ring

/-- Terms that vanish outside the index list `S` can be dropped from a sum. -/
theorem sum_map_sparse (f : Nat → ℚ) (S : List Nat) :
    ∀ l : List Nat, (∀ k ∈ l, k ∉ S → f k = 0) →
      (l.map f).sum = ((l.filter (fun k => decide (k ∈ S))).map f).sum := by
  intro l
  induction l with
  | nil => intro _; rfl
  | cons k l ih =>
    intro h
    have hl : ∀ j ∈ l, j ∉ S → f j = 0 := fun j hj => h j (List.mem_cons_of_mem _ hj)
    by_cases hk : k ∈ S
    · rw [List.filter_cons_of_pos (by simpa using hk), List.map_cons, List.map_cons,
        List.sum_cons, List.sum_cons, ih hl]
    · rw [List.filter_cons_of_neg (by simpa using hk), List.map_cons, List.sum_cons,
        h k (List.mem_cons_self _ _) hk, zero_add, ih hl]

/-- Sample `n` of the inverse DFT is the sum of the 512 bin terms over 512. -/
theorem inverseDFT_getD (m : Libm) (Y : List Cplx) (n : Nat) (hn : n < 512) :
    (inverseDFT m Y).getD n 0
      = ((List.range 512).map (idftTerm m Y n)).sum / (kTableSize : ℚ) := by
  unfold inverseDFT
  simp only
  rw [List.getD_eq_getElem?_getD, List.getElem?_map, List.getElem?_range (by exact hn)]
  simp only [Option.map_some', Option.getD_some]
  have h := foldl_pair_fst (idftTerm m Y n)
    (fun k => m.cos (2 * piLit / (kTableSize : ℚ) * ((k * n : Nat) : ℚ)) * (Y.getD k (0, 0)).2
      + m.sin (2 * piLit / (kTableSize : ℚ) * ((k * n : Nat) : ℚ)) * (Y.getD k (0, 0)).1)
    (List.range 512) (0, 0)
  simp only [zero_add] at h
  rw [← h]
  rfl

/-- The inverse DFT of a 512-bin spectrum that is zero outside the bins 1 and
511 is `twoBinTable` of these two bins. -/
theorem inverseDFT_twoBin (m : Libm) (Y : List Cplx)
    (hz : ∀ k : Nat, k < 512 → k ≠ 1 → k ≠ 511 → Y.getD k (0, 0) = (0, 0)) :
    inverseDFT m Y = twoBinTable m (Y.getD 1 (0, 0)) (Y.getD 511 (0, 0)) := by
  have hlen1 : (inverseDFT m Y).length = 512 := by
    unfold inverseDFT
    simp only [List.length_map, List.length_range]
    rfl
  have hlen2 : (twoBinTable m (Y.getD 1 (0, 0)) (Y.getD 511 (0, 0))).length = 512 := by
    unfold twoBinTable
    simp only [List.length_map, List.length_range]
  apply List.ext_getElem (by rw [hlen1, hlen2])
  intro n h1 h2
  have hn : n < 512 := by rw [hlen1] at h1; exact h1
  have e1 := inverseDFT_getD m Y n hn
  rw [List.getD_eq_getElem _ _ h1] at e1
  rw [e1]
  have hsparse := sum_map_sparse (idftTerm m Y n) [1, 511] (List.range 512) (by
    intro k hk hS
    have hk2 := List.mem_range.mp hk
    have hne : k ≠ 1 ∧ k ≠ 511 := by
      constructor
      · intro h; exact hS (by rw [h]; simp)
      · intro h; exact hS (by rw [h]; simp)
    unfold idftTerm
    rw [hz k hk2 hne.1 hne.2]
    simp)
  have hfilter : (List.range 512).filter (fun k => decide (k ∈ [1, 511])) = [1, 511] := by
    decide!
  rw [hsparse, hfilter]
  simp only [List.map_cons, List.map_nil, List.sum_cons, List.sum_nil, add_zero]
  unfold twoBinTable idftTerm
  simp only [List.getElem_map, List.getElem_range]

/-- The square wave read as a function of the sample index. -/
theorem squareWave_getD (n : Nat) :
    squareWave.getD n 0 = if n < 256 then 1 else if n < 512 then -1 else 0 := by
  unfold squareWave
  by_cases h1 : n < 256
  · rw [if_pos h1, List.getD_append _ _ _ _ (by rw [List.length_replicate]; exact h1),
      List.getD_eq_getElem?_getD, List.getElem?_replicate, if_pos h1]
    rfl
  · rw [if_neg h1, List.getD_append_right _ _ _ _ (by rw [List.length_replicate]; omega),
      List.length_replicate, List.getD_eq_getElem?_getD, List.getElem?_replicate]
    by_cases h2 : n < 512
    · rw [if_pos h2, if_pos (by omega)]
      rfl
    · rw [if_neg h2, if_neg (by omega)]
      rfl

/-- The forward DFT has 512 bins, and bin `k` of the square wave is
`squareBin`. -/
theorem forwardDFT_square (m : Libm) :
    (forwardDFT m squareWave).length = 512 ∧
    ∀ k : Nat, k < 512 → (forwardDFT m squareWave).getD k (0, 0) = squareBin m k := by
  constructor
  · unfold forwardDFT
    simp only [List.length_map, List.length_range]
    rfl
  · intro k hk
    unfold forwardDFT squareBin
    simp only
    rw [List.getD_eq_getElem?_getD, List.getElem?_map, List.getElem?_range (by exact hk)]
    simp only [Option.map_some', Option.getD_some, squareWave_getD]
    rfl

set_option maxRecDepth 100000 in
/-- With the fixed-point library and one band per octave the cutoffs are the
powers of two `2, 4, ..., 256`. -/
theorem fxLibm_cuts :
    make_harmonic_cuts fxLibm.pow 7 1 = some [2, 4, 8, 16, 32, 64, 128, 256] := by
  decide!

set_option maxRecDepth 100000 in
/-- Under the fixed-point library the taper weight of the first cutoff (`H = 2`,
taper from bin 1) is 1 at bin 1 and 0 at bin 2, and the square wave has RMS 1. -/
theorem fxLibm_square_facts :
    taperWeight fxLibm 2 1 1 = 1 ∧ taperWeight fxLibm 2 1 2 = 0 ∧
    compute_rms fxLibm squareWave = 1 := by
  decide!

set_option maxRecDepth 100000 in
/-- Bin 0 of the forward DFT of the square wave under the fixed-point library. -/
theorem fxLibm_square_bin_0 : squareBin fxLibm 0 = (0, 0) := by
  decide!

set_option maxRecDepth 100000 in
/-- Bin 1 of the forward DFT of the square wave under the fixed-point library:
`2.0000 - 325.9452 i`. -/
theorem fxLibm_square_bin_1 :
    squareBin fxLibm 1 = (536870839 / 268435456, -349981029071 / 1073741824) := by
  decide!

set_option maxRecDepth 100000 in
/-- Bin 511 of the forward DFT of the square wave under the fixed-point library:
`2.0000 + 325.9452 i`. -/
theorem fxLibm_square_bin_511 :
    squareBin fxLibm 511 = (536870985 / 268435456, 349981029069 / 1073741824) := by
  decide!

/-- Bins 0, 1 and 511 of the forward DFT of the square wave under the
fixed-point library: `0`, `2.0000 - 325.9452 i` and `2.0000 + 325.9452 i`. -/
theorem fxLibm_square_bins :
    squareBin fxLibm 0 = (0, 0) ∧
    squareBin fxLibm 1 = (536870839 / 268435456, -349981029071 / 1073741824) ∧
    squareBin fxLibm 511 = (536870985 / 268435456, 349981029069 / 1073741824) :=
  ⟨fxLibm_square_bin_0, fxLibm_square_bin_1, fxLibm_square_bin_511⟩

/-- The first table (`H = 2`) that `build_bandlimited_set` filters from the
square wave under the fixed-point library, before the gain: the inverse DFT of
the bins 1 and 511 alone. -/
theorem square_lowpass_two :
    inverseDFT fxLibm (taperSpectrum fxLibm (forwardDFT fxLibm squareWave) 2 6)
      = twoBinTable fxLibm (536870839 / 268435456, -349981029071 / 1073741824)
          (536870985 / 268435456, 349981029069 / 1073741824) := by
  obtain ⟨hlen, hbin⟩ := forwardDFT_square fxLibm
  obtain ⟨hw1, hw2, _⟩ := fxLibm_square_facts
  obtain ⟨hb0, hb1, hb511⟩ := fxLibm_square_bins
  have hst : max (1 : Int) (2 - 6) = 1 := by decide
  have hget : ∀ i : Nat, i < 512 →
      (taperSpectrum fxLibm (forwardDFT fxLibm squareWave) 2 6).getD i (0, 0) =
        if 1 ≤ i then taperAt fxLibm (forwardDFT fxLibm squareWave) 2 1 i
        else (forwardDFT fxLibm squareWave).getD i (0, 0) := by
    intro i hi
    rw [taperSpectrum_getD fxLibm _ 2 6 hlen (by decide) i hi, hst]
  have hz : ∀ k : Nat, k < 512 → k ≠ 1 → k ≠ 511 →
      (taperSpectrum fxLibm (forwardDFT fxLibm squareWave) 2 6).getD k (0, 0) = (0, 0) := by
    intro k hk h1 h511
    rw [hget k hk]
    by_cases h0 : 1 ≤ k
    · rw [if_pos h0]
      unfold taperAt
      simp only
      by_cases hgt : min (k : Int) (512 - (k : Int)) > 2
      · rw [if_pos hgt]
      · have hmin : min (k : Int) (512 - (k : Int)) = 2 := by omega
        rw [hmin, if_neg (by decide), if_pos (by decide), hw2, mul_zero, mul_zero]
    · rw [if_neg h0]
      have hk0 : k = 0 := by omega
      rw [hk0, hbin 0 (by decide), hb0]
  have h1 : (taperSpectrum fxLibm (forwardDFT fxLibm squareWave) 2 6).getD 1 (0, 0)
      = (536870839 / 268435456, -349981029071 / 1073741824) := by
    rw [hget 1 (by decide), if_pos (le_refl _)]
    unfold taperAt
    simp only
    have hmin : min ((1 : Nat) : Int) (512 - ((1 : Nat) : Int)) = 1 := by decide
    rw [hmin, if_neg (by decide), if_pos (by decide), hw1, mul_one, mul_one,
      hbin 1 (by decide), hb1]
  have h511 : (taperSpectrum fxLibm (forwardDFT fxLibm squareWave) 2 6).getD 511 (0, 0)
      = (536870985 / 268435456, 349981029069 / 1073741824) := by
    rw [hget 511 (by decide), if_pos (by decide)]
    unfold taperAt
    simp only
    have hmin : min ((511 : Nat) : Int) (512 - ((511 : Nat) : Int)) = 1 := by decide
    rw [hmin, if_neg (by decide), if_pos (by decide), hw1, mul_one, mul_one,
      hbin 511 (by decide), hb511]
  rw [inverseDFT_twoBin fxLibm _ hz, h1, h511]

/-- Reading a table after the gain step of `scaleToRMS`: the sample times the
gain, which is `target / rms` when the RMS is above `1e-12` and 1 otherwise. -/
theorem scaleToRMS_getD (m : Libm) (B : ℚ) (U : Table) (n : Nat) :
    (scaleToRMS m B U).getD n 0 = U.getD n 0 *
      (if compute_rms m U > 1 / 1000000000000 then B / compute_rms m U else 1) := by
  unfold scaleToRMS
  dsimp only
  by_cases h : compute_rms m U > 1 / 1000000000000
  · rw [if_pos h, if_pos h, List.getD_eq_getElem?_getD, List.getD_eq_getElem?_getD,
      List.getElem?_map]
    cases U[n]? with
    | none => simp
    | some v => rfl
  · rw [if_neg h, if_neg h, mul_one]

/-- The accumulation loop of `compute_rms` over a 512-sample table given by
its sample function, cut into four runs of 128 samples. -/
theorem sumSq_of_fn (f : Nat → ℚ) :
    ((List.range 512).map f).foldl (fun acc v => acc + v * v) 0 =
      sumSqChunk f 384 128 (sumSqChunk f 256 128 (sumSqChunk f 128 128
        (sumSqChunk f 0 128 0))) := by
  have hr : List.range 512 = List.range' 0 128 ++ (List.range' 128 128 ++
      (List.range' 256 128 ++ List.range' 384 128)) := by
    decide!
  rw [List.foldl_map, hr, List.foldl_append, List.foldl_append, List.foldl_append]
  rfl

/-- The table `twoBinTable` is the table of the samples `twoBinSample`. -/
theorem twoBinTable_eq (m : Libm) (y1 y511 : Cplx) :
    twoBinTable m y1 y511 = (List.range 512).map (twoBinSample m y1 y511) := rfl

set_option maxRecDepth 100000 in
/-- First quarter of the sum of squares of the low-passed square wave. -/
theorem square_sumSq_1 :
    sumSqChunk (twoBinSample fxLibm (536870839 / 268435456, -349981029071 / 1073741824)
      (536870985 / 268435456, 349981029069 / 1073741824)) 0 128 0 =
      18076530106233337735939941331594514881460719
        / 174224571863520493293247799005065324265472 := by
  decide!

set_option maxRecDepth 100000 in
/-- Second quarter of the sum of squares of the low-passed square wave. -/
theorem square_sumSq_2 :
    sumSqChunk (twoBinSample fxLibm (536870839 / 268435456, -349981029071 / 1073741824)
      (536870985 / 268435456, 349981029069 / 1073741824)) 128 128
      (18076530106233337735939941331594514881460719
        / 174224571863520493293247799005065324265472) =
      18076530106138171877272948433476836311358007
        / 87112285931760246646623899502532662132736 := by
  decide!

set_option maxRecDepth 100000 in
/-- Third quarter of the sum of squares of the low-passed square wave. -/
theorem square_sumSq_3 :
    sumSqChunk (twoBinSample fxLibm (536870839 / 268435456, -349981029071 / 1073741824)
      (536870985 / 268435456, 349981029069 / 1073741824)) 256 128
      (18076530106138171877272948433476836311358007
        / 87112285931760246646623899502532662132736) =
      54229590318509681490485838198548187504176733
        / 174224571863520493293247799005065324265472 := by
  decide!

set_option maxRecDepth 100000 in
/-- Last quarter of the sum of squares of the low-passed square wave. -/
theorem square_sumSq_4 :
    sumSqChunk (twoBinSample fxLibm (536870839 / 268435456, -349981029071 / 1073741824)
      (536870985 / 268435456, 349981029069 / 1073741824)) 384 128
      (54229590318509681490485838198548187504176733
        / 174224571863520493293247799005065324265472) =
      18076530106138171877272948433476836311358007
        / 43556142965880123323311949751266331066368 := by
  decide!

set_option maxRecDepth 100000 in
/-- The RMS of the low-passed square wave and its sample 127 under the
fixed-point library: the sample over the RMS is above 1.4141. -/
theorem square_peak_over_rms :
    fxSqrt (18076530106138171877272948433476836311358007
        / 43556142965880123323311949751266331066368 / ((512 : Nat) : ℚ))
      = 966713351 / 1073741824 ∧
    14141 / 10000 < twoBinSample fxLibm (536870839 / 268435456, -349981029071 / 1073741824)
      (536870985 / 268435456, 349981029069 / 1073741824) 127 *
        (if (966713351 / 1073741824 : ℚ) > 1 / 1000000000000
          then 1 / (966713351 / 1073741824) else 1) := by
  decide!

/-- The low-passed square wave after the gain that matches its RMS to that of
the square wave: sample 127 is above 1.4141. -/
theorem square_lowpass_two_peak :
    14141 / 10000 < (scaleToRMS fxLibm 1
      (twoBinTable fxLibm (536870839 / 268435456, -349981029071 / 1073741824)
        (536870985 / 268435456, 349981029069 / 1073741824))).getD 127 0 := by
  obtain ⟨hsq, hpk⟩ := square_peak_over_rms
  have hrms : compute_rms fxLibm
      (twoBinTable fxLibm (536870839 / 268435456, -349981029071 / 1073741824)
        (536870985 / 268435456, 349981029069 / 1073741824)) = 966713351 / 1073741824 := by
    unfold compute_rms
    simp only
    rw [twoBinTable_eq, sumSq_of_fn, square_sumSq_1, square_sumSq_2, square_sumSq_3,
      square_sumSq_4]
    exact hsq
  have h127 : (twoBinTable fxLibm (536870839 / 268435456, -349981029071 / 1073741824)
        (536870985 / 268435456, 349981029069 / 1073741824)).getD 127 0
      = twoBinSample fxLibm (536870839 / 268435456, -349981029071 / 1073741824)
        (536870985 / 268435456, 349981029069 / 1073741824) 127 := by
    rw [twoBinTable_eq, List.getD_eq_getElem?_getD, List.getElem?_map,
      List.getElem?_range (by decide)]
    rfl
  rw [scaleToRMS_getD, hrms, h127]
  exact hpk

/-- The set built by `build_bandlimited_set` with `normalizeRMS = true` once
the cutoff vector is known: per cutoff the low-passed table with the RMS gain. -/
theorem build_rms_of_cuts (m : Libm) (fuel : Nat) (base : Table)
    (bandsPerOctave : Int) (cuts : List Int)
    (h : make_harmonic_cuts m.pow fuel bandsPerOctave = some cuts) :
    build_bandlimited_set m fuel base bandsPerOctave true =
      some { tables := cuts.map (fun (H : Int) =>
               scaleToRMS m (compute_rms m base)
                 (inverseDFT m (taperSpectrum m (forwardDFT m base) H 6))),
             hcuts := cuts,
             baseRMS := compute_rms m base } := by
  unfold build_bandlimited_set
  simp only [h, if_true]

/-- The set built by `build_bandlimited_set` with `normalizeRMS = false` once
the cutoff vector is known: per cutoff the low-passed table, divided by its
peak when the peak is above 1. -/
theorem build_peak_of_cuts (m : Libm) (fuel : Nat) (base : Table)
    (bandsPerOctave : Int) (cuts : List Int)
    (h : make_harmonic_cuts m.pow fuel bandsPerOctave = some cuts) :
    build_bandlimited_set m fuel base bandsPerOctave false =
      some { tables := cuts.map (fun (H : Int) =>
               if (inverseDFT m (taperSpectrum m (forwardDFT m base) H 6)).foldl
                   (fun pk v => max pk |v|) 0 > 1 then
                 (inverseDFT m (taperSpectrum m (forwardDFT m base) H 6)).map
                   (fun v => v / (inverseDFT m (taperSpectrum m (forwardDFT m base) H 6)).foldl
                     (fun pk v => max pk |v|) 0)
               else inverseDFT m (taperSpectrum m (forwardDFT m base) H 6)),
             hcuts := cuts,
             baseRMS := compute_rms m base } := by
  unfold build_bandlimited_set
  simp only [h, Bool.false_eq_true, if_false]

/-- A table divided by its peak when the peak is above 1 has every sample in
`[-1, 1]`. -/
theorem peak_normalized_mem (t : Table) :
    ∀ v ∈ (if t.foldl (fun pk v => max pk |v|) 0 > 1 then
        t.map (fun v => v / t.foldl (fun pk v => max pk |v|) 0) else t),
      -1 ≤ v ∧ v ≤ 1 := by
  obtain ⟨_, hle⟩ := abs_le_foldl_max t 0
  intro v hv
  split_ifs at hv with hpk
  · rw [List.mem_map] at hv
    obtain ⟨w, hw, rfl⟩ := hv
    have hpos : (0 : ℚ) < t.foldl (fun pk v => max pk |v|) 0 := by linarith
    have habs : |w / t.foldl (fun pk v => max pk |v|) 0| ≤ 1 := by
      rw [abs_div, abs_of_pos hpos]
      exact (div_le_one hpos).mpr (hle w hw)
    exact abs_le.mp habs
  · have h1 := hle v hv
    have h2 : t.foldl (fun pk v => max pk |v|) 0 ≤ 1 := not_lt.mp hpk
    exact abs_le.mp (le_trans h1 h2)

/-- C30 fails as stated: the square wave (256 samples at 1, 256 at -1, all in
`[-1,1]`) with one band per octave and `normalizeRMS = true`, under the
fixed-point math library: the first table of the set (cutoff `H = 2`) has
sample 127 above 1.4141, outside `[-1,1]`. -/
theorem C30_rms_gain_counterexample :
    (∀ v ∈ squareWave, -1 ≤ v ∧ v ≤ 1) ∧
    ∃ set : BLSet, build_bandlimited_set fxLibm 7 squareWave 1 true = some set ∧
      set.hcuts = [2, 4, 8, 16, 32, 64, 128, 256] ∧
      14141 / 10000 < (set.tables.getD 0 []).getD 127 0 ∧
      ¬ (∀ t ∈ set.tables, ∀ v ∈ t, -1 ≤ v ∧ v ≤ 1) := by
  have hbase : ∀ v ∈ squareWave, -1 ≤ v ∧ v ≤ 1 := by
    intro v hv
    unfold squareWave at hv
    rcases List.mem_append.mp hv with h | h
    · rw [List.eq_of_mem_replicate h]; norm_num
    · rw [List.eq_of_mem_replicate h]; norm_num
  have key : 14141 / 10000 < (scaleToRMS fxLibm (compute_rms fxLibm squareWave)
      (inverseDFT fxLibm (taperSpectrum fxLibm (forwardDFT fxLibm squareWave) 2 6))).getD
        127 0 := by
    rw [fxLibm_square_facts.2.2, square_lowpass_two]
    exact square_lowpass_two_peak
  have hset := build_rms_of_cuts fxLibm 7 squareWave 1 _ fxLibm_cuts
  rw [List.map_cons] at hset
  obtain ⟨T, hT⟩ : ∃ T : Table, scaleToRMS fxLibm (compute_rms fxLibm squareWave)
    (inverseDFT fxLibm (taperSpectrum fxLibm (forwardDFT fxLibm squareWave) 2 6)) = T :=
    ⟨_, rfl⟩
  rw [hT] at key hset
  refine ⟨hbase, _, hset, rfl, key, ?_⟩
  intro hall
  have hlen : 127 < T.length := by
    by_contra hcon
    rw [List.getD_eq_getElem?_getD, List.getElem?_eq_none (by omega)] at key
    norm_num at key
  have hmem := hall T (List.mem_cons_self _ _) _ (List.getElem_mem hlen)
  rw [List.getD_eq_getElem _ _ hlen] at key
  linarith [hmem.2]

/-- C30 (amended): for every base table and every `bandsPerOctave`,
`build_bandlimited_set` returns (for every sufficient iteration bound of the
cutoff loop, `std::pow` giving a step above 1). With `normalizeRMS = false`
every sample of every table of the set lies in `[-1,1]`. With
`normalizeRMS = true` (the setting Synth uses) each table is the low-passed
table of its cutoff, multiplied by the gain `baseRMS / rms` when its `rms` is
above `1e-12` and left as it is otherwise; no clamp to `[-1,1]` follows. -/
theorem C30_band_limited_range (m : Libm) (base : Table) (bandsPerOctave : Int)
    (hpow : ∀ b : Int, 1 ≤ b → b ≤ 8 → 1 < m.pow 2 (1 / (b : ℚ))) :
    (∃ N : Nat, ∀ fuel : Nat, N ≤ fuel → ∀ nr : Bool,
      ∃ set, build_bandlimited_set m fuel base bandsPerOctave nr = some set) ∧
    (∀ (fuel : Nat) (set : BLSet),
      build_bandlimited_set m fuel base bandsPerOctave false = some set →
      ∀ t ∈ set.tables, ∀ v ∈ t, -1 ≤ v ∧ v ≤ 1) ∧
    (∀ (fuel : Nat) (set : BLSet),
      build_bandlimited_set m fuel base bandsPerOctave true = some set →
      set.baseRMS = compute_rms m base ∧
      ∀ t ∈ set.tables, ∃ H ∈ set.hcuts,
        t = (if compute_rms m
              (inverseDFT m (taperSpectrum m (forwardDFT m base) H 6)) > 1 / 1000000000000 then
            (inverseDFT m (taperSpectrum m (forwardDFT m base) H 6)).map
              (fun v => v * (set.baseRMS / compute_rms m
                (inverseDFT m (taperSpectrum m (forwardDFT m base) H 6))))
          else inverseDFT m (taperSpectrum m (forwardDFT m base) H 6))) := by
  have hcases : ∀ fuel : Nat, make_harmonic_cuts m.pow fuel bandsPerOctave = none ∨
      ∃ cuts, make_harmonic_cuts m.pow fuel bandsPerOctave = some cuts := by
    intro fuel
    cases h : make_harmonic_cuts m.pow fuel bandsPerOctave with
    | none => exact Or.inl rfl
    | some c => exact Or.inr ⟨c, rfl⟩
  refine ⟨?_, ?_, ?_⟩
  · obtain ⟨N, cuts, hN⟩ := make_harmonic_cuts_returns m.pow hpow bandsPerOctave
    refine ⟨N, ?_⟩
    intro fuel hle nr
    cases nr with
    | true => exact ⟨_, build_rms_of_cuts m fuel base bandsPerOctave cuts (hN fuel hle)⟩
    | false => exact ⟨_, build_peak_of_cuts m fuel base bandsPerOctave cuts (hN fuel hle)⟩
  · intro fuel set hset t ht v hv
    rcases hcases fuel with hnone | ⟨cuts, hcuts⟩
    · unfold build_bandlimited_set at hset
      simp only [hnone] at hset
      exact absurd hset (by simp)
    · rw [build_peak_of_cuts m fuel base bandsPerOctave cuts hcuts] at hset
      simp only [Option.some.injEq] at hset
      rw [← hset] at ht
      simp only [List.mem_map] at ht
      obtain ⟨H, _, rfl⟩ := ht
      exact peak_normalized_mem _ v hv
  · intro fuel set hset
    rcases hcases fuel with hnone | ⟨cuts, hcuts⟩
    · unfold build_bandlimited_set at hset
      simp only [hnone] at hset
      exact absurd hset (by simp)
    · rw [build_rms_of_cuts m fuel base bandsPerOctave cuts hcuts] at hset
      simp only [Option.some.injEq] at hset
      rw [← hset]
      refine ⟨rfl, ?_⟩
      intro t ht
      simp only [List.mem_map] at ht
      obtain ⟨H, hH, rfl⟩ := ht
      exact ⟨H, hH, rfl⟩

/-- The fixed-point `pow` gives a step above 1 for every band count. -/
theorem fxLibm_pow_step : ∀ b : Int, 1 ≤ b → b ≤ 8 → 1 < fxLibm.pow 2 (1 / (b : ℚ)) := by
  intro b h1 h8
  interval_cases b <;> decide!

/-- Witness for C30 (amended): the square wave with one band per octave under
the fixed-point library. -/
theorem C30_band_limited_range_witness :
    (∀ b : Int, 1 ≤ b → b ≤ 8 → 1 < fxLibm.pow 2 (1 / (b : ℚ))) ∧
    (∃ set, build_bandlimited_set fxLibm 7 squareWave 1 false = some set ∧
      ∀ t ∈ set.tables, ∀ v ∈ t, -1 ≤ v ∧ v ≤ 1) ∧
    (∃ set, build_bandlimited_set fxLibm 7 squareWave 1 true = some set ∧
      set.baseRMS = compute_rms fxLibm squareWave) :=
  ⟨fxLibm_pow_step,
   ⟨_, build_peak_of_cuts fxLibm 7 squareWave 1 _ fxLibm_cuts,
    (C30_band_limited_range fxLibm squareWave 1 fxLibm_pow_step).2.1 7 _
      (build_peak_of_cuts fxLibm 7 squareWave 1 _ fxLibm_cuts)⟩,
   ⟨_, build_rms_of_cuts fxLibm 7 squareWave 1 _ fxLibm_cuts,
    ((C30_band_limited_range fxLibm squareWave 1 fxLibm_pow_step).2.2 7 _
      (build_rms_of_cuts fxLibm 7 squareWave 1 _ fxLibm_cuts)).1⟩⟩

/-- Witness for C28: `setParams` with mode Fixed on a freshly constructed
engine after `setup(48000)`, under the fixed-point library. -/
theorem C28_effective_table_witness :
    (Synth.Prepared fxLibm ((Synth.fresh fxLibm).setup 48000) ∧
      ∀ b : Int, 1 ≤ b → b ≤ 8 → 1 < fxLibm.pow 2 (1 / (b : ℚ))) ∧
    ∃ s' : Synth,
      ((Synth.fresh fxLibm).setup 48000).setParams fxLibm 0 { preHighCutMode := 1 } = some s' ∧
      s'.effective_ = some (apply_lowpass_with_taper fxLibm
        (((Synth.fresh fxLibm).setup 48000).tables_.get 1 true 128) 166 12 true) ∧
      ∀ v ∈ s'.voices_, v.table_ = s'.effective_ ∧ v.len_ = 128 :=
  have hprep : Synth.Prepared fxLibm ((Synth.fresh fxLibm).setup 48000) :=
    Synth.Prepared.setup _ 48000
  have hsome := Synth.setParams_isSome fxLibm 0 ((Synth.fresh fxLibm).setup 48000)
    { preHighCutMode := 1 } (by decide)
  ⟨⟨hprep, fxLibm_pow_step⟩, hsome.elim (fun s' hs' =>
    ⟨s', hs',
     ((C28_effective_table fxLibm _ { preHighCutMode := 1 } hprep fxLibm_pow_step).2.2
        0 s' hs').2.2.1 rfl,
     ((C28_effective_table fxLibm _ { preHighCutMode := 1 } hprep fxLibm_pow_step).2.2
        0 s' hs').2.2.2⟩)⟩

/-! ### Pre-filtered table and vibrato depth -/

set_option maxRecDepth 100000 in
/-- Under the fixed-point library, at 48 kHz and maximum note 113, the ByMaxNote
cutoff is 4 for vibrato depth 0 and 3 for vibrato depth 0.5. -/
theorem fxLibm_depth_cuts :
    byMaxNoteCut fxLibm 113 48000 0 = 4 ∧ byMaxNoteCut fxLibm 113 48000 (1 / 2) = 3 := by
  decide!

set_option maxRecDepth 100000 in
/-- The taper weights of the cutoffs 4 and 3 with the taper starting at bin 1,
under the fixed-point library. -/
theorem fxLibm_taper_weights :
    taperWeight fxLibm 4 1 1 = 1 ∧ taperWeight fxLibm 4 1 2 = 1610612737 / 2147483648 ∧
    taperWeight fxLibm 4 1 3 = 536870913 / 2147483648 ∧ taperWeight fxLibm 4 1 4 = 0 ∧
    taperWeight fxLibm 3 1 1 = 1 ∧ taperWeight fxLibm 3 1 2 = 1 / 2 ∧
    taperWeight fxLibm 3 1 3 = 0 := by
  decide!

/-- The running peak computed by the fold is at most any bound of the start
value and of every sample. -/
theorem foldl_max_le (y : Table) (m b : ℚ) (hm : m ≤ b) (h : ∀ v ∈ y, |v| ≤ b) :
    y.foldl (fun m v => max m |v|) m ≤ b := by
  induction y generalizing m with
  | nil => exact hm
  | cons a t ih =>
    simp only [List.foldl_cons]
    exact ih (max m |a|) (max_le hm (h a (List.mem_cons_self _ _)))
      (fun v hv => h v (List.mem_cons_of_mem _ hv))

/-- The quantized table of `makeTable_with_offset` once the peak is known: when
sample 0 has the largest magnitude `M > 0`, sample `k` of the table is
`quantizeSample (raw_k / M)`. -/
theorem makeTable_quant_of_peak (fast_exp : ℚ → ℚ) (mask : Int) (x_offset : ℚ) (group : Int)
    (f : Nat → ℚ)
    (hpos : 0 < |rawSample fast_exp mask x_offset group (Int.ofNat 0)|)
    (h : ∀ k ∈ List.range 512,
      |rawSample fast_exp mask x_offset group (Int.ofNat k)|
        ≤ |rawSample fast_exp mask x_offset group (Int.ofNat 0)| ∧
      quantizeSample (rawSample fast_exp mask x_offset group (Int.ofNat k)
        / |rawSample fast_exp mask x_offset group (Int.ofNat 0)|) = f k) :
    makeTable_with_offset fast_exp mask true x_offset group = (List.range 512).map f := by
  have hmax : maxAbsOf ((List.range kTableSize).map
      (fun (k : Nat) => rawSample fast_exp mask x_offset group (Int.ofNat k)))
      = |rawSample fast_exp mask x_offset group (Int.ofNat 0)| := by
    apply le_antisymm
    · apply foldl_max_le _ _ _ (le_of_lt hpos)
      intro v hv
      rw [List.mem_map] at hv
      obtain ⟨k, hk, rfl⟩ := hv
      exact (h k hk).1
    · apply (abs_le_maxAbsOf _).2
      rw [List.mem_map]
      exact ⟨0, List.mem_range.mpr (by show 0 < 512; decide), rfl⟩
  unfold makeTable_with_offset normalizeTable
  simp only [if_true]
  rw [hmax, if_pos hpos, List.map_map, List.map_map]
  apply List.map_congr_left
  intro k hk
  exact (h k hk).2

set_option maxRecDepth 100000 in
/-- Samples 0 to 127 of the default raw table under the fixed-point library:
none exceeds sample 0 in magnitude, and each quantizes to the staircase. -/
theorem fxLibm_raw_chunk_1 :
    ∀ k ∈ List.range' 0 128,
      |rawSample fxLibm.exp 1 (-4375 / 10000) 2 (Int.ofNat k)|
        ≤ |rawSample fxLibm.exp 1 (-4375 / 10000) 2 (Int.ofNat 0)| ∧
      quantizeSample (rawSample fxLibm.exp 1 (-4375 / 10000) 2 (Int.ofNat k)
        / |rawSample fxLibm.exp 1 (-4375 / 10000) 2 (Int.ofNat 0)|) = stairs k := by
  decide!

set_option maxRecDepth 100000 in
/-- Samples 128 to 255 of the default raw table under the fixed-point library:
none exceeds sample 0 in magnitude, and each quantizes to the staircase. -/
theorem fxLibm_raw_chunk_2 :
    ∀ k ∈ List.range' 128 128,
      |rawSample fxLibm.exp 1 (-4375 / 10000) 2 (Int.ofNat k)|
        ≤ |rawSample fxLibm.exp 1 (-4375 / 10000) 2 (Int.ofNat 0)| ∧
      quantizeSample (rawSample fxLibm.exp 1 (-4375 / 10000) 2 (Int.ofNat k)
        / |rawSample fxLibm.exp 1 (-4375 / 10000) 2 (Int.ofNat 0)|) = stairs k := by
  decide!

set_option maxRecDepth 100000 in
/-- Samples 256 to 383 of the default raw table under the fixed-point library:
none exceeds sample 0 in magnitude, and each quantizes to the staircase. -/
theorem fxLibm_raw_chunk_3 :
    ∀ k ∈ List.range' 256 128,
      |rawSample fxLibm.exp 1 (-4375 / 10000) 2 (Int.ofNat k)|
        ≤ |rawSample fxLibm.exp 1 (-4375 / 10000) 2 (Int.ofNat 0)| ∧
      quantizeSample (rawSample fxLibm.exp 1 (-4375 / 10000) 2 (Int.ofNat k)
        / |rawSample fxLibm.exp 1 (-4375 / 10000) 2 (Int.ofNat 0)|) = stairs k := by
  decide!

set_option maxRecDepth 100000 in
/-- Samples 384 to 511 of the default raw table under the fixed-point library:
none exceeds sample 0 in magnitude, and each quantizes to the staircase. -/
theorem fxLibm_raw_chunk_4 :
    ∀ k ∈ List.range' 384 128,
      |rawSample fxLibm.exp 1 (-4375 / 10000) 2 (Int.ofNat k)|
        ≤ |rawSample fxLibm.exp 1 (-4375 / 10000) 2 (Int.ofNat 0)| ∧
      quantizeSample (rawSample fxLibm.exp 1 (-4375 / 10000) 2 (Int.ofNat k)
        / |rawSample fxLibm.exp 1 (-4375 / 10000) 2 (Int.ofNat 0)|) = stairs k := by
  decide!

set_option maxRecDepth 100000 in
/-- Sample 0 of the default raw table is not zero under the fixed-point
library. -/
theorem fxLibm_raw_peak_pos : 0 < |rawSample fxLibm.exp 1 (-4375 / 10000) 2 (Int.ofNat 0)| := by
  decide!

/-- The table that `Tables::get(1, true, 128)` returns: the quantized table of
mask 1 on the 128-grid. -/
theorem tables_get_default (e : ℚ → ℚ) :
    (Tables.build e).get 1 true 128 = makeTable_with_offset e 1 true (-4375 / 10000) 2 := by
  unfold Tables.get Tables.build Tables.bank
  have h1 : ¬ ((1 : Int) < 1) := by decide
  have h2 : ¬ ((1 : Int) > 15) := by decide
  have h3 : ¬ ((128 : Int) ≤ 64) := by decide
  have h4 : (128 : Int) ≤ 128 := by decide
  have h5 : (1 : Int).toNat = 1 := rfl
  simp only [if_neg h1, if_neg h2, if_neg h3, if_pos h4, if_true, h5]
  rw [List.getD_eq_getElem?_getD, List.getElem?_map, List.getElem?_range (by decide)]
  simp only [Option.map_some', Option.getD_some]
  rw [if_pos (le_refl 1)]
  rfl

/-- The raw table of the default parameters (mask 1, quantized, 128-grid) under
the fixed-point library is the staircase `stairs`. -/
theorem fxLibm_raw_stairs :
    (Tables.build fxLibm.exp).get 1 true 128 = (List.range 512).map stairs := by
  rw [tables_get_default]
  apply makeTable_quant_of_peak fxLibm.exp 1 (-4375 / 10000) 2 stairs fxLibm_raw_peak_pos
  intro k hk
  have hk2 : k < 512 := List.mem_range.mp hk
  by_cases h1 : k < 128
  · exact fxLibm_raw_chunk_1 k (List.mem_range'_1.mpr ⟨by omega, by omega⟩)
  · by_cases h2 : k < 256
    · exact fxLibm_raw_chunk_2 k (List.mem_range'_1.mpr ⟨by omega, by omega⟩)
    · by_cases h3 : k < 384
      · exact fxLibm_raw_chunk_3 k (List.mem_range'_1.mpr ⟨by omega, by omega⟩)
      · exact fxLibm_raw_chunk_4 k (List.mem_range'_1.mpr ⟨by omega, by omega⟩)

set_option maxRecDepth 100000 in
/-- Bin 0 of the forward DFT of the staircase under the fixed-point library. -/
theorem fxLibm_stairs_bin_0 :
    tableBin fxLibm stairs 0 = (0, 0) := by
  decide!

set_option maxRecDepth 100000 in
/-- Bin 1 of the forward DFT of the staircase under the fixed-point library. -/
theorem fxLibm_stairs_bin_1 :
    tableBin fxLibm stairs 1 = (253607561663 / 1879048192, -1117076060155 / 7516192768) := by
  decide!

set_option maxRecDepth 100000 in
/-- Bin 2 of the forward DFT of the staircase under the fixed-point library. -/
theorem fxLibm_stairs_bin_2 :
    tableBin fxLibm stairs 2 = (0, 1 / 1073741824) := by
  decide!

set_option maxRecDepth 100000 in
/-- Bin 3 of the forward DFT of the staircase under the fixed-point library. -/
theorem fxLibm_stairs_bin_3 :
    tableBin fxLibm stairs 3 = (-4536612431 / 1879048192, -412182398399 / 7516192768) := by
  decide!

set_option maxRecDepth 100000 in
/-- Bin 509 of the forward DFT of the staircase under the fixed-point library. -/
theorem fxLibm_stairs_bin_509 :
    tableBin fxLibm stairs 509 = (-9073224497 / 3758096384, 412182398485 / 7516192768) := by
  decide!

set_option maxRecDepth 100000 in
/-- Bin 510 of the forward DFT of the staircase under the fixed-point library. -/
theorem fxLibm_stairs_bin_510 :
    tableBin fxLibm stairs 510 = (0, 1 / 1073741824) := by
  decide!

set_option maxRecDepth 100000 in
/-- Bin 511 of the forward DFT of the staircase under the fixed-point library. -/
theorem fxLibm_stairs_bin_511 :
    tableBin fxLibm stairs 511 = (15850472633 / 117440512, 1117076058365 / 7516192768) := by
  decide!

/-- Bins 0 to 3 and 509 to 511 of the forward DFT of the staircase under the
fixed-point library. -/
theorem fxLibm_stairs_bins :
    tableBin fxLibm stairs 0 = (0, 0) ∧
    tableBin fxLibm stairs 1 = (253607561663 / 1879048192, -1117076060155 / 7516192768) ∧
    tableBin fxLibm stairs 2 = (0, 1 / 1073741824) ∧
    tableBin fxLibm stairs 3 = (-4536612431 / 1879048192, -412182398399 / 7516192768) ∧
    tableBin fxLibm stairs 509 = (-9073224497 / 3758096384, 412182398485 / 7516192768) ∧
    tableBin fxLibm stairs 510 = (0, 1 / 1073741824) ∧
    tableBin fxLibm stairs 511 = (15850472633 / 117440512, 1117076058365 / 7516192768) :=
  ⟨fxLibm_stairs_bin_0, fxLibm_stairs_bin_1, fxLibm_stairs_bin_2, fxLibm_stairs_bin_3, fxLibm_stairs_bin_509, fxLibm_stairs_bin_510, fxLibm_stairs_bin_511⟩

set_option maxRecDepth 100000 in
/-- The staircase has a non-zero RMS under the fixed-point library. -/
theorem fxLibm_stairs_rms : compute_rms fxLibm ((List.range 512).map stairs) ≠ 0 := by
  decide!

set_option maxRecDepth 100000 in
/-- Samples 0 and 64 of the two low-passed staircases are not in proportion. -/
theorem fxLibm_stairs_cross :
    sparseSample fxLibm stairsPassFour 0 * sparseSample fxLibm stairsPassThree 64 ≠
      sparseSample fxLibm stairsPassThree 0 * sparseSample fxLibm stairsPassFour 64 := by
  decide!

/-- The forward DFT of a table given by its sample function has 512 bins, and
bin `k` is `tableBin`. -/
theorem forwardDFT_of_fn (m : Libm) (f : Nat → ℚ) :
    (forwardDFT m ((List.range 512).map f)).length = 512 ∧
    ∀ k : Nat, k < 512 →
      (forwardDFT m ((List.range 512).map f)).getD k (0, 0) = tableBin m f k := by
  constructor
  · unfold forwardDFT
    simp only [List.length_map, List.length_range]
    rfl
  · intro k hk
    unfold forwardDFT tableBin
    simp only
    rw [List.getD_eq_getElem?_getD, List.getElem?_map, List.getElem?_range (by exact hk)]
    simp only [Option.map_some', Option.getD_some]
    apply List.foldl_ext
    intro a n hn
    have hn2 : n < 512 := List.mem_range.mp hn
    have hg : ((List.range 512).map f).getD n 0 = f n := by
      rw [List.getD_eq_getElem?_getD, List.getElem?_map, List.getElem?_range hn2]
      rfl
    rw [hg]

/-- The bins the low-pass loop zeroes: bin 0 when it is zero in the input, and
every bin whose harmonic number is `H` or above when the taper weight at `H`
is zero. -/
theorem taperSpectrum_zero_bins (m : Libm) (X : List Cplx) (H taperBins : Int)
    (hlen : X.length = 512) (hH : H < 256) (htb : 0 ≤ taperBins) (h1 : 1 ≤ H)
    (hX0 : X.getD 0 (0, 0) = (0, 0))
    (hw : taperWeight m H (max 1 (H - taperBins)) H = 0)
    (k : Nat) (hk : k < 512) (hout : k = 0 ∨ H ≤ min (k : Int) (512 - (k : Int))) :
    (taperSpectrum m X H taperBins).getD k (0, 0) = (0, 0) := by
  rw [taperSpectrum_getD m X H taperBins hlen hH k hk]
  by_cases h0 : 1 ≤ k
  · rw [if_pos h0]
    have hge : H ≤ min (k : Int) (512 - (k : Int)) := by
      rcases hout with h | h
      · omega
      · exact h
    unfold taperAt
    simp only
    by_cases hgt : min (k : Int) (512 - (k : Int)) > H
    · rw [if_pos hgt]
    · have hmin : min (k : Int) (512 - (k : Int)) = H := by omega
      rw [hmin, if_neg (lt_irrefl _), if_pos (by omega), hw, mul_zero, mul_zero]
  · rw [if_neg h0]
    have hk0 : k = 0 := by omega
    rw [hk0, hX0]

/-- The bins the low-pass loop scales: a bin with harmonic number `h` from the
start of the taper up to `H` is multiplied by the taper weight at `h`. -/
theorem taperSpectrum_pass_bins (m : Libm) (X : List Cplx) (H taperBins : Int)
    (hlen : X.length = 512) (hH : H < 256) (k : Nat) (hk : k < 512) (h1 : 1 ≤ k)
    (h : Int) (hmin : min (k : Int) (512 - (k : Int)) = h) (hle : h ≤ H)
    (hst : max 1 (H - taperBins) ≤ h) :
    (taperSpectrum m X H taperBins).getD k (0, 0) =
      ((X.getD k (0, 0)).1 * taperWeight m H (max 1 (H - taperBins)) h,
       (X.getD k (0, 0)).2 * taperWeight m H (max 1 (H - taperBins)) h) := by
  rw [taperSpectrum_getD m X H taperBins hlen hH k hk, if_pos h1]
  unfold taperAt
  simp only
  rw [hmin, if_neg (by omega), if_pos (by omega)]

/-- Sample `n` of the inverse DFT of a spectrum that is zero outside the bins
listed in `S`: the sum of the terms of the listed bins over 512. -/
theorem inverseDFT_getD_sparse (m : Libm) (Y : List Cplx) (S : List Nat) (n : Nat)
    (hn : n < 512)
    (hz : ∀ k : Nat, k < 512 → k ∉ S → Y.getD k (0, 0) = (0, 0)) :
    (inverseDFT m Y).getD n 0 =
      (((List.range 512).filter (fun k => decide (k ∈ S))).map (idftTerm m Y n)).sum
        / (kTableSize : ℚ) := by
  rw [inverseDFT_getD m Y n hn,
    sum_map_sparse (idftTerm m Y n) S (List.range 512) (by
      intro k hk hS
      unfold idftTerm
      rw [hz k (List.mem_range.mp hk) hS]
      simp)]

/-- Two tables that are not proportional stay different after the gain step
towards a non-zero target. -/
theorem scaleToRMS_ne (m : Libm) (B : ℚ) (U V : Table) (hB : B ≠ 0) (n1 n2 : Nat)
    (hc : U.getD n1 0 * V.getD n2 0 ≠ V.getD n1 0 * U.getD n2 0) :
    scaleToRMS m B U ≠ scaleToRMS m B V := by
  intro h
  have e1 : (scaleToRMS m B U).getD n1 0 = (scaleToRMS m B V).getD n1 0 := by rw [h]
  have e2 : (scaleToRMS m B U).getD n2 0 = (scaleToRMS m B V).getD n2 0 := by rw [h]
  rw [scaleToRMS_getD, scaleToRMS_getD] at e1 e2
  have hne : ∀ r : ℚ, (if r > 1 / 1000000000000 then B / r else 1) ≠ 0 := by
    intro r
    by_cases hr : r > 1 / 1000000000000
    · rw [if_pos hr]
      have : (0 : ℚ) < r := lt_trans (by norm_num) hr
      exact div_ne_zero hB (ne_of_gt this)
    · rw [if_neg hr]
      exact one_ne_zero
  have hu := hne (compute_rms m U)
  have hv := hne (compute_rms m V)
  generalize (if compute_rms m U > 1 / 1000000000000 then B / compute_rms m U else 1) = cu
    at e1 e2 hu
  generalize (if compute_rms m V > 1 / 1000000000000 then B / compute_rms m V else 1) = cv
    at e1 e2 hv
  have key : cu * cv * (U.getD n1 0 * V.getD n2 0 - V.getD n1 0 * U.getD n2 0) = 0 := by
    linear_combination (V.getD n2 0 * cv) * e1 - (V.getD n1 0 * cv) * e2
  rcases mul_eq_zero.mp key with h1 | h1
  · rcases mul_eq_zero.mp h1 with h2 | h2
    · exact hu h2
    · exact hv h2
  · exact hc (sub_eq_zero.mp h1)

/-- The function `apply_lowpass_with_taper` with `normalizeRMS = true`, a
cutoff in `1..256` and a non-negative taper width. -/
theorem apply_lowpass_eq (m : Libm) (base : Table) (H taperBins : Int)
    (h1 : 1 ≤ H) (h2 : H ≤ 256) (h3 : 0 ≤ taperBins) :
    apply_lowpass_with_taper m base H taperBins true =
      scaleToRMS m (compute_rms m base)
        (inverseDFT m (taperSpectrum m (forwardDFT m base) H taperBins)) := by
  unfold apply_lowpass_with_taper
  have hn : Int.tdiv ((kTableSize : Nat) : Int) 2 = 256 := rfl
  simp only [hn, if_neg (not_lt.mpr h1), if_neg (not_lt.mpr h2), if_neg (not_lt.mpr h3),
    if_true]

/-- The block that prepares the effective table keeps the sample rate and the
vibrato depth. -/
theorem Synth.rebuildEffective_keeps (m : Libm) (t : Synth) :
    (t.rebuildEffective m).sr_ = t.sr_ ∧
    (t.rebuildEffective m).vibratoDepthSemis_ = t.vibratoDepthSemis_ := by
  unfold Synth.rebuildEffective
  dsimp only
  by_cases h0 : t.params_.preHighCutMode = 0
  on_goal 2 => by_cases h1 : t.params_.preHighCutMode = 1
  · rw [if_pos h0]
    exact ⟨rfl, rfl⟩
  · rw [if_neg h0, if_pos h1]
    exact ⟨rfl, rfl⟩
  · rw [if_neg h0, if_neg h1]
    exact ⟨rfl, rfl⟩

/-- The first part of `setParams` with the parameters already in force and
`preCutValid_` set changes nothing: no table is rebuilt. -/
theorem Synth.setParamsCore_unchanged (m : Libm) (s : Synth) (hv : s.preCutValid_ = true) :
    s.setParamsCore m s.params_ = s := by
  cases s
  simp only at hv
  subst hv
  simp [Synth.setParamsCore]

/-- The first part of `setParams(p)` in a mode other than Off and Fixed on an
engine with `preCutValid_` clear: the effective table is the low-pass by
maximum note, with the cutoff computed from `p.preHighCutMaxNote`, the sample
rate and the vibrato depth in force at the call. -/
theorem Synth.setParamsCore_byMaxNote (m : Libm) (s : Synth) (p : SynthParams)
    (h : s.TableInv m) (hv : s.preCutValid_ = false)
    (h0 : p.preHighCutMode ≠ 0) (h1 : p.preHighCutMode ≠ 1) :
    (s.setParamsCore m p).effective_ = some (apply_lowpass_with_taper m
      (s.tables_.get p.toneMask p.quantize4 p.tableLen)
      (byMaxNoteCut m p.preHighCutMaxNote s.sr_ s.vibratoDepthSemis_)
      (if byMaxNoteCut m p.preHighCutMaxNote s.sr_ s.vibratoDepthSemis_ < 16 then 8 else 12)
      true) ∧
    (s.setParamsCore m p).preCutValid_ = true ∧ (s.setParamsCore m p).params_ = p ∧
    (s.setParamsCore m p).sr_ = s.sr_ ∧
    (s.setParamsCore m p).vibratoDepthSemis_ = s.vibratoDepthSemis_ := by
  obtain ⟨_, c2, c3, _⟩ := Synth.setParamsCore_tableInv m s p h
  refine ⟨?_, c3, c2, ?_⟩
  · unfold Synth.setParamsCore
    dsimp only
    generalize hc1 : ((p.toneMask != s.params_.toneMask) ||
      (p.quantize4 != s.params_.quantize4) || (p.tableLen != s.params_.tableLen)) = c1
    generalize ((p.adsr.attack != s.params_.adsr.attack) ||
      (p.adsr.decay != s.params_.adsr.decay) || (p.adsr.sustain != s.params_.adsr.sustain) ||
      (p.adsr.release != s.params_.adsr.release)) = c2
    generalize ((p.preHighCutMode != s.params_.preHighCutMode) ||
      (p.preHighCutMaxNote != s.params_.preHighCutMaxNote)) = c3
    have st2 : ∀ t2 : Synth,
        t2 = (if c1 = true then ({ s with params_ := p } : Synth).reselectTable
          else { s with params_ := p }) →
        t2.tables_ = s.tables_ ∧ t2.params_ = p ∧ t2.current_ = some t2.rawTable ∧
        t2.preCutValid_ = false ∧ t2.sr_ = s.sr_ ∧
        t2.vibratoDepthSemis_ = s.vibratoDepthSemis_ := by
      intro t2 ht2
      cases c1 with
      | true =>
        rw [if_pos rfl] at ht2
        rw [ht2]
        exact ⟨rfl, rfl, rfl, rfl, rfl, rfl⟩
      | false =>
        rw [if_neg (by simp)] at ht2
        rw [ht2]
        simp only [Bool.or_eq_false_iff, bne_eq_false_iff_eq] at hc1
        obtain ⟨⟨e1, e2⟩, e3⟩ := hc1
        have hraw : ({ s with params_ := p } : Synth).rawTable = s.rawTable := by
          show s.tables_.get p.toneMask p.quantize4 p.tableLen = _
          rw [e1, e2, e3]
          rfl
        refine ⟨rfl, rfl, ?_, hv, rfl, rfl⟩
        rw [hraw]
        exact h.1
    generalize (if c1 = true then ({ s with params_ := p } : Synth).reselectTable
      else { s with params_ := p }) = t2 at st2 ⊢
    obtain ⟨a1, a2, a3, a4, a5, a6⟩ := st2 t2 rfl
    have st3 : ∀ t3 : Synth, t3 = (if c2 = true then t2.pushADSR else t2) →
        t3.tables_ = s.tables_ ∧ t3.params_ = p ∧ t3.current_ = some t3.rawTable ∧
        t3.preCutValid_ = false ∧ t3.sr_ = s.sr_ ∧
        t3.vibratoDepthSemis_ = s.vibratoDepthSemis_ := by
      intro t3 ht3
      cases c2 with
      | false =>
        rw [if_neg (by simp)] at ht3
        rw [ht3]
        exact ⟨a1, a2, a3, a4, a5, a6⟩
      | true =>
        rw [if_pos rfl] at ht3
        rw [ht3]
        exact ⟨a1, a2, a3, a4, a5, a6⟩
    generalize (if c2 = true then t2.pushADSR else t2) = t3 at st3 ⊢
    obtain ⟨b1, b2, b3, b4, b5, b6⟩ := st3 t3 rfl
    rw [if_pos (by rw [b4]; simp)]
    obtain ⟨_, _, _, _, _, _, r7, _⟩ := Synth.rebuildEffective_spec m t3 b3
    rw [r7 (by rw [b2]; exact h0) (by rw [b2]; exact h1)]
    unfold Synth.byMaxNoteTable Synth.byMaxNoteH Synth.rawTable
    rw [b1, b2, b5, b6]
  · unfold Synth.setParamsCore
    dsimp only
    generalize ((p.toneMask != s.params_.toneMask) ||
      (p.quantize4 != s.params_.quantize4) || (p.tableLen != s.params_.tableLen)) = c1
    generalize ((p.adsr.attack != s.params_.adsr.attack) ||
      (p.adsr.decay != s.params_.adsr.decay) || (p.adsr.sustain != s.params_.adsr.sustain) ||
      (p.adsr.release != s.params_.adsr.release)) = c2
    generalize ((p.preHighCutMode != s.params_.preHighCutMode) ||
      (p.preHighCutMaxNote != s.params_.preHighCutMaxNote)) = c3
    have e2 : (if c1 = true then ({ s with params_ := p } : Synth).reselectTable
        else { s with params_ := p }).sr_ = s.sr_ ∧
        (if c1 = true then ({ s with params_ := p } : Synth).reselectTable
        else { s with params_ := p }).vibratoDepthSemis_ = s.vibratoDepthSemis_ := by
      cases c1 <;> exact ⟨rfl, rfl⟩
    generalize (if c1 = true then ({ s with params_ := p } : Synth).reselectTable
      else { s with params_ := p }) = t2 at e2 ⊢
    have e3 : (if c2 = true then t2.pushADSR else t2).sr_ = s.sr_ ∧
        (if c2 = true then t2.pushADSR else t2).vibratoDepthSemis_ = s.vibratoDepthSemis_ := by
      cases c2
      · exact e2
      · exact e2
    generalize (if c2 = true then t2.pushADSR else t2) = t3 at e3 ⊢
    split_ifs
    · obtain ⟨k1, k2⟩ := Synth.rebuildEffective_keeps m t3
      exact ⟨k1.trans e3.1, k2.trans e3.2⟩
    · exact e3

/-- The low-passed staircase with `H = 4` (taper 8) under the fixed-point
library, before the gain: sample `n` is the sum over the bins of
`stairsPassFour`. -/
theorem stairs_lowpass_four (n : Nat) (hn : n < 512) :
    (inverseDFT fxLibm (taperSpectrum fxLibm
      (forwardDFT fxLibm ((List.range 512).map stairs)) 4 8)).getD n 0
      = sparseSample fxLibm stairsPassFour n := by
  obtain ⟨hlen, hbin⟩ := forwardDFT_of_fn fxLibm stairs
  obtain ⟨hb0, hb1, hb2, hb3, hb509, hb510, hb511⟩ := fxLibm_stairs_bins
  obtain ⟨w1, w2, w3, w4, _, _, _⟩ := fxLibm_taper_weights
  have hst : max (1 : Int) (4 - 8) = 1 := by decide
  have hX0 : (forwardDFT fxLibm ((List.range 512).map stairs)).getD 0 (0, 0) = (0, 0) := by
    rw [hbin 0 (by decide), hb0]
  have hz : ∀ k : Nat, k < 512 → k ∉ [1, 2, 3, 509, 510, 511] →
      (taperSpectrum fxLibm (forwardDFT fxLibm ((List.range 512).map stairs)) 4 8).getD k
        (0, 0) = (0, 0) := by
    intro k hk hS
    apply taperSpectrum_zero_bins fxLibm _ 4 8 hlen (by decide) (by decide) (by decide) hX0
      (by rw [hst]; exact w4) k hk
    simp only [List.mem_cons, List.mem_singleton, List.not_mem_nil, or_false, not_or] at hS
    omega
  have hpass : ∀ (k : Nat) (h : Int), k < 512 → 1 ≤ k →
      min (k : Int) (512 - (k : Int)) = h → h ≤ 4 → 1 ≤ h →
      (taperSpectrum fxLibm (forwardDFT fxLibm ((List.range 512).map stairs)) 4 8).getD k
        (0, 0) = ((tableBin fxLibm stairs k).1 * taperWeight fxLibm 4 1 h,
          (tableBin fxLibm stairs k).2 * taperWeight fxLibm 4 1 h) := by
    intro k h hk h1 hmin hle hge
    rw [taperSpectrum_pass_bins fxLibm _ 4 8 hlen (by decide) k hk h1 h hmin hle
      (by rw [hst]; exact hge), hst, hbin k hk]
  have hfilter : (List.range 512).filter (fun k => decide (k ∈ [1, 2, 3, 509, 510, 511]))
      = [1, 2, 3, 509, 510, 511] := by
    decide!
  rw [inverseDFT_getD_sparse fxLibm _ [1, 2, 3, 509, 510, 511] n hn hz, hfilter]
  unfold idftTerm
  simp only [List.map_cons, List.map_nil]
  rw [hpass 1 1 (by decide) (by decide) (by decide) (by decide) (by decide),
    hpass 2 2 (by decide) (by decide) (by decide) (by decide) (by decide),
    hpass 3 3 (by decide) (by decide) (by decide) (by decide) (by decide),
    hpass 509 3 (by decide) (by decide) (by decide) (by decide) (by decide),
    hpass 510 2 (by decide) (by decide) (by decide) (by decide) (by decide),
    hpass 511 1 (by decide) (by decide) (by decide) (by decide) (by decide),
    hb1, hb2, hb3, hb509, hb510, hb511, w1, w2, w3]
  rfl

/-- The low-passed staircase with `H = 3` (taper 8) under the fixed-point
library, before the gain: sample `n` is the sum over the bins of
`stairsPassThree`. -/
theorem stairs_lowpass_three (n : Nat) (hn : n < 512) :
    (inverseDFT fxLibm (taperSpectrum fxLibm
      (forwardDFT fxLibm ((List.range 512).map stairs)) 3 8)).getD n 0
      = sparseSample fxLibm stairsPassThree n := by
  obtain ⟨hlen, hbin⟩ := forwardDFT_of_fn fxLibm stairs
  obtain ⟨hb0, hb1, hb2, _, _, hb510, hb511⟩ := fxLibm_stairs_bins
  obtain ⟨_, _, _, _, w1, w2, w3⟩ := fxLibm_taper_weights
  have hst : max (1 : Int) (3 - 8) = 1 := by decide
  have hX0 : (forwardDFT fxLibm ((List.range 512).map stairs)).getD 0 (0, 0) = (0, 0) := by
    rw [hbin 0 (by decide), hb0]
  have hz : ∀ k : Nat, k < 512 → k ∉ [1, 2, 510, 511] →
      (taperSpectrum fxLibm (forwardDFT fxLibm ((List.range 512).map stairs)) 3 8).getD k
        (0, 0) = (0, 0) := by
    intro k hk hS
    apply taperSpectrum_zero_bins fxLibm _ 3 8 hlen (by decide) (by decide) (by decide) hX0
      (by rw [hst]; exact w3) k hk
    simp only [List.mem_cons, List.mem_singleton, List.not_mem_nil, or_false, not_or] at hS
    omega
  have hpass : ∀ (k : Nat) (h : Int), k < 512 → 1 ≤ k →
      min (k : Int) (512 - (k : Int)) = h → h ≤ 3 → 1 ≤ h →
      (taperSpectrum fxLibm (forwardDFT fxLibm ((List.range 512).map stairs)) 3 8).getD k
        (0, 0) = ((tableBin fxLibm stairs k).1 * taperWeight fxLibm 3 1 h,
          (tableBin fxLibm stairs k).2 * taperWeight fxLibm 3 1 h) := by
    intro k h hk h1 hmin hle hge
    rw [taperSpectrum_pass_bins fxLibm _ 3 8 hlen (by decide) k hk h1 h hmin hle
      (by rw [hst]; exact hge), hst, hbin k hk]
  have hfilter : (List.range 512).filter (fun k => decide (k ∈ [1, 2, 510, 511]))
      = [1, 2, 510, 511] := by
    decide!
  rw [inverseDFT_getD_sparse fxLibm _ [1, 2, 510, 511] n hn hz, hfilter]
  unfold idftTerm
  simp only [List.map_cons, List.map_nil]
  rw [hpass 1 1 (by decide) (by decide) (by decide) (by decide) (by decide),
    hpass 2 2 (by decide) (by decide) (by decide) (by decide) (by decide),
    hpass 510 2 (by decide) (by decide) (by decide) (by decide) (by decide),
    hpass 511 1 (by decide) (by decide) (by decide) (by decide) (by decide),
    hb1, hb2, hb510, hb511, w1, w2]
  rfl

/-- Under the fixed-point library the pre-filtered tables of the default raw
table for the cutoffs 4 and 3 (taper 8) are different tables. -/
theorem stairs_lowpass_ne :
    apply_lowpass_with_taper fxLibm ((Tables.build fxLibm.exp).get 1 true 128) 4 8 true ≠
      apply_lowpass_with_taper fxLibm ((Tables.build fxLibm.exp).get 1 true 128) 3 8 true := by
  rw [fxLibm_raw_stairs, apply_lowpass_eq fxLibm _ 4 8 (by decide) (by decide) (by decide),
    apply_lowpass_eq fxLibm _ 3 8 (by decide) (by decide) (by decide)]
  apply scaleToRMS_ne fxLibm _ _ _ fxLibm_stairs_rms 0 64
  rw [stairs_lowpass_four 0 (by decide), stairs_lowpass_four 64 (by decide),
    stairs_lowpass_three 0 (by decide), stairs_lowpass_three 64 (by decide)]
  exact fxLibm_stairs_cross

/-- Claim C29 (code defect): the pre-filtered table does not follow the vibrato
depth. With the fixed-point library, after `setup(48000)` and
`setParams(p)` for `p` in ByMaxNote mode with maximum note 113 (vibrato depth
still 0), the calls `setVibratoDepthSemis(0.5)` and `setParams(p)` with the same
`p` return an engine that holds the new depth, for which the cutoff computed
from the new depth is `H = 3`, but whose effective table is unchanged: it is
still the low-pass of the raw table with `H = 4`, the cutoff of depth 0, and
this is a different table from the one the new depth calls for. -/
theorem C29_prefilter_ignores_new_depth :
    ∃ s1 s2 : Synth,
      ((Synth.fresh fxLibm).setup 48000).setParams fxLibm 0 depthProbeParams = some s1 ∧
      (s1.setVibratoDepthSemis (1 / 2)).setParams fxLibm 0 depthProbeParams = some s2 ∧
      s2.params_ = depthProbeParams ∧ s2.sr_ = 48000 ∧ s2.vibratoDepthSemis_ = 1 / 2 ∧
      s2.byMaxNoteH fxLibm = 3 ∧
      s2.effective_ = s1.effective_ ∧
      s2.effective_ = some (apply_lowpass_with_taper fxLibm s2.rawTable 4 8 true) ∧
      s2.effective_ ≠ some (s2.byMaxNoteTable fxLibm) := by
  obtain ⟨hcut0, hcut1⟩ := fxLibm_depth_cuts
  have hq : depthProbeParams.blQuality ≤ 0 := by
    show (0 : Int) ≤ 0
    decide
  have hm0 : depthProbeParams.preHighCutMode ≠ 0 := by
    show (2 : Int) ≠ 0
    decide
  have hm1 : depthProbeParams.preHighCutMode ≠ 1 := by
    show (2 : Int) ≠ 1
    decide
  have hsr0 : ((Synth.fresh fxLibm).setup 48000).sr_ = 48000 := by
    show (if (48000 : ℚ) > 1 then (48000 : ℚ) else 48000) = 48000
    exact ite_self _
  have hvb0 : ((Synth.fresh fxLibm).setup 48000).vibratoDepthSemis_ = 0 := rfl
  have htb0 : ((Synth.fresh fxLibm).setup 48000).tables_ = Tables.build fxLibm.exp := rfl
  have hinv0 := Synth.setup_tableInv fxLibm (Synth.fresh fxLibm) 48000
  obtain ⟨s1, hs1⟩ := Synth.setParams_isSome fxLibm 0 ((Synth.fresh fxLibm).setup 48000)
    depthProbeParams hq
  obtain ⟨ce, cv, cp, csr, cvb⟩ := Synth.setParamsCore_byMaxNote fxLibm
    ((Synth.fresh fxLibm).setup 48000) depthProbeParams hinv0 rfl hm0 hm1
  obtain ⟨ctb, _, _, _⟩ := Synth.setParamsCore_tableInv fxLibm
    ((Synth.fresh fxLibm).setup 48000) depthProbeParams hinv0
  obtain ⟨⟨a1, a2, _, a4, a5, _⟩, _, _, asr⟩ := Synth.setParams_sameTables fxLibm 0 _ s1 _ hs1
  have hp1 : s1.params_ = depthProbeParams := a2.trans cp
  have hv1 : s1.preCutValid_ = true := a5.trans cv
  have htb1 : s1.tables_ = Tables.build fxLibm.exp := (a1.trans ctb).trans htb0
  have hsr1 : s1.sr_ = 48000 := (asr.trans csr).trans hsr0
  have he1 : s1.effective_ = some (apply_lowpass_with_taper fxLibm
      ((Tables.build fxLibm.exp).get 1 true 128) 4 8 true) := by
    rw [a4, ce, hsr0, hvb0, htb0]
    have h113 : depthProbeParams.preHighCutMaxNote = 113 := rfl
    rw [h113, hcut0, if_pos (by decide)]
    rfl
  obtain ⟨s2, hs2⟩ := Synth.setParams_isSome fxLibm 0 (s1.setVibratoDepthSemis (1 / 2))
    depthProbeParams hq
  have hcore : (s1.setVibratoDepthSemis (1 / 2)).setParamsCore fxLibm depthProbeParams
      = s1.setVibratoDepthSemis (1 / 2) := by
    have h := Synth.setParamsCore_unchanged fxLibm (s1.setVibratoDepthSemis (1 / 2)) hv1
    have hp : (s1.setVibratoDepthSemis (1 / 2)).params_ = depthProbeParams := hp1
    rw [hp] at h
    exact h
  obtain ⟨hsame, _, bvb, bsr⟩ := Synth.setParams_sameTables fxLibm 0 _ s2 _ hs2
  rw [hcore] at hsame bvb bsr
  obtain ⟨b1, b2, _, b4, _, _⟩ := hsame
  have hp2 : s2.params_ = depthProbeParams := b2.trans hp1
  have hsr2 : s2.sr_ = 48000 := bsr.trans hsr1
  have hvb2 : s2.vibratoDepthSemis_ = 1 / 2 := bvb
  have htb2 : s2.tables_ = Tables.build fxLibm.exp := b1.trans htb1
  have he21 : s2.effective_ = s1.effective_ := b4
  have hraw2 : s2.rawTable = (Tables.build fxLibm.exp).get 1 true 128 := by
    unfold Synth.rawTable
    rw [htb2, hp2]
    rfl
  have hH2 : s2.byMaxNoteH fxLibm = 3 := by
    unfold Synth.byMaxNoteH
    rw [hp2, hsr2, hvb2]
    exact hcut1
  refine ⟨s1, s2, hs1, hs2, hp2, hsr2, hvb2, hH2, he21, ?_, ?_⟩
  · rw [he21, he1, hraw2]
  · rw [he21, he1]
    unfold Synth.byMaxNoteTable
    rw [hH2, hraw2, if_pos (by decide)]
    intro h
    exact stairs_lowpass_ne (Option.some.inj h)

/-! ## RMS matching of the band-limited set -/

/-- The accumulation loop of `compute_rms` on a table scaled by `g`: the
factor `g^2` comes out of the sum of squares. -/
theorem sumSq_scale (g : ℚ) :
    ∀ (U : Table) (a : ℚ),
      (U.map (fun v => v * g)).foldl (fun acc v => acc + v * v) (g * g * a)
        = g * g * U.foldl (fun acc v => acc + v * v) a := by
  intro U
  induction U with
  | nil => intro a; rfl
  | cons u t ih =>
    intro a
    simp only [List.map_cons, List.foldl_cons]
    have h : g * g * a + u * g * (u * g) = g * g * (a + u * u) := by ring
    rw [h, ih]

/-! ## Effects of `Synth::setup` -/

/-- C32 fails as stated: on a freshly constructed engine, `noteOn(60, 100)`
followed by `setup(44100)` leaves voice 0 active, in Attack, with note 60:
`setup` does not silence a sounding voice. -/
theorem C32_setup_keeps_active_counterexample :
    ((((Synth.fresh refLibm).noteOn refLibm 60 100).setup 44100).voices_.getD 0 {}).active_
      = true ∧
    ((((Synth.fresh refLibm).noteOn refLibm 60 100).setup 44100).voices_.getD 0 {}).note_
      = 60 ∧
    ((((Synth.fresh refLibm).noteOn refLibm 60 100).setup 44100).voices_.getD 0 {}).env_.state_
      = ADSR.State.Attack ∧
    ¬ (∀ v ∈ (((Synth.fresh refLibm).noteOn refLibm 60 100).setup 44100).voices_,
      v.active_ = false) := by
  have hv := Synth.fresh_noteOn_voices refLibm 60 100
  have h0 : ((((Synth.fresh refLibm).noteOn refLibm 60 100).setup 44100).voices_.getD 0 {})
      = ((((({} : Voice).noteOn refLibm 60 100).setSampleRate 44100).setTable
          (some ((Synth.fresh refLibm).tables_.get 1 true 128)) 128).setADSR {}) := by
    simp only [Synth.setup]
    rw [hv]
    rfl
  refine ⟨?_, ?_, ?_, ?_⟩
  · rw [h0]; rfl
  · rw [h0]; rfl
  · rw [h0]; rfl
  · intro hall
    have hmem : ((((Synth.fresh refLibm).noteOn refLibm 60 100).setup 44100).voices_.getD 0 {})
        ∈ (((Synth.fresh refLibm).noteOn refLibm 60 100).setup 44100).voices_ := by
      simp only [Synth.setup]
      rw [hv]
      simp [List.replicate]
    have := hall _ hmem
    rw [h0] at this
    exact absurd this (by decide)

/-- C32 (amended): `setup(sampleRate)` re-initialises the voices without
silencing them. After the call every voice of the pool holds the new effective
sample rate (also in its envelope), the raw table of the current parameters
with effective length `tableLen`, and the current ADSR parameters; `current_`
and `effective_` point to that raw table, the pre-filtered table and the
band-limited set are marked invalid and the vibrato phase is 0. The pool keeps
its size, and every voice keeps its active flag, note, phase and envelope state
and level; so all voices are inactive after the call if they were before it. -/
theorem C32_setup_effects (s : Synth) (sampleRate : ℚ) :
    (s.setup sampleRate).sr_ = (if sampleRate > 1 then sampleRate else 48000) ∧
    (∀ v ∈ (s.setup sampleRate).voices_,
      v.sr_ = (s.setup sampleRate).sr_ ∧ v.env_.sr_ = (s.setup sampleRate).sr_ ∧
      v.table_ = some (s.tables_.get s.params_.toneMask s.params_.quantize4
        s.params_.tableLen) ∧
      v.len_ = s.params_.tableLen ∧ v.env_.p_ = s.params_.adsr) ∧
    (s.setup sampleRate).current_ = some (s.tables_.get s.params_.toneMask
      s.params_.quantize4 s.params_.tableLen) ∧
    (s.setup sampleRate).effective_ = (s.setup sampleRate).current_ ∧
    (s.setup sampleRate).preCutValid_ = false ∧ (s.setup sampleRate).blsetValid_ = false ∧
    (s.setup sampleRate).vibratoPhase_ = 0 ∧ (s.setup sampleRate).params_ = s.params_ ∧
    (s.setup sampleRate).voices_.length = s.voices_.length ∧
    (s.setup sampleRate).voices_.map (fun v => v.active_) = s.voices_.map (fun v => v.active_) ∧
    (s.setup sampleRate).voices_.map (fun v => v.note_) = s.voices_.map (fun v => v.note_) ∧
    (s.setup sampleRate).voices_.map (fun v => v.phase_) = s.voices_.map (fun v => v.phase_) ∧
    (s.setup sampleRate).voices_.map (fun v => v.env_.state_)
      = s.voices_.map (fun v => v.env_.state_) ∧
    (s.setup sampleRate).voices_.map (fun v => v.env_.env_)
      = s.voices_.map (fun v => v.env_.env_) ∧
    ((∀ v ∈ s.voices_, v.active_ = false) →
      ∀ v ∈ (s.setup sampleRate).voices_, v.active_ = false) := by
  have hsr : 1 < (if sampleRate > 1 then sampleRate else 48000) := by
    split_ifs with h
    · exact h
    · norm_num
  refine ⟨rfl, ?_, rfl, rfl, rfl, rfl, rfl, rfl, ?_, ?_, ?_, ?_, ?_, ?_, ?_⟩
  · intro v hv
    simp only [Synth.setup, List.mem_map] at hv
    obtain ⟨w, _, rfl⟩ := hv
    refine ⟨rfl, ?_, rfl, rfl, rfl⟩
    show (if (if sampleRate > 1 then sampleRate else 48000) > 1
      then (if sampleRate > 1 then sampleRate else 48000) else 48000) = _
    rw [if_pos hsr]
    rfl
  · simp only [Synth.setup, List.length_map]
  · simp only [Synth.setup, List.map_map]
    exact List.map_congr_left (fun v _ => rfl)
  · simp only [Synth.setup, List.map_map]
    exact List.map_congr_left (fun v _ => rfl)
  · simp only [Synth.setup, List.map_map]
    exact List.map_congr_left (fun v _ => rfl)
  · simp only [Synth.setup, List.map_map]
    exact List.map_congr_left (fun v _ => rfl)
  · simp only [Synth.setup, List.map_map]
    exact List.map_congr_left (fun v _ => rfl)
  · intro hall v hv
    simp only [Synth.setup, List.mem_map] at hv
    obtain ⟨w, hw, rfl⟩ := hv
    exact hall w hw

/-- Witness for C32 (amended): `setup(44100)` on a freshly constructed engine,
whose 32 voices are all inactive. -/
theorem C32_setup_effects_witness :
    (∀ v ∈ (Synth.fresh refLibm).voices_, v.active_ = false) ∧
    ((Synth.fresh refLibm).setup 44100).voices_.length = 32 ∧
    (∀ v ∈ ((Synth.fresh refLibm).setup 44100).voices_,
      v.sr_ = ((Synth.fresh refLibm).setup 44100).sr_ ∧
      v.env_.sr_ = ((Synth.fresh refLibm).setup 44100).sr_ ∧
      v.table_ = some ((Synth.fresh refLibm).tables_.get (Synth.fresh refLibm).params_.toneMask
        (Synth.fresh refLibm).params_.quantize4 (Synth.fresh refLibm).params_.tableLen) ∧
      v.len_ = (Synth.fresh refLibm).params_.tableLen ∧
      v.env_.p_ = (Synth.fresh refLibm).params_.adsr) ∧
    ∀ v ∈ ((Synth.fresh refLibm).setup 44100).voices_, v.active_ = false :=
  ⟨Synth.fresh_inactive refLibm,
   (C32_setup_effects (Synth.fresh refLibm) 44100).2.2.2.2.2.2.2.2.1.trans
     (Synth.fresh_length refLibm),
   (C32_setup_effects (Synth.fresh refLibm) 44100).2.1,
   (C32_setup_effects (Synth.fresh refLibm) 44100).2.2.2.2.2.2.2.2.2.2.2.2.2.2
     (Synth.fresh_inactive refLibm)⟩

/-! ## Oversampling choice in Auto2x mode -/

/-- The oversampling factor in HQ mode Auto2x: 2 when the test `nearTop` of
`Synth::process` holds, 1 otherwise. -/
theorem Synth.chooseOS_auto (s : Synth) (ef0 : ℚ) (ib : Int) (hmode : s.params_.hqMode = 1) :
    s.chooseOS ef0 ib =
      if (ib ≥ (s.blset_.hcuts.length : Int) - 1 - 1) ∨
          ((s.sr_ * (1 / 2)) / (max ef0 (1 / 1000000))
            - ((hcutAt s.blset_.hcuts ib : Int) : ℚ) < 4) then 2 else 1 := by
  unfold Synth.chooseOS
  rw [hmode, if_neg (by decide), if_neg (by decide), if_neg (by decide), if_pos rfl]
  simp only [Bool.or_eq_true, decide_eq_true_eq]

/-- The harmonic limit that the Auto2x test computes, with the frequency raised
to at least `1e-6`, is at most the one `choose_tables_for_freq` computes for a
positive frequency. -/
theorem auto_hlimit_le (set : BLSet) (ef0 sr : ℚ) (hf : 0 < ef0) (hsr : 0 < sr) :
    (sr * (1 / 2)) / (max ef0 (1 / 1000000)) ≤ hlimitOf set ef0 sr := by
  rw [hlimitOf_pos set ef0 sr hf]
  exact div_le_div_of_nonneg_left (by positivity) hf (le_max_left _ _)

/-- C33 (code defect): HQ mode Auto2x oversamples every voice. For every
band-limited set that satisfies the data model (non-empty, as many cutoffs as
tables, cutoffs strictly ascending), every positive sample rate and every
guarded voice frequency `ef0`, the oversampling factor chosen in mode Auto2x
for the table pair of `choose_tables_for_freq` is 2: the test `nearTop` always
holds, because the upper cutoff `hcuts[ib]` is at least the harmonic limit (so
`hlimit - hcuts[ib] < 4`) unless `ib` is the last index. No frequency gives
`os = 1`, so Auto2x behaves as Force2x. -/
theorem C33_auto2x_always_oversamples (s : Synth) (ef0 : ℚ)
    (hne : s.blset_.tables ≠ []) (hlen : s.blset_.hcuts.length = s.blset_.tables.length)
    (hasc : s.blset_.hcuts.Sorted (· < ·)) (hsr : 0 < s.sr_)
    (hmode : s.params_.hqMode = 1) :
    s.chooseOS ef0 (choose_tables_for_freq s.blset_ ef0 s.sr_).2.1 = 2 := by
  have hcne := hcuts_ne_nil s.blset_ hlen hne
  have hpos : 0 < s.blset_.hcuts.length := List.length_pos.mpr hcne
  rw [Synth.chooseOS_auto s ef0 _ hmode]
  apply if_pos
  by_cases h1 : hlimitOf s.blset_ ef0 s.sr_ ≤ ((s.blset_.hcuts.headD 0 : Int) : ℚ)
  · rw [choose_low s.blset_ ef0 s.sr_ hne h1]
    by_cases hf : 0 < ef0
    · right
      have := auto_hlimit_le s.blset_ ef0 s.sr_ hf hsr
      rw [hcutAt_zero]
      linarith
    · left
      rw [hlimitOf_nonpos s.blset_ ef0 s.sr_ (not_lt.mp hf)] at h1
      have h1' : s.blset_.hcuts.getLastD 0 ≤ s.blset_.hcuts.headD 0 := by exact_mod_cast h1
      by_contra hcon
      have hcon2 : ¬ ((0 : Int) ≥ (s.blset_.hcuts.length : Int) - 1 - 1) := hcon
      have h2 : (2 : Int) ≤ (s.blset_.hcuts.length : Int) := by omega
      have hlt := hcutAt_lt_of_sorted s.blset_.hcuts hasc 0 ((s.blset_.hcuts.length : Int) - 1)
        (le_refl _) (by omega) (by omega)
      rw [hcutAt_zero, hcutAt_last _ hcne] at hlt
      omega
  · by_cases h2 : hlimitOf s.blset_ ef0 s.sr_ ≥ ((s.blset_.hcuts.getLastD 0 : Int) : ℚ)
    · rw [choose_high s.blset_ ef0 s.sr_ hne h1 h2]
      left
      show (s.blset_.hcuts.length : Int) - 1 ≥ (s.blset_.hcuts.length : Int) - 1 - 1
      omega
    · obtain ⟨ia, t, hc, _, _, _, hhi, _⟩ := choose_mid s.blset_ ef0 s.sr_ hne
        (not_le.mp h1) (not_le.mp h2)
      rw [hc]
      right
      have hf : 0 < ef0 := by
        by_contra hf
        rw [hlimitOf_nonpos s.blset_ ef0 s.sr_ (not_lt.mp hf)] at h2
        exact h2 (le_refl _)
      have := auto_hlimit_le s.blset_ ef0 s.sr_ hf hsr
      show s.sr_ * (1 / 2) / max ef0 (1 / 1000000) - ((hcutAt s.blset_.hcuts (ia + 1) : Int) : ℚ)
        < 4
      linarith

/-- Witness for C33: the cutoffs `2, 4, ..., 256` at 48 kHz and the guarded
frequency 1000 Hz. The harmonic limit is 24 and the table pair is `(3, 4)` with
cutoffs 16 and 32: `ib = 4` is three below the last index 7 and the upper
cutoff is 8 harmonics above the limit, yet the factor is 2. -/
theorem C33_auto2x_always_oversamples_witness :
    (auto2xProbe.blset_.tables ≠ [] ∧
      auto2xProbe.blset_.hcuts.length = auto2xProbe.blset_.tables.length ∧
      auto2xProbe.blset_.hcuts.Sorted (· < ·) ∧ 0 < auto2xProbe.sr_ ∧
      auto2xProbe.params_.hqMode = 1) ∧
    (choose_tables_for_freq auto2xProbe.blset_ 1000 auto2xProbe.sr_).2.1 = 4 ∧
    (auto2xProbe.blset_.hcuts.length : Int) - 1 = 7 ∧
    ((hcutAt auto2xProbe.blset_.hcuts 4 : Int) : ℚ) - hlimitOf auto2xProbe.blset_ 1000 48000
      = 8 ∧
    auto2xProbe.chooseOS 1000
      (choose_tables_for_freq auto2xProbe.blset_ 1000 auto2xProbe.sr_).2.1 = 2 := by
  have e3 : hcutAt octaveSet.hcuts 3 = 16 := rfl
  have e4 : hcutAt octaveSet.hcuts 4 = 32 := rfl
  have e5 : hcutAt octaveSet.hcuts 5 = 64 := rfl
  have hB : bsearch octaveSet.hcuts 24 0 7 = (3, 4) := by
    rw [bsearch_step_lt _ _ 0 7 3 (by norm_num) (by norm_num) (by rw [e3]; norm_num),
      bsearch_step_ge _ _ 3 7 5 (by norm_num) (by norm_num) (by rw [e5]; norm_num),
      bsearch_step_ge _ _ 3 5 4 (by norm_num) (by norm_num) (by rw [e4]; norm_num),
      bsearch_done _ _ 3 4 (by norm_num)]
  have h1000 : hlimitOf octaveSet 1000 48000 = 24 := by norm_num [hlimitOf]
  have hlen : ((octaveSet.hcuts.length : Int) - 1) = 7 := rfl
  have hfront : octaveSet.hcuts.headD 0 = 2 := rfl
  have hback : octaveSet.hcuts.getLastD 0 = 256 := rfl
  have hempty : octaveSet.tables.isEmpty = false := rfl
  have r1000 : choose_tables_for_freq octaveSet 1000 48000
      = (3, 4, (choose_tables_for_freq octaveSet 1000 48000).2.2) := by
    unfold choose_tables_for_freq
    simp only [hempty, Bool.false_eq_true, if_false, h1000, hfront, hback, hlen, hB]
    norm_num
  have hne : auto2xProbe.blset_.tables ≠ [] := by
    show List.replicate (7 + 1) (List.replicate 512 (0 : ℚ)) ≠ []
    rw [List.replicate_succ]
    exact List.cons_ne_nil _ _
  have hasc : auto2xProbe.blset_.hcuts.Sorted (· < ·) := by
    show ([2, 4, 8, 16, 32, 64, 128, 256] : List Int).Sorted (· < ·)
    decide
  have hsr : 0 < auto2xProbe.sr_ := by
    show (0 : ℚ) < 48000
    norm_num
  refine ⟨⟨hne, rfl, hasc, hsr, rfl⟩, ?_, rfl, ?_,
    C33_auto2x_always_oversamples auto2xProbe 1000 hne rfl hasc hsr rfl⟩
  · show (choose_tables_for_freq octaveSet 1000 48000).2.1 = 4
    rw [r1000]
  · show ((hcutAt octaveSet.hcuts 4 : Int) : ℚ) - hlimitOf octaveSet 1000 48000 = 8
    rw [e4, h1000]
    norm_num

/-! ## Full-band cutoff -/

/-- The imaginary part of a complex accumulation loop is the sum of the
imaginary terms. -/
theorem foldl_pair_snd (f g : Nat → ℚ) :
    ∀ (l : List Nat) (a : Cplx),
      (l.foldl (fun (acc : Cplx) (k : Nat) => (acc.1 + f k, acc.2 + g k)) a).2
        = a.2 + (l.map g).sum := by
  intro l
  induction l with
  | nil => intro a; simp
  | cons k l ih =>
    intro a
    simp only [List.foldl_cons, List.map_cons, List.sum_cons]
    rw [ih]
    ring

/-- A sum over the 512 sample indices of terms weighted by `unitAt` is the
term at index 1. -/
theorem sum_unitAt (c : Nat → ℚ) :
    ((List.range 512).map (fun n => c n * unitAt n)).sum = c 1 := by
  have hf : (List.range 512).filter (fun k => decide (k ∈ [1])) = [1] := by
    decide!
  rw [sum_map_sparse (fun n => c n * unitAt n) [1] (List.range 512) (by
    intro k _ hk
    have hk1 : k ≠ 1 := by simpa using hk
    simp only [unitAt, if_neg hk1, mul_zero]), hf]
  simp [unitAt]

/-- Bin `k` of the forward DFT of `unitTable`. -/
theorem tableBin_unit (m : Libm) (k : Nat) :
    tableBin m unitAt k =
      (m.cos (-(2 * piLit / (kTableSize : ℚ)) * ((k * 1 : Nat) : ℚ)),
       m.sin (-(2 * piLit / (kTableSize : ℚ)) * ((k * 1 : Nat) : ℚ))) := by
  have h1 := foldl_pair_fst
    (fun n => m.cos (-(2 * piLit / (kTableSize : ℚ)) * ((k * n : Nat) : ℚ)) * unitAt n)
    (fun n => m.sin (-(2 * piLit / (kTableSize : ℚ)) * ((k * n : Nat) : ℚ)) * unitAt n)
    (List.range 512) (0, 0)
  have h2 := foldl_pair_snd
    (fun n => m.cos (-(2 * piLit / (kTableSize : ℚ)) * ((k * n : Nat) : ℚ)) * unitAt n)
    (fun n => m.sin (-(2 * piLit / (kTableSize : ℚ)) * ((k * n : Nat) : ℚ)) * unitAt n)
    (List.range 512) (0, 0)
  rw [sum_unitAt (fun n => m.cos (-(2 * piLit / (kTableSize : ℚ)) * ((k * n : Nat) : ℚ))),
    zero_add] at h1
  rw [sum_unitAt (fun n => m.sin (-(2 * piLit / (kTableSize : ℚ)) * ((k * n : Nat) : ℚ))),
    zero_add] at h2
  unfold tableBin
  exact Prod.ext h1 h2

/-- Sample `n` of the inverse DFT of the forward DFT of `unitTable`: the four
runs of 128 bin terms, over 512. -/
theorem roundTrip_unit_getD (m : Libm) (n : Nat) (hn : n < 512) :
    (inverseDFT m (forwardDFT m unitTable)).getD n 0 =
      (roundTripChunk m n 0 + (roundTripChunk m n 128 + (roundTripChunk m n 256
        + roundTripChunk m n 384))) / (kTableSize : ℚ) := by
  have hr : List.range 512 = List.range' 0 128 ++ (List.range' 128 128 ++
      (List.range' 256 128 ++ List.range' 384 128)) := by
    decide!
  have hmap : (List.range 512).map (idftTerm m (forwardDFT m unitTable) n)
      = (List.range 512).map (roundTripTerm m n) := by
    apply List.map_congr_left
    intro k hk
    unfold idftTerm roundTripTerm
    have hX := (forwardDFT_of_fn m unitAt).2 k (List.mem_range.mp hk)
    have hX2 : (forwardDFT m unitTable).getD k (0, 0) = tableBin m unitAt k := hX
    rw [hX2, tableBin_unit]
  rw [inverseDFT_getD m _ n hn, hmap, hr, List.map_append, List.map_append, List.map_append,
    List.sum_append, List.sum_append, List.sum_append]
  rfl

set_option maxRecDepth 100000 in
/-- First run of bin terms of sample 129 under the fixed-point library. -/
theorem fxLibm_roundTrip_1 :
    roundTripChunk fxLibm 129 0 = -1601794199 / 576460752303423488 := by
  decide!

set_option maxRecDepth 100000 in
/-- Second run of bin terms of sample 129 under the fixed-point library. -/
theorem fxLibm_roundTrip_2 :
    roundTripChunk fxLibm 129 128 = -1601794199 / 576460752303423488 := by
  decide!

set_option maxRecDepth 100000 in
/-- Third run of bin terms of sample 129 under the fixed-point library. -/
theorem fxLibm_roundTrip_3 :
    roundTripChunk fxLibm 129 256 = -1601794199 / 576460752303423488 := by
  decide!

set_option maxRecDepth 100000 in
/-- Fourth run of bin terms of sample 129 under the fixed-point library. -/
theorem fxLibm_roundTrip_4 :
    roundTripChunk fxLibm 129 384 = -1601794199 / 576460752303423488 := by
  decide!

set_option maxRecDepth 100000 in
/-- The table `unitTable` has a non-zero RMS under the fixed-point library. -/
theorem fxLibm_unit_rms : compute_rms fxLibm unitTable ≠ 0 := by
  decide!

/-- Sample 129 of the inverse DFT of the forward DFT of `unitTable` under the
fixed-point library. -/
theorem fxLibm_roundTrip_sample :
    (inverseDFT fxLibm (forwardDFT fxLibm unitTable)).getD 129 0
      = -1601794199 / 73786976294838206464 := by
  rw [roundTrip_unit_getD fxLibm 129 (by norm_num), fxLibm_roundTrip_1, fxLibm_roundTrip_2,
    fxLibm_roundTrip_3, fxLibm_roundTrip_4]
  have hk : ((kTableSize : Nat) : ℚ) = 512 := by
    unfold kTableSize
    norm_num
  rw [hk]
  norm_num

/-- With a cutoff of 256 or more the low-pass loop is skipped. -/
theorem taperSpectrum_full (m : Libm) (X : List Cplx) (H taperBins : Int) (hH : 256 ≤ H) :
    taperSpectrum m X H taperBins = X := by
  unfold taperSpectrum
  have hn : Int.tdiv ((kTableSize : Nat) : Int) 2 = 256 := rfl
  simp only [hn, if_neg (not_lt.mpr hH)]

/-- The function `apply_lowpass_with_taper` with a cutoff of 256 or more. -/
theorem apply_lowpass_full (m : Libm) (base : Table) (H taperBins : Int) (hH : 256 ≤ H)
    (nr : Bool) :
    apply_lowpass_with_taper m base H taperBins nr =
      if nr then scaleToRMS m (compute_rms m base) (inverseDFT m (forwardDFT m base))
      else inverseDFT m (forwardDFT m base) := by
  unfold apply_lowpass_with_taper
  have hn : Int.tdiv ((kTableSize : Nat) : Int) 2 = 256 := rfl
  have h1 : ¬ H < 1 := by omega
  simp only [hn, if_neg h1]
  by_cases h2 : H > 256
  · simp only [if_pos h2, taperSpectrum_full m _ 256 _ (le_refl _)]
  · simp only [if_neg h2, taperSpectrum_full m _ H _ hH]

/-- The algorithm `std::unique` keeps the last element. -/
theorem unique_getLast? : ∀ l : List Int, (unique l).getLast? = l.getLast?
  | [] => rfl
  | [_] => rfl
  | a :: b :: t => by
    have ih := unique_getLast? (b :: t)
    unfold unique
    by_cases hab : a = b
    · rw [if_pos hab, ih, List.getLast?_cons_cons]
    · rw [if_neg hab]
      have hne : unique (b :: t) ≠ [] := by
        intro h
        rw [h] at ih
        exact absurd ih.symm (by simp [List.getLast?_eq_none_iff])
      obtain ⟨c, u, hu⟩ := List.exists_cons_of_ne_nil hne
      rw [hu, List.getLast?_cons_cons, ← hu, ih, List.getLast?_cons_cons]

/-- Every vector that `make_harmonic_cuts` returns ends with 256. -/
theorem make_harmonic_cuts_last (pow : ℚ → ℚ → ℚ) (fuel : Nat) (bandsPerOctave : Int)
    (cuts : List Int) (h : make_harmonic_cuts pow fuel bandsPerOctave = some cuts) :
    cuts.getLast? = some 256 := by
  unfold make_harmonic_cuts at h
  simp only at h
  split at h
  · exact absurd h (by simp)
  · rename_i out _
    simp only [Option.some.injEq] at h
    rw [← h, unique_getLast?]
    by_cases hl : out.getLastD 0 ≠ 256
    · rw [if_pos hl, List.getLast?_concat]
    · rw [if_neg hl]
      have hl2 : out.getLastD 0 = 256 := not_not.mp hl
      have hne : out ≠ [] := by
        intro h0
        rw [h0] at hl2
        simp at hl2
      rw [getLast?_of_ne_nil out hne, hl2]

/-- The last cutoff of a set built with `normalizeRMS = true` is 256, and its
last table is the inverse DFT of the forward DFT of the base table, scaled to
the RMS of the base table. -/
theorem build_last_table (m : Libm) (fuel : Nat) (base : Table) (bandsPerOctave : Int)
    (set : BLSet) (hset : build_bandlimited_set m fuel base bandsPerOctave true = some set) :
    set.hcuts.getLast? = some 256 ∧
    set.tables.getLast? =
      some (scaleToRMS m (compute_rms m base) (inverseDFT m (forwardDFT m base))) := by
  cases hc : make_harmonic_cuts m.pow fuel bandsPerOctave with
  | none =>
    unfold build_bandlimited_set at hset
    simp only [hc] at hset
    exact absurd hset (by simp)
  | some cuts =>
    have hlast := make_harmonic_cuts_last m.pow fuel bandsPerOctave cuts hc
    rw [build_rms_of_cuts m fuel base bandsPerOctave cuts hc] at hset
    simp only [Option.some.injEq] at hset
    rw [← hset]
    refine ⟨hlast, ?_⟩
    simp only
    rw [List.getLast?_map, hlast]
    simp only [Option.map_some', taperSpectrum_full m _ 256 6 (le_refl _)]

/-! ## Block-size independence -/

/-- One iteration of the sample loop keeps the members from which `process`
computes its locals `lfoInc`, `d` and `comp`. -/
theorem Synth.tick_locals (m : Libm) (s : Synth) (lfoInc d comp : ℚ) :
    (s.tick m lfoInc d comp).1.lfoInc = s.lfoInc ∧
    (s.tick m lfoInc d comp).1.noiseRatio = s.noiseRatio ∧
    (s.tick m lfoInc d comp).1.noiseComp = s.noiseComp :=
  ⟨rfl, rfl, rfl⟩

/-- A block of samples keeps the members from which `process` computes its
locals `lfoInc`, `d` and `comp`. -/
theorem Synth.block_locals (m : Libm) (lfoInc d comp : ℚ) :
    ∀ (k : Nat) (s : Synth),
      (Synth.block m lfoInc d comp k s).1.lfoInc = s.lfoInc ∧
      (Synth.block m lfoInc d comp k s).1.noiseRatio = s.noiseRatio ∧
      (Synth.block m lfoInc d comp k s).1.noiseComp = s.noiseComp := by
  intro k
  induction k with
  | zero => intro s; exact ⟨rfl, rfl, rfl⟩
  | succ k ih =>
    intro s
    obtain ⟨a, b, c⟩ := ih (s.tick m lfoInc d comp).1
    obtain ⟨a2, b2, c2⟩ := Synth.tick_locals m s lfoInc d comp
    simp only [Synth.block]
    exact ⟨a.trans a2, b.trans b2, c.trans c2⟩

/-- A block of `k1 + k2` samples is a block of `k1` samples followed by a block
of `k2` samples from the state the first block leaves. -/
theorem Synth.block_add (m : Libm) (lfoInc d comp : ℚ) (k2 : Nat) :
    ∀ (k1 : Nat) (s : Synth),
      Synth.block m lfoInc d comp (k1 + k2) s =
        ((Synth.block m lfoInc d comp k2 (Synth.block m lfoInc d comp k1 s).1).1,
         (Synth.block m lfoInc d comp k1 s).2
           ++ (Synth.block m lfoInc d comp k2 (Synth.block m lfoInc d comp k1 s).1).2) := by
  intro k1
  induction k1 with
  | zero =>
    intro s
    simp only [Nat.zero_add, Synth.block, List.nil_append]
  | succ k ih =>
    intro s
    have h : k + 1 + k2 = (k + k2) + 1 := by omega
    rw [h]
    simp only [Synth.block]
    rw [ih]
    simp only [List.cons_append]

/-- C37: block-size independence. On buffers that hold at least `n1 + n2`
samples, `process` on `n1` frames followed by `process` on the next `n2` frames
(the buffers from index `n1` on) leaves the same engine state (voices, vibrato
phase, generator state and every other member) and the same buffer contents,
hence the same `n1 + n2` output samples, as one `process` call on `n1 + n2`
frames. -/
theorem C37_block_size_independence (m : Libm) (s : Synth) (outL outR : List ℚ)
    (n1 n2 : Nat) (hL : n1 + n2 ≤ outL.length) (hR : n1 + n2 ≤ outR.length) :
    ((s.process m outL outR (n1 : Int)).1.process m
        ((s.process m outL outR (n1 : Int)).2.1.drop n1)
        ((s.process m outL outR (n1 : Int)).2.2.drop n1) (n2 : Int)).1
      = (s.process m outL outR ((n1 + n2 : Nat) : Int)).1 ∧
    (s.process m outL outR (n1 : Int)).2.1.take n1 ++
      ((s.process m outL outR (n1 : Int)).1.process m
        ((s.process m outL outR (n1 : Int)).2.1.drop n1)
        ((s.process m outL outR (n1 : Int)).2.2.drop n1) (n2 : Int)).2.1
      = (s.process m outL outR ((n1 + n2 : Nat) : Int)).2.1 ∧
    (s.process m outL outR (n1 : Int)).2.2.take n1 ++
      ((s.process m outL outR (n1 : Int)).1.process m
        ((s.process m outL outR (n1 : Int)).2.1.drop n1)
        ((s.process m outL outR (n1 : Int)).2.2.drop n1) (n2 : Int)).2.2
      = (s.process m outL outR ((n1 + n2 : Nat) : Int)).2.2 := by
  have t1 : ((n1 : Nat) : Int).toNat = n1 := Int.toNat_natCast n1
  have t2 : ((n2 : Nat) : Int).toNat = n2 := Int.toNat_natCast n2
  have t12 : ((n1 + n2 : Nat) : Int).toNat = n1 + n2 := Int.toNat_natCast (n1 + n2)
  have e1 := Synth.process_eq_block m s outL outR (n1 : Int) (by rw [t1]; omega)
    (by rw [t1]; omega)
  have e12 := Synth.process_eq_block m s outL outR ((n1 + n2 : Nat) : Int)
    (by rw [t12]; exact hL) (by rw [t12]; exact hR)
  rw [t1] at e1
  rw [t12] at e12
  have hlen1 := Synth.block_length m s.lfoInc s.noiseRatio s.noiseComp n1 s
  obtain ⟨l1, l2, l3⟩ := Synth.block_locals m s.lfoInc s.noiseRatio s.noiseComp n1 s
  have hadd := Synth.block_add m s.lfoInc s.noiseRatio s.noiseComp n2 n1 s
  rw [e1, e12, hadd]
  generalize hB1 : Synth.block m s.lfoInc s.noiseRatio s.noiseComp n1 s = B1
    at hlen1 l1 l2 l3 ⊢
  have hdropL : (B1.2 ++ outL.drop n1).drop n1 = outL.drop n1 := by
    rw [List.drop_append_of_le_length (by omega), List.drop_of_length_le (by omega),
      List.nil_append]
  have hdropR : (B1.2 ++ outR.drop n1).drop n1 = outR.drop n1 := by
    rw [List.drop_append_of_le_length (by omega), List.drop_of_length_le (by omega),
      List.nil_append]
  have htakeL : (B1.2 ++ outL.drop n1).take n1 = B1.2 := by
    rw [List.take_append_of_le_length (by omega), List.take_of_length_le (by omega)]
  have htakeR : (B1.2 ++ outR.drop n1).take n1 = B1.2 := by
    rw [List.take_append_of_le_length (by omega), List.take_of_length_le (by omega)]
  have e2 := Synth.process_eq_block m B1.1 (outL.drop n1) (outR.drop n1) (n2 : Int)
    (by rw [t2, List.length_drop]; omega) (by rw [t2, List.length_drop]; omega)
  rw [t2, l1, l2, l3, List.drop_drop, List.drop_drop] at e2
  simp only [hdropL, hdropR, htakeL, htakeR]
  rw [e2]
  simp only [List.append_assoc]
  exact ⟨trivial, trivial, trivial⟩

/-- Witness for C37: two frames and then three frames against five frames, on
a freshly constructed engine with buffers of five samples. -/
theorem C37_block_size_independence_witness :
    (2 + 3 ≤ (List.replicate 5 (0 : ℚ)).length) ∧
    (((Synth.fresh refLibm).process refLibm (List.replicate 5 0) (List.replicate 5 0)
        ((2 : Nat) : Int)).1.process refLibm
        (((Synth.fresh refLibm).process refLibm (List.replicate 5 0) (List.replicate 5 0)
          ((2 : Nat) : Int)).2.1.drop 2)
        (((Synth.fresh refLibm).process refLibm (List.replicate 5 0) (List.replicate 5 0)
          ((2 : Nat) : Int)).2.2.drop 2) ((3 : Nat) : Int)).1
      = ((Synth.fresh refLibm).process refLibm (List.replicate 5 0) (List.replicate 5 0)
          ((2 + 3 : Nat) : Int)).1 :=
  ⟨by decide,
   (C37_block_size_independence refLibm (Synth.fresh refLibm) (List.replicate 5 0)
     (List.replicate 5 0) 2 3 (by decide) (by decide)).1⟩

/-! ## Idempotence of `setParams` -/

/-- The first part of `setParams` always leaves `preCutValid_` set and the new
parameters stored. -/
theorem Synth.setParamsCore_valid (m : Libm) (s : Synth) (p : SynthParams) :
    (s.setParamsCore m p).preCutValid_ = true ∧ (s.setParamsCore m p).params_ = p := by
  unfold Synth.setParamsCore
  dsimp only
  generalize ((p.toneMask != s.params_.toneMask) ||
    (p.quantize4 != s.params_.quantize4) || (p.tableLen != s.params_.tableLen)) = c1
  generalize ((p.adsr.attack != s.params_.adsr.attack) ||
    (p.adsr.decay != s.params_.adsr.decay) || (p.adsr.sustain != s.params_.adsr.sustain) ||
    (p.adsr.release != s.params_.adsr.release)) = c2
  generalize ((p.preHighCutMode != s.params_.preHighCutMode) ||
    (p.preHighCutMaxNote != s.params_.preHighCutMaxNote)) = c3
  have e2 : (if c1 = true then ({ s with params_ := p } : Synth).reselectTable
      else { s with params_ := p }).params_ = p := by
    cases c1 <;> rfl
  generalize (if c1 = true then ({ s with params_ := p } : Synth).reselectTable
    else { s with params_ := p }) = t2 at e2 ⊢
  have e3 : (if c2 = true then t2.pushADSR else t2).params_ = p := by
    cases c2
    · exact e2
    · exact e2
  generalize (if c2 = true then t2.pushADSR else t2) = t3 at e3 ⊢
  by_cases hg : (c1 || c3 || !t3.preCutValid_) = true
  · rw [if_pos hg]
    constructor
    · unfold Synth.rebuildEffective
      dsimp only
      by_cases h0 : t3.params_.preHighCutMode = 0
      · rw [if_pos h0]
      · rw [if_neg h0]
        by_cases h1 : t3.params_.preHighCutMode = 1
        · rw [if_pos h1]
        · rw [if_neg h1]
    · rw [← e3]
      unfold Synth.rebuildEffective
      dsimp only
      by_cases h0 : t3.params_.preHighCutMode = 0
      · rw [if_pos h0]
      · rw [if_neg h0]
        by_cases h1 : t3.params_.preHighCutMode = 1
        · rw [if_pos h1]
        · rw [if_neg h1]
  · rw [if_neg hg]
    refine ⟨?_, e3⟩
    cases hv : t3.preCutValid_
    · rw [hv] at hg
      simp at hg
    · rfl

/-- C38: `setParams` is idempotent. Whenever `setParams(p)` returns an engine
`s1`, that engine holds the parameters `p` with `preCutValid_` set, and the
band-limited set is either valid or not wanted (`blQuality <= 0`); a second
`setParams(p)` then finds nothing changed, so its first part (raw table, ADSR,
pre-filtered table, voice tables) changes nothing, no band-limited set is
built, and the call returns `s1` itself, for every iteration bound. -/
theorem C38_setParams_idempotent (m : Libm) (fuel fuel2 : Nat) (s s1 : Synth) (p : SynthParams)
    (h : s.setParams m fuel p = some s1) :
    s1.params_ = p ∧ s1.preCutValid_ = true ∧
    (s1.blsetValid_ = true ∨ (s1.blsetValid_ = false ∧ p.blQuality ≤ 0)) ∧
    s1.setParamsCore m p = s1 ∧
    s1.setParams m fuel2 p = some s1 := by
  obtain ⟨cv, cp⟩ := Synth.setParamsCore_valid m s p
  have key : s1.params_ = p ∧ s1.preCutValid_ = true ∧
      (s1.blsetValid_ = true ∨ (s1.blsetValid_ = false ∧ p.blQuality ≤ 0)) := by
    unfold Synth.setParams at h
    simp only at h
    split_ifs at h with hg
    · simp only [Synth.rebuildBLSet] at h
      rw [cp] at h
      split_ifs at h with hq
      · split at h
        · exact absurd h (by simp)
        · simp only [Option.some.injEq] at h
          rw [← h]
          exact ⟨rfl, cv, Or.inl rfl⟩
      · simp only [Option.some.injEq] at h
        rw [← h]
        exact ⟨rfl, cv, Or.inr ⟨rfl, not_lt.mp hq⟩⟩
    · simp only [Option.some.injEq] at h
      rw [← h]
      refine ⟨cp, cv, Or.inl ?_⟩
      cases hb : (s.setParamsCore m p).blsetValid_
      · rw [hb] at hg
        simp at hg
      · rfl
  obtain ⟨hp, hv, hb⟩ := key
  have hcore : s1.setParamsCore m p = s1 := by
    have := Synth.setParamsCore_unchanged m s1 hv
    rw [hp] at this
    exact this
  refine ⟨hp, hv, hb, hcore, ?_⟩
  subst hp
  unfold Synth.setParams
  simp only [hcore, bne_self_eq_false, Bool.false_or]
  rcases hb with hb | ⟨hb, hq⟩
  · rw [hb]
    simp
  · have hself : ({ s1 with blsetValid_ := false } : Synth) = s1 := by
      cases s1
      simp only at hb
      subst hb
      rfl
    rw [hb]
    simp only [Bool.not_false, if_true, Synth.rebuildBLSet, hself, if_neg (not_lt.mpr hq)]

/-- Witness for C38: `setParams` with the Fixed pre-high-cut on a freshly
constructed engine after `setup(48000)`. -/
theorem C38_setParams_idempotent_witness :
    ∃ s1 : Synth,
      ((Synth.fresh refLibm).setup 48000).setParams refLibm 0 { preHighCutMode := 1 }
        = some s1 ∧
      s1.setParams refLibm 0 { preHighCutMode := 1 } = some s1 := by
  obtain ⟨s1, h⟩ := Synth.setParams_isSome refLibm 0 ((Synth.fresh refLibm).setup 48000)
    { preHighCutMode := 1 } (by decide)
  exact ⟨s1, h, (C38_setParams_idempotent refLibm 0 0 _ s1 _ h).2.2.2.2⟩

/-! ## The xorshift generator never reaches zero -/

/-- Cancellation of a common right operand of the Boolean exclusive or. -/
theorem bool_xor_cancel (a b c : Bool) (h : xor a c = xor b c) : a = b := by
  cases a <;> cases b <;> cases c <;> first | rfl | exact absurd h (by decide)

/-- Bit `i` of `x ^ ((x << k) mod 2^32)`. -/
theorem testBit_xor_shl (x k i : Nat) :
    (Nat.xor x ((x <<< k) % 2 ^ 32)).testBit i
      = xor (x.testBit i) (decide (i < 32) && (decide (k ≤ i) && x.testBit (i - k))) := by
  show (x ^^^ ((x <<< k) % 2 ^ 32)).testBit i = _
  rw [Nat.testBit_xor, Nat.testBit_mod_two_pow, Nat.testBit_shiftLeft]

/-- Bit `i` of `x ^ (x >> k)`. -/
theorem testBit_xor_shr (x k i : Nat) :
    (Nat.xor x (x >>> k)).testBit i = xor (x.testBit i) (x.testBit (k + i)) := by
  show (x ^^^ (x >>> k)).testBit i = _
  rw [Nat.testBit_xor, Nat.testBit_shiftRight]

/-- A 32-bit value has no bit at position 32 or above. -/
theorem testBit_of_lt (x i : Nat) (hx : x < 2 ^ 32) (hi : 32 ≤ i) : x.testBit i = false :=
  Nat.testBit_lt_two_pow (lt_of_lt_of_le hx (Nat.pow_le_pow_right (by decide) hi))

/-- The step `x ^= x << k` (modulo `2^32`, `k > 0`) is injective on 32-bit
values. -/
theorem xor_shl_injective (k : Nat) (hk : 0 < k) (x y : Nat) (hx : x < 2 ^ 32)
    (hy : y < 2 ^ 32)
    (h : Nat.xor x ((x <<< k) % 2 ^ 32) = Nat.xor y ((y <<< k) % 2 ^ 32)) : x = y := by
  apply Nat.eq_of_testBit_eq
  intro i
  induction i using Nat.strong_induction_on with
  | _ i ih =>
    by_cases hi : i < 32
    · have hb := congrArg (fun z => z.testBit i) h
      simp only [testBit_xor_shl, hi, decide_True, Bool.true_and] at hb
      by_cases hki : k ≤ i
      · have hprev := ih (i - k) (by omega)
        simp only [hki, decide_True, Bool.true_and, hprev] at hb
        exact bool_xor_cancel _ _ _ hb
      · simp only [hki, decide_False, Bool.false_and, Bool.xor_false] at hb
        exact hb
    · rw [testBit_of_lt x i hx (by omega), testBit_of_lt y i hy (by omega)]

/-- The step `x ^= x >> 17` is injective on 32-bit values. -/
theorem xor_shr_injective (x y : Nat) (hx : x < 2 ^ 32) (hy : y < 2 ^ 32)
    (h : Nat.xor x (x >>> 17) = Nat.xor y (y >>> 17)) : x = y := by
  have hb : ∀ i, xor (x.testBit i) (x.testBit (17 + i))
      = xor (y.testBit i) (y.testBit (17 + i)) := by
    intro i
    have := congrArg (fun z => z.testBit i) h
    simp only [testBit_xor_shr] at this
    exact this
  have hhigh : ∀ i, 15 ≤ i → x.testBit i = y.testBit i := by
    intro i hi
    have := hb i
    rw [testBit_of_lt x (17 + i) hx (by omega), testBit_of_lt y (17 + i) hy (by omega),
      Bool.xor_false, Bool.xor_false] at this
    exact this
  apply Nat.eq_of_testBit_eq
  intro i
  by_cases hi : 15 ≤ i
  · exact hhigh i hi
  · have := hb i
    rw [hhigh (17 + i) (by omega)] at this
    exact bool_xor_cancel _ _ _ this

/-- The xorshift32 step is injective on 32-bit states. -/
theorem xorshift32_injective (x y : Nat) (hx : x < 2 ^ 32) (hy : y < 2 ^ 32)
    (h : xorshift32 x = xorshift32 y) : x = y := by
  unfold xorshift32 at h
  simp only at h
  have a1 : Nat.xor x ((x <<< 13) % 2 ^ 32) < 2 ^ 32 :=
    Nat.xor_lt_two_pow hx (Nat.mod_lt _ (by norm_num))
  have b1 : Nat.xor y ((y <<< 13) % 2 ^ 32) < 2 ^ 32 :=
    Nat.xor_lt_two_pow hy (Nat.mod_lt _ (by norm_num))
  have a2 : Nat.xor (Nat.xor x ((x <<< 13) % 2 ^ 32))
      ((Nat.xor x ((x <<< 13) % 2 ^ 32)) >>> 17) < 2 ^ 32 := by
    apply Nat.xor_lt_two_pow a1
    rw [Nat.shiftRight_eq_div_pow]
    exact lt_of_le_of_lt (Nat.div_le_self _ _) a1
  have b2 : Nat.xor (Nat.xor y ((y <<< 13) % 2 ^ 32))
      ((Nat.xor y ((y <<< 13) % 2 ^ 32)) >>> 17) < 2 ^ 32 := by
    apply Nat.xor_lt_two_pow b1
    rw [Nat.shiftRight_eq_div_pow]
    exact lt_of_le_of_lt (Nat.div_le_self _ _) b1
  have e3 := xor_shl_injective 5 (by decide) _ _ a2 b2 h
  have e2 := xor_shr_injective _ _ a1 b1 e3
  exact xor_shl_injective 13 (by decide) x y hx hy e2

/-- The xorshift32 step maps 0 to 0. -/
theorem xorshift32_zero : xorshift32 0 = 0 := by
  decide

/-- One iteration of the sample loop leaves the generator state as it was or
advances it by one xorshift32 step. -/
theorem Synth.tick_rng (m : Libm) (s : Synth) (lfoInc d comp : ℚ) :
    (s.tick m lfoInc d comp).1.rngState_ = s.rngState_ ∨
    (s.tick m lfoInc d comp).1.rngState_ = xorshift32 s.rngState_ := by
  unfold Synth.tick
  simp only
  generalize (if s.params_.blQuality ≤ 0 then
      forActiveVoices (fun v acc => ((v.render _).1, acc + (v.render _).2)) s.voices_ 0
    else forActiveVoices (s.renderBandlimited m _ _) s.voices_ 0).2 * s.params_.gain = sum
  unfold noiseStage
  by_cases hd : d > 0
  · rw [if_pos hd]
    exact Or.inr rfl
  · rw [if_neg hd]
    exact Or.inl rfl

/-- The sample loop keeps a non-zero 32-bit generator state non-zero and
32-bit. -/
theorem Synth.sampleLoop_rng (m : Libm) (lfoInc d comp : ℚ) :
    ∀ (k n : Nat) (s : Synth) (outL outR : List ℚ),
      s.rngState_ ≠ 0 → s.rngState_ < 2 ^ 32 →
      (Synth.sampleLoop m lfoInc d comp k n s outL outR).1.rngState_ ≠ 0 ∧
      (Synth.sampleLoop m lfoInc d comp k n s outL outR).1.rngState_ < 2 ^ 32 := by
  intro k
  induction k with
  | zero => intro n s outL outR h0 h1; exact ⟨h0, h1⟩
  | succ k ih =>
    intro n s outL outR h0 h1
    simp only [Synth.sampleLoop]
    apply ih
    · rcases Synth.tick_rng m s lfoInc d comp with h | h
      · rw [h]; exact h0
      · rw [h]
        intro hz
        exact h0 (xorshift32_injective _ 0 h1 (by norm_num) (hz.trans xorshift32_zero.symm))
    · rcases Synth.tick_rng m s lfoInc d comp with h | h
      · rw [h]; exact h1
      · rw [h]; exact xorshift32_lt _ h1

/-- C39: the noise generator never sticks at zero. The xorshift32 step
(`x ^= x << 13; x ^= x >> 17; x ^= x << 5` on 32 bits) is injective on 32-bit
states and maps every non-zero state to a non-zero 32-bit state; so an engine
whose generator state is non-zero still has a non-zero state after `process`
on any number of frames, whatever the noise ratio is. -/
theorem C39_xorshift_never_zero :
    (∀ x y : Nat, x < 2 ^ 32 → y < 2 ^ 32 → xorshift32 x = xorshift32 y → x = y) ∧
    (∀ x : Nat, x < 2 ^ 32 → x ≠ 0 → xorshift32 x ≠ 0 ∧ xorshift32 x < 2 ^ 32) ∧
    (∀ (m : Libm) (s : Synth) (outL outR : List ℚ) (frames : Int),
      s.rngState_ < 2 ^ 32 → s.rngState_ ≠ 0 →
      (s.process m outL outR frames).1.rngState_ ≠ 0 ∧
      (s.process m outL outR frames).1.rngState_ < 2 ^ 32) := by
  refine ⟨xorshift32_injective, ?_, ?_⟩
  · intro x hx h0
    refine ⟨?_, xorshift32_lt x hx⟩
    intro hz
    exact h0 (xorshift32_injective x 0 hx (by norm_num) (hz.trans xorshift32_zero.symm))
  · intro m s outL outR frames h1 h0
    exact Synth.sampleLoop_rng m _ _ _ _ 0 s outL outR h0 h1

/-- Witness for C39: the seed that `setup(48000)` stores, `48000 xor 0x9E3779B9`,
is a non-zero 32-bit state, and so are its successor and the state after
`process` on 64 frames. -/
theorem C39_xorshift_never_zero_witness :
    ((Synth.fresh refLibm).setup 48000).rngState_ = 2654454329 ∧
    xorshift32 2654454329 ≠ 0 ∧
    (((Synth.fresh refLibm).setup 48000).process refLibm [] [] 64).1.rngState_ ≠ 0 := by
  have hseed : ((Synth.fresh refLibm).setup 48000).rngState_ = 2654454329 := by
    show Nat.xor (toUInt32 (if (48000 : ℚ) > 1 then 48000 else 48000)) 0x9E3779B9 = 2654454329
    rw [ite_self]
    have h : toUInt32 (48000 : ℚ) = 48000 := by
      have hc : ctrunc (48000 : ℚ) = 48000 := by
        unfold ctrunc
        rw [if_pos (by norm_num)]
        exact Int.floor_intCast (48000 : Int)
      unfold toUInt32
      rw [hc]
      rfl
    rw [h]
    decide
  refine ⟨hseed, (C39_xorshift_never_zero.2.1 2654454329 (by norm_num) (by norm_num)).1, ?_⟩
  exact (C39_xorshift_never_zero.2.2 refLibm _ [] [] 64 (by rw [hseed]; norm_num)
    (by rw [hseed]; norm_num)).1

/-! ## FIR convolution of the decimator -/

/-- The bit length of 0 is 0. -/
theorem bitLenAux_zero (f : Nat) : bitLenAux f 0 = 0 := by
  cases f <;> simp [bitLenAux]

/-- With enough fuel, `bitLenAux` returns the bit length `b` of `n > 0`:
`2^(b-1) <= n < 2^b`. -/
theorem bitLenAux_spec : ∀ (f n : Nat), n ≤ f → 0 < n →
    2 ^ (bitLenAux f n - 1) ≤ n ∧ n < 2 ^ bitLenAux f n ∧ 0 < bitLenAux f n := by
  intro f
  induction f with
  | zero => intro n h1 h2; omega
  | succ f ih =>
    intro n h1 h2
    have hn : n ≠ 0 := by omega
    simp only [bitLenAux, if_neg hn, Nat.add_sub_cancel]
    by_cases h0 : n / 2 = 0
    · rw [h0, bitLenAux_zero]
      have : n = 1 := by omega
      subst this
      simp
    · obtain ⟨a, b, c⟩ := ih (n / 2) (by omega) (by omega)
      refine ⟨?_, ?_, by omega⟩
      · have h2 : 2 ^ bitLenAux f (n / 2) = 2 ^ (bitLenAux f (n / 2) - 1) * 2 := by
          rw [← pow_succ]
          congr 1
          omega
        rw [h2]
        omega
      · rw [pow_succ]
        omega

/-- For `n > 0`, `bitLen n` is the number of binary digits of `n`. -/
theorem bitLen_spec (n : Nat) (hn : 0 < n) :
    2 ^ (bitLen n - 1) ≤ n ∧ n < 2 ^ bitLen n ∧ 0 < bitLen n :=
  bitLenAux_spec n n (le_refl _) hn

/-- The function `pow2` is the integer power of 2. -/
theorem pow2_eq (k : Int) : pow2 k = (2 : ℚ) ^ k := by
  unfold pow2
  by_cases h : 0 ≤ k
  · rw [if_pos h]
    obtain ⟨n, rfl⟩ := Int.eq_ofNat_of_zero_le h
    simp
  · rw [if_neg h]
    obtain ⟨n, hn⟩ : ∃ n : Nat, k = -(n : Int) := ⟨(-k).toNat, by omega⟩
    subst hn
    simp

/-- A positive natural number lies between the powers of 2 given by its
number of digits, as rationals with integer exponents. -/
theorem bitLen_zpow (n : Nat) (hn : 0 < n) :
    (2 : ℚ) ^ ((bitLen n : Int) - 1) ≤ (n : ℚ) ∧ (n : ℚ) < (2 : ℚ) ^ (bitLen n : Int) := by
  obtain ⟨a, b, c⟩ := bitLen_spec n hn
  constructor
  · have h : ((bitLen n : Int) - 1) = ((bitLen n - 1 : Nat) : Int) := by omega
    rw [h, zpow_natCast]
    exact_mod_cast a
  · rw [zpow_natCast]
    exact_mod_cast b

/-- The exponent `log2Floor p q` brackets the fraction `p / q`. -/
theorem log2Floor_spec (p q : Nat) (hp : 0 < p) (hq : 0 < q) :
    (2 : ℚ) ^ (log2Floor p q) ≤ (p : ℚ) / q ∧ (p : ℚ) / q < (2 : ℚ) ^ (log2Floor p q + 1) := by
  obtain ⟨hp1, hp2⟩ := bitLen_zpow p hp
  obtain ⟨hq1, hq2⟩ := bitLen_zpow q hq
  have hQ : (0 : ℚ) < (q : ℚ) := by exact_mod_cast hq
  have h2 : (2 : ℚ) ≠ 0 := two_ne_zero
  have hpos : ∀ k : Int, (0 : ℚ) < (2 : ℚ) ^ k := fun k => zpow_pos (by norm_num) k
  -- generic bounds
  have hlow : (2 : ℚ) ^ ((bitLen p : Int) - (bitLen q : Int) - 1) ≤ (p : ℚ) / q := by
    rw [le_div_iff₀ hQ]
    have e : ((bitLen p : Int) - (bitLen q : Int) - 1) = ((bitLen p : Int) - 1) - (bitLen q : Int) := by
      ring
    rw [e, zpow_sub₀ h2, div_mul_eq_mul_div, div_le_iff₀ (hpos _)]
    exact mul_le_mul hp1 (le_of_lt hq2) (le_of_lt hQ) (by positivity)
  have hhigh : (p : ℚ) / q < (2 : ℚ) ^ ((bitLen p : Int) - (bitLen q : Int) + 1) := by
    rw [div_lt_iff₀ hQ]
    have e : ((bitLen p : Int) - (bitLen q : Int) + 1) = (bitLen p : Int) - ((bitLen q : Int) - 1) := by
      ring
    rw [e, zpow_sub₀ h2, div_mul_eq_mul_div, lt_div_iff₀ (hpos _)]
    calc (p : ℚ) * 2 ^ ((bitLen q : Int) - 1) < 2 ^ (bitLen p : Int) * 2 ^ ((bitLen q : Int) - 1) :=
          mul_lt_mul_of_pos_right hp2 (hpos _)
      _ ≤ 2 ^ (bitLen p : Int) * q := mul_le_mul_of_nonneg_left hq1 (le_of_lt (hpos _))
  unfold log2Floor
  simp only
  by_cases hd : (0 : Int) ≤ (bitLen p : Int) - (bitLen q : Int)
  · rw [if_pos hd]
    have hk : (((bitLen p : Int) - (bitLen q : Int)).toNat : Int) = (bitLen p : Int) - (bitLen q : Int) :=
      Int.toNat_of_nonneg hd
    have hz : (2 : ℚ) ^ ((bitLen p : Int) - (bitLen q : Int))
        = ((2 ^ ((bitLen p : Int) - (bitLen q : Int)).toNat : Nat) : ℚ) := by
      rw [← hk, zpow_natCast, hk]
      push_cast
      rfl
    by_cases ht : q * 2 ^ ((bitLen p : Int) - (bitLen q : Int)).toNat ≤ p
    · rw [if_pos ht]
      refine ⟨?_, hhigh⟩
      rw [le_div_iff₀ hQ, hz, mul_comm]
      exact_mod_cast ht
    · rw [if_neg ht]
      refine ⟨hlow, ?_⟩
      rw [sub_add_cancel, div_lt_iff₀ hQ, hz, mul_comm]
      exact_mod_cast (not_le.mp ht)
  · rw [if_neg hd]
    have hk : ((-((bitLen p : Int) - (bitLen q : Int))).toNat : Int)
        = -((bitLen p : Int) - (bitLen q : Int)) :=
      Int.toNat_of_nonneg (by omega)
    have hz : (2 : ℚ) ^ (-((bitLen p : Int) - (bitLen q : Int)))
        = ((2 ^ (-((bitLen p : Int) - (bitLen q : Int))).toNat : Nat) : ℚ) := by
      rw [← hk, zpow_natCast, hk]
      push_cast
      rfl
    have hinv : (2 : ℚ) ^ ((bitLen p : Int) - (bitLen q : Int))
        = 1 / (2 : ℚ) ^ (-((bitLen p : Int) - (bitLen q : Int))) := by
      rw [zpow_neg, one_div, inv_inv]
    by_cases ht : q ≤ p * 2 ^ (-((bitLen p : Int) - (bitLen q : Int))).toNat
    · rw [if_pos ht]
      refine ⟨?_, hhigh⟩
      rw [hinv, hz, le_div_iff₀ hQ, div_mul_eq_mul_div, one_mul,
        div_le_iff₀ (by exact_mod_cast Nat.pos_of_ne_zero (by positivity))]
      exact_mod_cast ht
    · rw [if_neg ht]
      refine ⟨hlow, ?_⟩
      rw [sub_add_cancel, hinv, hz, div_lt_iff₀ hQ, div_mul_eq_mul_div, one_mul,
        lt_div_iff₀ (by exact_mod_cast Nat.pos_of_ne_zero (by positivity))]
      exact_mod_cast (not_le.mp ht)

/-- A fraction of naturals is its integer quotient plus the remainder over the
denominator. -/
theorem frac_div_mod (n d : Nat) (hd : 0 < d) :
    (n : ℚ) / d = ((n / d : Nat) : ℚ) + ((n % d : Nat) : ℚ) / d := by
  have hD : (d : ℚ) ≠ 0 := by exact_mod_cast (Nat.pos_iff_ne_zero.mp hd)
  have h : ((d * (n / d) + n % d : Nat) : ℚ) = (n : ℚ) := by rw [Nat.div_add_mod]
  push_cast at h
  field_simp
  linarith

/-- The three cases of `roundHalfEven`: below the midpoint, above it, and the
tie, where the result is even. -/
theorem roundHalfEven_cases (n d : Nat) :
    (2 * (n % d) < d ∧ roundHalfEven n d = n / d) ∨
    (d < 2 * (n % d) ∧ roundHalfEven n d = n / d + 1) ∨
    (2 * (n % d) = d ∧ roundHalfEven n d % 2 = 0 ∧
      (roundHalfEven n d = n / d ∨ roundHalfEven n d = n / d + 1)) := by
  unfold roundHalfEven
  simp only
  by_cases h1 : 2 * (n % d) < d
  · left
    rw [if_pos h1]
    exact ⟨h1, rfl⟩
  · by_cases h2 : d < 2 * (n % d)
    · right; left
      rw [if_neg h1, if_pos h2]
      exact ⟨h2, rfl⟩
    · right; right
      rw [if_neg h1, if_neg h2]
      refine ⟨by omega, ?_⟩
      by_cases h3 : n / d % 2 = 0
      · rw [if_pos h3]
        exact ⟨h3, Or.inl rfl⟩
      · rw [if_neg h3]
        exact ⟨by omega, Or.inr rfl⟩

/-- The result of `roundHalfEven` is within one half of the fraction. -/
theorem roundHalfEven_err (n d : Nat) (hd : 0 < d) :
    |((roundHalfEven n d : Nat) : ℚ) - (n : ℚ) / d| ≤ 1 / 2 := by
  have hD : (0 : ℚ) < (d : ℚ) := by exact_mod_cast hd
  have hv := frac_div_mod n d hd
  have hr0 : (0 : ℚ) ≤ ((n % d : Nat) : ℚ) / d := by positivity
  rw [abs_le]
  rcases roundHalfEven_cases n d with ⟨h, e⟩ | ⟨h, e⟩ | ⟨h, _, e⟩
  · have h2 : ((n % d : Nat) : ℚ) / d < 1 / 2 := by
      rw [div_lt_iff₀ hD]
      have : ((2 * (n % d) : Nat) : ℚ) < (d : ℚ) := by exact_mod_cast h
      push_cast at this
      linarith
    rw [e, hv]
    constructor <;> linarith
  · have h2 : 1 / 2 < ((n % d : Nat) : ℚ) / d := by
      rw [lt_div_iff₀ hD]
      have : ((d : Nat) : ℚ) < ((2 * (n % d) : Nat) : ℚ) := by exact_mod_cast h
      push_cast at this
      linarith
    have h3 : ((n % d : Nat) : ℚ) / d < 1 := by
      rw [div_lt_one hD]
      exact_mod_cast Nat.mod_lt n hd
    rw [e, hv]
    push_cast
    constructor <;> linarith
  · have h2 : ((n % d : Nat) : ℚ) / d = 1 / 2 := by
      rw [div_eq_iff (ne_of_gt hD)]
      have : ((2 * (n % d) : Nat) : ℚ) = (d : ℚ) := by exact_mod_cast h
      push_cast at this
      linarith
    rcases e with e | e
    · rw [e, hv, h2]
      constructor <;> linarith
    · rw [e, hv, h2]
      push_cast
      constructor <;> linarith

/-- Rounding to nearest, ties to even, is monotone in the value of the
fraction. -/
theorem roundHalfEven_mono (n d n' d' : Nat) (hd : 0 < d) (hd' : 0 < d')
    (h : (n : ℚ) / d ≤ (n' : ℚ) / d') : roundHalfEven n d ≤ roundHalfEven n' d' := by
  by_contra hcon
  have hlt : roundHalfEven n' d' + 1 ≤ roundHalfEven n d := by omega
  have hltq : ((roundHalfEven n' d' : Nat) : ℚ) + 1 ≤ ((roundHalfEven n d : Nat) : ℚ) := by
    exact_mod_cast hlt
  have e1 := abs_le.mp (roundHalfEven_err n d hd)
  have e2 := abs_le.mp (roundHalfEven_err n' d' hd')
  have hD : (0 : ℚ) < (d : ℚ) := by exact_mod_cast hd
  have hD' : (0 : ℚ) < (d' : ℚ) := by exact_mod_cast hd'
  have v1 : (n : ℚ) / d = ((roundHalfEven n d : Nat) : ℚ) - 1 / 2 := by linarith [e1.1, e1.2, e2.1, e2.2]
  have v2 : (n' : ℚ) / d' = ((roundHalfEven n' d' : Nat) : ℚ) + 1 / 2 := by
    linarith [e1.1, e1.2, e2.1, e2.2]
  have veq : ((roundHalfEven n d : Nat) : ℚ) = ((roundHalfEven n' d' : Nat) : ℚ) + 1 := by
    linarith [e1.1, e1.2, e2.1, e2.2]
  have meq : roundHalfEven n d = roundHalfEven n' d' + 1 := by exact_mod_cast veq
  have hv := frac_div_mod n d hd
  have hv' := frac_div_mod n' d' hd'
  have hr0 : (0 : ℚ) ≤ ((n % d : Nat) : ℚ) / d := by positivity
  have hr0' : (0 : ℚ) ≤ ((n' % d' : Nat) : ℚ) / d' := by positivity
  have hr1 : ((n % d : Nat) : ℚ) / d < 1 := by
    rw [div_lt_one hD]
    exact_mod_cast Nat.mod_lt n hd
  have hr1' : ((n' % d' : Nat) : ℚ) / d' < 1 := by
    rw [div_lt_one hD']
    exact_mod_cast Nat.mod_lt n' hd'
  -- the first fraction is a tie rounded up, the second a tie rounded down
  have p1 : roundHalfEven n d % 2 = 0 := by
    rcases roundHalfEven_cases n d with ⟨_, e⟩ | ⟨hh, e⟩ | ⟨_, hp, _⟩
    · rw [e] at v1
      linarith
    · have h2 : 1 / 2 < ((n % d : Nat) : ℚ) / d := by
        rw [lt_div_iff₀ hD]
        have : ((d : Nat) : ℚ) < ((2 * (n % d) : Nat) : ℚ) := by exact_mod_cast hh
        push_cast at this
        linarith
      rw [e] at v1
      push_cast at v1
      linarith
    · exact hp
  have p2 : roundHalfEven n' d' % 2 = 0 := by
    rcases roundHalfEven_cases n' d' with ⟨hh, e⟩ | ⟨_, e⟩ | ⟨_, hp, _⟩
    · have h2 : ((n' % d' : Nat) : ℚ) / d' < 1 / 2 := by
        rw [div_lt_iff₀ hD']
        have : ((2 * (n' % d') : Nat) : ℚ) < (d' : ℚ) := by exact_mod_cast hh
        push_cast at this
        linarith
      rw [e] at v2
      linarith
    · rw [e] at v2
      push_cast at v2
      linarith
    · exact hp
  omega

/-- A fraction at or below an integer rounds to at most that integer. -/
theorem roundHalfEven_le (n d k : Nat) (hd : 0 < d) (h : (n : ℚ) / d ≤ (k : ℚ)) :
    roundHalfEven n d ≤ k := by
  have e := abs_le.mp (roundHalfEven_err n d hd)
  have : ((roundHalfEven n d : Nat) : ℚ) < (k : ℚ) + 1 := by linarith [e.2]
  have : roundHalfEven n d < k + 1 := by exact_mod_cast this
  omega

/-- A fraction at or above an integer rounds to at least that integer. -/
theorem le_roundHalfEven (n d k : Nat) (hd : 0 < d) (h : (k : ℚ) ≤ (n : ℚ) / d) :
    k ≤ roundHalfEven n d := by
  have e := abs_le.mp (roundHalfEven_err n d hd)
  have : (k : ℚ) < ((roundHalfEven n d : Nat) : ℚ) + 1 := by linarith [e.1]
  have : k < roundHalfEven n d + 1 := by exact_mod_cast this
  omega

/-- A fraction that is an integer rounds to itself. -/
theorem roundHalfEven_exact (n d k : Nat) (hd : 0 < d) (h : (n : ℚ) / d = (k : ℚ)) :
    roundHalfEven n d = k :=
  le_antisymm (roundHalfEven_le n d k hd (le_of_eq h)) (le_roundHalfEven n d k hd (le_of_eq h.symm))

/-- The magnitude of a rational is the fraction of the magnitude of its
numerator and its denominator. -/
theorem abs_eq_natAbs_div (x : ℚ) : |x| = (x.num.natAbs : ℚ) / (x.den : ℚ) := by
  have h := Rat.num_div_den x
  have hd : (0 : ℚ) < (x.den : ℚ) := by exact_mod_cast x.den_pos
  conv_lhs => rw [← h]
  rw [abs_div, abs_of_pos hd, Nat.cast_natAbs, Int.cast_abs]

/-- The numerator of a non-zero rational is non-zero. -/
theorem natAbs_num_pos (x : ℚ) (hx : x ≠ 0) : 0 < x.num.natAbs :=
  Int.natAbs_pos.mpr (Rat.num_ne_zero.mpr hx)

/-- Powers of two are positive. -/
theorem two_zpow_pos (k : Int) : (0 : ℚ) < (2 : ℚ) ^ k := zpow_pos (by norm_num) k

/-- Powers of two are monotone in the exponent. -/
theorem two_zpow_le {a b : Int} (h : a ≤ b) : (2 : ℚ) ^ a ≤ (2 : ℚ) ^ b :=
  zpow_le_zpow_right₀ (by norm_num) h

/-- Powers of two are strictly monotone in the exponent. -/
theorem two_zpow_lt_iff {a b : Int} : (2 : ℚ) ^ a < (2 : ℚ) ^ b ↔ a < b :=
  zpow_lt_zpow_iff_right₀ (by norm_num)

/-- Half a power of two is the previous power of two. -/
theorem two_zpow_half (k : Int) : (2 : ℚ) ^ k / 2 = (2 : ℚ) ^ (k - 1) := by
  rw [zpow_sub₀ (two_ne_zero), zpow_one]

/-- The grid exponent of a non-zero `x`: at least `-126`, `|x|` is below
`2^(e + 1)`, and at least `2^e` outside the subnormal range. -/
theorem f32Exp_spec (x : ℚ) (hx : x ≠ 0) :
    -126 ≤ f32Exp x ∧ |x| < (2 : ℚ) ^ (f32Exp x + 1) ∧
    (-126 < f32Exp x → (2 : ℚ) ^ (f32Exp x) ≤ |x|) := by
  obtain ⟨h1, h2⟩ := log2Floor_spec x.num.natAbs x.den (natAbs_num_pos x hx) x.den_pos
  rw [← abs_eq_natAbs_div] at h1 h2
  unfold f32Exp
  refine ⟨le_max_right _ _, ?_, ?_⟩
  · exact lt_of_lt_of_le h2 (two_zpow_le (by have := le_max_left (log2Floor x.num.natAbs x.den) (-126); omega))
  · intro h
    have : max (log2Floor x.num.natAbs x.den) (-126) = log2Floor x.num.natAbs x.den := by
      rcases max_choice (log2Floor x.num.natAbs x.den) (-126) with e | e
      · exact e
      · rw [e] at h
        omega
    rw [this]
    exact h1

/-- The grid exponent is at most `E` when `|x|` is below `2^(E + 1)`. -/
theorem f32Exp_le (x : ℚ) (hx : x ≠ 0) (E : Int) (hE : -126 ≤ E) (h : |x| < (2 : ℚ) ^ (E + 1)) :
    f32Exp x ≤ E := by
  obtain ⟨h1, _⟩ := log2Floor_spec x.num.natAbs x.den (natAbs_num_pos x hx) x.den_pos
  rw [← abs_eq_natAbs_div] at h1
  have : log2Floor x.num.natAbs x.den < E + 1 := two_zpow_lt_iff.mp (lt_of_le_of_lt h1 h)
  unfold f32Exp
  exact max_le (by omega) hE

/-- The grid exponent is at least `E` when `|x|` is at least `2^E`. -/
theorem le_f32Exp (x : ℚ) (hx : x ≠ 0) (E : Int) (h : (2 : ℚ) ^ E ≤ |x|) : E ≤ f32Exp x := by
  obtain ⟨_, h2⟩ := log2Floor_spec x.num.natAbs x.den (natAbs_num_pos x hx) x.den_pos
  rw [← abs_eq_natAbs_div] at h2
  have : E < log2Floor x.num.natAbs x.den + 1 := two_zpow_lt_iff.mp (lt_of_le_of_lt h h2)
  unfold f32Exp
  exact le_trans (by omega) (le_max_left _ _)

/-- The binary32 exponent does not depend on the sign. -/
theorem f32Exp_neg (x : ℚ) : f32Exp (-x) = f32Exp x := by
  unfold f32Exp
  rw [Rat.neg_num, Rat.neg_den, Int.natAbs_neg]

/-- The binary32 significand does not depend on the sign. -/
theorem f32Mant_neg (x : ℚ) : f32Mant (-x) = f32Mant x := by
  unfold f32Mant
  rw [f32Exp_neg, Rat.neg_num, Rat.neg_den, Int.natAbs_neg]

/-- The spacing of the binary32 grid around `x`. -/
theorem f32Mant_spec (x : ℚ) :
    ∃ n d : Nat, 0 < d ∧ f32Mant x = roundHalfEven n d ∧
      (n : ℚ) / d = |x| / (2 : ℚ) ^ (f32Exp x - 23) := by
  have hden : (0 : ℚ) < (x.den : ℚ) := by exact_mod_cast x.den_pos
  by_cases hs : (0 : Int) ≤ 23 - f32Exp x
  · refine ⟨x.num.natAbs * 2 ^ (23 - f32Exp x).toNat, x.den, x.den_pos, ?_, ?_⟩
    · unfold f32Mant
      simp only [if_pos hs]
    · have hk : (((23 - f32Exp x).toNat : Nat) : Int) = 23 - f32Exp x := Int.toNat_of_nonneg hs
      have hz : (2 : ℚ) ^ (f32Exp x - 23) = 1 / (2 : ℚ) ^ (23 - f32Exp x).toNat := by
        rw [← zpow_natCast, hk, one_div, ← zpow_neg]
        congr 1
        ring
      rw [hz, abs_eq_natAbs_div]
      push_cast
      field_simp
  · refine ⟨x.num.natAbs, x.den * 2 ^ (-(23 - f32Exp x)).toNat,
      Nat.mul_pos x.den_pos (by positivity), ?_, ?_⟩
    · unfold f32Mant
      simp only [if_neg hs]
    · have hk : (((-(23 - f32Exp x)).toNat : Nat) : Int) = -(23 - f32Exp x) :=
        Int.toNat_of_nonneg (by omega)
      have hz : (2 : ℚ) ^ (f32Exp x - 23) = (2 : ℚ) ^ (-(23 - f32Exp x)).toNat := by
        rw [← zpow_natCast, hk]
        congr 1
        ring
      rw [hz, abs_eq_natAbs_div]
      push_cast
      field_simp

/-- The significand is within one half of `|x|` in grid units. -/
theorem f32Mant_err (x : ℚ) :
    |((f32Mant x : Nat) : ℚ) - |x| / (2 : ℚ) ^ (f32Exp x - 23)| ≤ 1 / 2 := by
  obtain ⟨n, d, hd, e, hv⟩ := f32Mant_spec x
  rw [e, ← hv]
  exact roundHalfEven_err n d hd

/-- Zero is a binary32 number. -/
theorem f32_zero : f32 0 = 0 := by
  unfold f32
  rw [if_pos rfl]

/-- The rounding of a positive number: significand times `2^(e - 23)`. -/
theorem f32_of_pos (x : ℚ) (hx : 0 < x) :
    f32 x = ((f32Mant x : Nat) : ℚ) * (2 : ℚ) ^ (f32Exp x - 23) := by
  unfold f32
  rw [if_neg (ne_of_gt hx), if_neg (not_lt.mpr (le_of_lt hx))]
  simp only [pow2_eq]

/-- Rounding to binary32 commutes with negation. -/
theorem f32_neg (x : ℚ) : f32 (-x) = -f32 x := by
  by_cases hx : x = 0
  · rw [hx, neg_zero, f32_zero, neg_zero]
  · unfold f32
    rw [if_neg hx, if_neg (neg_ne_zero.mpr hx), f32Mant_neg, f32Exp_neg]
    simp only
    by_cases h : x < 0
    · rw [if_pos h, if_neg (by linarith), neg_neg]
    · have h2 : 0 < x := lt_of_le_of_ne (not_lt.mp h) (Ne.symm hx)
      rw [if_neg h, if_pos (by linarith)]

/-- Rounding to binary32 keeps the sign. -/
theorem f32_nonneg (x : ℚ) (hx : 0 ≤ x) : 0 ≤ f32 x := by
  rcases eq_or_lt_of_le hx with h | h
  · rw [← h, f32_zero]
  · rw [f32_of_pos x h]
    exact mul_nonneg (Nat.cast_nonneg _) (le_of_lt (two_zpow_pos _))

/-- Rounding keeps a non-positive number non-positive. -/
theorem f32_nonpos (x : ℚ) (hx : x ≤ 0) : f32 x ≤ 0 := by
  have h := f32_nonneg (-x) (by linarith)
  rw [f32_neg] at h
  linarith

/-- The rounding error is at most half a grid step. -/
theorem f32_err_grid (x : ℚ) : |f32 x - x| ≤ (2 : ℚ) ^ (f32Exp x - 23) / 2 := by
  have key : ∀ y : ℚ, 0 < y → |f32 y - y| ≤ (2 : ℚ) ^ (f32Exp y - 23) / 2 := by
    intro y hy
    have hu := two_zpow_pos (f32Exp y - 23)
    have e := f32Mant_err y
    rw [abs_of_pos hy] at e
    rw [f32_of_pos y hy]
    have h2 : ((f32Mant y : Nat) : ℚ) * (2 : ℚ) ^ (f32Exp y - 23) - y
        = (((f32Mant y : Nat) : ℚ) - y / (2 : ℚ) ^ (f32Exp y - 23)) * (2 : ℚ) ^ (f32Exp y - 23) := by
      field_simp
    rw [h2, abs_mul, abs_of_pos hu]
    calc |((f32Mant y : Nat) : ℚ) - y / (2 : ℚ) ^ (f32Exp y - 23)| * (2 : ℚ) ^ (f32Exp y - 23)
        ≤ 1 / 2 * (2 : ℚ) ^ (f32Exp y - 23) := mul_le_mul_of_nonneg_right e (le_of_lt hu)
      _ = (2 : ℚ) ^ (f32Exp y - 23) / 2 := by ring
  rcases lt_trichotomy x 0 with h | h | h
  · have := key (-x) (by linarith)
    rw [f32_neg, f32Exp_neg] at this
    have e : -f32 x - -x = -(f32 x - x) := by ring
    rw [e, abs_neg] at this
    exact this
  · rw [h, f32_zero, sub_zero, abs_zero]
    exact le_of_lt (div_pos (two_zpow_pos _) (by norm_num))
  · exact key x h

/-- Absolute rounding error: for `|x| < 2^(E+1)` with `E >= -126` the error is
at most `2^(E-24)`. -/
theorem f32_err (x : ℚ) (E : Int) (hE : -126 ≤ E) (hx : |x| < (2 : ℚ) ^ (E + 1)) :
    |f32 x - x| ≤ (2 : ℚ) ^ (E - 24) := by
  by_cases h0 : x = 0
  · rw [h0, f32_zero, sub_zero, abs_zero]
    exact le_of_lt (two_zpow_pos _)
  · have h1 := f32_err_grid x
    have h2 := f32Exp_le x h0 E hE hx
    have h3 : (2 : ℚ) ^ (f32Exp x - 23) / 2 = (2 : ℚ) ^ (f32Exp x - 24) := by
      rw [two_zpow_half]
      congr 1
      ring
    rw [h3] at h1
    exact le_trans h1 (two_zpow_le (by omega))

/-- Relative rounding error: in the normal range the error is at most
`2^-24 |x|`. -/
theorem f32_rel (x : ℚ) (hx : (2 : ℚ) ^ (-126 : Int) ≤ |x|) :
    |f32 x - x| ≤ |x| * (2 : ℚ) ^ (-24 : Int) := by
  have h0 : x ≠ 0 := by
    intro h
    rw [h, abs_zero] at hx
    exact absurd hx (not_le.mpr (two_zpow_pos _))
  have h1 := f32_err_grid x
  have hE : -126 ≤ f32Exp x := le_f32Exp x h0 (-126) hx
  obtain ⟨_, _, h4⟩ := f32Exp_spec x h0
  have h5 : (2 : ℚ) ^ (f32Exp x) ≤ |x| := by
    rcases eq_or_lt_of_le hE with e | e
    · rw [← e]
      exact hx
    · exact h4 e
  have h3 : (2 : ℚ) ^ (f32Exp x - 23) / 2 = (2 : ℚ) ^ (f32Exp x) * (2 : ℚ) ^ (-24 : Int) := by
    rw [← zpow_add₀ (two_ne_zero), two_zpow_half]
    congr 1
    ring
  rw [h3] at h1
  exact le_trans h1 (mul_le_mul_of_nonneg_right h5 (le_of_lt (two_zpow_pos _)))

/-- The significand is at most `2^24`. -/
theorem f32Mant_le (x : ℚ) (hx : x ≠ 0) : f32Mant x ≤ 2 ^ 24 := by
  obtain ⟨n, d, hd, e, hv⟩ := f32Mant_spec x
  obtain ⟨_, h2, _⟩ := f32Exp_spec x hx
  rw [e]
  apply roundHalfEven_le n d _ hd
  rw [hv, div_le_iff₀ (two_zpow_pos _)]
  have h3 : ((2 ^ 24 : Nat) : ℚ) * (2 : ℚ) ^ (f32Exp x - 23) = (2 : ℚ) ^ (f32Exp x + 1) := by
    have : ((2 ^ 24 : Nat) : ℚ) = (2 : ℚ) ^ (24 : Int) := by norm_num
    rw [this, ← zpow_add₀ (two_ne_zero)]
    congr 1
    ring
  rw [h3]
  exact le_of_lt h2

/-- Outside the subnormal range the significand is at least `2^23`. -/
theorem le_f32Mant (x : ℚ) (hx : x ≠ 0) (h : -126 < f32Exp x) : 2 ^ 23 ≤ f32Mant x := by
  obtain ⟨n, d, hd, e, hv⟩ := f32Mant_spec x
  obtain ⟨_, _, h3⟩ := f32Exp_spec x hx
  rw [e]
  apply le_roundHalfEven n d _ hd
  rw [hv, le_div_iff₀ (two_zpow_pos _)]
  have h4 : ((2 ^ 23 : Nat) : ℚ) * (2 : ℚ) ^ (f32Exp x - 23) = (2 : ℚ) ^ (f32Exp x) := by
    have : ((2 ^ 23 : Nat) : ℚ) = (2 : ℚ) ^ (23 : Int) := by norm_num
    rw [this, ← zpow_add₀ (two_ne_zero)]
    congr 1
    ring
  rw [h4]
  exact h3 h

/-- Rounding to binary32 is monotone on positive values. -/
theorem f32_mono_pos (x y : ℚ) (hx : 0 < x) (hxy : x ≤ y) : f32 x ≤ f32 y := by
  have hy : 0 < y := lt_of_lt_of_le hx hxy
  have hx0 := ne_of_gt hx
  have hy0 := ne_of_gt hy
  obtain ⟨ey1, ey2, ey3⟩ := f32Exp_spec y hy0
  obtain ⟨ex1, ex2, ex3⟩ := f32Exp_spec x hx0
  have hle : f32Exp x ≤ f32Exp y := by
    apply f32Exp_le x hx0 _ ey1
    rw [abs_of_pos hx]
    rw [abs_of_pos hy] at ey2
    exact lt_of_le_of_lt hxy ey2
  rw [f32_of_pos x hx, f32_of_pos y hy]
  rcases eq_or_lt_of_le hle with he | he
  · rw [he]
    apply mul_le_mul_of_nonneg_right _ (le_of_lt (two_zpow_pos _))
    obtain ⟨n, d, hd, e, hv⟩ := f32Mant_spec x
    obtain ⟨n', d', hd', e', hv'⟩ := f32Mant_spec y
    have : f32Mant x ≤ f32Mant y := by
      rw [e, e']
      apply roundHalfEven_mono n d n' d' hd hd'
      rw [hv, hv', he, abs_of_pos hx, abs_of_pos hy]
      exact div_le_div_of_nonneg_right hxy (le_of_lt (two_zpow_pos _))
    exact_mod_cast this
  · have h1 : ((f32Mant x : Nat) : ℚ) * (2 : ℚ) ^ (f32Exp x - 23) ≤ (2 : ℚ) ^ (f32Exp x + 1) := by
      have hm : ((f32Mant x : Nat) : ℚ) ≤ (2 : ℚ) ^ (24 : Int) := by
        have := f32Mant_le x hx0
        have h2 : ((f32Mant x : Nat) : ℚ) ≤ ((2 ^ 24 : Nat) : ℚ) := by exact_mod_cast this
        refine le_trans h2 (le_of_eq ?_)
        norm_num
      calc ((f32Mant x : Nat) : ℚ) * (2 : ℚ) ^ (f32Exp x - 23)
          ≤ (2 : ℚ) ^ (24 : Int) * (2 : ℚ) ^ (f32Exp x - 23) :=
            mul_le_mul_of_nonneg_right hm (le_of_lt (two_zpow_pos _))
        _ = (2 : ℚ) ^ (f32Exp x + 1) := by
            rw [← zpow_add₀ (two_ne_zero)]
            congr 1
            ring
    have h2 : (2 : ℚ) ^ (f32Exp y) ≤ ((f32Mant y : Nat) : ℚ) * (2 : ℚ) ^ (f32Exp y - 23) := by
      have hm : (2 : ℚ) ^ (23 : Int) ≤ ((f32Mant y : Nat) : ℚ) := by
        have := le_f32Mant y hy0 (by omega)
        have h2 : ((2 ^ 23 : Nat) : ℚ) ≤ ((f32Mant y : Nat) : ℚ) := by exact_mod_cast this
        refine le_trans (le_of_eq ?_) h2
        norm_num
      calc (2 : ℚ) ^ (f32Exp y) = (2 : ℚ) ^ (23 : Int) * (2 : ℚ) ^ (f32Exp y - 23) := by
            rw [← zpow_add₀ (two_ne_zero)]
            congr 1
            ring
        _ ≤ ((f32Mant y : Nat) : ℚ) * (2 : ℚ) ^ (f32Exp y - 23) :=
            mul_le_mul_of_nonneg_right hm (le_of_lt (two_zpow_pos _))
    exact le_trans h1 (le_trans (two_zpow_le (by omega)) h2)

/-- Rounding to binary32 is monotone. -/
theorem f32_mono (x y : ℚ) (hxy : x ≤ y) : f32 x ≤ f32 y := by
  rcases lt_trichotomy x 0 with hx | hx | hx
  · rcases lt_or_le y 0 with hy | hy
    · have := f32_mono_pos (-y) (-x) (by linarith) (by linarith)
      rw [f32_neg, f32_neg] at this
      linarith
    · exact le_trans (f32_nonpos x (le_of_lt hx)) (f32_nonneg y hy)
  · rw [hx, f32_zero]
    exact f32_nonneg y (by linarith)
  · exact f32_mono_pos x y hx hxy

/-- Every multiple `k * 2^j` of a grid step with `0 < k < 2^24` and `j >= -149`
is a binary32 number: rounding leaves it unchanged. -/
theorem f32_grid_pos (k : Nat) (j : Int) (hk0 : 0 < k) (hk : k < 2 ^ 24) (hj : -149 ≤ j) :
    f32 ((k : ℚ) * (2 : ℚ) ^ j) = (k : ℚ) * (2 : ℚ) ^ j := by
  have hK : (0 : ℚ) < (k : ℚ) := by exact_mod_cast hk0
  have hx : 0 < (k : ℚ) * (2 : ℚ) ^ j := mul_pos hK (two_zpow_pos _)
  have hx0 := ne_of_gt hx
  have hKlt : (k : ℚ) < (2 : ℚ) ^ (24 : Int) := by
    have : (k : ℚ) < ((2 ^ 24 : Nat) : ℚ) := by exact_mod_cast hk
    refine lt_of_lt_of_le this (le_of_eq ?_)
    norm_num
  have hE : f32Exp ((k : ℚ) * (2 : ℚ) ^ j) ≤ max (j + 23) (-126) := by
    apply f32Exp_le _ hx0 _ (le_max_right _ _)
    rw [abs_of_pos hx]
    calc (k : ℚ) * (2 : ℚ) ^ j < (2 : ℚ) ^ (24 : Int) * (2 : ℚ) ^ j :=
          mul_lt_mul_of_pos_right hKlt (two_zpow_pos _)
      _ = (2 : ℚ) ^ (j + 24) := by
          rw [← zpow_add₀ (two_ne_zero)]
          congr 1
          ring
      _ ≤ (2 : ℚ) ^ (max (j + 23) (-126) + 1) := two_zpow_le (by
          have := le_max_left (j + 23) (-126)
          omega)
  have ht : 0 ≤ j - f32Exp ((k : ℚ) * (2 : ℚ) ^ j) + 23 := by
    rcases max_choice (j + 23) (-126) with e | e
    · rw [e] at hE
      omega
    · rw [e] at hE
      omega
  obtain ⟨t, htt⟩ := Int.eq_ofNat_of_zero_le ht
  obtain ⟨n, d, hd, e, hv⟩ := f32Mant_spec ((k : ℚ) * (2 : ℚ) ^ j)
  have hval : (n : ℚ) / d = ((k * 2 ^ t : Nat) : ℚ) := by
    rw [hv, abs_of_pos hx, mul_div_assoc, ← zpow_sub₀ (two_ne_zero)]
    have : j - (f32Exp ((k : ℚ) * (2 : ℚ) ^ j) - 23) = (t : Int) := by omega
    rw [this, zpow_natCast]
    push_cast
    rfl
  have hm : f32Mant ((k : ℚ) * (2 : ℚ) ^ j) = k * 2 ^ t := by
    rw [e]
    exact roundHalfEven_exact n d _ hd hval
  rw [f32_of_pos _ hx, hm]
  push_cast
  rw [mul_assoc, ← zpow_natCast, ← zpow_add₀ (two_ne_zero)]
  congr 2
  omega

/-- Every `k * 2^j` with `|k| <= 2^24` and `j >= -149` is a binary32 number. -/
theorem f32_grid (k : Int) (j : Int) (hk : |k| ≤ 2 ^ 24) (hj : -149 ≤ j) :
    f32 ((k : ℚ) * (2 : ℚ) ^ j) = (k : ℚ) * (2 : ℚ) ^ j := by
  have key : ∀ n : Nat, 0 < n → n ≤ 2 ^ 24 →
      f32 ((n : ℚ) * (2 : ℚ) ^ j) = (n : ℚ) * (2 : ℚ) ^ j := by
    intro n h0 h1
    rcases eq_or_lt_of_le h1 with e | e
    · have h2 : ((n : Nat) : ℚ) * (2 : ℚ) ^ j = ((2 ^ 23 : Nat) : ℚ) * (2 : ℚ) ^ (j + 1) := by
        rw [e, zpow_add₀ (two_ne_zero), zpow_one]
        push_cast
        ring
      rw [h2]
      exact f32_grid_pos (2 ^ 23) (j + 1) (by norm_num) (by norm_num) (by omega)
    · exact f32_grid_pos n j h0 e hj
  rcases lt_trichotomy k 0 with h | h | h
  · obtain ⟨n, hn⟩ : ∃ n : Nat, k = -(n : Int) := ⟨k.natAbs, by omega⟩
    subst hn
    have h1 : n ≤ 2 ^ 24 := by
      rw [abs_neg] at hk
      have : ((n : Int)) ≤ 2 ^ 24 := le_trans (le_abs_self _) hk
      exact_mod_cast this
    have := key n (by omega) h1
    push_cast
    rw [neg_mul, f32_neg, this]
  · rw [h]
    simp [f32_zero]
  · obtain ⟨n, hn⟩ : ∃ n : Nat, k = (n : Int) := ⟨k.toNat, by omega⟩
    subst hn
    have h1 : n ≤ 2 ^ 24 := by
      have : ((n : Int)) ≤ 2 ^ 24 := le_trans (le_abs_self _) hk
      exact_mod_cast this
    have := key n (by omega) h1
    push_cast
    exact this

/-- Every rounded value is a multiple of its grid step by an integer of
magnitude at most `2^24`. -/
theorem f32_repr (x : ℚ) :
    ∃ (k : Int) (j : Int), |k| ≤ 2 ^ 24 ∧ -149 ≤ j ∧ f32 x = (k : ℚ) * (2 : ℚ) ^ j := by
  by_cases hx : x = 0
  · exact ⟨0, 0, by norm_num, by norm_num, by rw [hx, f32_zero]; simp⟩
  · obtain ⟨h1, _, _⟩ := f32Exp_spec x hx
    have hm := f32Mant_le x hx
    rcases lt_or_gt_of_ne hx with h | h
    · refine ⟨-(f32Mant x : Int), f32Exp x - 23, ?_, by omega, ?_⟩
      · rw [abs_neg, abs_of_nonneg (by positivity)]
        exact_mod_cast hm
      · have := f32_of_pos (-x) (by linarith)
        rw [f32_neg, f32Mant_neg, f32Exp_neg] at this
        push_cast
        linarith
    · refine ⟨(f32Mant x : Int), f32Exp x - 23, ?_, by omega, ?_⟩
      · rw [abs_of_nonneg (by positivity)]
        exact_mod_cast hm
      · rw [f32_of_pos x h]
        push_cast
        rfl

/-- Rounding to binary32 is idempotent. -/
theorem f32_idem (x : ℚ) : f32 (f32 x) = f32 x := by
  obtain ⟨k, j, hk, hj, e⟩ := f32_repr x
  rw [e]
  exact f32_grid k j hk hj

/-! ## ADSR envelope in binary32 arithmetic (`adsr.cpp`) -/

set_option maxRecDepth 100000 in
/-- The constants 1, 1/2 and 2 are binary32 numbers; the literals `1e-5f` and
`0.1f`. -/
theorem f32_consts :
    f32 1 = 1 ∧ f32 (1 / 2) = 1 / 2 ∧ f32 2 = 2 ∧
    f32 (1 / 100000) = 2748779 / 274877906944 ∧ f32 (1 / 10) = 13421773 / 134217728 := by
  decide!

/-- One is a binary32 number. -/
theorem f32_one : f32 1 = 1 := f32_consts.1

/-- One half is a binary32 number. -/
theorem f32_half : f32 (1 / 2) = 1 / 2 := f32_consts.2.1

/-- The literal `1e-5f` is a positive binary32 number below `1e-5`. -/
theorem tiny_facts :
    f32 (f32 (1 / 100000)) = f32 (1 / 100000) ∧ 0 < f32 (1 / 100000) ∧
    f32 (1 / 100000) < 1 / 100000 ∧ (1 : ℚ) / 2 ^ 17 ≤ f32 (1 / 100000) := by
  refine ⟨f32_idem _, ?_, ?_, ?_⟩
  · rw [f32_consts.2.2.2.1]
    norm_num
  · rw [f32_consts.2.2.2.1]
    norm_num
  · rw [f32_consts.2.2.2.1]
    norm_num

/-- Rounding a value of magnitude at most 1 changes it by at most `2^-25`. -/
theorem f32_err_unit (x : ℚ) (hx : |x| ≤ 1) : |f32 x - x| ≤ 1 / 2 ^ 25 := by
  rcases eq_or_lt_of_le hx with h | h
  · have hx1 : f32 x = x := by
      rcases abs_eq (zero_le_one' ℚ) |>.mp h with e | e
      · rw [e, f32_one]
      · rw [e, f32_neg, f32_one]
    rw [hx1, sub_self, abs_zero]
    positivity
  · have := f32_err x (-1) (by norm_num) (by simpa using h)
    refine le_trans this (le_of_eq ?_)
    norm_num [zpow_neg]

/-- Rounding a value of magnitude below 2 changes it by at most `2^-24`. -/
theorem f32_err_two (x : ℚ) (hx : |x| < 2) : |f32 x - x| ≤ 1 / 2 ^ 24 := by
  have := f32_err x 0 (by norm_num) (by simpa using hx)
  refine le_trans this (le_of_eq ?_)
  norm_num [zpow_neg]

/-- Rounding a value of magnitude at least `2^-126` changes it by at most the
fraction `2^-24` of its magnitude. -/
theorem f32_rel_err (x : ℚ) (hx : (1 : ℚ) / 2 ^ 126 ≤ |x|) : |f32 x - x| ≤ |x| / 2 ^ 24 := by
  have := f32_rel x (by
    refine le_trans (le_of_eq ?_) hx
    rw [zpow_neg, one_div]
    norm_num)
  refine le_trans this (le_of_eq ?_)
  rw [zpow_neg, div_eq_mul_inv]
  norm_num

/-- One call of `process()` in Release, in binary32 arithmetic, on a level
that is a binary32 number in `[0,1]` with a step `r` in `[0,1]`: the candidate
level `L' = fl(L - fl(r * L))` is in `[0, L]`, within `2^-24` of `L * (1 - r)`,
and the call leaves Idle at level 0 when `L' <= 1e-5f` and Release at level
`L'` otherwise. -/
theorem release32_step (e : ADSR) (hst : e.state_ = ADSR.State.Release)
    (h0 : 0 ≤ e.env_) (h1 : e.env_ ≤ 1) (hf : f32 e.env_ = e.env_)
    (hr0 : 0 ≤ e.step32 e.p_.release) (hr1 : e.step32 e.p_.release ≤ 1) :
    0 ≤ f32 (e.env_ - f32 (e.step32 e.p_.release * e.env_)) ∧
    f32 (e.env_ - f32 (e.step32 e.p_.release * e.env_)) ≤ e.env_ ∧
    |f32 (e.env_ - f32 (e.step32 e.p_.release * e.env_))
      - e.env_ * (1 - e.step32 e.p_.release)| ≤ 1 / 2 ^ 24 ∧
    e.advance32 =
      (if f32 (e.env_ - f32 (e.step32 e.p_.release * e.env_)) ≤ f32 (1 / 100000)
        then { e with env_ := 0, state_ := ADSR.State.Idle }
        else { e with env_ := f32 (e.env_ - f32 (e.step32 e.p_.release * e.env_)) }) := by
  obtain ⟨r, hr⟩ : ∃ r, e.step32 e.p_.release = r := ⟨_, rfl⟩
  rw [hr] at hr0 hr1 ⊢
  rcases e with ⟨s, p, sr, L⟩
  simp only at hst h0 h1 hf hr ⊢
  subst hst
  have hp0 : 0 ≤ f32 (r * L) := f32_nonneg _ (mul_nonneg hr0 h0)
  have hpL : f32 (r * L) ≤ L := by
    have := f32_mono (r * L) L (by nlinarith)
    rw [hf] at this
    exact this
  have hperr := abs_le.mp (f32_err_unit (r * L) (by
    rw [abs_of_nonneg (mul_nonneg hr0 h0)]
    nlinarith))
  have hderr := abs_le.mp (f32_err_unit (L - f32 (r * L)) (by
    rw [abs_of_nonneg (by linarith)]
    linarith))
  refine ⟨f32_nonneg _ (by linarith), ?_, ?_, ?_⟩
  · have := f32_mono (L - f32 (r * L)) L (by linarith)
    rw [hf] at this
    exact this
  · rw [abs_le]
    have e25 : (1 : ℚ) / 2 ^ 24 = 1 / 2 ^ 25 + 1 / 2 ^ 25 := by norm_num
    constructor <;> linarith [hperr.1, hperr.2, hderr.1, hderr.2]
  · simp only [ADSR.advance32, hr, max_eq_left h0]

/-- An envelope in Idle stays in Idle at level 0 under `process()`. -/
theorem idle32_run (e : ADSR) (hst : e.state_ = ADSR.State.Idle) (h0 : e.env_ = 0) :
    ∀ n : Nat, (e.processN32 n).state_ = ADSR.State.Idle ∧ (e.processN32 n).env_ = 0 ∧
      (e.processN32 n).p_ = e.p_ ∧ (e.processN32 n).sr_ = e.sr_ := by
  intro n
  induction n with
  | zero => exact ⟨hst, h0, rfl, rfl⟩
  | succ n ih =>
    obtain ⟨a, b, c, d⟩ := ih
    simp only [ADSR.processN32, ADSR.process32, ADSR.advance32, a]
    exact ⟨trivial, trivial, c, d⟩

/-- Successive calls compose: `m + n` calls are `m` calls followed by `n`. -/
theorem processN32_add (e : ADSR) (m : Nat) :
    ∀ n : Nat, e.processN32 (m + n) = (e.processN32 m).processN32 n := by
  intro n
  induction n with
  | zero => rfl
  | succ n ih =>
    rw [← Nat.add_assoc]
    simp only [ADSR.processN32]
    rw [ih]

/-- The run of `process()` calls from Release in binary32 arithmetic: after
`n` calls the envelope is either still in Release, at a binary32 level in
`[0,1]` within `n * 2^-24` of `L * (1 - r)^n` (and above `1e-5f` when
`n >= 1`), or in Idle at level 0. -/
theorem release32_run (e : ADSR) (hst : e.state_ = ADSR.State.Release)
    (h0 : 0 ≤ e.env_) (h1 : e.env_ ≤ 1) (hf : f32 e.env_ = e.env_)
    (hr0 : 0 ≤ e.step32 e.p_.release) (hr1 : e.step32 e.p_.release ≤ 1) :
    ∀ n : Nat, (e.processN32 n).p_ = e.p_ ∧ (e.processN32 n).sr_ = e.sr_ ∧
      (((e.processN32 n).state_ = ADSR.State.Release ∧ 0 ≤ (e.processN32 n).env_ ∧
          (e.processN32 n).env_ ≤ 1 ∧ f32 (e.processN32 n).env_ = (e.processN32 n).env_ ∧
          |(e.processN32 n).env_ - e.env_ * (1 - e.step32 e.p_.release) ^ n|
            ≤ (n : ℚ) / 2 ^ 24 ∧
          (1 ≤ n → f32 (1 / 100000) < (e.processN32 n).env_)) ∨
        ((e.processN32 n).state_ = ADSR.State.Idle ∧ (e.processN32 n).env_ = 0)) := by
  intro n
  induction n with
  | zero =>
    refine ⟨rfl, rfl, Or.inl ⟨hst, h0, h1, hf, ?_, ?_⟩⟩
    · simp [ADSR.processN32]
    · intro h
      omega
  | succ n ih =>
    obtain ⟨hp, hsr, hcase⟩ := ih
    obtain ⟨s, hs⟩ : ∃ s, e.processN32 n = s := ⟨_, rfl⟩
    rw [hs] at hp hsr hcase
    have hnext : e.processN32 (n + 1) = s.advance32 := by
      simp only [ADSR.processN32, ADSR.process32, hs]
    rw [hnext]
    have hstep : s.step32 s.p_.release = e.step32 e.p_.release := by
      unfold ADSR.step32
      rw [hp, hsr]
    rcases hcase with ⟨a, b, c, d, f, _⟩ | ⟨a, b⟩
    · obtain ⟨q0, q1, q2, q3⟩ := release32_step s a b c d (by rw [hstep]; exact hr0)
        (by rw [hstep]; exact hr1)
      rw [hstep] at q0 q1 q2 q3
      obtain ⟨r, hr⟩ : ∃ r, e.step32 e.p_.release = r := ⟨_, rfl⟩
      rw [hr] at q0 q1 q2 q3 f hr0 hr1 ⊢
      obtain ⟨L2, hL2⟩ : ∃ L2, f32 (s.env_ - f32 (r * s.env_)) = L2 := ⟨_, rfl⟩
      have hL2f : f32 L2 = L2 := by rw [← hL2, f32_idem]
      rw [hL2] at q0 q1 q2 q3
      rw [q3]
      by_cases hc : L2 ≤ f32 (1 / 100000)
      · rw [if_pos hc]
        exact ⟨hp, hsr, Or.inr ⟨rfl, rfl⟩⟩
      · rw [if_neg hc]
        refine ⟨hp, hsr, Or.inl ⟨a, q0, by simp only; linarith, hL2f, ?_, ?_⟩⟩
        · simp only
          have e1 : L2 - e.env_ * (1 - r) ^ (n + 1)
              = (L2 - s.env_ * (1 - r)) + (1 - r) * (s.env_ - e.env_ * (1 - r) ^ n) := by
            ring
          have f2 := abs_le.mp f
          have q22 := abs_le.mp q2
          have hρ0 : 0 ≤ 1 - r := by linarith
          have hρ1 : 1 - r ≤ 1 := by linarith
          have e2 : ((n + 1 : Nat) : ℚ) / 2 ^ 24 = (n : ℚ) / 2 ^ 24 + 1 / 2 ^ 24 := by
            push_cast
            ring
          have hn0 : (0 : ℚ) ≤ (n : ℚ) / 2 ^ 24 := by positivity
          rw [e1, e2, abs_le]
          constructor
          · nlinarith [f2.1, f2.2, q22.1, q22.2]
          · nlinarith [f2.1, f2.2, q22.1, q22.2]
        · intro _
          exact not_le.mp hc
    · simp only [ADSR.advance32, a]
      exact ⟨hp, hsr, Or.inr ⟨trivial, trivial⟩⟩

/-- During a release in binary32 arithmetic the level never rises from one
call to the next. -/
theorem release32_antitone (e : ADSR) (hst : e.state_ = ADSR.State.Release)
    (h0 : 0 ≤ e.env_) (h1 : e.env_ ≤ 1) (hf : f32 e.env_ = e.env_)
    (hr0 : 0 ≤ e.step32 e.p_.release) (hr1 : e.step32 e.p_.release ≤ 1) (n : Nat) :
    (e.processN32 (n + 1)).env_ ≤ (e.processN32 n).env_ := by
  obtain ⟨hp, hsr, hcase⟩ := release32_run e hst h0 h1 hf hr0 hr1 n
  obtain ⟨s, hs⟩ : ∃ s, e.processN32 n = s := ⟨_, rfl⟩
  rw [hs] at hp hsr hcase
  have hnext : e.processN32 (n + 1) = s.advance32 := by
    simp only [ADSR.processN32, ADSR.process32, hs]
  rw [hnext, hs]
  have hstep : s.step32 s.p_.release = e.step32 e.p_.release := by
    unfold ADSR.step32
    rw [hp, hsr]
  rcases hcase with ⟨a, b, c, d, _, _⟩ | ⟨a, b⟩
  · obtain ⟨q0, q1, _, q3⟩ := release32_step s a b c d (by rw [hstep]; exact hr0)
      (by rw [hstep]; exact hr1)
    rw [q3]
    split_ifs
    · exact b
    · exact q1
  · simp only [ADSR.advance32, a]
    rw [b]

/-- A release step that stays in Release shrinks the level by the factor
`1 - r/2` at least, when the binary32 step `r` is at least `2^-22`. -/
theorem release32_contract (L r : ℚ) (hLnn : 0 ≤ L) (hr : (1 : ℚ) / 2 ^ 22 ≤ r)
    (hc : f32 (1 / 100000) < f32 (L - f32 (r * L))) :
    f32 (L - f32 (r * L)) ≤ L * (1 - r / 2) := by
  obtain ⟨_, tpos, _, t17⟩ := tiny_facts
  have hr0 : 0 ≤ r := le_trans (by positivity) hr
  have hd : f32 (1 / 100000) < L - f32 (r * L) := by
    by_contra hcon
    have := f32_mono _ _ (not_lt.mp hcon)
    rw [f32_idem] at this
    linarith
  have hL0 : f32 (1 / 100000) < L := by
    have : 0 ≤ f32 (r * L) := f32_nonneg _ (mul_nonneg hr0 hLnn)
    linarith
  have hLpos : 0 < L := lt_trans tpos hL0
  have hrl : (1 : ℚ) / 2 ^ 126 ≤ |r * L| := by
    rw [abs_of_nonneg (by positivity)]
    have : (1 : ℚ) / 2 ^ 22 * (1 / 2 ^ 17) ≤ r * L :=
      mul_le_mul hr (by linarith) (by positivity) hr0
    refine le_trans ?_ this
    norm_num
  have hp := abs_le.mp (f32_rel_err (r * L) hrl)
  rw [abs_of_nonneg (by positivity)] at hp
  have hdl : (1 : ℚ) / 2 ^ 126 ≤ |L - f32 (r * L)| := by
    rw [abs_of_pos (lt_trans tpos hd)]
    refine le_trans ?_ (le_of_lt (lt_of_le_of_lt t17 hd))
    norm_num
  have hq := abs_le.mp (f32_rel_err (L - f32 (r * L)) hdl)
  rw [abs_of_pos (lt_trans tpos hd)] at hq
  have hdle : L - f32 (r * L) ≤ L * (1 - r + r / 2 ^ 24) := by
    have := hp.1
    have e1 : L * (1 - r + r / 2 ^ 24) = L - (r * L - r * L / 2 ^ 24) := by ring
    rw [e1]
    linarith
  have h3 : f32 (L - f32 (r * L)) ≤ (L - f32 (r * L)) * (1 + 1 / 2 ^ 24) := by
    have := hq.2
    have e1 : (L - f32 (r * L)) * (1 + 1 / 2 ^ 24)
        = (L - f32 (r * L)) + (L - f32 (r * L)) / 2 ^ 24 := by ring
    rw [e1]
    linarith
  have h4 : (L - f32 (r * L)) * (1 + 1 / 2 ^ 24) ≤ L * (1 - r + r / 2 ^ 24) * (1 + 1 / 2 ^ 24) :=
    mul_le_mul_of_nonneg_right hdle (by positivity)
  have h5 : (1 - r + r / 2 ^ 24) * (1 + 1 / 2 ^ 24) ≤ 1 - r / 2 := by
    have e1 : (1 - r + r / 2 ^ 24) * (1 + 1 / 2 ^ 24) = 1 - r + 1 / 2 ^ 24 + r / 2 ^ 48 := by
      ring
    rw [e1]
    have : r / 2 ^ 48 ≤ r / 4 := by
      apply div_le_div_of_nonneg_left hr0 (by norm_num) (by norm_num)
    have : (1 : ℚ) / 2 ^ 24 ≤ r / 4 := by
      have : (1 : ℚ) / 2 ^ 24 = (1 / 2 ^ 22) / 4 := by norm_num
      rw [this]
      exact div_le_div_of_nonneg_right hr (by norm_num)
    linarith
  calc f32 (L - f32 (r * L)) ≤ (L - f32 (r * L)) * (1 + 1 / 2 ^ 24) := h3
    _ ≤ L * (1 - r + r / 2 ^ 24) * (1 + 1 / 2 ^ 24) := h4
    _ = L * ((1 - r + r / 2 ^ 24) * (1 + 1 / 2 ^ 24)) := by ring
    _ ≤ L * (1 - r / 2) := mul_le_mul_of_nonneg_left h5 (le_of_lt hLpos)

/-- With a binary32 step of at least `2^-22` a release reaches Idle: after
finitely many calls the envelope is in Idle at level 0 and stays there. -/
theorem release32_terminates (e : ADSR) (hst : e.state_ = ADSR.State.Release)
    (h0 : 0 ≤ e.env_) (h1 : e.env_ ≤ 1) (hf : f32 e.env_ = e.env_)
    (hr : (1 : ℚ) / 2 ^ 22 ≤ e.step32 e.p_.release) (hr1 : e.step32 e.p_.release ≤ 1) :
    ∃ N : Nat, ∀ n : Nat, N ≤ n →
      (e.processN32 n).state_ = ADSR.State.Idle ∧ (e.processN32 n).env_ = 0 := by
  have hr0 : 0 ≤ e.step32 e.p_.release := le_trans (by positivity) hr
  obtain ⟨_, tpos, _, _⟩ := tiny_facts
  have hrun := release32_run e hst h0 h1 hf hr0 hr1
  -- while in Release the level is below the geometric bound
  have hbound : ∀ n : Nat, (e.processN32 n).state_ = ADSR.State.Release →
      (e.processN32 n).env_ ≤ (1 - e.step32 e.p_.release / 2) ^ n := by
    intro n
    induction n with
    | zero =>
      intro _
      simpa [ADSR.processN32] using h1
    | succ n ih =>
      intro hrel
      obtain ⟨hp, hsr, hcase⟩ := hrun n
      obtain ⟨s, hs⟩ : ∃ s, e.processN32 n = s := ⟨_, rfl⟩
      rw [hs] at hp hsr hcase ih
      have hnext : e.processN32 (n + 1) = s.advance32 := by
        simp only [ADSR.processN32, ADSR.process32, hs]
      rw [hnext] at hrel ⊢
      have hstep : s.step32 s.p_.release = e.step32 e.p_.release := by
        unfold ADSR.step32
        rw [hp, hsr]
      rcases hcase with ⟨a, b, c, d, _, _⟩ | ⟨a, b⟩
      · obtain ⟨q0, q1, _, q3⟩ := release32_step s a b c d (by rw [hstep]; exact hr0)
          (by rw [hstep]; exact hr1)
        rw [hstep] at q0 q1 q3
        rw [q3] at hrel ⊢
        by_cases hc : f32 (s.env_ - f32 (e.step32 e.p_.release * s.env_)) ≤ f32 (1 / 100000)
        · rw [if_pos hc] at hrel
          exact absurd hrel (by simp)
        · rw [if_neg hc]
          simp only
          have hcon := release32_contract s.env_ (e.step32 e.p_.release) b hr
            (not_le.mp hc)
          have hq0 : 0 ≤ 1 - e.step32 e.p_.release / 2 := by linarith
          calc f32 (s.env_ - f32 (e.step32 e.p_.release * s.env_))
              ≤ s.env_ * (1 - e.step32 e.p_.release / 2) := hcon
            _ ≤ (1 - e.step32 e.p_.release / 2) ^ n * (1 - e.step32 e.p_.release / 2) :=
                mul_le_mul_of_nonneg_right (ih a) hq0
            _ = (1 - e.step32 e.p_.release / 2) ^ (n + 1) := by rw [pow_succ]
      · simp only [ADSR.advance32, a] at hrel
        exact absurd hrel (by simp)
  have hq1 : 1 - e.step32 e.p_.release / 2 < 1 := by
    have : 0 < e.step32 e.p_.release := lt_of_lt_of_le (by positivity) hr
    linarith
  obtain ⟨N, hN⟩ := exists_pow_lt_of_lt_one tpos hq1
  have hN1 : 1 ≤ N := by
    rcases Nat.eq_zero_or_pos N with h | h
    · rw [h, pow_zero] at hN
      have : f32 (1 / 100000) < 1 := lt_trans tiny_facts.2.2.1 (by norm_num)
      linarith
    · exact h
  have hidle : (e.processN32 N).state_ = ADSR.State.Idle ∧ (e.processN32 N).env_ = 0 := by
    obtain ⟨_, _, hcase⟩ := hrun N
    rcases hcase with ⟨a, _, _, _, _, f⟩ | h
    · have := hbound N a
      have := f hN1
      linarith
    · exact h
  refine ⟨N, ?_⟩
  intro n hn
  obtain ⟨k, rfl⟩ := Nat.exists_eq_add_of_le hn
  rw [processN32_add]
  have := idle32_run (e.processN32 N) hidle.1 hidle.2 k
  exact ⟨this.1, this.2.1⟩

/-- A release in binary32 arithmetic stays in Release for `n` calls when the
geometric value `L * (1 - r)^n` exceeds `1e-5f` by more than `n * 2^-24`. -/
theorem release32_stays (e : ADSR) (hst : e.state_ = ADSR.State.Release)
    (h0 : 0 ≤ e.env_) (h1 : e.env_ ≤ 1) (hf : f32 e.env_ = e.env_)
    (hr0 : 0 ≤ e.step32 e.p_.release) (hr1 : e.step32 e.p_.release ≤ 1) :
    ∀ n : Nat, f32 (1 / 100000) <
        e.env_ * (1 - e.step32 e.p_.release) ^ n - (n : ℚ) / 2 ^ 24 →
      (e.processN32 n).state_ = ADSR.State.Release := by
  intro n
  induction n with
  | zero =>
    intro _
    exact hst
  | succ n ih =>
    intro hgt
    obtain ⟨r, hr⟩ : ∃ r, e.step32 e.p_.release = r := ⟨_, rfl⟩
    rw [hr] at ih hgt hr0 hr1
    have hρ0 : 0 ≤ 1 - r := by linarith
    have hpow : e.env_ * (1 - r) ^ (n + 1) ≤ e.env_ * (1 - r) ^ n := by
      apply mul_le_mul_of_nonneg_left _ h0
      rw [pow_succ]
      have := pow_nonneg hρ0 n
      nlinarith
    have hn : ((n + 1 : Nat) : ℚ) / 2 ^ 24 = (n : ℚ) / 2 ^ 24 + 1 / 2 ^ 24 := by
      push_cast
      ring
    rw [hn] at hgt
    have hprev := ih (by linarith)
    obtain ⟨hp, hsr, hcase⟩ := release32_run e hst h0 h1 hf (by rw [hr]; exact hr0)
      (by rw [hr]; exact hr1) n
    rw [hr] at hcase
    obtain ⟨s, hs⟩ : ∃ s, e.processN32 n = s := ⟨_, rfl⟩
    rw [hs] at hp hsr hcase hprev
    have hnext : e.processN32 (n + 1) = s.advance32 := by
      simp only [ADSR.processN32, ADSR.process32, hs]
    rw [hnext]
    have hstep : s.step32 s.p_.release = r := by
      rw [← hr]
      unfold ADSR.step32
      rw [hp, hsr]
    rcases hcase with ⟨a, b, c, d, f, _⟩ | ⟨a, _⟩
    · obtain ⟨_, _, q2, q3⟩ := release32_step s a b c d (by rw [hstep]; exact hr0)
        (by rw [hstep]; exact hr1)
      rw [hstep] at q2 q3
      have f2 := abs_le.mp f
      have q22 := abs_le.mp q2
      have hlow : f32 (1 / 100000) < f32 (s.env_ - f32 (r * s.env_)) := by
        have e1 : e.env_ * (1 - r) ^ (n + 1) = (1 - r) * (e.env_ * (1 - r) ^ n) := by ring
        have h3 : (1 - r) * (e.env_ * (1 - r) ^ n) - (n : ℚ) / 2 ^ 24
            ≤ s.env_ * (1 - r) := by
          have hn0 : (0 : ℚ) ≤ (n : ℚ) / 2 ^ 24 := by positivity
          nlinarith [f2.1, f2.2]
        rw [e1] at hgt
        linarith [q22.1]
      rw [q3, if_neg (not_le.mpr hlow)]
      exact a
    · rw [a] at hprev
      exact absurd hprev (by simp)

/-! ## Release stage in binary32 arithmetic -/

set_option maxRecDepth 100000 in
/-- The scenario of the absorbed release: release 700 s at 48 kHz. The step is
`1 / 33600000` rounded, below `2^-24`, and one call from level 1 leaves the
level at 1. -/
theorem longRelease_step :
    longRelease.step32 longRelease.p_.release = 16754463 / 562949953421312 ∧
    longRelease.advance32.env_ = 1 ∧ longRelease.advance32.state_ = ADSR.State.Release := by
  decide!

/-- Under the absorbed release every call leaves the envelope as it is. -/
theorem longRelease_fixed : longRelease.advance32 = longRelease := by
  have h := longRelease_step
  have hp : longRelease.advance32.p_ = longRelease.p_ ∧
      longRelease.advance32.sr_ = longRelease.sr_ := by
    have := release32_run longRelease rfl (by norm_num [longRelease]) (by norm_num [longRelease])
      (by show f32 1 = 1; exact f32_one)
      (by rw [h.1]; norm_num) (by rw [h.1]; norm_num) 1
    exact ⟨this.1, this.2.1⟩
  obtain ⟨s, hs⟩ : ∃ s, longRelease.advance32 = s := ⟨_, rfl⟩
  rw [hs] at h hp
  rcases s with ⟨a, b, c, d⟩
  simp only at h hp
  obtain ⟨h1, h2⟩ := hp
  obtain ⟨_, h3, h4⟩ := h
  subst h1 h2 h3 h4
  rw [hs]
  rfl

/-- C35, counterexample: release 700 s at 48 kHz from level 1 in binary32
arithmetic. The conditions of the claim hold (`release > 1e-5`,
`r = 1/(release * sampleRate) <= 1`), but the decrement `r * L` is rounded
away: after any number of calls the envelope is still in Release at level 1,
so the level is not `L * (1 - r)^n` and Idle is never reached. -/
theorem C35_release_absorbed_counterexample :
    longRelease.state_ = ADSR.State.Release ∧ longRelease.env_ = 1 ∧
    longRelease.p_.release > f32 (1 / 100000) ∧
    0 < longRelease.step32 longRelease.p_.release ∧
    longRelease.step32 longRelease.p_.release ≤ 1 ∧
    ∀ n : Nat, (longRelease.processN32 n).state_ = ADSR.State.Release ∧
      (longRelease.processN32 n).env_ = 1 := by
  have hfix : ∀ n : Nat, longRelease.processN32 n = longRelease := by
    intro n
    induction n with
    | zero => rfl
    | succ n ih =>
      simp only [ADSR.processN32, ADSR.process32, ih]
      exact longRelease_fixed
  refine ⟨rfl, rfl, ?_, ?_, ?_, ?_⟩
  · show (700 : ℚ) > f32 (1 / 100000)
    exact lt_trans tiny_facts.2.2.1 (by norm_num)
  · rw [longRelease_step.1]
    norm_num
  · rw [longRelease_step.1]
    norm_num
  · intro n
    rw [hfix n]
    exact ⟨rfl, rfl⟩

/-- C35 (amended): Release is a geometric decay up to rounding, in binary32
arithmetic. For an envelope in Release at a binary32 level `L` in `(0,1]` with
`release > 1e-5f`, sample rate above 1 and the binary32 step
`r = 1/(release * sampleRate) <= 1`: one `process()` call gives the level
`L' = fl(L - fl(r * L))`, which is within `2^-24` of `L * (1 - r)`, when `L'`
exceeds `1e-5f`, and otherwise level 0 with state Idle; after `n` calls the
level is within `n * 2^-24` of `L * (1 - r)^n` as long as the envelope is in
Release, which it is when `L * (1 - r)^n` exceeds `1e-5f` by more than
`n * 2^-24`; the level never rises from one call to the next; and when
`r >= 2^-22`, after finitely many calls the envelope is in Idle at level 0,
where it stays. -/
theorem C35_release_geometric (e : ADSR) (hst : e.state_ = ADSR.State.Release)
    (hL : 0 < e.env_) (hL1 : e.env_ ≤ 1) (hf : f32 e.env_ = e.env_)
    (hrel : e.p_.release > f32 (1 / 100000)) (hsr : 1 < e.sr_)
    (hr1 : f32 (1 / f32 (e.p_.release * e.sr_)) ≤ 1) :
    (f32 (1 / 100000) <
        f32 (e.env_ - f32 (f32 (1 / f32 (e.p_.release * e.sr_)) * e.env_)) →
      e.process32.1.state_ = ADSR.State.Release ∧
      e.process32.2 = f32 (e.env_ - f32 (f32 (1 / f32 (e.p_.release * e.sr_)) * e.env_))) ∧
    (f32 (e.env_ - f32 (f32 (1 / f32 (e.p_.release * e.sr_)) * e.env_))
        ≤ f32 (1 / 100000) →
      e.process32.1.state_ = ADSR.State.Idle ∧ e.process32.2 = 0) ∧
    |f32 (e.env_ - f32 (f32 (1 / f32 (e.p_.release * e.sr_)) * e.env_))
      - e.env_ * (1 - f32 (1 / f32 (e.p_.release * e.sr_)))| ≤ 1 / 2 ^ 24 ∧
    (∀ n : Nat, (e.processN32 n).state_ = ADSR.State.Release →
      |(e.processN32 n).env_ - e.env_ * (1 - f32 (1 / f32 (e.p_.release * e.sr_))) ^ n|
        ≤ (n : ℚ) / 2 ^ 24) ∧
    (∀ n : Nat, f32 (1 / 100000) <
        e.env_ * (1 - f32 (1 / f32 (e.p_.release * e.sr_))) ^ n - (n : ℚ) / 2 ^ 24 →
      (e.processN32 n).state_ = ADSR.State.Release) ∧
    (∀ n : Nat, (e.processN32 (n + 1)).env_ ≤ (e.processN32 n).env_) ∧
    ((1 : ℚ) / 2 ^ 22 ≤ f32 (1 / f32 (e.p_.release * e.sr_)) →
      ∃ N : Nat, ∀ n : Nat, N ≤ n →
        (e.processN32 n).state_ = ADSR.State.Idle ∧ (e.processN32 n).env_ = 0) := by
  have hstep : e.step32 e.p_.release = f32 (1 / f32 (e.p_.release * e.sr_)) := by
    unfold ADSR.step32
    rw [if_neg (not_le.mpr hrel)]
  have hr0 : 0 ≤ f32 (1 / f32 (e.p_.release * e.sr_)) := by
    apply f32_nonneg
    apply div_nonneg zero_le_one
    apply f32_nonneg
    have : 0 < e.p_.release := lt_trans tiny_facts.2.1 hrel
    nlinarith
  have h0 : 0 ≤ e.env_ := le_of_lt hL
  obtain ⟨_, _, q2, q3⟩ := release32_step e hst h0 hL1 hf (by rw [hstep]; exact hr0)
    (by rw [hstep]; exact hr1)
  have hrun := release32_run e hst h0 hL1 hf (by rw [hstep]; exact hr0)
    (by rw [hstep]; exact hr1)
  have hstay := release32_stays e hst h0 hL1 hf (by rw [hstep]; exact hr0)
    (by rw [hstep]; exact hr1)
  have hanti := release32_antitone e hst h0 hL1 hf (by rw [hstep]; exact hr0)
    (by rw [hstep]; exact hr1)
  rw [hstep] at q2 q3 hrun hstay
  refine ⟨?_, ?_, q2, ?_, hstay, hanti, ?_⟩
  · intro h
    simp only [ADSR.process32]
    rw [q3, if_neg (not_le.mpr h)]
    exact ⟨hst, rfl⟩
  · intro h
    simp only [ADSR.process32]
    rw [q3, if_pos h]
    exact ⟨rfl, rfl⟩
  · intro n hn
    rcases (hrun n).2.2 with ⟨_, _, _, _, f, _⟩ | ⟨a, _⟩
    · exact f
    · rw [a] at hn
      exact absurd hn (by simp)
  · intro hr
    exact release32_terminates e hst h0 hL1 hf (by rw [hstep]; exact hr)
      (by rw [hstep]; exact hr1)

set_option maxRecDepth 100000 in
/-- The scenario of the default release: release `0.2f` at 48 kHz from level 1.
The product `release * sampleRate` rounds to 9600 and the step is `1/9600`
rounded. -/
theorem defaultRelease_step :
    f32 (defaultRelease.p_.release * defaultRelease.sr_) = 9600 ∧
    f32 (1 / f32 (defaultRelease.p_.release * defaultRelease.sr_)) = 7158279 / 68719476736 ∧
    f32 defaultRelease.env_ = defaultRelease.env_ := by
  decide!

/-- Witness for C35 (amended): the default release time `0.2f` at 48 kHz from
level 1. The level never rises and Idle is reached after finitely many
calls. -/
theorem C35_release_geometric_witness :
    (defaultRelease.state_ = ADSR.State.Release ∧ 0 < defaultRelease.env_ ∧
      defaultRelease.env_ ≤ 1 ∧ defaultRelease.p_.release > f32 (1 / 100000) ∧
      1 < defaultRelease.sr_ ∧
      (1 : ℚ) / 2 ^ 22 ≤ f32 (1 / f32 (defaultRelease.p_.release * defaultRelease.sr_)) ∧
      f32 (1 / f32 (defaultRelease.p_.release * defaultRelease.sr_)) ≤ 1) ∧
    (∀ n : Nat, (defaultRelease.processN32 (n + 1)).env_ ≤ (defaultRelease.processN32 n).env_) ∧
    ∃ N : Nat, ∀ n : Nat, N ≤ n →
      (defaultRelease.processN32 n).state_ = ADSR.State.Idle ∧
      (defaultRelease.processN32 n).env_ = 0 := by
  have hrel : defaultRelease.p_.release > f32 (1 / 100000) := by
    show (13421773 / 67108864 : ℚ) > f32 (1 / 100000)
    exact lt_trans tiny_facts.2.2.1 (by norm_num)
  have hsr : 1 < defaultRelease.sr_ := by
    show (1 : ℚ) < 48000
    norm_num
  have hlo : (1 : ℚ) / 2 ^ 22 ≤ f32 (1 / f32 (defaultRelease.p_.release * defaultRelease.sr_)) := by
    rw [defaultRelease_step.2.1]
    norm_num
  have hhi : f32 (1 / f32 (defaultRelease.p_.release * defaultRelease.sr_)) ≤ 1 := by
    rw [defaultRelease_step.2.1]
    norm_num
  have h := C35_release_geometric defaultRelease rfl (by norm_num [defaultRelease])
    (by norm_num [defaultRelease]) defaultRelease_step.2.2 hrel hsr hhi
  exact ⟨⟨rfl, by norm_num [defaultRelease], by norm_num [defaultRelease], hrel, hsr, hlo, hhi⟩,
    h.2.2.2.2.2.1, h.2.2.2.2.2.2 hlo⟩

/-! ## Release after a gate change in binary32 arithmetic -/

/-- Powers of two numbers in `[0,1]` differ by at most `n` times the
difference of the numbers. -/
theorem abs_pow_sub_pow_le (a b : ℚ) (ha0 : 0 ≤ a) (ha1 : a ≤ 1) (hb0 : 0 ≤ b) (hb1 : b ≤ 1) :
    ∀ n : Nat, |a ^ n - b ^ n| ≤ (n : ℚ) * |a - b| := by
  intro n
  induction n with
  | zero => simp
  | succ n ih =>
    have e1 : a ^ (n + 1) - b ^ (n + 1) = a * (a ^ n - b ^ n) + (a - b) * b ^ n := by ring
    have hbn0 : 0 ≤ b ^ n := pow_nonneg hb0 n
    have hbn1 : b ^ n ≤ 1 := pow_le_one₀ hb0 hb1
    have h1 : |a * (a ^ n - b ^ n)| ≤ (n : ℚ) * |a - b| := by
      rw [abs_mul, abs_of_nonneg ha0]
      calc a * |a ^ n - b ^ n| ≤ 1 * |a ^ n - b ^ n| :=
            mul_le_mul_of_nonneg_right ha1 (abs_nonneg _)
        _ = |a ^ n - b ^ n| := one_mul _
        _ ≤ (n : ℚ) * |a - b| := ih
    have h2 : |(a - b) * b ^ n| ≤ |a - b| := by
      rw [abs_mul, abs_of_nonneg hbn0]
      calc |a - b| * b ^ n ≤ |a - b| * 1 := mul_le_mul_of_nonneg_left hbn1 (abs_nonneg _)
        _ = |a - b| := mul_one _
    rw [e1]
    push_cast
    calc |a * (a ^ n - b ^ n) + (a - b) * b ^ n|
        ≤ |a * (a ^ n - b ^ n)| + |(a - b) * b ^ n| := abs_add _ _
      _ ≤ (n : ℚ) * |a - b| + |a - b| := add_le_add h1 h2
      _ = ((n : ℚ) + 1) * |a - b| := by ring

set_option maxRecDepth 100000 in
/-- C8 fails as stated: an envelope in Sustain at level 1 with release 1 s at a
sample rate of 2 Hz (`release * sampleRate = 2`), in binary32 arithmetic. After
`gate(false)` and 2 calls of `process()` the level is `1/4`, not 0, and
`isActive()` is true. -/
theorem C8_release_round_trip_counterexample :
    releaseProbe.state_ = ADSR.State.Sustain ∧ releaseProbe.env_ = 1 ∧
    f32 (releaseProbe.p_.release * releaseProbe.sr_) = 2 ∧
    ((releaseProbe.gate false).processN32 2).env_ = 1 / 4 ∧
    ((releaseProbe.gate false).processN32 2).isActive = true := by
  decide!

/-- C8 (amended): release round trip in binary32 arithmetic. For an envelope in
Sustain at a binary32 level `s` in `(0,1]` with `release > 1e-5f` and
`n = release * sampleRate` (the rounded product) a positive integer: when
`s * (1 - 1/n)^n` exceeds `1e-5` by more than `n * 2^-23`, `gate(false)`
followed by `n` calls of `process()` leaves the envelope active
(`isActive() = true`, state Release) at a level within `n * 2^-23` of
`s * (1 - 1/n)^n`, not at 0. -/
theorem C8_release_round_trip_geometric (e : ADSR) (N : Nat)
    (hst : e.state_ = ADSR.State.Sustain) (hs0 : 0 < e.env_) (hs1 : e.env_ ≤ 1)
    (hf : f32 e.env_ = e.env_) (hrel : e.p_.release > f32 (1 / 100000)) (hN1 : 1 ≤ N)
    (hN : f32 (e.p_.release * e.sr_) = (N : ℚ))
    (hbig : 1 / 100000 + (N : ℚ) / 2 ^ 23 < e.env_ * (1 - 1 / (N : ℚ)) ^ N) :
    ((e.gate false).processN32 N).isActive = true ∧
    ((e.gate false).processN32 N).state_ = ADSR.State.Release ∧
    |((e.gate false).processN32 N).env_ - e.env_ * (1 - 1 / (N : ℚ)) ^ N|
      ≤ (N : ℚ) / 2 ^ 23 ∧
    0 < ((e.gate false).processN32 N).env_ := by
  have hNq : (1 : ℚ) ≤ (N : ℚ) := by exact_mod_cast hN1
  have hinv0 : (0 : ℚ) ≤ 1 / (N : ℚ) := by positivity
  have hinv1 : 1 / (N : ℚ) ≤ 1 := by
    rw [div_le_one (by linarith)]
    exact hNq
  obtain ⟨g, hg⟩ : ∃ g, e.gate false = g := ⟨_, rfl⟩
  rw [hg]
  have hgst : g.state_ = ADSR.State.Release := by
    rw [← hg]
    unfold ADSR.gate
    simp [hst]
  have hgenv : g.env_ = e.env_ := by
    rw [← hg]
    unfold ADSR.gate
    simp [hst]
  have hgp : g.p_ = e.p_ ∧ g.sr_ = e.sr_ := by
    rw [← hg]
    unfold ADSR.gate
    simp [hst]
  have hstep : g.step32 g.p_.release = f32 (1 / (N : ℚ)) := by
    unfold ADSR.step32
    rw [hgp.1, hgp.2, if_neg (not_le.mpr hrel), hN]
  obtain ⟨r, hr⟩ : ∃ r, f32 (1 / (N : ℚ)) = r := ⟨_, rfl⟩
  rw [hr] at hstep
  have hr0 : 0 ≤ r := by
    rw [← hr]
    exact f32_nonneg _ hinv0
  have hr1 : r ≤ 1 := by
    rw [← hr]
    have := f32_mono _ _ hinv1
    rw [f32_one] at this
    exact this
  have hrerr : |r - 1 / (N : ℚ)| ≤ 1 / 2 ^ 25 := by
    rw [← hr]
    exact f32_err_unit _ (by rw [abs_of_nonneg hinv0]; exact hinv1)
  have hpow := abs_pow_sub_pow_le (1 - r) (1 - 1 / (N : ℚ)) (by linarith) (by linarith)
    (by linarith) (by linarith) N
  have hab : |(1 - r) - (1 - 1 / (N : ℚ))| ≤ 1 / 2 ^ 25 := by
    have : (1 - r) - (1 - 1 / (N : ℚ)) = -(r - 1 / (N : ℚ)) := by ring
    rw [this, abs_neg]
    exact hrerr
  have hpow2 : |(1 - r) ^ N - (1 - 1 / (N : ℚ)) ^ N| ≤ (N : ℚ) / 2 ^ 25 := by
    refine le_trans hpow ?_
    have : (N : ℚ) / 2 ^ 25 = (N : ℚ) * (1 / 2 ^ 25) := by ring
    rw [this]
    exact mul_le_mul_of_nonneg_left hab (by positivity)
  have hp2 := abs_le.mp hpow2
  have hge0 : 0 ≤ g.env_ := by rw [hgenv]; exact le_of_lt hs0
  have hge1 : g.env_ ≤ 1 := by rw [hgenv]; exact hs1
  have hgf : f32 g.env_ = g.env_ := by rw [hgenv]; exact hf
  have hN0 : (0 : ℚ) ≤ (N : ℚ) := by positivity
  have hscale : ∀ A B δ : ℚ, |B - A| ≤ δ → e.env_ * A - δ ≤ e.env_ * B ∧
      e.env_ * B ≤ e.env_ * A + δ := by
    intro A B δ hAB
    have h2 := abs_le.mp hAB
    have hδ : 0 ≤ δ := le_trans (abs_nonneg _) hAB
    have h3 : e.env_ * (A - B) ≤ e.env_ * δ :=
      mul_le_mul_of_nonneg_left (by linarith [h2.1]) (le_of_lt hs0)
    have h4 : e.env_ * (B - A) ≤ e.env_ * δ :=
      mul_le_mul_of_nonneg_left (by linarith [h2.2]) (le_of_lt hs0)
    have h5 : e.env_ * δ ≤ 1 * δ := mul_le_mul_of_nonneg_right hs1 hδ
    constructor
    · have : e.env_ * A - e.env_ * B = e.env_ * (A - B) := by ring
      linarith
    · have : e.env_ * B - e.env_ * A = e.env_ * (B - A) := by ring
      linarith
  obtain ⟨hscaled, hscaled2⟩ := hscale _ _ _ hpow2
  have e23 : (N : ℚ) / 2 ^ 23 = (N : ℚ) / 2 ^ 24 + (N : ℚ) / 2 ^ 25 + (N : ℚ) / 2 ^ 25 := by
    ring
  have hstay := release32_stays g hgst hge0 hge1 hgf (by rw [hstep]; exact hr0)
    (by rw [hstep]; exact hr1) N (by
      rw [hstep, hgenv]
      have := tiny_facts.2.2.1
      have h4 : (0 : ℚ) ≤ (N : ℚ) / 2 ^ 25 := by positivity
      linarith)
  obtain ⟨_, _, hcase⟩ := release32_run g hgst hge0 hge1 hgf (by rw [hstep]; exact hr0)
    (by rw [hstep]; exact hr1) N
  rw [hstep, hgenv] at hcase
  rcases hcase with ⟨a, b, _, _, f, t⟩ | ⟨a, _⟩
  · have f2 := abs_le.mp f
    refine ⟨?_, a, ?_, lt_trans tiny_facts.2.1 (t hN1)⟩
    · unfold ADSR.isActive
      rw [a]
      rfl
    · rw [abs_le]
      have h4 : (0 : ℚ) ≤ (N : ℚ) / 2 ^ 25 := by positivity
      constructor <;> linarith [f2.1, f2.2]
  · rw [a] at hstay
    exact absurd hstay (by simp)

set_option maxRecDepth 100000 in
/-- The scenario of the short release: `0.01f * 48000` rounds to 480. -/
theorem shortRelease_facts :
    f32 (shortRelease.p_.release * shortRelease.sr_) = ((480 : Nat) : ℚ) ∧
    f32 shortRelease.env_ = shortRelease.env_ := by
  decide!

/-- Witness for C8 (amended): release `0.01f` at 48 kHz from Sustain at level
1, so `n = 480`: after `gate(false)` and 480 calls the envelope is still
active, at a level within `480 * 2^-23` of `(479/480)^480`. -/
theorem C8_release_round_trip_geometric_witness :
    (shortRelease.state_ = ADSR.State.Sustain ∧ 0 < shortRelease.env_ ∧
      shortRelease.env_ ≤ 1 ∧ shortRelease.p_.release > f32 (1 / 100000) ∧
      f32 (shortRelease.p_.release * shortRelease.sr_) = ((480 : Nat) : ℚ) ∧
      1 / 100000 + ((480 : Nat) : ℚ) / 2 ^ 23
        < shortRelease.env_ * (1 - 1 / ((480 : Nat) : ℚ)) ^ 480) ∧
    ((shortRelease.gate false).processN32 480).isActive = true ∧
    |((shortRelease.gate false).processN32 480).env_
      - shortRelease.env_ * (1 - 1 / ((480 : Nat) : ℚ)) ^ 480| ≤ ((480 : Nat) : ℚ) / 2 ^ 23 := by
  have hrel : shortRelease.p_.release > f32 (1 / 100000) := by
    show (5368709 / 536870912 : ℚ) > f32 (1 / 100000)
    exact lt_trans tiny_facts.2.2.1 (by norm_num)
  have hbig : 1 / 100000 + ((480 : Nat) : ℚ) / 2 ^ 23
      < shortRelease.env_ * (1 - 1 / ((480 : Nat) : ℚ)) ^ 480 := by
    show 1 / 100000 + ((480 : Nat) : ℚ) / 2 ^ 23 < 1 * (1 - 1 / ((480 : Nat) : ℚ)) ^ 480
    norm_num
  have h := C8_release_round_trip_geometric shortRelease 480 rfl (by norm_num [shortRelease])
    (by norm_num [shortRelease]) shortRelease_facts.2 hrel (by norm_num) shortRelease_facts.1 hbig
  exact ⟨⟨rfl, by norm_num [shortRelease], by norm_num [shortRelease], hrel,
    shortRelease_facts.1, hbig⟩, h.1, h.2.2.1⟩

/-! ## Attack ramp in binary32 arithmetic -/

/-- One call of `process()` in Attack, in binary32 arithmetic. -/
theorem attack32_step (e : ADSR) (hst : e.state_ = ADSR.State.Attack) :
    e.advance32 =
      (if f32 (e.env_ + e.step32 e.p_.attack) ≥ 1
        then { e with env_ := 1, state_ := ADSR.State.Decay }
        else { e with env_ := f32 (e.env_ + e.step32 e.p_.attack) }) := by
  rcases e with ⟨s, p, sr, L⟩
  simp only at hst
  subst hst
  simp only [ADSR.advance32]

/-- The attack ramp in binary32 arithmetic for `n = attack * sampleRate <= 4096`
with step `s = fl(1/n)`: during the first `n - 1` calls the envelope stays in
Attack and the level after `k` calls is within `k * 2^-25` of `k * s`. -/
theorem attack32_run (e : ADSR) (N : Nat) (hst : e.state_ = ADSR.State.Attack)
    (henv : e.env_ = 0) (hN1 : 1 ≤ N) (hN2 : N ≤ 4096)
    (hstep : e.step32 e.p_.attack = f32 (1 / (N : ℚ))) :
    ∀ k : Nat, k < N →
      (e.processN32 k).state_ = ADSR.State.Attack ∧ (e.processN32 k).p_ = e.p_ ∧
      (e.processN32 k).sr_ = e.sr_ ∧ 0 ≤ (e.processN32 k).env_ ∧
      |(e.processN32 k).env_ - (k : ℚ) * f32 (1 / (N : ℚ))| ≤ (k : ℚ) / 2 ^ 25 := by
  have hNq : (1 : ℚ) ≤ (N : ℚ) := by exact_mod_cast hN1
  have hNq2 : (N : ℚ) ≤ 4096 := by exact_mod_cast hN2
  have ha0 : (0 : ℚ) < 1 / (N : ℚ) := by positivity
  have ha1 : (1 : ℚ) / 4096 ≤ 1 / (N : ℚ) :=
    div_le_div_of_nonneg_left (by norm_num) (by linarith) hNq2
  have hs0 : 0 ≤ f32 (1 / (N : ℚ)) := f32_nonneg _ (le_of_lt ha0)
  have hserr := abs_le.mp (f32_rel_err (1 / (N : ℚ)) (by
    rw [abs_of_pos ha0]
    refine le_trans ?_ ha1
    norm_num))
  rw [abs_of_pos ha0] at hserr
  obtain ⟨s, hs⟩ : ∃ s, f32 (1 / (N : ℚ)) = s := ⟨_, rfl⟩
  obtain ⟨a, ha⟩ : ∃ a, 1 / (N : ℚ) = a := ⟨_, rfl⟩
  rw [hs] at hstep hs0 hserr ⊢
  rw [ha] at ha0 ha1 hserr
  have hNa : (N : ℚ) * a = 1 := by
    rw [← ha]
    field_simp
  intro k
  induction k with
  | zero =>
    intro _
    refine ⟨hst, rfl, rfl, ?_, ?_⟩
    · simp [ADSR.processN32, henv]
    · simp [ADSR.processN32, henv]
  | succ k ih =>
    intro hk
    obtain ⟨i1, i2, i3, i4, i5⟩ := ih (by omega)
    obtain ⟨t, ht⟩ : ∃ t, e.processN32 k = t := ⟨_, rfl⟩
    rw [ht] at i1 i2 i3 i4 i5
    have hnext : e.processN32 (k + 1) = t.advance32 := by
      simp only [ADSR.processN32, ADSR.process32, ht]
    have hst2 : t.step32 t.p_.attack = s := by
      rw [← hstep]
      unfold ADSR.step32
      rw [i2, i3]
    rw [hnext, attack32_step t i1, hst2]
    have i52 := abs_le.mp i5
    have hkq : ((k : ℚ) + 1) + 1 ≤ (N : ℚ) := by
      have : k + 1 + 1 ≤ N := by omega
      exact_mod_cast this
    have hk0 : (0 : ℚ) ≤ (k : ℚ) := by positivity
    have hks : ((k : ℚ) + 1) * s ≤ ((k : ℚ) + 1) * (a + a / 2 ^ 24) :=
      mul_le_mul_of_nonneg_left (by linarith [hserr.2]) (by linarith)
    have hka : ((k : ℚ) + 1) * a ≤ 1 - a := by
      have : ((k : ℚ) + 1 + 1) * a ≤ (N : ℚ) * a := mul_le_mul_of_nonneg_right hkq (le_of_lt ha0)
      rw [hNa] at this
      linarith
    have hk25 : (k : ℚ) / 2 ^ 25 ≤ 1 / 2 ^ 13 := by
      have : (k : ℚ) ≤ 4096 := by linarith
      calc (k : ℚ) / 2 ^ 25 ≤ 4096 / 2 ^ 25 := div_le_div_of_nonneg_right this (by positivity)
        _ = 1 / 2 ^ 13 := by norm_num
    have hxlt : t.env_ + s < 1 - 1 / 2 ^ 14 := by
      have h1 : ((k : ℚ) + 1) * (a + a / 2 ^ 24) = ((k : ℚ) + 1) * a * (1 + 1 / 2 ^ 24) := by
        ring
      have h2 : ((k : ℚ) + 1) * a * (1 + 1 / 2 ^ 24) ≤ (1 - a) * (1 + 1 / 2 ^ 24) :=
        mul_le_mul_of_nonneg_right hka (by positivity)
      have h3 : (1 - a) * (1 + 1 / 2 ^ 24) ≤ 1 - 1 / 4096 + 1 / 2 ^ 24 := by
        nlinarith
      have h4 : t.env_ + s ≤ ((k : ℚ) + 1) * s + (k : ℚ) / 2 ^ 25 := by
        linarith [i52.2]
      have h5 : (1 : ℚ) - 1 / 4096 + 1 / 2 ^ 24 + 1 / 2 ^ 13 < 1 - 1 / 2 ^ 14 := by norm_num
      linarith
    have hx0 : 0 ≤ t.env_ + s := by linarith
    have hxerr := abs_le.mp (f32_err_unit (t.env_ + s) (by
      rw [abs_of_nonneg hx0]
      have : (0 : ℚ) ≤ 1 / 2 ^ 14 := by positivity
      linarith))
    have hlt1 : ¬ f32 (t.env_ + s) ≥ 1 := by
      have : (1 : ℚ) / 2 ^ 25 < 1 / 2 ^ 14 := by norm_num
      intro h
      linarith [hxerr.2]
    rw [if_neg hlt1]
    refine ⟨i1, i2, i3, f32_nonneg _ hx0, ?_⟩
    simp only
    push_cast
    rw [abs_le]
    have e1 : ((k : ℚ) + 1) / 2 ^ 25 = (k : ℚ) / 2 ^ 25 + 1 / 2 ^ 25 := by ring
    constructor <;> linarith [hxerr.1, hxerr.2, i52.1, i52.2]

/-- C7 (amended): attack round trip in binary32 arithmetic. For an envelope at
level 0 with `attack > 1e-5f` and `n = attack * sampleRate` (the rounded
product) a positive integer of at most 4096: after `gate(true)` the envelope
stays in Attack during the first `n - 1` calls of `process()`; after `n`
calls the level is within `1e-3` of 1.0; and the envelope is then either in
Decay at level exactly 1, or still in Attack, in which case call `n + 1`
leaves it in Decay at level exactly 1. -/
theorem C7_attack_round_trip (e : ADSR) (N : Nat) (henv : e.env_ = 0)
    (hatt : e.p_.attack > f32 (1 / 100000)) (hN1 : 1 ≤ N) (hN2 : N ≤ 4096)
    (hN : f32 (e.p_.attack * e.sr_) = (N : ℚ)) :
    (∀ k : Nat, k < N → ((e.gate true).processN32 k).state_ = ADSR.State.Attack) ∧
    |((e.gate true).processN32 N).env_ - 1| ≤ 1 / 1000 ∧
    ((((e.gate true).processN32 N).state_ = ADSR.State.Decay ∧
        ((e.gate true).processN32 N).env_ = 1) ∨
      (((e.gate true).processN32 N).state_ = ADSR.State.Attack ∧
        ((e.gate true).processN32 (N + 1)).state_ = ADSR.State.Decay ∧
        ((e.gate true).processN32 (N + 1)).env_ = 1)) := by
  obtain ⟨g, hg⟩ : ∃ g, e.gate true = g := ⟨_, rfl⟩
  rw [hg]
  have hgst : g.state_ = ADSR.State.Attack := by
    rw [← hg]
    simp [ADSR.gate]
  have hgenv : g.env_ = 0 := by
    rw [← hg]
    simp [ADSR.gate, henv]
  have hgp : g.p_ = e.p_ ∧ g.sr_ = e.sr_ := by
    rw [← hg]
    simp [ADSR.gate]
  have hstep : g.step32 g.p_.attack = f32 (1 / (N : ℚ)) := by
    unfold ADSR.step32
    rw [hgp.1, hgp.2, if_neg (not_le.mpr hatt), hN]
  have hrun := attack32_run g N hgst hgenv hN1 hN2 hstep
  have hNq : (1 : ℚ) ≤ (N : ℚ) := by exact_mod_cast hN1
  have hNq2 : (N : ℚ) ≤ 4096 := by exact_mod_cast hN2
  have ha0 : (0 : ℚ) < 1 / (N : ℚ) := by positivity
  have ha1 : (1 : ℚ) / 4096 ≤ 1 / (N : ℚ) :=
    div_le_div_of_nonneg_left (by norm_num) (by linarith) hNq2
  have ha2 : 1 / (N : ℚ) ≤ 1 := by
    rw [div_le_one (by linarith)]
    exact hNq
  have hserr := abs_le.mp (f32_rel_err (1 / (N : ℚ)) (by
    rw [abs_of_pos ha0]
    refine le_trans ?_ ha1
    norm_num))
  rw [abs_of_pos ha0] at hserr
  obtain ⟨s, hs⟩ : ∃ s, f32 (1 / (N : ℚ)) = s := ⟨_, rfl⟩
  obtain ⟨a, ha⟩ : ∃ a, 1 / (N : ℚ) = a := ⟨_, rfl⟩
  rw [hs] at hstep hserr hrun
  rw [ha] at ha0 ha1 ha2 hserr
  have hNa : (N : ℚ) * a = 1 := by
    rw [← ha]
    field_simp
  refine ⟨fun k hk => (hrun k hk).1, ?_⟩
  obtain ⟨M, hM⟩ : ∃ M : Nat, N = M + 1 := ⟨N - 1, by omega⟩
  obtain ⟨i1, i2, i3, i4, i5⟩ := hrun M (by omega)
  obtain ⟨t, ht⟩ : ∃ t, g.processN32 M = t := ⟨_, rfl⟩
  rw [ht] at i1 i2 i3 i4 i5
  have i52 := abs_le.mp i5
  have hst2 : t.step32 t.p_.attack = s := by
    rw [← hstep]
    unfold ADSR.step32
    rw [i2, i3]
  have hN' : g.processN32 N = t.advance32 := by
    rw [hM]
    simp only [ADSR.processN32, ADSR.process32, ht]
  have hMq : (M : ℚ) + 1 = (N : ℚ) := by
    rw [hM]
    push_cast
    rfl
  have hM0 : (0 : ℚ) ≤ (M : ℚ) := by positivity
  have hM25 : (M : ℚ) / 2 ^ 25 ≤ 1 / 2 ^ 13 := by
    have : (M : ℚ) ≤ 4096 := by linarith
    calc (M : ℚ) / 2 ^ 25 ≤ 4096 / 2 ^ 25 := div_le_div_of_nonneg_right this (by positivity)
      _ = 1 / 2 ^ 13 := by norm_num
  -- N * s is within 2^-24 of 1
  have hNs1 : 1 - 1 / 2 ^ 24 ≤ ((M : ℚ) + 1) * s := by
    have : (N : ℚ) * (a - a / 2 ^ 24) ≤ (N : ℚ) * s :=
      mul_le_mul_of_nonneg_left (by linarith [hserr.1]) (by linarith)
    have e1 : (N : ℚ) * (a - a / 2 ^ 24) = (N : ℚ) * a * (1 - 1 / 2 ^ 24) := by ring
    rw [e1, hNa, one_mul] at this
    rw [hMq]
    exact this
  have hNs2 : ((M : ℚ) + 1) * s ≤ 1 + 1 / 2 ^ 24 := by
    have : (N : ℚ) * s ≤ (N : ℚ) * (a + a / 2 ^ 24) :=
      mul_le_mul_of_nonneg_left (by linarith [hserr.2]) (by linarith)
    have e1 : (N : ℚ) * (a + a / 2 ^ 24) = (N : ℚ) * a * (1 + 1 / 2 ^ 24) := by ring
    rw [e1, hNa, one_mul] at this
    rw [hMq]
    exact this
  have hs0 : 0 ≤ s := by
    rw [← hs]
    exact f32_nonneg _ (by positivity)
  have hsge : a - a / 2 ^ 24 ≤ s := by linarith [hserr.1]
  have hx0 : 0 ≤ t.env_ + s := by linarith
  have hx2 : t.env_ + s < 2 := by
    have : t.env_ + s ≤ ((M : ℚ) + 1) * s + (M : ℚ) / 2 ^ 25 := by linarith [i52.2]
    have : (1 : ℚ) + 1 / 2 ^ 24 + 1 / 2 ^ 13 < 2 := by norm_num
    linarith
  have hxlow : 1 - 1 / 2 ^ 24 - 1 / 2 ^ 13 ≤ t.env_ + s := by
    have : ((M : ℚ) + 1) * s - (M : ℚ) / 2 ^ 25 ≤ t.env_ + s := by linarith [i52.1]
    linarith
  have hxerr := abs_le.mp (f32_err_two (t.env_ + s) (by rw [abs_of_nonneg hx0]; exact hx2))
  rw [hN', attack32_step t i1, hst2]
  by_cases hc : f32 (t.env_ + s) ≥ 1
  · rw [if_pos hc]
    refine ⟨?_, Or.inl ⟨rfl, rfl⟩⟩
    simp only [sub_self, abs_zero]
    norm_num
  · rw [if_neg hc]
    have hy1 : f32 (t.env_ + s) < 1 := not_le.mp hc
    have hylow : 1 - 1 / 2 ^ 23 - 1 / 2 ^ 13 ≤ f32 (t.env_ + s) := by
      have : (1 : ℚ) / 2 ^ 23 = 1 / 2 ^ 24 + 1 / 2 ^ 24 := by norm_num
      linarith [hxerr.1]
    refine ⟨?_, Or.inr ⟨i1, ?_⟩⟩
    · simp only
      rw [abs_le]
      constructor
      · have : (1 : ℚ) / 2 ^ 23 + 1 / 2 ^ 13 ≤ 1 / 1000 := by norm_num
        linarith
      · linarith
    · have hnext : g.processN32 (N + 1) = (g.processN32 N).advance32 := by
        simp only [ADSR.processN32, ADSR.process32]
      rw [hnext, hN', attack32_step t i1, hst2, if_neg hc]
      have key : ∀ t2 : ADSR, t2.state_ = ADSR.State.Attack → t2.step32 t2.p_.attack = s →
          f32 (t2.env_ + s) ≥ 1 →
          t2.advance32.state_ = ADSR.State.Decay ∧ t2.advance32.env_ = 1 := by
        intro t2 j1 j2 j3
        rw [attack32_step t2 j1, j2, if_pos j3]
        exact ⟨rfl, rfl⟩
      refine key _ i1 ?_ ?_
      · rw [← hst2]
        rfl
      · have h1 : (1 : ℚ) ≤ f32 (t.env_ + s) + s := by
          have h2 : (1 : ℚ) / 4096 - (1 / 4096) / 2 ^ 24 ≤ a - a / 2 ^ 24 := by
            have : a - a / 2 ^ 24 = a * (1 - 1 / 2 ^ 24) := by ring
            rw [this]
            have : (1 : ℚ) / 4096 - (1 / 4096) / 2 ^ 24 = 1 / 4096 * (1 - 1 / 2 ^ 24) := by ring
            rw [this]
            exact mul_le_mul_of_nonneg_right ha1 (by norm_num)
          have h3 : (1 : ℚ) / 2 ^ 23 + 1 / 2 ^ 13 ≤ 1 / 4096 - (1 / 4096) / 2 ^ 24 := by norm_num
          linarith
        have := f32_mono _ _ h1
        rw [f32_one] at this
        exact this

/-- A call of `process()` changes neither the parameters nor the sample rate. -/
theorem advance32_params (e : ADSR) :
    e.advance32.p_ = e.p_ ∧ e.advance32.sr_ = e.sr_ := by
  rcases e with ⟨s, p, sr, L⟩
  cases s <;> simp only [ADSR.advance32] <;> (try split_ifs) <;> simp

/-- The calls of `process()` change neither the parameters nor the sample
rate. -/
theorem processN32_params (e : ADSR) (n : Nat) :
    (e.processN32 n).p_ = e.p_ ∧ (e.processN32 n).sr_ = e.sr_ := by
  induction n with
  | zero => exact ⟨rfl, rfl⟩
  | succ n ih =>
    have := advance32_params (e.processN32 n)
    simp only [ADSR.processN32, ADSR.process32]
    exact ⟨this.1.trans ih.1, this.2.trans ih.2⟩

/-- An envelope with the parameters of `attackProbe` in Attack at level `L` is
`attackStage L`. -/
theorem attackStage_eq (e : ADSR) (L : ℚ) (h1 : e.state_ = ADSR.State.Attack)
    (h2 : e.p_ = { attack := 1 / 128 }) (h3 : e.sr_ = 48000) (h4 : e.env_ = L) :
    e = attackStage L := by
  rcases e with ⟨s, p, sr, L0⟩
  simp only at h1 h2 h3 h4
  subst h1 h2 h3 h4
  rfl

/-- A run of `attackStage L` that ends in Attack at level `L2` ends in
`attackStage L2`. -/
theorem attackStage_chunk (L L2 : ℚ) (n : Nat)
    (h : ((attackStage L).processN32 n).state_ = ADSR.State.Attack ∧
      ((attackStage L).processN32 n).env_ = L2) :
    (attackStage L).processN32 n = attackStage L2 :=
  attackStage_eq _ _ h.1 (processN32_params _ _).1 (processN32_params _ _).2 h.2

set_option maxRecDepth 100000 in
/-- Calls 1 to 125 of the attack ramp of `attackProbe` in binary32
arithmetic. -/
theorem attackProbe_run1 :
    ((attackStage 0).processN32 125).state_ = ADSR.State.Attack ∧
    ((attackStage 0).processN32 125).env_ = 2796199 / 8388608 := by
  decide!

set_option maxRecDepth 100000 in
/-- Calls 126 to 250 of the attack ramp of `attackProbe` in binary32
arithmetic. -/
theorem attackProbe_run2 :
    ((attackStage (2796199 / 8388608)).processN32 125).state_ = ADSR.State.Attack ∧
    ((attackStage (2796199 / 8388608)).processN32 125).env_ = 11184773 / 16777216 := by
  decide!

set_option maxRecDepth 100000 in
/-- Calls 251 to 375 of the attack ramp of `attackProbe` in binary32
arithmetic: still in Attack, at level `1 - 17 * 2^-22`. -/
theorem attackProbe_run3 :
    ((attackStage (11184773 / 16777216)).processN32 125).state_ = ADSR.State.Attack ∧
    ((attackStage (11184773 / 16777216)).processN32 125).env_ = 4194287 / 4194304 := by
  decide!

set_option maxRecDepth 100000 in
/-- Call 376 of the attack ramp of `attackProbe` in binary32 arithmetic: the
level reaches 1 and the state becomes Decay. -/
theorem attackProbe_run4 :
    ((attackStage (4194287 / 4194304)).processN32 1).state_ = ADSR.State.Decay ∧
    ((attackStage (4194287 / 4194304)).processN32 1).env_ = 1 := by
  decide!

/-- C7 (counterexample): a fresh envelope with attack `2^-7` s at 48 kHz
(`n = attack * sampleRate = 375`) is, after `gate(true)` and 375 calls of
`process()` in binary32 arithmetic, still in Attack (at level
`4194287 / 4194304`); it enters Decay only with call 376. -/
theorem C7_attack_round_trip_counterexample :
    attackProbe.state_ = ADSR.State.Idle ∧ attackProbe.env_ = 0 ∧
    attackProbe.p_.attack > 1 / 100000 ∧
    attackProbe.p_.attack * attackProbe.sr_ = 375 ∧
    f32 (attackProbe.p_.attack * attackProbe.sr_) = 375 ∧
    ((attackProbe.gate true).processN32 375).state_ = ADSR.State.Attack ∧
    ((attackProbe.gate true).processN32 375).env_ = 4194287 / 4194304 ∧
    ((attackProbe.gate true).processN32 376).state_ = ADSR.State.Decay := by
  have hg : attackProbe.gate true = attackStage 0 := rfl
  have h1 := attackStage_chunk _ _ _ attackProbe_run1
  have h2 := attackStage_chunk _ _ _ attackProbe_run2
  have h3 := attackStage_chunk _ _ _ attackProbe_run3
  have h375 : (attackStage 0).processN32 375 = attackStage (4194287 / 4194304) := by
    rw [show (375 : Nat) = 125 + (125 + 125) from rfl, processN32_add, h1, processN32_add, h2, h3]
  have h376 : (attackStage 0).processN32 376 =
      (attackStage (4194287 / 4194304)).processN32 1 := by
    rw [show (376 : Nat) = 375 + 1 from rfl, processN32_add, h375]
  rw [hg, h376, h375]
  refine ⟨rfl, rfl, ?_, ?_, ?_, rfl, rfl, attackProbe_run4.1⟩
  · norm_num [attackProbe]
  · norm_num [attackProbe]
  · have : attackProbe.p_.attack * attackProbe.sr_ = 375 := by norm_num [attackProbe]
    rw [this]
    decide!

set_option maxRecDepth 100000 in
/-- The rounded product `0.01f * 48000` is 480, and `0.01f > 1e-5f`. -/
theorem attackShort_facts :
    f32 (5368709 / 536870912 * 48000) = 480 ∧
    (5368709 : ℚ) / 536870912 > f32 (1 / 100000) := by
  decide!

/-- Witness for C7 (amended): attack `0.01f` at 48 kHz, so `n = 480`. -/
theorem C7_attack_round_trip_witness :
    (∀ k : Nat, k < 480 → ((attackShort.gate true).processN32 k).state_ = ADSR.State.Attack) ∧
    |((attackShort.gate true).processN32 480).env_ - 1| ≤ 1 / 1000 ∧
    ((((attackShort.gate true).processN32 480).state_ = ADSR.State.Decay ∧
        ((attackShort.gate true).processN32 480).env_ = 1) ∨
      (((attackShort.gate true).processN32 480).state_ = ADSR.State.Attack ∧
        ((attackShort.gate true).processN32 (480 + 1)).state_ = ADSR.State.Decay ∧
        ((attackShort.gate true).processN32 (480 + 1)).env_ = 1)) :=
  C7_attack_round_trip attackShort 480 rfl attackShort_facts.2 (by decide) (by decide)
    (by
      have : attackShort.p_.attack * attackShort.sr_ = 5368709 / 536870912 * 48000 := rfl
      rw [this, attackShort_facts.1]
      norm_num)

/-! ## Instant stages in binary32 arithmetic -/

set_option maxRecDepth 100000 in
/-- The first two calls of `process()` on `decayProbe` in binary32
arithmetic. -/
theorem decayProbe_run :
    decayProbe.process32.1.state_ = ADSR.State.Decay ∧
    decayProbe.process32.2 = 1677722 / 16777216 ∧
    decayProbe.process32.1.process32.1.state_ = ADSR.State.Sustain ∧
    decayProbe.process32.1.process32.2 = 13421773 / 134217728 := by
  decide!

set_option maxRecDepth 100000 in
/-- C34 (counterexample): an envelope in Decay at level 1 with `decay = 0` and
sustain `0.1f` returns, after one `process()` call in binary32 arithmetic, the
level `1677722 / 16777216`, which is above `clamp(sustain,0,1) = 0.1f`, and
stays in Decay. -/
theorem C34_instant_stages_counterexample :
    decayProbe.state_ = ADSR.State.Decay ∧ decayProbe.env_ = 1 ∧
    decayProbe.p_.decay ≤ 1 / 100000 ∧
    clamp decayProbe.p_.sustain 0 1 = 13421773 / 134217728 ∧
    decayProbe.process32.2 = 1677722 / 16777216 ∧
    decayProbe.process32.2 ≠ clamp decayProbe.p_.sustain 0 1 ∧
    decayProbe.process32.1.state_ = ADSR.State.Decay := by
  decide!

/-- The clamp of a binary32 number to `[0, 1]` is a binary32 number. -/
theorem f32_clamp_unit (s : ℚ) (hs : f32 s = s) : f32 (clamp s 0 1) = clamp s 0 1 := by
  unfold clamp
  split_ifs
  · exact f32_zero
  · exact f32_one
  · exact hs

/-- For a binary32 number `T` in `[1/2, 1]` the difference `1 - T` is computed
without rounding. -/
theorem f32_one_sub (T : ℚ) (hT : f32 T = T) (h1 : 1 / 2 ≤ T) (h2 : T ≤ 1) :
    f32 (1 - T) = 1 - T := by
  obtain ⟨k, j, hk, hj, e⟩ := f32_repr T
  rw [hT] at e
  have hTpos : (0 : ℚ) < T := by linarith
  have hk0 : 0 < k := by
    by_contra hcon
    have : (k : ℚ) ≤ 0 := by exact_mod_cast (not_lt.mp hcon)
    have : (k : ℚ) * (2 : ℚ) ^ j ≤ 0 := mul_nonpos_of_nonpos_of_nonneg this (le_of_lt (two_zpow_pos _))
    linarith
  have hkq : (1 : ℚ) ≤ (k : ℚ) := by exact_mod_cast hk0
  have hj0 : j ≤ 0 := by
    by_contra hcon
    have : (2 : ℚ) ^ (1 : Int) ≤ (2 : ℚ) ^ j := two_zpow_le (by omega)
    rw [zpow_one] at this
    have h3 : (2 : ℚ) ≤ (k : ℚ) * (2 : ℚ) ^ j := by nlinarith [two_zpow_pos j]
    linarith
  obtain ⟨t, ht⟩ : ∃ t : Nat, j = -(t : Int) := ⟨(-j).toNat, by omega⟩
  have hone : ((2 ^ t : Nat) : ℚ) * (2 : ℚ) ^ j = 1 := by
    rw [ht, zpow_neg, zpow_natCast]
    push_cast
    exact mul_inv_cancel₀ (by positivity)
  have hform : 1 - T = (((2 ^ t : Nat) : Int) - k : Int) * (2 : ℚ) ^ j := by
    push_cast
    rw [sub_mul, ← e]
    push_cast at hone
    rw [hone]
  have hlo : (0 : ℚ) ≤ ((((2 ^ t : Nat) : Int) - k : Int) : ℚ) := by
    have h3 : 0 ≤ ((((2 ^ t : Nat) : Int) - k : Int) : ℚ) * (2 : ℚ) ^ j := by
      rw [← hform]
      linarith
    exact nonneg_of_mul_nonneg_left h3 (two_zpow_pos _)
  have hhi : ((((2 ^ t : Nat) : Int) - k : Int) : ℚ) ≤ (k : ℚ) := by
    have h3 : ((((2 ^ t : Nat) : Int) - k : Int) : ℚ) * (2 : ℚ) ^ j ≤ (k : ℚ) * (2 : ℚ) ^ j := by
      rw [← hform, ← e]
      linarith
    exact le_of_mul_le_mul_right h3 (two_zpow_pos _)
  rw [hform]
  apply f32_grid _ j _ hj
  have a1 : (0 : Int) ≤ ((2 ^ t : Nat) : Int) - k := by exact_mod_cast hlo
  have a2 : ((2 ^ t : Nat) : Int) - k ≤ k := by exact_mod_cast hhi
  rw [abs_of_nonneg a1]
  have a3 : k ≤ 2 ^ 24 := le_trans (le_abs_self k) hk
  omega

/-- C34 (amended): stage durations of at most `1e-5` collapse to a transition
within one call for Attack and Release and within two calls for Decay, in
binary32 arithmetic. On an envelope whose level is a binary32 number in
`[0,1]` (and whose sustain is a binary32 number): with `attack <= 1e-5f` one
`process()` call in Attack returns level 1 and leaves state Decay; with
`release <= 1e-5f` one call in Release returns level 0 and leaves state Idle;
with `decay <= 1e-5f` one call in Decay returns `T = clamp(sustain,0,1)` and
leaves state Sustain when `T >= 1/2`, and for every `T` it either does so or
returns the level `env - (1 - T)` rounded, above `T`, and stays in Decay, and
then the next call returns `T` and leaves state Sustain. -/
theorem C34_instant_stages (e : ADSR) (h0 : 0 ≤ e.env_) (h1 : e.env_ ≤ 1)
    (hs : f32 e.p_.sustain = e.p_.sustain) (hf : f32 e.env_ = e.env_) :
    (e.state_ = ADSR.State.Attack → e.p_.attack ≤ f32 (1 / 100000) →
      e.process32.2 = 1 ∧ e.process32.1.env_ = 1 ∧
      e.process32.1.state_ = ADSR.State.Decay) ∧
    (e.state_ = ADSR.State.Release → e.p_.release ≤ f32 (1 / 100000) →
      e.process32.2 = 0 ∧ e.process32.1.env_ = 0 ∧
      e.process32.1.state_ = ADSR.State.Idle) ∧
    (e.state_ = ADSR.State.Decay → e.p_.decay ≤ f32 (1 / 100000) →
      (1 / 2 ≤ clamp e.p_.sustain 0 1 →
        e.process32.2 = clamp e.p_.sustain 0 1 ∧
        e.process32.1.state_ = ADSR.State.Sustain) ∧
      ((e.process32.2 = clamp e.p_.sustain 0 1 ∧
          e.process32.1.state_ = ADSR.State.Sustain) ∨
        (e.process32.2 = f32 (e.env_ - f32 (1 - clamp e.p_.sustain 0 1)) ∧
          clamp e.p_.sustain 0 1 < e.process32.2 ∧
          e.process32.1.state_ = ADSR.State.Decay ∧
          e.process32.1.process32.2 = clamp e.p_.sustain 0 1 ∧
          e.process32.1.process32.1.state_ = ADSR.State.Sustain))) := by
  rcases e with ⟨s, p, sr, env⟩
  simp only at h0 h1 hs hf
  refine ⟨?_, ?_, ?_⟩
  · intro hst ha
    simp only at hst ha
    subst hst
    have h2 : f32 (env + 1) ≥ 1 := by
      have := f32_mono 1 (env + 1) (by linarith)
      rw [f32_one] at this
      exact this
    simp only [ADSR.process32, ADSR.advance32, ADSR.step32, if_pos ha, if_pos h2]
    exact ⟨trivial, trivial, trivial⟩
  · intro hst hr
    simp only at hst hr
    subst hst
    have h2 : f32 (env - f32 (1 * max env 0)) ≤ f32 (1 / 100000) := by
      rw [max_eq_left h0, one_mul, hf, sub_self, f32_zero]
      exact le_of_lt tiny_facts.2.1
    simp only [ADSR.process32, ADSR.advance32, ADSR.step32, if_pos hr, if_pos h2]
    exact ⟨trivial, trivial, trivial⟩
  · intro hst hd
    simp only at hst hd
    subst hst
    obtain ⟨hT0, hT1⟩ := clamp_unit_mem p.sustain
    have hTf := f32_clamp_unit p.sustain hs
    obtain ⟨T, hT⟩ : ∃ T, clamp p.sustain 0 1 = T := ⟨_, rfl⟩
    rw [hT] at hT0 hT1 hTf
    have hstep : f32 (1 * f32 (1 - T)) = f32 (1 - T) := by rw [one_mul, f32_idem]
    have hone : ∀ v : ℚ, f32 (v - f32 (1 - T)) ≤ T →
        (ADSR.process32 ⟨ADSR.State.Decay, p, sr, v⟩).2 = T ∧
        (ADSR.process32 ⟨ADSR.State.Decay, p, sr, v⟩).1.state_ = ADSR.State.Sustain := by
      intro v hv
      simp only [ADSR.process32, ADSR.advance32, ADSR.step32, if_pos hd, hT, hstep, if_pos hv]
      exact ⟨trivial, trivial⟩
    have hstay : ∀ v : ℚ, ¬ f32 (v - f32 (1 - T)) ≤ T →
        (ADSR.process32 ⟨ADSR.State.Decay, p, sr, v⟩).2 = f32 (v - f32 (1 - T)) ∧
        (ADSR.process32 ⟨ADSR.State.Decay, p, sr, v⟩).1
          = ⟨ADSR.State.Decay, p, sr, f32 (v - f32 (1 - T))⟩ := by
      intro v hv
      simp only [ADSR.process32, ADSR.advance32, ADSR.step32, if_pos hd, hT, hstep, if_neg hv]
      exact ⟨trivial, trivial⟩
    rw [hT]
    constructor
    · intro hhalf
      apply hone
      rw [f32_one_sub T hTf hhalf hT1]
      have := f32_mono (env - (1 - T)) T (by linarith)
      rw [hTf] at this
      exact this
    · by_cases hc : f32 (env - f32 (1 - T)) ≤ T
      · exact Or.inl (hone env hc)
      · right
        obtain ⟨r1, r2⟩ := hstay env hc
        have hTlt : T < 1 / 2 := by
          by_contra hcon
          apply hc
          rw [f32_one_sub T hTf (not_lt.mp hcon) hT1]
          have := f32_mono (env - (1 - T)) T (by linarith)
          rw [hTf] at this
          exact this
        have ha : 1 / 2 ≤ f32 (1 - T) := by
          have := f32_mono (1 / 2) (1 - T) (by linarith)
          rw [f32_half] at this
          exact this
        have hb : f32 (env - f32 (1 - T)) ≤ 1 / 2 := by
          have := f32_mono (env - f32 (1 - T)) (1 / 2) (by linarith)
          rw [f32_half] at this
          exact this
        have hsecond : f32 (f32 (env - f32 (1 - T)) - f32 (1 - T)) ≤ T := by
          have := f32_mono (f32 (env - f32 (1 - T)) - f32 (1 - T)) 0 (by linarith)
          rw [f32_zero] at this
          linarith
        rw [r2]
        exact ⟨r1, by rw [r1]; exact not_le.mp hc, rfl, hone _ hsecond⟩

set_option maxRecDepth 100000 in
/-- Witness for C34 (amended): instant Attack and Release from level 1/2, and
instant Decay from level 1 with sustain 0.5 (one call) and sustain `0.1f` (two
calls). -/
theorem C34_instant_stages_witness :
    (ADSR.process32 ⟨ADSR.State.Attack, ⟨0, 0, 1 / 2, 0⟩, 48000, 1 / 2⟩).2 = 1 ∧
    (ADSR.process32 ⟨ADSR.State.Release, ⟨0, 0, 1 / 2, 0⟩, 48000, 1 / 2⟩).1.state_
      = ADSR.State.Idle ∧
    (ADSR.process32 ⟨ADSR.State.Decay, ⟨0, 0, 1 / 2, 0⟩, 48000, 1⟩).1.state_
      = ADSR.State.Sustain ∧
    decayProbe.process32.1.process32.1.state_ = ADSR.State.Sustain := by
  have hhalf : f32 (1 / 2) = 1 / 2 := f32_half
  have ht : (0 : ℚ) ≤ f32 (1 / 100000) := le_of_lt tiny_facts.2.1
  have hc : (1 / 2 : ℚ) ≤ clamp (1 / 2) 0 1 := by
    unfold clamp
    norm_num
  have w1 := (C34_instant_stages ⟨ADSR.State.Attack, ⟨0, 0, 1 / 2, 0⟩, 48000, 1 / 2⟩
    (by norm_num) (by norm_num) hhalf hhalf).1 rfl ht
  have w2 := (C34_instant_stages ⟨ADSR.State.Release, ⟨0, 0, 1 / 2, 0⟩, 48000, 1 / 2⟩
    (by norm_num) (by norm_num) hhalf hhalf).2.1 rfl ht
  have w3 := ((C34_instant_stages ⟨ADSR.State.Decay, ⟨0, 0, 1 / 2, 0⟩, 48000, 1⟩
    (by norm_num) (by norm_num) hhalf f32_one).2.2 rfl ht).1 hc
  exact ⟨w1.1, w2.2.2, w3.2, decayProbe_run.2.2.1⟩

/-! ## Table selection in binary32 arithmetic -/

/-- A binary32 number of magnitude at least `2^e` is an integer multiple of
`2^(e-23)`. -/
theorem f32_lattice (x : ℚ) (e : Int) (hx : f32 x = x) (he : (2 : ℚ) ^ e ≤ |x|) :
    ∃ m : Int, x = (m : ℚ) * (2 : ℚ) ^ (e - 23) := by
  obtain ⟨k, j, hk, hj, hr⟩ := f32_repr x
  rw [hx] at hr
  by_cases hc : e - 23 ≤ j
  · obtain ⟨d, hd⟩ : ∃ d : Nat, j = (e - 23) + (d : Int) := ⟨(j - (e - 23)).toNat, by omega⟩
    refine ⟨k * 2 ^ d, ?_⟩
    rw [hr, hd, zpow_add₀ (by norm_num), zpow_natCast]
    push_cast
    ring
  · have hj2 : j + 24 ≤ e := by omega
    have hkq : |(k : ℚ)| ≤ 2 ^ 24 := by
      have : ((|k| : Int) : ℚ) ≤ ((2 ^ 24 : Int) : ℚ) := by exact_mod_cast hk
      rw [Int.cast_abs] at this
      simpa using this
    have habs : |x| = |(k : ℚ)| * (2 : ℚ) ^ j := by
      rw [hr, abs_mul, abs_of_pos (two_zpow_pos j)]
    have hup : |x| ≤ (2 : ℚ) ^ e := by
      rw [habs]
      calc |(k : ℚ)| * (2 : ℚ) ^ j ≤ 2 ^ 24 * (2 : ℚ) ^ j :=
            mul_le_mul_of_nonneg_right hkq (le_of_lt (two_zpow_pos j))
        _ = (2 : ℚ) ^ (j + 24) := by
            rw [zpow_add₀ (by norm_num)]
            norm_num
            ring
        _ ≤ (2 : ℚ) ^ e := two_zpow_le hj2
    have heq : |x| = (2 : ℚ) ^ e := le_antisymm hup he
    have hsplit : (2 : ℚ) ^ e = ((2 ^ 23 : Int) : ℚ) * (2 : ℚ) ^ (e - 23) := by
      have : e = 23 + (e - 23) := by ring
      conv_lhs => rw [this]
      rw [zpow_add₀ (by norm_num)]
      norm_num
    rcases abs_cases x with ⟨h1, _⟩ | ⟨h1, _⟩
    · refine ⟨2 ^ 23, ?_⟩
      rw [← hsplit, ← heq, h1]
    · refine ⟨-(2 ^ 23), ?_⟩
      have : x = -(2 : ℚ) ^ e := by rw [← heq, h1]; ring
      rw [this, hsplit]
      push_cast
      ring

/-- The rounded difference of two distinct binary32 numbers is not zero. -/
theorem f32_sub_pos (a b : ℚ) (ha : f32 a = a) (hb : f32 b = b) (hab : a < b) :
    0 < f32 (b - a) := by
  obtain ⟨k1, j1, _, hj1, h1⟩ := f32_repr a
  obtain ⟨k2, j2, _, hj2, h2⟩ := f32_repr b
  rw [ha] at h1
  rw [hb] at h2
  obtain ⟨d1, hd1⟩ : ∃ d : Nat, j1 = (-149) + (d : Int) := ⟨(j1 + 149).toNat, by omega⟩
  obtain ⟨d2, hd2⟩ : ∃ d : Nat, j2 = (-149) + (d : Int) := ⟨(j2 + 149).toNat, by omega⟩
  have e1 : a = ((k1 * 2 ^ d1 : Int) : ℚ) * (2 : ℚ) ^ (-149 : Int) := by
    rw [h1, hd1, zpow_add₀ (by norm_num), zpow_natCast]
    push_cast
    ring
  have e2 : b = ((k2 * 2 ^ d2 : Int) : ℚ) * (2 : ℚ) ^ (-149 : Int) := by
    rw [h2, hd2, zpow_add₀ (by norm_num), zpow_natCast]
    push_cast
    ring
  have hp := two_zpow_pos (-149)
  have hlt : ((k1 * 2 ^ d1 : Int) : ℚ) < ((k2 * 2 ^ d2 : Int) : ℚ) := by
    by_contra hcon
    have := mul_le_mul_of_nonneg_right (not_lt.mp hcon) (le_of_lt hp)
    rw [← e1, ← e2] at this
    linarith
  have hlt2 : k1 * 2 ^ d1 + 1 ≤ k2 * 2 ^ d2 := by
    have : k1 * 2 ^ d1 < k2 * 2 ^ d2 := by exact_mod_cast hlt
    omega
  have hge : (2 : ℚ) ^ (-149 : Int) ≤ b - a := by
    have h3 : ((k1 * 2 ^ d1 : Int) : ℚ) + 1 ≤ ((k2 * 2 ^ d2 : Int) : ℚ) := by
      exact_mod_cast hlt2
    have := mul_le_mul_of_nonneg_right h3 (le_of_lt hp)
    rw [e1, e2]
    linarith
  have hfix : f32 ((2 : ℚ) ^ (-149 : Int)) = (2 : ℚ) ^ (-149 : Int) := by
    have := f32_grid 1 (-149) (by norm_num) (le_refl _)
    simpa using this
  have := f32_mono _ _ hge
  rw [hfix] at this
  linarith

set_option maxRecDepth 100000 in
/-- The constants 3 and 1/4 are binary32 numbers, and `1 + 2^-24` rounds to 1
(tie to even). -/
theorem f32_consts2 :
    f32 3 = 3 ∧ f32 (1 / 4) = 1 / 4 ∧ f32 (1 + 1 / 2 ^ 24) = 1 := by
  decide!

/-- The eased mix `t * t * (3 - 2 * t)` evaluated in binary32 arithmetic at a
binary32 number `t` in `[0, 1]` lies in `[0, 1]`. -/
theorem smooth32_unit (t : ℚ) (hf : f32 t = t) (h0 : 0 ≤ t) (h1 : t ≤ 1) :
    0 ≤ f32 (f32 (t * t) * f32 (3 - f32 (2 * t))) ∧
    f32 (f32 (t * t) * f32 (3 - f32 (2 * t))) ≤ 1 := by
  have ha0 : 0 ≤ f32 (t * t) := f32_nonneg _ (mul_nonneg h0 h0)
  have h2t : f32 (2 * t) ≤ 2 := by
    have := f32_mono (2 * t) 2 (by linarith)
    rw [f32_consts.2.2.1] at this
    exact this
  have hb1 : 1 ≤ f32 (3 - f32 (2 * t)) := by
    have := f32_mono 1 (3 - f32 (2 * t)) (by linarith)
    rw [f32_one] at this
    exact this
  refine ⟨f32_nonneg _ (mul_nonneg ha0 (by linarith)), ?_⟩
  by_cases hc : t ≤ 1 / 2
  · have ha : f32 (t * t) ≤ 1 / 4 := by
      have := f32_mono (t * t) (1 / 4) (by nlinarith)
      rw [f32_consts2.2.1] at this
      exact this
    have hb : f32 (3 - f32 (2 * t)) ≤ 3 := by
      have h3 : 0 ≤ f32 (2 * t) := f32_nonneg _ (by linarith)
      have := f32_mono (3 - f32 (2 * t)) 3 (by linarith)
      rw [f32_consts2.1] at this
      exact this
    have hprod : f32 (t * t) * f32 (3 - f32 (2 * t)) ≤ 1 := by nlinarith
    have := f32_mono _ _ hprod
    rw [f32_one] at this
    exact this
  · have hhalf : 1 / 2 ≤ t := le_of_lt (not_le.mp hc)
    obtain ⟨m, hm⟩ := f32_lattice t (-1) hf (by
      rw [abs_of_nonneg h0]
      norm_num
      linarith)
    have hp : (2 : ℚ) ^ ((-1 : Int) - 23) = 1 / 2 ^ 24 := by
      rw [show ((-1 : Int) - 23) = -(24 : Int) from rfl, zpow_neg]
      norm_num
    rw [hp] at hm
    have hmq1 : (2 : ℚ) ^ 23 ≤ (m : ℚ) := by
      have : (m : ℚ) = t * 2 ^ 24 := by rw [hm]; field_simp
      rw [this]
      nlinarith
    have hmq2 : (m : ℚ) ≤ (2 : ℚ) ^ 24 := by
      have : (m : ℚ) = t * 2 ^ 24 := by rw [hm]; field_simp
      rw [this]
      nlinarith
    have hm1 : (2 : Int) ^ 23 ≤ m := by exact_mod_cast hmq1
    have hm2 : m ≤ (2 : Int) ^ 24 := by exact_mod_cast hmq2
    have hp23 : (2 : ℚ) ^ (-23 : Int) = 1 / 2 ^ 23 := by
      rw [zpow_neg]
      norm_num
    have e2t : f32 (2 * t) = 2 * t := by
      have := f32_grid m (-23) (by rw [abs_of_nonneg (by omega)]; exact hm2) (by norm_num)
      rw [hp23] at this
      have e : 2 * t = (m : ℚ) * (1 / 2 ^ 23) := by rw [hm]; ring
      rw [e]
      exact this
    have e3 : f32 (3 - 2 * t) = 3 - 2 * t := by
      have := f32_grid (3 * 2 ^ 23 - m) (-23)
        (by rw [abs_of_nonneg (by omega)]; omega) (by norm_num)
      rw [hp23] at this
      have e : 3 - 2 * t = ((3 * 2 ^ 23 - m : Int) : ℚ) * (1 / 2 ^ 23) := by
        rw [hm]
        push_cast
        ring
      rw [e]
      exact this
    rw [e2t, e3]
    have haerr := abs_le.mp (f32_err_unit (t * t) (by
      rw [abs_of_nonneg (mul_nonneg h0 h0)]
      nlinarith))
    have hcube : t * t * (3 - 2 * t) ≤ 1 := by
      have : 1 - t * t * (3 - 2 * t) = (1 - t) * (1 - t) * (1 + 2 * t) := by ring
      have h5 : 0 ≤ (1 - t) * (1 - t) * (1 + 2 * t) :=
        mul_nonneg (mul_self_nonneg _) (by linarith)
      linarith
    have hprod : f32 (t * t) * (3 - 2 * t) ≤ 1 + 1 / 2 ^ 24 := by
      have h6 : f32 (t * t) * (3 - 2 * t) ≤ (t * t + 1 / 2 ^ 25) * (3 - 2 * t) :=
        mul_le_mul_of_nonneg_right (by linarith [haerr.2]) (by linarith)
      have h7 : (t * t + 1 / 2 ^ 25) * (3 - 2 * t)
          = t * t * (3 - 2 * t) + 1 / 2 ^ 25 * (3 - 2 * t) := by ring
      have h8 : (1 : ℚ) / 2 ^ 25 * (3 - 2 * t) ≤ 1 / 2 ^ 25 * 2 :=
        mul_le_mul_of_nonneg_left (by linarith) (by positivity)
      have h9 : (1 : ℚ) / 2 ^ 25 * 2 = 1 / 2 ^ 24 := by norm_num
      linarith
    have := f32_mono _ _ hprod
    rw [f32_consts2.2.2] at this
    exact this

/-- The binary search keeps the bracket `hcuts[lo] < hlimit <= hcuts[hi]` and
ends with adjacent indices. -/
theorem bsearch32_spec (hcuts : List Int) (hlimit : ℚ) :
    ∀ (n : Nat) (lo hi : Int), (hi - lo).toNat ≤ n → lo < hi →
      f32 ((hcutAt hcuts lo : Int) : ℚ) < hlimit →
      hlimit ≤ f32 ((hcutAt hcuts hi : Int) : ℚ) →
      lo ≤ (bsearch32 hcuts hlimit lo hi).1 ∧
      (bsearch32 hcuts hlimit lo hi).2 = (bsearch32 hcuts hlimit lo hi).1 + 1 ∧
      (bsearch32 hcuts hlimit lo hi).2 ≤ hi ∧
      f32 ((hcutAt hcuts (bsearch32 hcuts hlimit lo hi).1 : Int) : ℚ) < hlimit ∧
      hlimit ≤ f32 ((hcutAt hcuts (bsearch32 hcuts hlimit lo hi).2 : Int) : ℚ) := by
  intro n
  induction n with
  | zero =>
    intro lo hi hn hlt _ _
    exfalso; omega
  | succ n ih =>
    intro lo hi hn hlt h1 h2
    rw [bsearch32]
    by_cases hgap : hi - lo > 1
    · have hmid := shiftRight_one (lo + hi)
      simp only [if_pos hgap]
      by_cases hc : f32 ((hcutAt hcuts (Int.shiftRight (lo + hi) 1) : Int) : ℚ) < hlimit
      · rw [if_pos hc]
        obtain ⟨a, b, c, d, e⟩ := ih (Int.shiftRight (lo + hi) 1) hi
          (by omega) (by omega) hc h2
        exact ⟨by omega, b, c, d, e⟩
      · rw [if_neg hc]
        obtain ⟨a, b, c, d, e⟩ := ih lo (Int.shiftRight (lo + hi) 1)
          (by omega) (by omega) h1 (not_lt.mp hc)
        exact ⟨a, b, by omega, d, e⟩
    · rw [if_neg hgap]
      exact ⟨le_refl _, by simp only; omega, le_refl _, h1, h2⟩

/-- C6 (amended): `choose_tables_for_freq` in binary32 arithmetic. For a set
with as many cutoffs as tables and the computed `hlimit` strictly between the
lowest and the highest cutoff (as `float`s), it returns adjacent indices
`ib = ia + 1` with `(float)hcuts[ia] < hlimit <= (float)hcuts[ib]`; the
fractional position `t = fl(fl(hlimit - hLo) / fl(hHi - hLo))` has a non-zero
divisor and lies in `[0, 1]`; `mix = fl(fl(t*t) * fl(3 - fl(2*t)))` lies in
`[0, 1]`; and `mix = 1` whenever `hlimit` equals `(float)hcuts[ib]`. -/
theorem C6_interior_bracket (set : BLSet) (f0 sr : ℚ)
    (hlen : set.hcuts.length = set.tables.length)
    (hlo : f32 ((set.hcuts.headD 0 : Int) : ℚ) < hlimitOf32 set f0 sr)
    (hhi : hlimitOf32 set f0 sr < f32 ((set.hcuts.getLastD 0 : Int) : ℚ)) :
    ∃ ia ib : Int, ∃ t mix : ℚ,
      choose_tables_for_freq32 set f0 sr = (ia, ib, mix) ∧
      ib = ia + 1 ∧ 0 ≤ ia ∧ ib < (set.hcuts.length : Int) ∧
      f32 ((hcutAt set.hcuts ia : Int) : ℚ) < hlimitOf32 set f0 sr ∧
      hlimitOf32 set f0 sr ≤ f32 ((hcutAt set.hcuts ib : Int) : ℚ) ∧
      0 < f32 (f32 ((hcutAt set.hcuts ib : Int) : ℚ) - f32 ((hcutAt set.hcuts ia : Int) : ℚ)) ∧
      t = f32 (f32 (hlimitOf32 set f0 sr - f32 ((hcutAt set.hcuts ia : Int) : ℚ)) /
          f32 (f32 ((hcutAt set.hcuts ib : Int) : ℚ) - f32 ((hcutAt set.hcuts ia : Int) : ℚ))) ∧
      0 ≤ t ∧ t ≤ 1 ∧
      mix = f32 (f32 (t * t) * f32 (3 - f32 (2 * t))) ∧ 0 ≤ mix ∧ mix ≤ 1 ∧
      (hlimitOf32 set f0 sr = f32 ((hcutAt set.hcuts ib : Int) : ℚ) → mix = 1) := by
  have hcne : set.hcuts ≠ [] := by
    intro hnil
    rw [hnil] at hlo hhi
    simp only [List.headD_nil, List.getLastD_nil] at hlo hhi
    exact absurd (lt_trans hlo hhi) (lt_irrefl _)
  have hne : set.tables ≠ [] := by
    intro h
    apply hcne
    apply List.length_eq_zero.mp
    rw [hlen, h]
    rfl
  have he : set.tables.isEmpty = false := by
    cases ht : set.tables with
    | nil => exact absurd ht hne
    | cons a t => rfl
  have hpos : 0 < set.hcuts.length := List.length_pos.mpr hcne
  obtain ⟨hl, hhl⟩ : ∃ hl, hlimitOf32 set f0 sr = hl := ⟨_, rfl⟩
  rw [hhl] at hlo hhi ⊢
  have hfront : f32 ((hcutAt set.hcuts 0 : Int) : ℚ) < hl := by
    rw [hcutAt_zero]; exact hlo
  have hback : hl ≤ f32 ((hcutAt set.hcuts ((set.hcuts.length : Int) - 1) : Int) : ℚ) := by
    rw [hcutAt_last _ hcne]; exact le_of_lt hhi
  have hlt : (0 : Int) < (set.hcuts.length : Int) - 1 := by
    rcases Nat.eq_or_lt_of_le (Nat.succ_le_of_lt hpos) with h | h
    · exfalso
      have hidx : (set.hcuts.length : Int) - 1 = 0 := by omega
      rw [hidx] at hback
      exact absurd (lt_of_lt_of_le hfront hback) (lt_irrefl _)
    · omega
  obtain ⟨a, b, c, d, e⟩ := bsearch32_spec set.hcuts hl
    ((set.hcuts.length : Int) - 1).toNat 0 ((set.hcuts.length : Int) - 1)
    (by simp) hlt hfront hback
  generalize hr : bsearch32 set.hcuts hl 0 ((set.hcuts.length : Int) - 1) = r at a b c d e
  obtain ⟨hLo, hhLo⟩ : ∃ x, f32 ((hcutAt set.hcuts r.1 : Int) : ℚ) = x := ⟨_, rfl⟩
  obtain ⟨hHi, hhHi⟩ : ∃ x, f32 ((hcutAt set.hcuts r.2 : Int) : ℚ) = x := ⟨_, rfl⟩
  rw [hhLo] at d
  rw [hhHi] at e
  have fLo : f32 hLo = hLo := by rw [← hhLo, f32_idem]
  have fHi : f32 hHi = hHi := by rw [← hhHi, f32_idem]
  have hden : 0 < f32 (hHi - hLo) := f32_sub_pos hLo hHi fLo fHi (lt_of_lt_of_le d e)
  have hnum0 : 0 ≤ f32 (hl - hLo) := f32_nonneg _ (by linarith)
  have hnum1 : f32 (hl - hLo) ≤ f32 (hHi - hLo) := f32_mono _ _ (by linarith)
  have hq0 : 0 ≤ f32 (hl - hLo) / f32 (hHi - hLo) := div_nonneg hnum0 (le_of_lt hden)
  have hq1 : f32 (hl - hLo) / f32 (hHi - hLo) ≤ 1 := (div_le_one hden).mpr hnum1
  obtain ⟨t, ht⟩ : ∃ t, f32 (f32 (hl - hLo) / f32 (hHi - hLo)) = t := ⟨_, rfl⟩
  have ht0 : 0 ≤ t := by
    rw [← ht]
    exact f32_nonneg _ hq0
  have ht1 : t ≤ 1 := by
    have := f32_mono _ _ hq1
    rw [f32_one, ht] at this
    exact this
  have htf : f32 t = t := by rw [← ht, f32_idem]
  obtain ⟨m0, m1⟩ := smooth32_unit t htf ht0 ht1
  have hchoose : choose_tables_for_freq32 set f0 sr
      = (r.1, r.2, f32 (f32 (t * t) * f32 (3 - f32 (2 * t)))) := by
    unfold choose_tables_for_freq32
    simp only [he, Bool.false_eq_true, if_false]
    rw [hhl, if_neg (not_le.mpr hlo), if_neg (not_le.mpr hhi)]
    simp only [hr, hhLo, hhHi, ht]
    rw [if_neg (not_lt.mpr ht0), if_neg (not_lt.mpr ht1)]
  refine ⟨r.1, r.2, t, _, hchoose, b, a, by omega, ?_, ?_, ?_, ?_, ht0, ht1, rfl, m0, m1, ?_⟩
  · rw [hhLo]; exact d
  · rw [hhHi]; exact e
  · rw [hhLo, hhHi]; exact hden
  · rw [hhLo, hhHi, ht]
  · rw [hhHi]
    intro heq
    have h1 : t = 1 := by
      rw [← ht, heq, div_self (ne_of_gt hden), f32_one]
    rw [h1]
    have : f32 (f32 ((1 : ℚ) * 1) * f32 (3 - f32 (2 * 1))) = 1 := by
      norm_num
      rw [f32_consts.2.2.1]
      norm_num
      rw [f32_one]
      norm_num
      exact f32_one
    exact this

set_option maxRecDepth 100000 in
/-- C6 (counterexample): with the cutoffs `2, 4, ..., 256`, `f0 = 187.506f` and
a sample rate of 48 kHz, `hlimit = 16776679 / 131072` lies strictly below the
upper cutoff 128 of its bracket, and the mix computed in binary32 arithmetic
is nevertheless exactly 1. -/
theorem C6_interior_bracket_counterexample :
    hlimitOf32 octaveSet (12288393 / 65536) 48000 = 16776679 / 131072 ∧
    choose_tables_for_freq32 octaveSet (12288393 / 65536) 48000 = (5, 6, 1) ∧
    hlimitOf32 octaveSet (12288393 / 65536) 48000 < ((hcutAt octaveSet.hcuts 6 : Int) : ℚ) ∧
    f32 ((hcutAt octaveSet.hcuts 6 : Int) : ℚ) = 128 := by
  decide!

set_option maxRecDepth 100000 in
/-- For the cutoffs `2, 4, ..., 256`, 1000 Hz and 48 kHz, `hlimit` lies
strictly between the lowest and the highest cutoff. -/
theorem octave_probe32 :
    f32 ((octaveSet.hcuts.headD 0 : Int) : ℚ) < hlimitOf32 octaveSet 1000 48000 ∧
    hlimitOf32 octaveSet 1000 48000 < f32 ((octaveSet.hcuts.getLastD 0 : Int) : ℚ) := by
  decide!

/-- Witness for C6 (amended): the cutoffs `2, 4, ..., 256` at `f0 = 1000` Hz
and 48 kHz (`hlimit = 24`). -/
theorem C6_interior_bracket_witness :
    ∃ ia ib : Int, ∃ t mix : ℚ,
      choose_tables_for_freq32 octaveSet 1000 48000 = (ia, ib, mix) ∧
      ib = ia + 1 ∧ 0 ≤ ia ∧ ib < (octaveSet.hcuts.length : Int) ∧
      f32 ((hcutAt octaveSet.hcuts ia : Int) : ℚ) < hlimitOf32 octaveSet 1000 48000 ∧
      hlimitOf32 octaveSet 1000 48000 ≤ f32 ((hcutAt octaveSet.hcuts ib : Int) : ℚ) ∧
      0 < f32 (f32 ((hcutAt octaveSet.hcuts ib : Int) : ℚ)
        - f32 ((hcutAt octaveSet.hcuts ia : Int) : ℚ)) ∧
      t = f32 (f32 (hlimitOf32 octaveSet 1000 48000 - f32 ((hcutAt octaveSet.hcuts ia : Int) : ℚ)) /
          f32 (f32 ((hcutAt octaveSet.hcuts ib : Int) : ℚ)
            - f32 ((hcutAt octaveSet.hcuts ia : Int) : ℚ))) ∧
      0 ≤ t ∧ t ≤ 1 ∧
      mix = f32 (f32 (t * t) * f32 (3 - f32 (2 * t))) ∧ 0 ≤ mix ∧ mix ≤ 1 ∧
      (hlimitOf32 octaveSet 1000 48000 = f32 ((hcutAt octaveSet.hcuts ib : Int) : ℚ) → mix = 1) :=
  C6_interior_bracket octaveSet 1000 48000 rfl octave_probe32.1 octave_probe32.2

/-! ## Noise stage in binary32 arithmetic -/

/-- Integers of magnitude at most `2^24` are binary32 numbers. -/
theorem f32_int (k : Int) (hk : |k| ≤ 2 ^ 24) : f32 (k : ℚ) = (k : ℚ) := by
  have := f32_grid k 0 hk (by norm_num)
  rw [zpow_zero, mul_one] at this
  exact this

/-- The frequency of the note `69 + 12 * k` in binary32 arithmetic is
`440 * 2^k` when `pow(2, k)` is exact. -/
theorem midi_to_freq32_octave (m : Libm) (k : Int) (h1 : -100 ≤ k) (h2 : k ≤ 100)
    (hp : m.pow 2 (k : ℚ) = (2 : ℚ) ^ k) :
    midi_to_freq32 m (69 + 12 * k) = 440 * (2 : ℚ) ^ k := by
  unfold midi_to_freq32
  have e1 : ((69 + 12 * k - 69 : Int) : ℚ) = ((12 * k : Int) : ℚ) := by
    congr 1
    ring
  have e2 : f32 ((12 * k : Int) : ℚ) = ((12 * k : Int) : ℚ) :=
    f32_int _ (by rw [abs_le]; constructor <;> omega)
  have e3 : ((12 * k : Int) : ℚ) / 12 = (k : ℚ) := by
    push_cast
    ring
  have e4 : f32 (k : ℚ) = (k : ℚ) := f32_int _ (by rw [abs_le]; constructor <;> omega)
  have e5 : f32 ((2 : ℚ) ^ k) = (2 : ℚ) ^ k := by
    have := f32_grid 1 k (by norm_num) (by omega)
    simpa using this
  have e6 : f32 (440 * (2 : ℚ) ^ k) = 440 * (2 : ℚ) ^ k := by
    have := f32_grid 440 k (by norm_num) (by omega)
    simpa using this
  rw [e1, e2, e3, e4, hp, e5, e6]

/-- C26 (amended): `Voice::noteOn(note, vel)` in binary32 arithmetic sets the
base frequency to `fl(440 * pow(2, fl((note - 69) / 12)))`, which is exactly
440 for note 69 when `pow(2, 0) = 1` and exactly `440 * 2^k` for the note
`69 + 12 * k` (`-100 <= k <= 100`) when `pow(2, k) = 2^k`; the base increment
to `fl(fl(len * freq) / sampleRate)`; the phase to 0; the velocity gain to
`fl(clamp(vel,0,127) / 127)`, a value in `[0,1]`; the envelope state to
Attack; the active flag to true; and it zeroes the decimator delay line and
its write index. -/
theorem C26_voice_noteOn (m : Libm) (v : Voice) (note vel : Int)
    (hp0 : m.pow 2 0 = 1) :
    (v.noteOn32 m note vel).baseFreq_
      = f32 (440 * f32 (m.pow 2 (f32 (f32 ((note - 69 : Int) : ℚ) / 12)))) ∧
    (v.noteOn32 m 69 vel).baseFreq_ = 440 ∧
    (∀ k : Int, -100 ≤ k → k ≤ 100 → m.pow 2 (k : ℚ) = (2 : ℚ) ^ k →
      (v.noteOn32 m (69 + 12 * k) vel).baseFreq_ = 440 * (2 : ℚ) ^ k) ∧
    (v.noteOn32 m note vel).baseInc_
      = f32 (f32 (f32 (v.len_ : ℚ) * (v.noteOn32 m note vel).baseFreq_) / v.sr_) ∧
    (v.noteOn32 m note vel).len_ = v.len_ ∧ (v.noteOn32 m note vel).sr_ = v.sr_ ∧
    (v.noteOn32 m note vel).phase_ = 0 ∧
    (v.noteOn32 m note vel).velocity_ = f32 (f32 ((max 0 (min 127 vel) : Int) : ℚ) / 127) ∧
    0 ≤ (v.noteOn32 m note vel).velocity_ ∧ (v.noteOn32 m note vel).velocity_ ≤ 1 ∧
    (v.noteOn32 m note vel).env_.state_ = ADSR.State.Attack ∧
    (v.noteOn32 m note vel).active_ = true ∧
    (v.noteOn32 m note vel).decim_.idx = 0 ∧
    (v.noteOn32 m note vel).decim_.z = List.replicate v.decim_.z.length 0 := by
  have hvel : (v.noteOn32 m note vel).velocity_
      = f32 (f32 ((max 0 (min 127 vel) : Int) : ℚ) / 127) := rfl
  have hc0 : (0 : Int) ≤ max 0 (min 127 vel) := le_max_left 0 (min 127 vel)
  have hc1 : max 0 (min 127 vel) ≤ (127 : Int) := by omega
  have hcf : f32 ((max 0 (min 127 vel) : Int) : ℚ) = ((max 0 (min 127 vel) : Int) : ℚ) :=
    f32_int _ (by rw [abs_le]; constructor <;> omega)
  have hv0 : (0 : ℚ) ≤ ((max 0 (min 127 vel) : Int) : ℚ) := by exact_mod_cast hc0
  have hv1 : ((max 0 (min 127 vel) : Int) : ℚ) ≤ 127 := by exact_mod_cast hc1
  refine ⟨rfl, ?_, ?_, rfl, rfl, rfl, rfl, hvel, ?_, ?_, rfl, rfl, rfl, ?_⟩
  · have := midi_to_freq32_octave m 0 (by norm_num) (by norm_num) (by
      rw [zpow_zero]
      exact_mod_cast hp0)
    rw [zpow_zero, mul_one] at this
    exact this
  · intro k h1 h2 hp
    exact midi_to_freq32_octave m k h1 h2 hp
  · rw [hvel]
    exact f32_nonneg _ (div_nonneg (by rw [hcf]; exact hv0) (by norm_num))
  · rw [hvel, hcf]
    have : ((max 0 (min 127 vel) : Int) : ℚ) / 127 ≤ 1 := by
      rw [div_le_one (by norm_num)]
      exact hv1
    have := f32_mono _ _ this
    rw [f32_one] at this
    exact this
  · show v.decim_.z.map (fun _ => (0 : ℚ)) = List.replicate v.decim_.z.length 0
    simp

set_option maxRecDepth 100000 in
/-- C26 (counterexample): the exponents `fl((22 - 69) / 12)` and
`fl((10 - 69) / 12)` of notes 22 and 10 are not 1 apart, and with the
fixed-point stand-in for `std::pow` rounded to binary32 the base frequency of
note 22 is `15275253 / 524288` while twice that of note 10 is
`15275257 / 524288`. -/
theorem C26_voice_noteOn_counterexample :
    f32 (f32 ((22 - 69 : Int) : ℚ) / 12) ≠ f32 (f32 ((10 - 69 : Int) : ℚ) / 12) + 1 ∧
    (({} : Voice).noteOn32 fxLibm 10 100).baseFreq_ = 15275257 / 1048576 ∧
    (({} : Voice).noteOn32 fxLibm (10 + 12) 100).baseFreq_ = 15275253 / 524288 ∧
    (({} : Voice).noteOn32 fxLibm (10 + 12) 100).baseFreq_
      ≠ 2 * (({} : Voice).noteOn32 fxLibm 10 100).baseFreq_ := by
  decide!

set_option maxRecDepth 100000 in
/-- The fixed-point stand-in gives `pow(2, 0) = 1`. -/
theorem fxPow_zero : fxLibm.pow 2 0 = 1 := by
  decide!

/-- Witness for C26 (amended): note 81 with velocity 200 on a
default-constructed voice under the fixed-point stand-in. -/
theorem C26_voice_noteOn_witness :
    (({} : Voice).noteOn32 fxLibm 69 200).baseFreq_ = 440 ∧
    (({} : Voice).noteOn32 fxLibm 81 200).velocity_ ≤ 1 ∧
    (({} : Voice).noteOn32 fxLibm 81 200).env_.state_ = ADSR.State.Attack :=
  ⟨(C26_voice_noteOn fxLibm {} 81 200 fxPow_zero).2.1,
   (C26_voice_noteOn fxLibm {} 81 200 fxPow_zero).2.2.2.2.2.2.2.2.2.1,
   (C26_voice_noteOn fxLibm {} 81 200 fxPow_zero).2.2.2.2.2.2.2.2.2.2.1⟩

/-! ## Rendering with checked integer division -/

/-- With a non-zero effective length the checked index computation returns
the index of `Voice.idx0`. -/
theorem Voice.idx0?_eq (v : Voice) (h : v.len_ ≠ 0) : v.idx0? = some v.idx0 := by
  unfold Voice.idx0? Voice.idx0
  simp only [if_neg h]

/-- With a non-zero effective length the checked `render` returns the result
of `Voice.render`, which keeps the length. -/
theorem Voice.render?_eq (v : Voice) (pr : ℚ) (h : v.len_ ≠ 0) :
    v.render? pr = some (v.render pr) ∧ (v.render pr).1.len_ = v.len_ := by
  unfold Voice.render? Voice.render
  cases ht : v.table_ with
  | none => exact ⟨rfl, rfl⟩
  | some table =>
    simp only
    by_cases ha : (!v.active_) = true
    · simp only [ha, if_true]
      exact ⟨trivial, trivial⟩
    · simp only [ha, Bool.false_eq_true, if_false]
      by_cases hc : (!({ v with env_ := v.env_.process.1 } : Voice).env_.isActive) = true
          ∧ v.env_.process.2 ≤ 0
      · rw [if_pos hc, if_pos hc]
        exact ⟨rfl, rfl⟩
      · rw [if_neg hc, if_neg hc]
        rw [Voice.idx0?_eq _ (by exact h)]
        exact ⟨rfl, rfl⟩

/-- With a non-zero effective length the checked two-table read returns the
result of `Voice.sampleFromTwoTables`. -/
theorem Voice.sampleFromTwoTables?_eq (v : Voice) (tA tB : Option Table) (mix : ℚ)
    (h : v.len_ ≠ 0) :
    v.sampleFromTwoTables? tA tB mix = some (v.sampleFromTwoTables tA tB mix) := by
  unfold Voice.sampleFromTwoTables? Voice.sampleFromTwoTables
  rw [Voice.idx0?_eq v h]

/-- With a non-zero effective length the checked `renderFromTwoTables`
returns the result of `Voice.renderFromTwoTables`, which keeps the length. -/
theorem Voice.renderFromTwoTables?_eq (v : Voice) (tA tB : Option Table) (mix pr : ℚ)
    (h : v.len_ ≠ 0) :
    v.renderFromTwoTables? tA tB mix pr = some (v.renderFromTwoTables tA tB mix pr) ∧
    (v.renderFromTwoTables tA tB mix pr).1.len_ = v.len_ := by
  unfold Voice.renderFromTwoTables? Voice.renderFromTwoTables
  by_cases ha : (tA.isNone ∧ tB.isNone) ∨ (!v.active_) = true
  · rw [if_pos ha, if_pos ha]
    exact ⟨rfl, rfl⟩
  · rw [if_neg ha, if_neg ha]
    simp only
    by_cases hc : (!({ v with env_ := v.env_.process.1 } : Voice).env_.isActive) = true
        ∧ v.env_.process.2 ≤ 0
    · rw [if_pos hc, if_pos hc]
      exact ⟨rfl, rfl⟩
    · rw [if_neg hc, if_neg hc]
      rw [Voice.sampleFromTwoTables?_eq _ _ _ _ (by exact h)]
      exact ⟨rfl, rfl⟩

/-- With a non-zero effective length the checked oversampling loop returns
the result of `Voice.oversample`, which keeps the length. -/
theorem Voice.oversample?_eq (tA tB : Option Table) (mix pr invOS : ℚ) :
    ∀ (k : Nat) (v : Voice), v.len_ ≠ 0 →
      v.oversample? tA tB mix pr invOS k = some (v.oversample tA tB mix pr invOS k) ∧
      (v.oversample tA tB mix pr invOS k).len_ = v.len_ := by
  intro k
  induction k with
  | zero =>
    intro v _
    exact ⟨rfl, rfl⟩
  | succ k ih =>
    intro v h
    simp only [Voice.oversample?, Voice.oversample]
    rw [Voice.sampleFromTwoTables?_eq v tA tB mix h]
    simp only
    exact ih _ (by exact h)

/-- The envelope step at the start of a frame keeps the effective length. -/
theorem Voice.beginFrame_len (v : Voice) : v.beginFrame.1.len_ = v.len_ := by
  unfold Voice.beginFrame
  by_cases ha : (!v.active_) = true
  · rw [if_pos ha]
  · rw [if_neg ha]
    simp only
    split_ifs <;> rfl

/-- With a non-zero effective length the checked per-voice body returns the
result of `Synth.renderBandlimited`, which keeps the length. -/
theorem Synth.renderBandlimited?_eq (m : Libm) (s : Synth) (pr guard : ℚ) (v : Voice)
    (acc : ℚ) (h : v.len_ ≠ 0) :
    s.renderBandlimited? m pr guard v acc = some (s.renderBandlimited m pr guard v acc) ∧
    (s.renderBandlimited m pr guard v acc).1.len_ = v.len_ := by
  unfold Synth.renderBandlimited? Synth.renderBandlimited
  simp only
  obtain ⟨c, hc⟩ : ∃ c, choose_tables_for_freq s.blset_ (v.baseFreq_ * pr * guard) s.sr_ = c :=
    ⟨_, rfl⟩
  rw [hc]
  obtain ⟨os, hos⟩ : ∃ os, s.chooseOS (v.baseFreq_ * pr * guard) c.2.1 = os := ⟨_, rfl⟩
  rw [hos]
  generalize (if c.1 ≥ 0 then s.blset_.tables.get? c.1.toNat else none) = tA
  generalize (if c.2.1 ≥ 0 then s.blset_.tables.get? c.2.1.toNat else tA) = tB
  have hb : ∀ w : Voice, w.len_ = v.beginFrame.1.len_ → w.len_ ≠ 0 := by
    intro w hw
    rw [hw, Voice.beginFrame_len]
    exact h
  by_cases h1 : os ≤ 1
  · rw [if_pos h1, if_pos h1]
    rw [(Voice.renderFromTwoTables?_eq v tA tB c.2.2 pr h).1]
    exact ⟨rfl, (Voice.renderFromTwoTables?_eq v tA tB c.2.2 pr h).2⟩
  · rw [if_neg h1, if_neg h1]
    by_cases h2 : (!v.beginFrame.2.1) = true
    · rw [if_pos h2, if_pos h2]
      exact ⟨rfl, Voice.beginFrame_len v⟩
    · rw [if_neg h2, if_neg h2]
      have key := Voice.oversample?_eq tA tB c.2.2 pr (1 / (os : ℚ)) os.toNat
        { v.beginFrame.1 with decim_ := DecimFIR.configure m v.beginFrame.1.decim_ os }
        (hb _ rfl)
      dsimp only at key
      rw [key.1]
      refine ⟨rfl, ?_⟩
      exact key.2.trans (Voice.beginFrame_len v)

/-- With non-zero effective lengths the checked voice loop returns the result
of `forActiveVoices`, and the lengths stay non-zero. -/
theorem forActiveVoices?_eq (body? : Voice → ℚ → Option (Voice × ℚ))
    (body : Voice → ℚ → Voice × ℚ)
    (hbody : ∀ (v : Voice) (acc : ℚ), v.len_ ≠ 0 →
      body? v acc = some (body v acc) ∧ (body v acc).1.len_ = v.len_) :
    ∀ (vs : List Voice) (acc : ℚ), (∀ v ∈ vs, v.len_ ≠ 0) →
      forActiveVoices? body? vs acc = some (forActiveVoices body vs acc) ∧
      (∀ v ∈ (forActiveVoices body vs acc).1, v.len_ ≠ 0) := by
  intro vs
  induction vs with
  | nil =>
    intro acc _
    refine ⟨rfl, ?_⟩
    intro v hv
    simp [forActiveVoices] at hv
  | cons v vs ih =>
    intro acc h
    have hv : v.len_ ≠ 0 := h v (List.mem_cons_self _ _)
    have hvs : ∀ w ∈ vs, w.len_ ≠ 0 := fun w hw => h w (List.mem_cons_of_mem _ hw)
    simp only [forActiveVoices?, forActiveVoices]
    by_cases ha : v.active_ = true
    · rw [if_pos ha, if_pos ha]
      obtain ⟨b1, b2⟩ := hbody v acc hv
      obtain ⟨r1, r2⟩ := ih (body v acc).2 hvs
      rw [b1]
      simp only
      rw [r1]
      refine ⟨rfl, ?_⟩
      intro w hw
      simp only [List.mem_cons] at hw
      rcases hw with hw | hw
      · rw [hw, b2]
        exact hv
      · exact r2 w hw
    · rw [if_neg ha, if_neg ha]
      obtain ⟨r1, r2⟩ := ih acc hvs
      rw [r1]
      refine ⟨rfl, ?_⟩
      intro w hw
      simp only [List.mem_cons] at hw
      rcases hw with hw | hw
      · rw [hw]
        exact hv
      · exact r2 w hw

/-- With non-zero effective lengths the checked frame returns the result of
`Synth.tick`, and the lengths stay non-zero. -/
theorem Synth.tick?_eq (m : Libm) (s : Synth) (lfoInc d comp : ℚ)
    (h : ∀ v ∈ s.voices_, v.len_ ≠ 0) :
    s.tick? m lfoInc d comp = some (s.tick m lfoInc d comp) ∧
    (∀ v ∈ (s.tick m lfoInc d comp).1.voices_, v.len_ ≠ 0) := by
  unfold Synth.tick? Synth.tick
  simp only
  by_cases hq : s.params_.blQuality ≤ 0
  · rw [if_pos hq, if_pos hq]
    obtain ⟨a, b⟩ := forActiveVoices?_eq
      (fun v acc =>
        match v.render? (m.exp2 ((s.pitchBendSemis_ + s.detuneSemis_
            + s.vibratoDepthSemis_ * m.sin s.vibratoPhase_) * (1 / 12))) with
        | none => none
        | some r => some (r.1, acc + r.2))
      (fun v acc => ((v.render (m.exp2 ((s.pitchBendSemis_ + s.detuneSemis_
            + s.vibratoDepthSemis_ * m.sin s.vibratoPhase_) * (1 / 12)))).1,
          acc + (v.render (m.exp2 ((s.pitchBendSemis_ + s.detuneSemis_
            + s.vibratoDepthSemis_ * m.sin s.vibratoPhase_) * (1 / 12)))).2))
      (by
        intro v acc hv
        obtain ⟨p, q⟩ := Voice.render?_eq v (m.exp2 ((s.pitchBendSemis_ + s.detuneSemis_
            + s.vibratoDepthSemis_ * m.sin s.vibratoPhase_) * (1 / 12))) hv
        simp only [p]
        exact ⟨trivial, q⟩)
      s.voices_ 0 h
    rw [a]
    exact ⟨rfl, b⟩
  · rw [if_neg hq, if_neg hq]
    obtain ⟨a, b⟩ := forActiveVoices?_eq
      (s.renderBandlimited? m (m.exp2 ((s.pitchBendSemis_ + s.detuneSemis_
            + s.vibratoDepthSemis_ * m.sin s.vibratoPhase_) * (1 / 12)))
        (m.exp2 (s.vibratoDepthSemis_ * (1 / 12)) * (105 / 100)))
      (s.renderBandlimited m (m.exp2 ((s.pitchBendSemis_ + s.detuneSemis_
            + s.vibratoDepthSemis_ * m.sin s.vibratoPhase_) * (1 / 12)))
        (m.exp2 (s.vibratoDepthSemis_ * (1 / 12)) * (105 / 100)))
      (fun v acc hv => Synth.renderBandlimited?_eq m s _ _ v acc hv)
      s.voices_ 0 h
    rw [a]
    exact ⟨rfl, b⟩

/-- With non-zero effective lengths the checked sample loop returns the
result of `Synth.sampleLoop`. -/
theorem Synth.sampleLoop?_eq (m : Libm) (lfoInc d comp : ℚ) :
    ∀ (k n : Nat) (s : Synth) (outL outR : List ℚ), (∀ v ∈ s.voices_, v.len_ ≠ 0) →
      Synth.sampleLoop? m lfoInc d comp k n s outL outR
        = some (Synth.sampleLoop m lfoInc d comp k n s outL outR) := by
  intro k
  induction k with
  | zero =>
    intro n s outL outR _
    rfl
  | succ k ih =>
    intro n s outL outR h
    obtain ⟨a, b⟩ := Synth.tick?_eq m s lfoInc d comp h
    simp only [Synth.sampleLoop?, Synth.sampleLoop]
    rw [a]
    simp only
    exact ih _ _ _ _ b

/-- With no voice of effective length 0 the checked `process` never divides by
zero and agrees with `process`. -/
theorem Synth.process?_eq (m : Libm) (s : Synth) (outL outR : List ℚ) (frames : Int)
    (h : ∀ v ∈ s.voices_, v.len_ ≠ 0) :
    s.process? m outL outR frames = some (s.process m outL outR frames) := by
  unfold Synth.process? Synth.process
  exact Synth.sampleLoop?_eq m _ _ _ _ _ _ _ _ h

/-- C17 (amended): for every Synth state in which no voice has effective table
length 0, and `frames >= 0` (buffers holding at least `frames` samples),
`process(outL, outR, frames)` completes without dividing by zero and writes
exactly the indices `0..frames-1` of both buffers, the same block of `frames`
samples to both, so `outL[n] = outR[n]` for every `n < frames`, and leaves
every index from `frames` on unchanged. -/
theorem C17_process_writes_both_channels (m : Libm) (s : Synth) (outL outR : List ℚ)
    (frames : Int) (_h0 : 0 ≤ frames) (hL : frames.toNat ≤ outL.length)
    (hR : frames.toNat ≤ outR.length) (hlen : ∀ v ∈ s.voices_, v.len_ ≠ 0) :
    ∃ r : Synth × List ℚ × List ℚ, s.process? m outL outR frames = some r ∧
      ∃ ys : List ℚ, ys.length = frames.toNat ∧
        r.2.1 = ys ++ outL.drop frames.toNat ∧
        r.2.2 = ys ++ outR.drop frames.toNat ∧
        (∀ n : Nat, (n : Int) < frames → r.2.1.getD n 0 = r.2.2.getD n 0) ∧
        (∀ n : Nat, frames ≤ (n : Int) →
          r.2.1.getD n 0 = outL.getD n 0 ∧ r.2.2.getD n 0 = outR.getD n 0) := by
  refine ⟨s.process m outL outR frames, Synth.process?_eq m s outL outR frames hlen, ?_⟩
  have hlen2 := Synth.block_length m s.lfoInc s.noiseRatio s.noiseComp frames.toNat s
  refine ⟨(Synth.block m s.lfoInc s.noiseRatio s.noiseComp frames.toNat s).2, hlen2, ?_, ?_, ?_, ?_⟩
  · rw [Synth.process_eq_block m s outL outR frames hL hR]
  · rw [Synth.process_eq_block m s outL outR frames hL hR]
  · intro n hn
    rw [Synth.process_eq_block m s outL outR frames hL hR]
    simp only
    rw [List.getD_append _ _ _ _ (by omega), List.getD_append _ _ _ _ (by omega)]
  · intro n hn
    rw [Synth.process_eq_block m s outL outR frames hL hR]
    simp only
    have hge : (Synth.block m s.lfoInc s.noiseRatio s.noiseComp frames.toNat s).2.length ≤ n := by
      omega
    rw [List.getD_append_right _ _ _ _ hge, List.getD_append_right _ _ _ _ hge, hlen2]
    simp only [List.getD_eq_getElem?_getD, List.getElem?_drop]
    have hidx : frames.toNat + (n - frames.toNat) = n := by omega
    rw [hidx]
    exact ⟨rfl, rfl⟩

set_option maxRecDepth 100000 in
/-- C17 (counterexample): after `setup(48000)`, `setParams` with `tableLen = 0`
(which succeeds) and `noteOn(60, 100)`, every voice has effective length 0,
voice 0 is active with a table, and `process` on one frame reaches the
division `kTableSize / len_` with `len_ = 0`: the checked call has no
result. -/
theorem C17_process_writes_both_channels_counterexample :
    (Synth.setParams refLibm 0 ((Synth.fresh refLibm).setup 48000) { tableLen := 0 }).isSome
      = true ∧
    (∀ v ∈ zeroLenSynth.voices_, v.len_ = 0) ∧
    (zeroLenSynth.voices_.getD 0 {}).active_ = true ∧
    (zeroLenSynth.voices_.getD 0 {}).table_.isSome = true ∧
    (zeroLenSynth.process? refLibm [0] [0] 1).isNone = true := by
  decide!

/-- Witness for C17 (amended): 4 frames on a freshly constructed engine (all
voices at the default length 512), buffers of 6 samples. -/
theorem C17_process_writes_both_channels_witness :
    ((0 : Int) ≤ 4 ∧ (4 : Int).toNat ≤ (List.replicate 6 (7 : ℚ)).length ∧
      (4 : Int).toNat ≤ (List.replicate 6 (9 : ℚ)).length ∧
      ∀ v ∈ (Synth.fresh refLibm).voices_, v.len_ ≠ 0) ∧
    ∃ r : Synth × List ℚ × List ℚ,
      (Synth.fresh refLibm).process? refLibm (List.replicate 6 7) (List.replicate 6 9) 4
        = some r ∧
      ∃ ys : List ℚ, ys.length = (4 : Int).toNat ∧
        r.2.1 = ys ++ (List.replicate 6 (7 : ℚ)).drop (4 : Int).toNat ∧
        r.2.2 = ys ++ (List.replicate 6 (9 : ℚ)).drop (4 : Int).toNat ∧
        (∀ n : Nat, (n : Int) < 4 → r.2.1.getD n 0 = r.2.2.getD n 0) ∧
        (∀ n : Nat, (4 : Int) ≤ (n : Int) →
          r.2.1.getD n 0 = (List.replicate 6 (7 : ℚ)).getD n 0 ∧
          r.2.2.getD n 0 = (List.replicate 6 (9 : ℚ)).getD n 0) :=
  ⟨⟨by decide, by decide, by decide, by
      intro v hv
      rw [List.eq_of_mem_replicate hv]
      decide⟩,
   C17_process_writes_both_channels refLibm (Synth.fresh refLibm) (List.replicate 6 7)
    (List.replicate 6 9) 4 (by decide) (by decide) (by decide) (by
      intro v hv
      rw [List.eq_of_mem_replicate hv]
      decide)⟩

/-! ## FIR decimator in binary32 arithmetic -/

/-- Reading a table whose samples were all multiplied by `c`. -/
theorem getD_map_mul (t : Table) (c : ℚ) (n : Nat) :
    (t.map (fun v => v * c)).getD n 0 = t.getD n 0 * c := by
  rw [List.getD_eq_getElem?_getD, List.getD_eq_getElem?_getD, List.getElem?_map]
  cases t[n]? with
  | none => simp
  | some v => rfl

/-- The accumulation loop of the forward DFT is linear in the table: with every
sample multiplied by `c` the accumulator is multiplied by `c`. -/
theorem forwardDFT_loop_scale (cs sn : Nat → ℚ) (t : Table) (c : ℚ) :
    ∀ (l : List Nat) (a : Cplx),
      l.foldl (fun (acc : Cplx) (n : Nat) =>
        (acc.1 + cs n * (t.map (fun v => v * c)).getD n 0,
         acc.2 + sn n * (t.map (fun v => v * c)).getD n 0)) (a.1 * c, a.2 * c)
      = ((l.foldl (fun (acc : Cplx) (n : Nat) =>
            (acc.1 + cs n * t.getD n 0, acc.2 + sn n * t.getD n 0)) a).1 * c,
         (l.foldl (fun (acc : Cplx) (n : Nat) =>
            (acc.1 + cs n * t.getD n 0, acc.2 + sn n * t.getD n 0)) a).2 * c) := by
  intro l
  induction l with
  | nil => intro a; rfl
  | cons n l ih =>
    intro a
    simp only [List.foldl_cons]
    rw [← ih (a.1 + cs n * t.getD n 0, a.2 + sn n * t.getD n 0), getD_map_mul]
    have h1 : a.1 * c + cs n * (t.getD n 0 * c) = (a.1 + cs n * t.getD n 0) * c := by ring
    have h2 : a.2 * c + sn n * (t.getD n 0 * c) = (a.2 + sn n * t.getD n 0) * c := by ring
    rw [h1, h2]

/-- Bin `k` of the forward DFT of a table whose samples were all multiplied by
`c` is `c` times the bin of the table. -/
theorem forwardDFT_scale (m : Libm) (t : Table) (c : ℚ) (k : Nat) (hk : k < 512) :
    (forwardDFT m (t.map (fun v => v * c))).getD k (0, 0) =
      (((forwardDFT m t).getD k (0, 0)).1 * c, ((forwardDFT m t).getD k (0, 0)).2 * c) := by
  unfold forwardDFT
  simp only
  rw [List.getD_eq_getElem?_getD, List.getD_eq_getElem?_getD, List.getElem?_map,
    List.getElem?_map, List.getElem?_range (by exact hk)]
  simp only [Option.map_some', Option.getD_some]
  have h := forwardDFT_loop_scale
    (fun n => m.cos (-(2 * piLit / (kTableSize : ℚ)) * ((k * n : Nat) : ℚ)))
    (fun n => m.sin (-(2 * piLit / (kTableSize : ℚ)) * ((k * n : Nat) : ℚ)))
    t c (List.range kTableSize) (0, 0)
  simp only [zero_mul] at h
  exact h

/-- The table `softSquare` is the square wave times 3/8. -/
theorem softSquare_eq : softSquare = squareWave.map (fun v => v * (3 / 8)) := by
  unfold softSquare squareWave
  rw [List.map_append, List.map_replicate, List.map_replicate]
  norm_num

/-- The table `twoBinTable` is linear in its two bins. -/
theorem twoBinTable_scale (m : Libm) (y1 y511 : Cplx) (c : ℚ) :
    twoBinTable m (y1.1 * c, y1.2 * c) (y511.1 * c, y511.2 * c) =
      (twoBinTable m y1 y511).map (fun v => v * c) := by
  unfold twoBinTable
  rw [List.map_map]
  apply List.map_congr_left
  intro n _
  simp only [Function.comp]
  ring

/-- The first table (`H = 2`) that `build_bandlimited_set` filters from
`softSquare` under the fixed-point library, before the gain: 3/8 times that of
the square wave. -/
theorem soft_lowpass_two :
    inverseDFT fxLibm (taperSpectrum fxLibm (forwardDFT fxLibm softSquare) 2 6)
      = (twoBinTable fxLibm (536870839 / 268435456, -349981029071 / 1073741824)
          (536870985 / 268435456, 349981029069 / 1073741824)).map (fun v => v * (3 / 8)) := by
  obtain ⟨_, hbin⟩ := forwardDFT_square fxLibm
  obtain ⟨hw1, hw2, _⟩ := fxLibm_square_facts
  obtain ⟨hb0, hb1, hb511⟩ := fxLibm_square_bins
  have hlen : (forwardDFT fxLibm softSquare).length = 512 := by
    unfold forwardDFT
    simp only [List.length_map, List.length_range]
    rfl
  have hsoft : ∀ k : Nat, k < 512 → (forwardDFT fxLibm softSquare).getD k (0, 0) =
      ((squareBin fxLibm k).1 * (3 / 8), (squareBin fxLibm k).2 * (3 / 8)) := by
    intro k hk
    rw [softSquare_eq, forwardDFT_scale fxLibm squareWave (3 / 8) k hk, hbin k hk]
  have hst : max (1 : Int) (2 - 6) = 1 := by decide
  have hget : ∀ i : Nat, i < 512 →
      (taperSpectrum fxLibm (forwardDFT fxLibm softSquare) 2 6).getD i (0, 0) =
        if 1 ≤ i then taperAt fxLibm (forwardDFT fxLibm softSquare) 2 1 i
        else (forwardDFT fxLibm softSquare).getD i (0, 0) := by
    intro i hi
    rw [taperSpectrum_getD fxLibm _ 2 6 hlen (by decide) i hi, hst]
  have hz : ∀ k : Nat, k < 512 → k ≠ 1 → k ≠ 511 →
      (taperSpectrum fxLibm (forwardDFT fxLibm softSquare) 2 6).getD k (0, 0) = (0, 0) := by
    intro k hk h1 h511
    rw [hget k hk]
    by_cases h0 : 1 ≤ k
    · rw [if_pos h0]
      unfold taperAt
      simp only
      by_cases hgt : min (k : Int) (512 - (k : Int)) > 2
      · rw [if_pos hgt]
      · have hmin : min (k : Int) (512 - (k : Int)) = 2 := by omega
        rw [hmin, if_neg (by decide), if_pos (by decide), hw2, mul_zero, mul_zero]
    · rw [if_neg h0]
      have hk0 : k = 0 := by omega
      rw [hk0, hsoft 0 (by decide), hb0]
      simp
  have h1 : (taperSpectrum fxLibm (forwardDFT fxLibm softSquare) 2 6).getD 1 (0, 0)
      = ((536870839 / 268435456 : ℚ) * (3 / 8), (-349981029071 / 1073741824 : ℚ) * (3 / 8)) := by
    rw [hget 1 (by decide), if_pos (le_refl _)]
    unfold taperAt
    simp only
    have hmin : min ((1 : Nat) : Int) (512 - ((1 : Nat) : Int)) = 1 := by decide
    rw [hmin, if_neg (by decide), if_pos (by decide), hw1, mul_one, mul_one,
      hsoft 1 (by decide), hb1]
  have h511 : (taperSpectrum fxLibm (forwardDFT fxLibm softSquare) 2 6).getD 511 (0, 0)
      = ((536870985 / 268435456 : ℚ) * (3 / 8), (349981029069 / 1073741824 : ℚ) * (3 / 8)) := by
    rw [hget 511 (by decide), if_pos (by decide)]
    unfold taperAt
    simp only
    have hmin : min ((511 : Nat) : Int) (512 - ((511 : Nat) : Int)) = 1 := by decide
    rw [hmin, if_neg (by decide), if_pos (by decide), hw1, mul_one, mul_one,
      hsoft 511 (by decide), hb511]
  rw [inverseDFT_twoBin fxLibm _ hz, h1, h511]
  exact twoBinTable_scale fxLibm (536870839 / 268435456, -349981029071 / 1073741824)
    (536870985 / 268435456, 349981029069 / 1073741824) (3 / 8)

/-- The sum of squares that `compute_rms` accumulates over the low-passed
square wave under the fixed-point library. -/
theorem square_sumSq :
    (twoBinTable fxLibm (536870839 / 268435456, -349981029071 / 1073741824)
      (536870985 / 268435456, 349981029069 / 1073741824)).foldl
        (fun acc v => acc + v * v) 0 =
      18076530106138171877272948433476836311358007
        / 43556142965880123323311949751266331066368 := by
  rw [twoBinTable_eq, sumSq_of_fn, square_sumSq_1, square_sumSq_2, square_sumSq_3,
    square_sumSq_4]

/-- The sum of squares after multiplying every sample by `g`. -/
theorem sumSq_map_mul (g : ℚ) (U : Table) :
    (U.map (fun v => v * g)).foldl (fun acc v => acc + v * v) 0
      = g * g * U.foldl (fun acc v => acc + v * v) 0 := by
  have h := sumSq_scale g U 0
  rw [mul_zero] at h
  exact h

set_option maxRecDepth 100000 in
/-- Under the fixed-point library: the RMS of `softSquare` is 3/8, the RMS of
its low-passed signal of sum of squares `(3/8)^2 S` is `0.33762`, and the RMS
of that signal after the gain `(3/8) / rms` is `3/8 + 2^-30`. -/
theorem fxLibm_soft_facts :
    compute_rms fxLibm softSquare = 3 / 8 ∧
    fxSqrt ((3 / 8 : ℚ) * (3 / 8) * (18076530106138171877272948433476836311358007
        / 43556142965880123323311949751266331066368) / ((512 : Nat) : ℚ))
      = 181258753 / 536870912 ∧
    fxSqrt ((3 / 8 / (181258753 / 536870912) : ℚ) * (3 / 8 / (181258753 / 536870912)) *
        ((3 / 8 : ℚ) * (3 / 8) * (18076530106138171877272948433476836311358007
          / 43556142965880123323311949751266331066368)) / ((512 : Nat) : ℚ))
      = 402653185 / 1073741824 := by
  decide!

/-- The RMS that `compute_rms` returns for the low-passed `softSquare` (cutoff
2) under the fixed-point library: `0.33762`. -/
theorem soft_lowpass_rms :
    compute_rms fxLibm (inverseDFT fxLibm (taperSpectrum fxLibm
      (forwardDFT fxLibm softSquare) 2 6)) = 181258753 / 536870912 := by
  unfold compute_rms
  simp only
  rw [soft_lowpass_two, sumSq_map_mul, square_sumSq]
  exact fxLibm_soft_facts.2.1

/-- The low-passed `softSquare` after the gain step towards the RMS 3/8. -/
theorem soft_scaled :
    scaleToRMS fxLibm (3 / 8) (inverseDFT fxLibm (taperSpectrum fxLibm
      (forwardDFT fxLibm softSquare) 2 6)) =
      ((twoBinTable fxLibm (536870839 / 268435456, -349981029071 / 1073741824)
        (536870985 / 268435456, 349981029069 / 1073741824)).map
          (fun v => v * (3 / 8))).map (fun v => v * (3 / 8 / (181258753 / 536870912))) := by
  unfold scaleToRMS
  simp only
  rw [soft_lowpass_rms, if_pos (by norm_num), soft_lowpass_two]

/-- The sum of squares that `compute_rms` accumulates over the low-passed
`softSquare` after the gain step. -/
theorem soft_scaled_sumSq :
    (scaleToRMS fxLibm (3 / 8) (inverseDFT fxLibm (taperSpectrum fxLibm
      (forwardDFT fxLibm softSquare) 2 6))).foldl (fun acc v => acc + v * v) 0 =
      (3 / 8 / (181258753 / 536870912) : ℚ) * (3 / 8 / (181258753 / 536870912)) *
        ((3 / 8 : ℚ) * (3 / 8) * (18076530106138171877272948433476836311358007
          / 43556142965880123323311949751266331066368)) := by
  rw [soft_scaled, sumSq_map_mul, sumSq_map_mul, square_sumSq]

/-- The RMS that `compute_rms` returns for the low-passed `softSquare` after
the gain step: `3/8 + 2^-30`. -/
theorem soft_scaled_rms :
    compute_rms fxLibm (scaleToRMS fxLibm (3 / 8) (inverseDFT fxLibm
      (taperSpectrum fxLibm (forwardDFT fxLibm softSquare) 2 6))) = 402653185 / 1073741824 := by
  unfold compute_rms
  simp only
  rw [soft_scaled_sumSq]
  exact fxLibm_soft_facts.2.2

/-- The mean square of the low-passed `softSquare` after the gain step is not
`(3/8)^2`. -/
theorem soft_scaled_meanSq :
    (3 / 8 / (181258753 / 536870912) : ℚ) * (3 / 8 / (181258753 / 536870912)) *
      ((3 / 8 : ℚ) * (3 / 8) * (18076530106138171877272948433476836311358007
        / 43556142965880123323311949751266331066368)) / ((512 : Nat) : ℚ)
      ≠ 3 / 8 * (3 / 8) := by
  norm_num

/-- The set that `build_bandlimited_set(softSquare, 1, true)` returns under the
fixed-point library. -/
theorem soft_build :
    build_bandlimited_set fxLibm 7 softSquare 1 true =
      some { tables := [2, 4, 8, 16, 32, 64, 128, 256].map (fun (H : Int) =>
               scaleToRMS fxLibm (3 / 8)
                 (inverseDFT fxLibm (taperSpectrum fxLibm (forwardDFT fxLibm softSquare) H 6))),
             hcuts := [2, 4, 8, 16, 32, 64, 128, 256],
             baseRMS := 3 / 8 } := by
  have hb := build_rms_of_cuts fxLibm 7 softSquare 1 _ fxLibm_cuts
  rw [fxLibm_soft_facts.1] at hb
  exact hb

/-- The first table of a set whose tables are mapped from a cutoff list. -/
theorem first_getD (F : Int → Table) (a : Int) (l : List Int) :
    (List.map F (a :: l)).getD 0 [] = F a := rfl

/-- C31 fails as stated: for the square wave of amplitude `0.375` and one band
per octave, under the fixed-point library, `build_bandlimited_set(base, 1,
true)` has `baseRMS = 0.375`, the low-passed signal of its first table
(cutoff 2) has RMS `0.33762 > 1e-12`, and `compute_rms` of that table is
`0.375 + 2^-30`, not `baseRMS`; the mean square of the table is not
`baseRMS^2` either. -/
theorem C31_rms_matching_counterexample :
    ∃ set, build_bandlimited_set fxLibm 7 softSquare 1 true = some set ∧
      set.hcuts.getD 0 0 = 2 ∧
      set.baseRMS = 3 / 8 ∧
      compute_rms fxLibm (inverseDFT fxLibm (taperSpectrum fxLibm
        (forwardDFT fxLibm softSquare) (set.hcuts.getD 0 0) 6)) = 181258753 / 536870912 ∧
      compute_rms fxLibm (inverseDFT fxLibm (taperSpectrum fxLibm
        (forwardDFT fxLibm softSquare) (set.hcuts.getD 0 0) 6)) > 1 / 1000000000000 ∧
      compute_rms fxLibm (set.tables.getD 0 []) = 402653185 / 1073741824 ∧
      compute_rms fxLibm (set.tables.getD 0 []) ≠ set.baseRMS ∧
      (set.tables.getD 0 []).foldl (fun acc v => acc + v * v) 0 / ((512 : Nat) : ℚ)
        ≠ set.baseRMS * set.baseRMS := by
  refine ⟨_, soft_build, ?_, ?_, ?_, ?_, ?_, ?_, ?_⟩
  · rfl
  · rfl
  · dsimp only
    rw [List.getD_cons_zero]
    exact soft_lowpass_rms
  · dsimp only
    rw [List.getD_cons_zero, soft_lowpass_rms]
    norm_num
  · dsimp only
    rw [first_getD]
    exact soft_scaled_rms
  · dsimp only
    rw [first_getD, soft_scaled_rms]
    norm_num
  · dsimp only
    rw [first_getD, soft_scaled_sumSq]
    exact soft_scaled_meanSq

/-- The peak step in binary32 arithmetic leaves every sample in `[-1, 1]`. -/
theorem peakNormalize32_mem (t : Table) : ∀ v ∈ peakNormalize32 t, |v| ≤ 1 := by
  obtain ⟨_, hle⟩ := abs_le_foldl_max t 0
  intro v hv
  unfold peakNormalize32 at hv
  simp only at hv
  split_ifs at hv with hpk
  · rw [List.mem_map] at hv
    obtain ⟨w, hw, rfl⟩ := hv
    have hpos : (0 : ℚ) < t.foldl (fun pk v => max pk |v|) 0 := by linarith
    have habs : |w / t.foldl (fun pk v => max pk |v|) 0| ≤ 1 := by
      rw [abs_div, abs_of_pos hpos]
      exact (div_le_one hpos).mpr (hle w hw)
    have hb := abs_le.mp habs
    rw [abs_le]
    constructor
    · have h := f32_mono _ _ hb.1
      rw [f32_neg, f32_one] at h
      exact h
    · have h := f32_mono _ _ hb.2
      rw [f32_one] at h
      exact h
  · exact le_trans (hle v hv) (le_of_not_gt hpk)

/-- C31, amended: `build_bandlimited_set` returns (for every sufficient
iteration bound of the cutoff loop, `std::pow` giving a step above 1). With
`normalizeRMS = true` the set has as many tables as cutoffs, the cutoffs are
those of `make_harmonic_cuts(bandsPerOctave)`, `baseRMS` is
`compute_rms(base)`, and table `i` is the low-passed signal of cutoff `i` with
every sample multiplied by `baseRMS / r` when the value `r` that `compute_rms`
returns for that signal is above `1e-12`, and the signal itself otherwise.
With `normalizeRMS = false` the set has the same cutoffs and every sample of
every table has absolute value at most 1; the peak step keeps that bound when
the division by the peak is rounded to binary32. -/
theorem C31_rms_matching (m : Libm) (base : Table) (bandsPerOctave : Int)
    (hpow : ∀ b : Int, 1 ≤ b → b ≤ 8 → 1 < m.pow 2 (1 / (b : ℚ))) :
    (∃ N : Nat, ∀ fuel : Nat, N ≤ fuel → ∀ nr : Bool,
      ∃ set, build_bandlimited_set m fuel base bandsPerOctave nr = some set) ∧
    (∀ (fuel : Nat) (set : BLSet),
      build_bandlimited_set m fuel base bandsPerOctave true = some set →
      set.tables.length = set.hcuts.length ∧
      make_harmonic_cuts m.pow fuel bandsPerOctave = some set.hcuts ∧
      set.baseRMS = compute_rms m base ∧
      ∀ i : Nat, i < set.tables.length →
        (compute_rms m (inverseDFT m (taperSpectrum m (forwardDFT m base)
            (set.hcuts.getD i 0) 6)) > 1 / 1000000000000 →
          set.tables.getD i [] =
            (inverseDFT m (taperSpectrum m (forwardDFT m base) (set.hcuts.getD i 0) 6)).map
              (fun v => v * (set.baseRMS / compute_rms m (inverseDFT m
                (taperSpectrum m (forwardDFT m base) (set.hcuts.getD i 0) 6))))) ∧
        (¬ compute_rms m (inverseDFT m (taperSpectrum m (forwardDFT m base)
            (set.hcuts.getD i 0) 6)) > 1 / 1000000000000 →
          set.tables.getD i [] =
            inverseDFT m (taperSpectrum m (forwardDFT m base) (set.hcuts.getD i 0) 6))) ∧
    (∀ (fuel : Nat) (set : BLSet),
      build_bandlimited_set m fuel base bandsPerOctave false = some set →
      set.tables.length = set.hcuts.length ∧
      make_harmonic_cuts m.pow fuel bandsPerOctave = some set.hcuts ∧
      ∀ t ∈ set.tables, ∀ v ∈ t, |v| ≤ 1) ∧
    (∀ t : Table, ∀ v ∈ peakNormalize32 t, |v| ≤ 1) := by
  have hcases : ∀ fuel : Nat, make_harmonic_cuts m.pow fuel bandsPerOctave = none ∨
      ∃ cuts, make_harmonic_cuts m.pow fuel bandsPerOctave = some cuts := by
    intro fuel
    cases h : make_harmonic_cuts m.pow fuel bandsPerOctave with
    | none => exact Or.inl rfl
    | some c => exact Or.inr ⟨c, rfl⟩
  refine ⟨?_, ?_, ?_, peakNormalize32_mem⟩
  · obtain ⟨N, cuts, hN⟩ := make_harmonic_cuts_returns m.pow hpow bandsPerOctave
    refine ⟨N, ?_⟩
    intro fuel hle nr
    cases nr with
    | true => exact ⟨_, build_rms_of_cuts m fuel base bandsPerOctave cuts (hN fuel hle)⟩
    | false => exact ⟨_, build_peak_of_cuts m fuel base bandsPerOctave cuts (hN fuel hle)⟩
  · intro fuel set hset
    rcases hcases fuel with hnone | ⟨cuts, hcuts⟩
    · unfold build_bandlimited_set at hset
      simp only [hnone] at hset
      exact absurd hset (by simp)
    · rw [build_rms_of_cuts m fuel base bandsPerOctave cuts hcuts] at hset
      simp only [Option.some.injEq] at hset
      rw [← hset]
      refine ⟨List.length_map _ _, hcuts, rfl, ?_⟩
      intro i hi
      simp only [List.length_map] at hi
      simp only
      have hH : cuts.getD i 0 = cuts[i] := List.getD_eq_getElem _ _ hi
      have hT : ∀ F : Int → Table, (cuts.map F).getD i [] = F cuts[i] := by
        intro F
        rw [List.getD_eq_getElem _ _ (by rw [List.length_map]; exact hi), List.getElem_map]
      rw [hH, hT]
      constructor
      · intro hr
        unfold scaleToRMS
        simp only
        rw [if_pos hr]
      · intro hr
        unfold scaleToRMS
        simp only
        rw [if_neg hr]
  · intro fuel set hset
    rcases hcases fuel with hnone | ⟨cuts, hcuts⟩
    · unfold build_bandlimited_set at hset
      simp only [hnone] at hset
      exact absurd hset (by simp)
    · rw [build_peak_of_cuts m fuel base bandsPerOctave cuts hcuts] at hset
      simp only [Option.some.injEq] at hset
      rw [← hset]
      refine ⟨List.length_map _ _, hcuts, ?_⟩
      intro t ht v hv
      simp only [List.mem_map] at ht
      obtain ⟨H, _, rfl⟩ := ht
      exact abs_le.mpr (peak_normalized_mem _ v hv)

/-- Witness for C31: the square wave with one band per octave under the
fixed-point library; the first table (cutoff 2) is the low-passed signal times
`baseRMS / r` with `r = 0.90032`. -/
theorem C31_rms_matching_witness :
    (∀ b : Int, 1 ≤ b → b ≤ 8 → 1 < fxLibm.pow 2 (1 / (b : ℚ))) ∧
    (∃ set, build_bandlimited_set fxLibm 7 squareWave 1 true = some set ∧
      set.tables.length = set.hcuts.length ∧ set.baseRMS = compute_rms fxLibm squareWave) ∧
    (∃ set, build_bandlimited_set fxLibm 7 squareWave 1 false = some set ∧
      ∀ t ∈ set.tables, ∀ v ∈ t, |v| ≤ 1) :=
  have h := C31_rms_matching fxLibm squareWave 1 fxLibm_pow_step
  have hr := build_rms_of_cuts fxLibm 7 squareWave 1 _ fxLibm_cuts
  have hp := build_peak_of_cuts fxLibm 7 squareWave 1 _ fxLibm_cuts
  ⟨fxLibm_pow_step,
   ⟨_, hr, (h.2.1 7 _ hr).1, (h.2.1 7 _ hr).2.2.1⟩,
   ⟨_, hp, (h.2.2.1 7 _ hp).2.2⟩⟩

/-! ## Full-band cutoff: the round trip -/

/-- C36, counterexample: under the fixed-point library the table with a single
1 at sample 1 does not come back from `apply_lowpass_with_taper(base, 256, 12,
true)`: sample 129 of the result is not 0. The last table of
`build_bandlimited_set(base, 1, true)` is not that base table either. -/
theorem C36_full_band_not_identity_counterexample :
    apply_lowpass_with_taper fxLibm unitTable 256 12 true ≠ unitTable ∧
    (apply_lowpass_with_taper fxLibm unitTable 256 12 true).getD 129 0 ≠ 0 ∧
    unitTable.getD 129 0 = 0 ∧
    ∃ set, build_bandlimited_set fxLibm 7 unitTable 1 true = some set ∧
      set.hcuts.getLast? = some 256 ∧ set.tables.getLast? ≠ some unitTable := by
  have hbase : unitTable.getD 129 0 = 0 := by
    unfold unitTable
    rw [List.getD_eq_getElem?_getD, List.getElem?_map, List.getElem?_range (by norm_num)]
    rfl
  obtain ⟨B, hB⟩ : ∃ B, compute_rms fxLibm unitTable = B := ⟨_, rfl⟩
  have hB0 : B ≠ 0 := by
    rw [← hB]
    exact fxLibm_unit_rms
  obtain ⟨U, hU⟩ : ∃ U, inverseDFT fxLibm (forwardDFT fxLibm unitTable) = U := ⟨_, rfl⟩
  have hU129 : U.getD 129 0 = -1601794199 / 73786976294838206464 := by
    rw [← hU]
    exact fxLibm_roundTrip_sample
  have hg : ∀ r : ℚ, (if r > 1 / 1000000000000 then B / r else 1) ≠ 0 := by
    intro r
    by_cases hr : r > 1 / 1000000000000
    · rw [if_pos hr]
      have : (0 : ℚ) < r := lt_trans (by norm_num) hr
      exact div_ne_zero hB0 (ne_of_gt this)
    · rw [if_neg hr]
      exact one_ne_zero
  have hs : (scaleToRMS fxLibm B U).getD 129 0 ≠ 0 := by
    rw [scaleToRMS_getD, hU129]
    exact mul_ne_zero (by norm_num) (hg _)
  have hne : scaleToRMS fxLibm B U ≠ unitTable := by
    intro h
    rw [h] at hs
    exact hs hbase
  have hap : apply_lowpass_with_taper fxLibm unitTable 256 12 true = scaleToRMS fxLibm B U := by
    rw [apply_lowpass_full fxLibm unitTable 256 12 (le_refl _) true, if_pos rfl, hB, hU]
  have hb := build_rms_of_cuts fxLibm 7 unitTable 1 _ fxLibm_cuts
  obtain ⟨S, hS⟩ : ∃ S, build_bandlimited_set fxLibm 7 unitTable 1 true = some S := ⟨_, hb⟩
  obtain ⟨hl, ht⟩ := build_last_table fxLibm 7 unitTable 1 S hS
  rw [hB, hU] at ht
  refine ⟨by rw [hap]; exact hne, by rw [hap]; exact hs, hbase, S, hS, hl, ?_⟩
  rw [ht]
  intro h
  exact hne (Option.some.inj h)

/-- Reading the all-zero table. -/
theorem zeroTable_getD (n : Nat) : zeroTable.getD n 0 = 0 := by
  unfold zeroTable
  rw [List.getD_eq_getElem?_getD, List.getElem?_replicate]
  split_ifs <;> rfl

/-- The forward DFT of the all-zero table is zero in every bin, whatever the
values of `std::cos` and `std::sin` are. -/
theorem forwardDFT_zero (m : Libm) :
    forwardDFT m zeroTable = (List.range kTableSize).map (fun _ => ((0 : ℚ), (0 : ℚ))) := by
  unfold forwardDFT
  simp only
  apply List.map_congr_left
  intro k _
  apply List.foldl_fixed'
  intro n
  rw [zeroTable_getD, mul_zero, mul_zero, add_zero]

/-- The inverse DFT of the all-zero spectrum is the all-zero table. -/
theorem inverseDFT_zero (m : Libm) :
    inverseDFT m ((List.range kTableSize).map (fun _ => ((0 : ℚ), (0 : ℚ)))) = zeroTable := by
  have hget : ∀ k : Nat,
      ((List.range kTableSize).map (fun _ => ((0 : ℚ), (0 : ℚ)))).getD k (0, 0) = (0, 0) := by
    intro k
    rw [List.getD_eq_getElem?_getD, List.getElem?_map]
    cases (List.range kTableSize)[k]? with
    | none => rfl
    | some v => rfl
  have hfold : ∀ n : Nat, (List.range kTableSize).foldl (fun (acc : Cplx) (k : Nat) =>
      (acc.1 + (m.cos (2 * piLit / (kTableSize : ℚ) * ((k * n : Nat) : ℚ))
          * (((List.range kTableSize).map (fun _ => ((0 : ℚ), (0 : ℚ)))).getD k (0, 0)).1
        - m.sin (2 * piLit / (kTableSize : ℚ) * ((k * n : Nat) : ℚ))
          * (((List.range kTableSize).map (fun _ => ((0 : ℚ), (0 : ℚ)))).getD k (0, 0)).2),
       acc.2 + (m.cos (2 * piLit / (kTableSize : ℚ) * ((k * n : Nat) : ℚ))
          * (((List.range kTableSize).map (fun _ => ((0 : ℚ), (0 : ℚ)))).getD k (0, 0)).2
        + m.sin (2 * piLit / (kTableSize : ℚ) * ((k * n : Nat) : ℚ))
          * (((List.range kTableSize).map (fun _ => ((0 : ℚ), (0 : ℚ)))).getD k (0, 0)).1)))
      (0, 0) = (0, 0) := by
    intro n
    apply List.foldl_fixed'
    intro k
    rw [hget k]
    simp only [mul_zero, sub_zero, add_zero]
  unfold inverseDFT zeroTable
  simp only
  have hc : List.replicate kTableSize (0 : ℚ) = (List.range kTableSize).map (fun _ => 0) := by
    rw [List.map_const', List.length_range]
  rw [hc]
  apply List.map_congr_left
  intro n _
  rw [hfold n]
  exact zero_div _

/-- The gain step towards the table's own RMS leaves the table unchanged. -/
theorem scaleToRMS_self (m : Libm) (t : Table) : scaleToRMS m (compute_rms m t) t = t := by
  unfold scaleToRMS
  simp only
  split_ifs with hr
  · have hne : compute_rms m t ≠ 0 := by
      intro h0
      rw [h0] at hr
      norm_num at hr
    rw [div_self hne]
    conv_rhs => rw [← List.map_id t]
    apply List.map_congr_left
    intro v _
    exact mul_one v
  · rfl

/-- C36, amended: with a cutoff `H >= 256` the function
`apply_lowpass_with_taper(base, H, taperBins, normalizeRMS)` skips the low-pass
step and returns the inverse DFT of the forward DFT of the base table, scaled
to the RMS of the base table when `normalizeRMS` is set, whatever `H` and
`taperBins` are; the last cutoff of `build_bandlimited_set(base, bpo, true)` is
256 and its last table is that same table. Whenever the inverse DFT of the
forward DFT reproduces the base table, the function returns the base table
for either value of `normalizeRMS`. -/
theorem C36_full_band_round_trip (m : Libm) (base : Table) (H taperBins : Int)
    (hH : 256 ≤ H) :
    apply_lowpass_with_taper m base H taperBins true =
      scaleToRMS m (compute_rms m base) (inverseDFT m (forwardDFT m base)) ∧
    apply_lowpass_with_taper m base H taperBins false = inverseDFT m (forwardDFT m base) ∧
    (∀ (bandsPerOctave : Int) (fuel : Nat) (set : BLSet),
      build_bandlimited_set m fuel base bandsPerOctave true = some set →
      set.hcuts.getLast? = some 256 ∧
      set.tables.getLast? = some (apply_lowpass_with_taper m base H taperBins true)) ∧
    (inverseDFT m (forwardDFT m base) = base →
      ∀ nr : Bool, apply_lowpass_with_taper m base H taperBins nr = base) := by
  have ht := apply_lowpass_full m base H taperBins hH true
  have hf := apply_lowpass_full m base H taperBins hH false
  simp only [if_true] at ht
  simp only [Bool.false_eq_true, if_false] at hf
  refine ⟨ht, hf, ?_, ?_⟩
  · intro bandsPerOctave fuel set hset
    rw [ht]
    exact build_last_table m fuel base bandsPerOctave set hset
  · intro hid nr
    cases nr with
    | true => rw [ht, hid]; exact scaleToRMS_self m base
    | false => rw [hf, hid]

/-- Witness for C36: the square wave with `H = 300` under the fixed-point
library and the set built with one band per octave, and the all-zero table,
which the round trip reproduces and the function returns. -/
theorem C36_full_band_round_trip_witness :
    (256 : Int) ≤ 300 ∧
    apply_lowpass_with_taper fxLibm squareWave 300 12 true =
      scaleToRMS fxLibm (compute_rms fxLibm squareWave)
        (inverseDFT fxLibm (forwardDFT fxLibm squareWave)) ∧
    (∃ set, build_bandlimited_set fxLibm 7 squareWave 1 true = some set ∧
      set.tables.getLast? = some (apply_lowpass_with_taper fxLibm squareWave 300 12 true)) ∧
    inverseDFT fxLibm (forwardDFT fxLibm zeroTable) = zeroTable ∧
    apply_lowpass_with_taper fxLibm zeroTable 300 12 true = zeroTable :=
  have h := C36_full_band_round_trip fxLibm squareWave 300 12 (by decide)
  have hz := C36_full_band_round_trip fxLibm zeroTable 300 12 (by decide)
  have hr := build_rms_of_cuts fxLibm 7 squareWave 1 _ fxLibm_cuts
  have hid : inverseDFT fxLibm (forwardDFT fxLibm zeroTable) = zeroTable := by
    rw [forwardDFT_zero, inverseDFT_zero]
  ⟨by decide, h.1, ⟨_, hr, (h.2.2.1 1 7 _ hr).2⟩, hid, hz.2.2.2 hid true⟩

end msm5232
